import Mathlib

/-!
PRISM compiler backend: bit vectors, expressions, decision diagram.

A shallow embedding of `techlibs/prism/prism/{bitops,bitmask,bitgroup,expr}.h`
and `parse_context.{h,cc}`.

Conventions of the embedding.
* `unsigned long` words are natural numbers below `2 ^ 64`; the only place
  where the word width matters is the complement `~x`, which is taken
  inside 64 bits (`wordNot`).
* `unsigned int` indices and sizes are natural numbers (no wrap-around is
  modelled: an index never reaches `2 ^ 32`).
* The word array `bits` of a buffer bitmask is a list of words; a pointer
  into the array (`&bits[k]`) is the list with its first `k` words dropped.
* A C++ `for (init; cond; next) body` loop is `forLoop cond next body`,
  run with a fuel that bounds the number of iterations.
* Objects that may alias are addressed through a `Heap` (a list of objects,
  the address being the position), so that `&out == this` is equality of
  positions.
-/

namespace Prism

/-! ## bitops.h -/

/-- Number of bits of an `unsigned long`. -/
def BITS_PER_LONG : Nat := 64

/-- The population count of the low `n` bits of `x` (`__builtin_popcountl`
for `n = 64`). -/
def popcountl : Nat → Nat → Nat
  | 0, _ => 0
  | n + 1, x => x % 2 + popcountl n (x / 2)

/-- Source: `bitops_cnt`. -/
def bitops_cnt (x : Nat) : Nat := popcountl BITS_PER_LONG x

/-- The number of trailing zero bits of `x`, looking at no more than `n`
bits (`__builtin_ctzl` for `n = 64`). -/
def ctzl : Nat → Nat → Nat
  | 0, _ => 0
  | n + 1, x => if x % 2 = 1 then 0 else 1 + ctzl n (x / 2)

/-- Source: `bitops_ctz`. -/
def bitops_ctz (x : Nat) : Nat :=
  if x = 0 then BITS_PER_LONG else ctzl BITS_PER_LONG x

/-- The complement `~x` of an `unsigned long`. -/
def wordNot (x : Nat) : Nat := (2 ^ BITS_PER_LONG - 1) ^^^ x

/-! ## Loops -/

/-- A `for (...; cond; bit = next) body` loop over a state `σ` with the loop
variable `bit`; `next` is evaluated on the state the body leaves behind.
The first argument is the fuel. -/
def forLoop {σ : Type} (cond : σ → Nat → Bool) (next : σ → Nat → Nat)
    (body : σ → Nat → σ) : Nat → σ → Nat → σ
  | 0, s, _ => s
  | fuel + 1, s, bit =>
    if cond s bit then
      forLoop cond next body fuel (body s bit) (next (body s bit) bit)
    else s

/-- The values the loop variable takes in the runs of the body of
`for (...; cond; bit = next)`, when `cond` and `next` do not read the state
the body changes. -/
def forLoopVisits (cond : Nat → Bool) (next : Nat → Nat) : Nat → Nat → List Nat
  | 0, _ => []
  | fuel + 1, bit =>
    if cond bit then bit :: forLoopVisits cond next fuel (next bit) else []

/-! ## bitmask.h: buffer bitmasks -/

/-- Source: `BITMASK_INDEX`. -/
def BITMASK_INDEX (bit : Nat) : Nat := bit / BITS_PER_LONG

/-- Source: `BITMASK_BIT`. -/
def BITMASK_BIT (bit : Nat) : Nat := 1 <<< (bit % BITS_PER_LONG)

/-- Source: `BITMASK_NLONGS`. -/
def BITMASK_NLONGS (nbits : Nat) : Nat :=
  nbits / BITS_PER_LONG + (if nbits % BITS_PER_LONG ≠ 0 then 1 else 0)

/-- Source: `class AbstractBufferBitmask` (fields `nbits`, `bits`). -/
structure AbstractBufferBitmask where
  nbits : Nat
  bits : List Nat
  deriving DecidableEq

namespace AbstractBufferBitmask

/-- The word `bits[i]`. -/
def word (v : AbstractBufferBitmask) (i : Nat) : Nat := v.bits.getD i 0

/-- Source: `AbstractBufferBitmask::reset`. -/
def reset (v : AbstractBufferBitmask) : AbstractBufferBitmask :=
  let zeroed := forLoop (fun _ i => decide (i < BITMASK_NLONGS v.nbits))
    (fun _ i => i + 1) (fun (b : List Nat) i => b.set i 0)
    (BITMASK_NLONGS v.nbits) v.bits 0
  { v with bits := zeroed }

/-- Source: `AbstractBufferBitmask::get`. -/
def get (v : AbstractBufferBitmask) (bit : Nat) : Bool :=
  if bit ≥ v.nbits then false
  else v.word (BITMASK_INDEX bit) &&& BITMASK_BIT bit != 0

/-- The statement `bits[BITMASK_INDEX(bit)] |= BITMASK_BIT(bit)` of `set`. -/
def orBit (v : AbstractBufferBitmask) (bit : Nat) : AbstractBufferBitmask :=
  let w := v.word (BITMASK_INDEX bit) ||| BITMASK_BIT bit
  { v with bits := v.bits.set (BITMASK_INDEX bit) w }

/-- The statement `bits[BITMASK_INDEX(bit)] &= ~BITMASK_BIT(bit)` of
`clear`. -/
def andNotBit (v : AbstractBufferBitmask) (bit : Nat) : AbstractBufferBitmask :=
  let w := v.word (BITMASK_INDEX bit) &&& wordNot (BITMASK_BIT bit)
  { v with bits := v.bits.set (BITMASK_INDEX bit) w }

/-- Source: `AbstractBufferBitmask::size`. -/
def size (v : AbstractBufferBitmask) : Nat := v.nbits

/-- Source: `AbstractBufferBitmask::count`. -/
def count (v : AbstractBufferBitmask) : Nat :=
  forLoop (fun _ i => decide (i < BITMASK_NLONGS v.nbits)) (fun _ i => i + 1)
    (fun (n : Nat) i => n + bitops_cnt (v.word i)) (BITMASK_NLONGS v.nbits) 0 0

/-- The loop of `array_ffs`, from word `i` on; the fuel is the number of
words left. -/
def array_ffs_loop (ar : List Nat) (nbits : Nat) : Nat → Nat → Nat
  | 0, _ => nbits
  | fuel + 1, i =>
    if i < BITMASK_NLONGS nbits then
      if ar.getD i 0 = 0 then array_ffs_loop ar nbits fuel (i + 1)
      else i * BITS_PER_LONG + bitops_ctz (ar.getD i 0)
    else nbits

/-- Source: `AbstractBufferBitmask::array_ffs`. -/
def array_ffs (ar : List Nat) (nbits : Nat) : Nat :=
  array_ffs_loop ar nbits (BITMASK_NLONGS nbits) 0

/-- Source: `AbstractBufferBitmask::fns`. -/
def fns (v : AbstractBufferBitmask) (cbit : Nat) : Nat :=
  let idx := BITMASK_INDEX cbit
  let off := BITS_PER_LONG * idx
  let bit := BITMASK_BIT cbit
  let val := v.word idx &&& wordNot (bit ||| (bit - 1))
  if val ≠ 0 then off + bitops_ctz val
  else
    let off := off + BITS_PER_LONG
    if off ≥ v.nbits then v.nbits
    else array_ffs (v.bits.drop (BITMASK_INDEX off)) (v.nbits - off) + off

/-- Source: `AbstractBufferBitmask::ffs`. -/
def ffs (v : AbstractBufferBitmask) : Nat := array_ffs v.bits v.nbits

/-- The indices visited by
`for (bit = v.ffs(); bit < v.size(); bit = v.fns(bit))`, in the order of the
visits. -/
def setBits (v : AbstractBufferBitmask) : List Nat :=
  forLoopVisits (fun bit => decide (bit < v.size)) v.fns v.size v.ffs

/-- Bit `i` of the word array: bit `i % 64` of word `i / 64`. -/
def bitAt (v : AbstractBufferBitmask) (i : Nat) : Bool :=
  (v.word (i / BITS_PER_LONG)).testBit (i % BITS_PER_LONG)

/-- The state of a buffer bitmask that its methods maintain: the array
holds the words of all `nbits` bits, every word fits 64 bits, and no bit at
or above `nbits` is set. -/
structure Valid (v : AbstractBufferBitmask) : Prop where
  len : BITMASK_NLONGS v.nbits ≤ v.bits.length
  lt : ∀ w ∈ v.bits, w < 2 ^ BITS_PER_LONG
  high : ∀ i, v.nbits ≤ i → v.bitAt i = false

end AbstractBufferBitmask

/-- Source: `class DynamicBitmask` (adds the field `nalloc`). -/
structure DynamicBitmask extends AbstractBufferBitmask where
  nalloc : Nat
  deriving DecidableEq

namespace DynamicBitmask

/-- The state the constructors start from: `nalloc = 0`, `nbits = 0`,
`bits = NULL`. -/
def empty : DynamicBitmask := { nbits := 0, bits := [], nalloc := 0 }

/-- The state of a `DynamicBitmask` that its methods maintain: a valid
buffer whose `nalloc` counts the bits of the allocated words. -/
def Valid (v : DynamicBitmask) : Prop :=
  v.toAbstractBufferBitmask.Valid ∧ v.nalloc = BITS_PER_LONG * v.bits.length

/-- Source: `DynamicBitmask::resize`. -/
def resize (v : DynamicBitmask) (count : Nat) : DynamicBitmask :=
  if count ≤ v.nbits then v
  else if count ≤ v.nalloc then { v with nbits := count }
  else
    let nwords := BITMASK_NLONGS count
    let words := (List.range nwords).map fun i =>
      if i < BITMASK_NLONGS v.nalloc then v.word i else 0
    { nbits := count, bits := words, nalloc := BITS_PER_LONG * nwords }

/-- Source: `AbstractBufferBitmask::set`, with `DynamicBitmask::resize`. -/
def set (v : DynamicBitmask) (bit : Nat) : DynamicBitmask :=
  let v := v.resize (bit + 1)
  { v with toAbstractBufferBitmask := v.toAbstractBufferBitmask.orBit bit }

/-- Source: `AbstractBufferBitmask::clear`, with `DynamicBitmask::resize`. -/
def clear (v : DynamicBitmask) (bit : Nat) : DynamicBitmask :=
  let v := v.resize (bit + 1)
  { v with toAbstractBufferBitmask := v.toAbstractBufferBitmask.andNotBit bit }

/-- Source: `AbstractBufferBitmask::reset`. -/
def reset (v : DynamicBitmask) : DynamicBitmask :=
  { v with toAbstractBufferBitmask := v.toAbstractBufferBitmask.reset }

/-- Source: `Bitmask::write`. -/
def write (v : DynamicBitmask) (bit : Nat) (value : Bool) : DynamicBitmask :=
  if value then v.set bit else v.clear bit

/-- Source: `DynamicBitmask::DynamicBitmask(unsigned int nbits_)`. -/
def ofSize (nbits_ : Nat) : DynamicBitmask := empty.resize nbits_

/-- Source: `Bitmask::copyOnes`, called on a mask that is not `frm`. -/
def copyOnes (v : DynamicBitmask) (frm : AbstractBufferBitmask) : DynamicBitmask :=
  forLoop (fun _ bit => decide (bit < frm.size)) (fun _ bit => frm.fns bit)
    (fun (w : DynamicBitmask) bit => w.set bit) frm.size v frm.ffs

/-- Source: `DynamicBitmask::DynamicBitmask(const Bitmask &from)`. -/
def ofBitmask (frm : AbstractBufferBitmask) : DynamicBitmask :=
  empty.copyOnes frm

end DynamicBitmask

/-- Source: `class BufferBitmask` (no field of its own). -/
structure BufferBitmask extends AbstractBufferBitmask where
  deriving DecidableEq

namespace BufferBitmask

/-- Source: `BufferBitmask::BufferBitmask(unsigned int nbits_)`. -/
def ofSize (nbits_ : Nat) : BufferBitmask :=
  { nbits := nbits_, bits := List.replicate (BITMASK_NLONGS nbits_) 0 }

/-- Source: `BufferBitmask::resize`; `none` is the failed assertion. -/
def resize (v : BufferBitmask) (count : Nat) : Option BufferBitmask :=
  if count ≤ v.nbits then some v else none

/-- Source: `AbstractBufferBitmask::set`, with `BufferBitmask::resize`. -/
def set (v : BufferBitmask) (bit : Nat) : Option BufferBitmask :=
  (v.resize (bit + 1)).map fun v =>
    { v with toAbstractBufferBitmask := v.toAbstractBufferBitmask.orBit bit }

/-- Source: `AbstractBufferBitmask::clear`, with `BufferBitmask::resize`. -/
def clear (v : BufferBitmask) (bit : Nat) : Option BufferBitmask :=
  (v.resize (bit + 1)).map fun v =>
    { v with toAbstractBufferBitmask := v.toAbstractBufferBitmask.andNotBit bit }

/-- Source: `AbstractBufferBitmask::reset`. -/
def reset (v : BufferBitmask) : BufferBitmask :=
  { v with toAbstractBufferBitmask := v.toAbstractBufferBitmask.reset }

end BufferBitmask

/-- A call of one of the methods that change a bitmask. -/
inductive BitmaskOp where
  | set (bit : Nat)
  | clear (bit : Nat)
  | resize (count : Nat)
  | reset

/-- One call on a `DynamicBitmask`. -/
def DynamicBitmask.apply (v : DynamicBitmask) : BitmaskOp → DynamicBitmask
  | .set bit => v.set bit
  | .clear bit => v.clear bit
  | .resize count => v.resize count
  | .reset => v.reset

/-- A sequence of calls on a `DynamicBitmask`. -/
def DynamicBitmask.run (v : DynamicBitmask) (ops : List BitmaskOp) : DynamicBitmask :=
  ops.foldl DynamicBitmask.apply v

/-- One call on a `BufferBitmask`; `none` is a failed assertion. -/
def BufferBitmask.apply (v : BufferBitmask) : BitmaskOp → Option BufferBitmask
  | .set bit => v.set bit
  | .clear bit => v.clear bit
  | .resize count => v.resize count
  | .reset => some v.reset

/-- A sequence of calls on a `BufferBitmask`, up to the first failed
assertion. -/
def BufferBitmask.run : BufferBitmask → List BitmaskOp → Option BufferBitmask
  | v, [] => some v
  | v, op :: ops => (v.apply op).bind fun w => BufferBitmask.run w ops

/-! ## bitmask.h: the methods of `Bitmask`, on objects that may alias -/

/-- The objects in memory; the address of an object is its position. -/
abbrev Heap := List DynamicBitmask

namespace Heap

/-- The object at address `p`. -/
def obj (h : Heap) (p : Nat) : DynamicBitmask := h.getD p DynamicBitmask.empty

/-- Store `v` at address `p`. -/
def put (h : Heap) (p : Nat) (v : DynamicBitmask) : Heap := h.set p v

end Heap

namespace Bitmask

/-- Source: `set`, called on the object at `self`. -/
def set (h : Heap) (self bit : Nat) : Heap := h.put self ((h.obj self).set bit)

/-- Source: `clear`, called on the object at `self`. -/
def clear (h : Heap) (self bit : Nat) : Heap := h.put self ((h.obj self).clear bit)

/-- Source: `reset`, called on the object at `self`. -/
def reset (h : Heap) (self : Nat) : Heap := h.put self (h.obj self).reset

/-- Source: `Bitmask::write`. -/
def write (h : Heap) (self bit : Nat) (value : Bool) : Heap :=
  if value then set h self bit else clear h self bit

/-- Source: `Bitmask::copy`; `frm` is the address of `from`. -/
def copy (h : Heap) (self frm : Nat) : Heap :=
  forLoop (fun h bit => decide (bit < (h.obj frm).size)) (fun _ bit => bit + 1)
    (fun h bit => write h self bit ((h.obj frm).get bit)) (h.obj frm).size h 0

/-- Source: `Bitmask::setIntersection`, `this.setIntersection(out, other)`
on addresses. The first argument bounds the depth of the recursive call
`other.setIntersection(out, *this)`, which is made once at most. -/
def setIntersectionDepth : Nat → Heap → Nat → Nat → Nat → Heap
  | 0, h, _, _, _ => h
  | depth + 1, h, this, out, other =>
    if other = this then
      if out = this ∨ out = other then h
      else copy h out this
    else if out = other then
      setIntersectionDepth depth h other out this
    else if out = this then
      forLoop (fun h bit => decide (bit < (h.obj this).size))
        (fun h bit => (h.obj this).fns bit)
        (fun h bit => if !(h.obj other).get bit then clear h out bit else h)
        (h.obj this).size h (h.obj this).ffs
    else
      let h := reset h out
      forLoop (fun h bit => decide (bit < (h.obj this).size))
        (fun h bit => (h.obj this).fns bit)
        (fun h bit => if (h.obj other).get bit then set h out bit else h)
        (h.obj this).size h (h.obj this).ffs

/-- Source: `Bitmask::setIntersection`. -/
def setIntersection (h : Heap) (this out other : Nat) : Heap :=
  setIntersectionDepth 2 h this out other

/-- Source: `Bitmask::setUnion`, `this.setUnion(out, other)` on addresses. -/
def setUnion (h : Heap) (this out other : Nat) : Heap :=
  if out = this then copy h out other
  else if out = other then copy h out this
  else
    let h := copy h out other
    forLoop (fun h bit => decide (bit < (h.obj this).size))
      (fun h bit => (h.obj this).fns bit)
      (fun h bit => set h out bit)
      (h.obj this).size h (h.obj this).ffs

end Bitmask

namespace DynamicBitmask

/-- Source: `Bitmask::copy`, `out.copy(from)` with `from` another object. -/
def copy (out frm : DynamicBitmask) : DynamicBitmask :=
  (Bitmask.copy [out, frm] 0 1).obj 0

/-- Source: `Bitmask::setIntersection`, `lk.setIntersection(out, rk)` on
three distinct objects. -/
def setIntersection (lk out rk : DynamicBitmask) : DynamicBitmask :=
  (Bitmask.setIntersection [lk, rk, out] 0 2 1).obj 2

/-- Source: `Bitmask::setUnion`, `lk.setUnion(out, rk)` on three distinct
objects. -/
def setUnion (lk out rk : DynamicBitmask) : DynamicBitmask :=
  (Bitmask.setUnion [lk, rk, out] 0 2 1).obj 2

end DynamicBitmask

/-! ## bitgroup.h -/

/-- Source: `class MappedBitGroup`: the array `bits` of `nbits` indices. -/
abbrev MappedBitGroup := List Nat

namespace MappedBitGroup

/-- Source: `MappedBitGroup::map` (called with `idx < nbits` only). -/
def map (g : MappedBitGroup) (idx : Nat) : Nat := g.getD idx 0

/-- Source: `MappedBitGroup::size`. -/
def size (g : MappedBitGroup) : Nat := g.length

end MappedBitGroup

/-! ## expr.h -/

mutual
/-- Source: the classes derived from `Expression`. `logic e` is a
`LogicExpression` seen through an `Expression *` (a `dynamic_cast` to
`LogicExpression *` succeeds on it and on nothing else). `constant frm` is
the object built by `ConstantExpression(frm)`, whose member `mask` is
`DynamicBitmask(frm)`. -/
inductive Expression where
  | identifier (group : MappedBitGroup)
  | logic (e : LogicExpression)
  | bitwiseNot (child : Expression)
  | bitwiseAnd (lhs rhs : Expression)
  | bitwiseOr (lhs rhs : Expression)
  | bitwiseXor (lhs rhs : Expression)
  | bitwiseXnor (lhs rhs : Expression)
  | constant (frm : AbstractBufferBitmask)
/-- Source: the classes derived from `LogicExpression`; `state` is
`StateExpression` of parse_context.cc. -/
inductive LogicExpression where
  | logicTrue
  | logicFalse
  | reduceOr (child : Expression)
  | reduceAnd (child : Expression)
  | reduceXor (child : Expression)
  | logicNot (child : LogicExpression)
  | equality (lhs rhs : Expression)
  | logicOr (lhs rhs : LogicExpression)
  | logicAnd (lhs rhs : LogicExpression)
  | state (state : Nat)
end

/-- The member `mask` of `ConstantExpression(frm)`. -/
def ConstantExpression.mask (frm : AbstractBufferBitmask) : DynamicBitmask :=
  DynamicBitmask.ofBitmask frm

/-- Source: the loops of `BitwiseXorExpression::resolveBitwise` with
`lk.size() <= rk.size()`; the other branch is the same with `lk` and `rk`
exchanged. -/
def BitwiseXorExpression.loops (lk rk out : DynamicBitmask) : DynamicBitmask :=
  let out := forLoop (fun _ bit => decide (bit < lk.size)) (fun _ bit => bit + 1)
    (fun (out : DynamicBitmask) bit =>
      if rk.get bit != lk.get bit then out.set bit else out) lk.size out 0
  forLoop (fun _ bit => decide (bit < rk.size)) (fun _ bit => bit + 1)
    (fun (out : DynamicBitmask) bit => if rk.get bit then out.set bit else out)
    (rk.size - lk.size) out lk.size

/-- Source: `BitwiseXorExpression::resolveBitwise`, on distinct objects `lk`
and `rk`. -/
def BitwiseXorExpression.resolveBitwise (lk rk out : DynamicBitmask) : DynamicBitmask :=
  if lk.size ≤ rk.size then BitwiseXorExpression.loops lk rk out
  else BitwiseXorExpression.loops rk lk out

/-- Source: the loops of `BitwiseXnorExpression::resolveBitwise` with
`lk.size() <= rk.size()`; the other branch is the same with `lk` and `rk`
exchanged. -/
def BitwiseXnorExpression.loops (lk rk out : DynamicBitmask) : DynamicBitmask :=
  let out := forLoop (fun _ bit => decide (bit < lk.size)) (fun _ bit => bit + 1)
    (fun (out : DynamicBitmask) bit =>
      if rk.get bit == lk.get bit then out.set bit else out) lk.size out 0
  forLoop (fun _ bit => decide (bit < rk.size)) (fun _ bit => bit + 1)
    (fun (out : DynamicBitmask) bit => if !rk.get bit then out.set bit else out)
    (rk.size - lk.size) out lk.size

/-- Source: `BitwiseXnorExpression::resolveBitwise`. -/
def BitwiseXnorExpression.resolveBitwise (lk rk out : DynamicBitmask) : DynamicBitmask :=
  if lk.size ≤ rk.size then BitwiseXnorExpression.loops lk rk out
  else BitwiseXnorExpression.loops rk lk out

/-- Source: the tail of `BitwiseExpression::resolve`,
`out.resize(lk.size() >= rk.size() ? lk.size() : rk.size())`. -/
def BitwiseExpression.widen (lk rk out : DynamicBitmask) : DynamicBitmask :=
  out.resize (if lk.size ≥ rk.size then lk.size else rk.size)

/-- Source: the body of `BitwiseNotExpression::resolve` after the child is
resolved into `val`. -/
def BitwiseNotExpression.invert (val out : DynamicBitmask) : DynamicBitmask :=
  forLoop (fun _ bit => decide (bit < val.size)) (fun _ bit => bit + 1)
    (fun (out : DynamicBitmask) bit => if !val.get bit then out.set bit else out)
    val.size (out.resize val.size) 0

/-- Source: the loop of `EqualityExpression::resolveLogic`; the result is
the pair `(l, r)` on exit. The first argument is the fuel. -/
def EqualityExpression.scan (lk rk : DynamicBitmask) : Nat → Nat → Nat → Nat × Nat
  | 0, l, r => (l, r)
  | fuel + 1, l, r =>
    if l < lk.size ∧ r < rk.size ∧ l = r then
      EqualityExpression.scan lk rk fuel (lk.fns l) (rk.fns r)
    else (l, r)

/-- Source: `EqualityExpression::resolveLogic` after both sides are
resolved into `lk` and `rk`. -/
def EqualityExpression.compare (lk rk : DynamicBitmask) : Bool :=
  let lr := EqualityExpression.scan lk rk lk.size lk.ffs rk.ffs
  decide (lr.1 ≥ lk.size) && decide (lr.2 ≥ rk.size)

/-- Source: `IdentifierExpression::resolve`. -/
def IdentifierExpression.resolve (group : MappedBitGroup) (inp : AbstractBufferBitmask)
    (out : DynamicBitmask) : DynamicBitmask :=
  forLoop (fun _ bit => decide (bit < group.size)) (fun _ bit => bit + 1)
    (fun (out : DynamicBitmask) bit => out.write bit (inp.get (group.map bit)))
    group.size out 0

mutual
/-- Source: `Expression::resolve` of each class: the value of `out` on
return. -/
def Expression.resolve : Expression → AbstractBufferBitmask → DynamicBitmask → DynamicBitmask
  | .identifier group, inp, out => IdentifierExpression.resolve group inp out
  | .logic e, inp, out => out.write 0 (e.resolveLogic inp)
  | .bitwiseNot child, inp, out =>
    BitwiseNotExpression.invert (child.resolve inp DynamicBitmask.empty) out
  | .bitwiseAnd lhs rhs, inp, out =>
    let lk := lhs.resolve inp DynamicBitmask.empty
    let rk := rhs.resolve inp DynamicBitmask.empty
    BitwiseExpression.widen lk rk (lk.setIntersection out rk)
  | .bitwiseOr lhs rhs, inp, out =>
    let lk := lhs.resolve inp DynamicBitmask.empty
    let rk := rhs.resolve inp DynamicBitmask.empty
    BitwiseExpression.widen lk rk (lk.setUnion out rk)
  | .bitwiseXor lhs rhs, inp, out =>
    let lk := lhs.resolve inp DynamicBitmask.empty
    let rk := rhs.resolve inp DynamicBitmask.empty
    BitwiseExpression.widen lk rk (BitwiseXorExpression.resolveBitwise lk rk out)
  | .bitwiseXnor lhs rhs, inp, out =>
    let lk := lhs.resolve inp DynamicBitmask.empty
    let rk := rhs.resolve inp DynamicBitmask.empty
    BitwiseExpression.widen lk rk (BitwiseXnorExpression.resolveBitwise lk rk out)
  | .constant frm, _, out => out.copy (ConstantExpression.mask frm)
/-- Source: `LogicExpression::resolveLogic` of each class. -/
def LogicExpression.resolveLogic : LogicExpression → AbstractBufferBitmask → Bool
  | .logicTrue, _ => true
  | .logicFalse, _ => false
  | .reduceOr child, inp => (child.resolve inp DynamicBitmask.empty).count != 0
  | .reduceAnd child, inp =>
    let val := child.resolve inp DynamicBitmask.empty
    val.count == val.size
  | .reduceXor child, inp => (child.resolve inp DynamicBitmask.empty).count &&& 1 != 0
  | .logicNot child, inp => !child.resolveLogic inp
  | .equality lhs rhs, inp =>
    EqualityExpression.compare (lhs.resolve inp DynamicBitmask.empty)
      (rhs.resolve inp DynamicBitmask.empty)
  | .logicOr lhs rhs, inp => lhs.resolveLogic inp || rhs.resolveLogic inp
  | .logicAnd lhs rhs, inp => lhs.resolveLogic inp && rhs.resolveLogic inp
  | .state _, _ => false
end

/-- Source: `LogicExpression::constantSolve` of each class. The argument is
the value of `res` on entry; the result is the returned flag and the value
of `res` on return. -/
def LogicExpression.constantSolve : LogicExpression → Bool → Bool × Bool
  | .logicTrue, _ => (true, true)
  | .logicFalse, _ => (true, false)
  | .reduceOr (.logic lexpr), res => lexpr.constantSolve res
  | .reduceOr _, res => (false, res)
  | .reduceAnd _, res => (false, res)
  | .reduceXor _, res => (false, res)
  | .logicNot child, res =>
    let r := child.constantSolve res
    if r.1 then (true, !r.2) else (false, r.2)
  | .equality _ _, res => (false, res)
  | .logicOr lhs rhs, res =>
    let l := lhs.constantSolve res
    if l.1 && l.2 then (true, l.2)
    else
      let r := rhs.constantSolve l.2
      if r.1 && r.2 then (true, r.2) else (false, r.2)
  | .logicAnd lhs rhs, res =>
    let l := lhs.constantSolve res
    if l.1 && !l.2 then (true, l.2)
    else
      let r := rhs.constantSolve l.2
      if r.1 && !r.2 then (true, r.2) else (false, r.2)
  | .state _, res => (false, res)

mutual
/-- Number of nodes of an expression. -/
def Expression.nodes : Expression → Nat
  | .identifier _ => 1
  | .logic e => 1 + e.nodes
  | .bitwiseNot child => 1 + child.nodes
  | .bitwiseAnd lhs rhs => 1 + lhs.nodes + rhs.nodes
  | .bitwiseOr lhs rhs => 1 + lhs.nodes + rhs.nodes
  | .bitwiseXor lhs rhs => 1 + lhs.nodes + rhs.nodes
  | .bitwiseXnor lhs rhs => 1 + lhs.nodes + rhs.nodes
  | .constant _ => 1
/-- Number of nodes of a boolean expression. -/
def LogicExpression.nodes : LogicExpression → Nat
  | .logicTrue => 1
  | .logicFalse => 1
  | .reduceOr child => 1 + child.nodes
  | .reduceAnd child => 1 + child.nodes
  | .reduceXor child => 1 + child.nodes
  | .logicNot child => 1 + child.nodes
  | .equality lhs rhs => 1 + lhs.nodes + rhs.nodes
  | .logicOr lhs rhs => 1 + lhs.nodes + rhs.nodes
  | .logicAnd lhs rhs => 1 + lhs.nodes + rhs.nodes
  | .state _ => 1
end

/-- Source: `dynamic_cast<LogicExpression *>(e)`; `none` is the null
pointer. -/
def Expression.asLogic : Expression → Option LogicExpression
  | .logic e => some e
  | _ => none

/-- The member `child` of `dynamic_cast<const LogicNotExpression *>(e)`;
`none` when the cast gives the null pointer. -/
def LogicExpression.notChild : LogicExpression → Option LogicExpression
  | .logicNot child => some child
  | _ => none

mutual
/-- Source: `Expression::clone` of each class. The first argument is the
fuel: every call, and every round of the loop of
`LogicNotExpression::cloneLogic`, takes one unit; `none` means that the fuel
ran out. -/
def Expression.cloneFuel : Nat → Expression → Option Expression
  | 0, _ => none
  | _ + 1, .identifier group => some (.identifier group)
  | fuel + 1, .logic e => (e.cloneLogicFuel fuel).map .logic
  | fuel + 1, .bitwiseNot child => (child.cloneFuel fuel).map .bitwiseNot
  | fuel + 1, .bitwiseAnd lhs rhs =>
    (lhs.cloneFuel fuel).bind fun l => (rhs.cloneFuel fuel).map fun r => .bitwiseAnd l r
  | fuel + 1, .bitwiseOr lhs rhs =>
    (lhs.cloneFuel fuel).bind fun l => (rhs.cloneFuel fuel).map fun r => .bitwiseOr l r
  | fuel + 1, .bitwiseXor lhs rhs =>
    (lhs.cloneFuel fuel).bind fun l => (rhs.cloneFuel fuel).map fun r => .bitwiseXor l r
  | fuel + 1, .bitwiseXnor lhs rhs =>
    (lhs.cloneFuel fuel).bind fun l => (rhs.cloneFuel fuel).map fun r => .bitwiseXnor l r
  | _ + 1, .constant frm =>
    some (.constant (ConstantExpression.mask frm).toAbstractBufferBitmask)
/-- Source: `LogicExpression::cloneLogic` of each class, with fuel. In
`EqualityExpression::cloneLogic` the local `res` starts uninitialised (here
`false`); it is read only after a `constantSolve` that returned true and so
assigned it. -/
def LogicExpression.cloneLogicFuel : Nat → LogicExpression → Option LogicExpression
  | 0, _ => none
  | _ + 1, .logicTrue => some .logicTrue
  | _ + 1, .logicFalse => some .logicFalse
  | fuel + 1, .reduceOr child =>
    match child.asLogic with
    | some lexpr => lexpr.cloneLogicFuel fuel
    | none => (child.cloneFuel fuel).map .reduceOr
  | fuel + 1, .reduceAnd child => (child.cloneFuel fuel).map .reduceAnd
  | fuel + 1, .reduceXor child => (child.cloneFuel fuel).map .reduceXor
  | fuel + 1, .logicNot child => child.cloneNotFuel fuel true
  | fuel + 1, .equality lhs rhs =>
    match lhs.asLogic, rhs.asLogic with
    | some llhs, some lrhs =>
      let l := llhs.constantSolve false
      if l.1 then
        (lrhs.cloneLogicFuel fuel).bind fun out =>
          if !l.2 then (LogicExpression.logicNot out).cloneLogicFuel fuel else some out
      else
        let r := lrhs.constantSolve l.2
        if r.1 then
          (llhs.cloneLogicFuel fuel).bind fun out =>
            if !r.2 then (LogicExpression.logicNot out).cloneLogicFuel fuel else some out
        else
          (lhs.cloneFuel fuel).bind fun l => (rhs.cloneFuel fuel).map fun r => .equality l r
    | _, _ =>
      (lhs.cloneFuel fuel).bind fun l => (rhs.cloneFuel fuel).map fun r => .equality l r
  | fuel + 1, .logicOr lhs rhs =>
    let l := lhs.constantSolve false
    if l.1 && !l.2 then rhs.cloneLogicFuel fuel
    else
      let r := rhs.constantSolve l.2
      if r.1 && !r.2 then lhs.cloneLogicFuel fuel
      else
        (lhs.cloneLogicFuel fuel).bind fun l =>
          (rhs.cloneLogicFuel fuel).map fun r => .logicOr l r
  | fuel + 1, .logicAnd lhs rhs =>
    let l := lhs.constantSolve false
    if l.1 && l.2 then rhs.cloneLogicFuel fuel
    else
      let r := rhs.constantSolve l.2
      if r.1 && r.2 then lhs.cloneLogicFuel fuel
      else
        (lhs.cloneLogicFuel fuel).bind fun l =>
          (rhs.cloneLogicFuel fuel).map fun r => .logicAnd l r
  | _ + 1, .state st => some (.state st)
/-- Source: the loop and the tail of `LogicNotExpression::cloneLogic`;
the second argument is `inv->child`, the third is `isinv`. A round of the
loop moves to the child of `inv->child` when that is a
`LogicNotExpression`. -/
def LogicExpression.cloneNotFuel : Nat → LogicExpression → Bool → Option LogicExpression
  | 0, _, _ => none
  | fuel + 1, child, isinv =>
    match child.notChild with
    | some next => next.cloneNotFuel fuel (!isinv)
    | none =>
      if isinv then (child.cloneLogicFuel fuel).map .logicNot
      else child.cloneLogicFuel fuel
end

/-- Source: `LogicExpression::cloneLogic`. The fuel `2 * e.nodes` is enough
(`cloneLogicFuel_enough`), so that the default is never taken. -/
def LogicExpression.cloneLogic (e : LogicExpression) : LogicExpression :=
  (e.cloneLogicFuel (2 * e.nodes)).getD e

/-- Source: `Expression::clone`. The fuel `2 * e.nodes` is enough
(`cloneFuel_enough`), so that the default is never taken. -/
def Expression.clone (e : Expression) : Expression :=
  (e.cloneFuel (2 * e.nodes)).getD e

/-! ## state.h, parse_context.h, parse_context.cc -/

/-- Source: `struct StateTransition` (with the member `expr` of
`StateCondition`). -/
structure StateTransition where
  expr : LogicExpression
  output : DynamicBitmask
  state : Nat

/-- Source: the constructor `StateTransition(data, e, state)`; a null `e`
becomes `LogicTrueExpression`, and `output` is `DynamicBitmask(data)`. -/
def StateTransition.create (data : DynamicBitmask) (e : Option LogicExpression)
    (state : Nat) : StateTransition :=
  { expr := e.getD .logicTrue
    output := DynamicBitmask.ofBitmask data.toAbstractBufferBitmask
    state := state }

/-- The value `(unsigned int)-1`. -/
def UINT_MAX : Nat := 2 ^ 32 - 1

/-- Source: `ParseContextTree::Node` with its two classes `Branch` (`t` is
`links[0]`, the true edge, `f` is `links[1]`) and `Leaf`. -/
inductive Node where
  | branch (expr : LogicExpression) (t f : Node)
  | leaf (output : DynamicBitmask) (targetState : Nat)

/-- Source: `dynamic_cast<const StateExpression *>(e)`: the member `state`
of the `StateExpression`, `none` when the cast gives the null pointer. -/
def LogicExpression.asState : LogicExpression → Option Nat
  | .state st => some st
  | _ => none

/-- The guard `expr` that `collectStateRecurse` passes to the true edge of
a branch with the condition `bexpr`, under the inherited guard `pexpr`. -/
def branchGuard (pexpr : Option LogicExpression) (bexpr : LogicExpression) :
    LogicExpression :=
  match pexpr with
  | none => bexpr.cloneLogic
  | some p => .logicAnd p.cloneLogic bexpr.cloneLogic

/-- Source: `ParseContextTree::collectStateRecurse`; the result is the list
`out` on return, `pexpr = none` is the null pointer. -/
def collectStateRecurse :
    List StateTransition → Node → Option LogicExpression → Nat → List StateTransition
  | out, .branch bexpr t f, pexpr, state =>
    match bexpr.asState with
    | some sexpr =>
      if sexpr ≠ state then collectStateRecurse out f pexpr state
      else collectStateRecurse out t pexpr state
    | none =>
      let out := collectStateRecurse out t (some (branchGuard pexpr bexpr)) state
      collectStateRecurse out f pexpr state
  | out, .leaf output targetState, pexpr, state =>
    let targetState := if targetState = UINT_MAX then state else targetState
    out ++ [StateTransition.create output pexpr targetState]

/-- The number of leaves that `collectStateRecurse` reaches from `node` for
the target `state`: both edges of a branch, but only the edge picked by
the comparison at a branch on a state test. -/
def reachedLeaves : Node → Nat → Nat
  | .branch bexpr t f, state =>
    match bexpr.asState with
    | some sexpr => if sexpr ≠ state then reachedLeaves f state else reachedLeaves t state
    | none => reachedLeaves t state + reachedLeaves f state
  | .leaf _ _, _ => 1

end Prism


namespace Prism

/-! ## parse_context.cc: state tests in a diagram -/

mutual
/-- No `StateExpression` occurs in the expression. -/
def Expression.stateFree : Expression → Bool
  | .identifier _ => true
  | .logic e => e.stateFree
  | .bitwiseNot child => child.stateFree
  | .bitwiseAnd lhs rhs => lhs.stateFree && rhs.stateFree
  | .bitwiseOr lhs rhs => lhs.stateFree && rhs.stateFree
  | .bitwiseXor lhs rhs => lhs.stateFree && rhs.stateFree
  | .bitwiseXnor lhs rhs => lhs.stateFree && rhs.stateFree
  | .constant _ => true

/-- No `StateExpression` occurs in the logic expression. -/
def LogicExpression.stateFree : LogicExpression → Bool
  | .logicTrue => true
  | .logicFalse => true
  | .reduceOr child => child.stateFree
  | .reduceAnd child => child.stateFree
  | .reduceXor child => child.stateFree
  | .logicNot child => child.stateFree
  | .equality lhs rhs => lhs.stateFree && rhs.stateFree
  | .logicOr lhs rhs => lhs.stateFree && rhs.stateFree
  | .logicAnd lhs rhs => lhs.stateFree && rhs.stateFree
  | .state _ => false
end

/-- The diagrams that `ParseContextTree` builds: the class `StateExpression`
is local to `parse_context.cc` and made only by `splitStateCase`, as the
whole condition of a branch, so that the condition of a branch is either a
state test or a condition of the front end, which holds no state test. -/
def Node.stateTestsOnTop : Node → Bool
  | .branch bexpr t f =>
    (bexpr.asState.isSome || bexpr.stateFree) && t.stateTestsOnTop && f.stateTestsOnTop
  | .leaf _ _ => true

/-- The diagram has a case arm for `state`: a branch on the state test for
this id. -/
def Node.hasArm : Node → Nat → Bool
  | .branch bexpr t f, state =>
    (bexpr.asState == some state) || t.hasArm state || f.hasArm state
  | .leaf _ _, _ => false

/-- The transitions that `collectStateRecurse` collects, without the target
of the leaves that have none of their own: the guard, the output and the
member `targetState` of the leaf (`UINT_MAX` when the leaf has no
override). -/
def collectRaw :
    Node → Option LogicExpression → Nat → List (LogicExpression × DynamicBitmask × Nat)
  | .branch bexpr t f, pexpr, state =>
    match bexpr.asState with
    | some sexpr =>
      if sexpr ≠ state then collectRaw f pexpr state else collectRaw t pexpr state
    | none =>
      collectRaw t (some (branchGuard pexpr bexpr)) state ++ collectRaw f pexpr state
  | .leaf output targetState, pexpr, _ =>
    [(pexpr.getD .logicTrue, DynamicBitmask.ofBitmask output.toAbstractBufferBitmask,
      targetState)]

/-- The transition of a raw entry for the state `state`: a leaf without a
target override points to `state`. -/
def StateTransition.ofRaw (state : Nat) (r : LogicExpression × DynamicBitmask × Nat) :
    StateTransition :=
  { expr := r.1, output := r.2.1, state := if r.2.2 = UINT_MAX then state else r.2.2 }

/-! ## assert.h -/

/-- The assertions of the state-table compiler that can fail: an `ASSERT`
throws, and the function it is in gives no result. -/
inductive AssertFailure where
  /-- "Unable to find suitable wire mapping for input" -/
  | noSuitableWire
  /-- "State condition requires too many inputs" -/
  | tooManyInputs
  /-- "Invalid jump to undefined state" -/
  | undefinedJump
  /-- "Invalid stew slice" and the like: a field that the STEW lacks. -/
  | missingField
  /-- The range assertions of `BitmaskSlice::set`, `BitmaskSlice::clear`,
  `BufferBitmask::resize` and `SliceBitGroup::map`. -/
  | outOfRange
  /-- Not an assertion: a loop of the model has not ended within its fuel,
  and the model gives no result. -/
  | outOfFuel
  deriving DecidableEq

/-- Results with a failed assertion can be compared. -/
instance instDecidableEqExcept {ε α : Type} [DecidableEq ε] [DecidableEq α] :
    DecidableEq (Except ε α)
  | .ok a, .ok b => if h : a = b then isTrue (by rw [h]) else isFalse (fun e => h (by cases e; rfl))
  | .error a, .error b =>
    if h : a = b then isTrue (by rw [h]) else isFalse (fun e => h (by cases e; rfl))
  | .ok _, .error _ => isFalse (fun e => by cases e)
  | .error _, .ok _ => isFalse (fun e => by cases e)

/-! ## input_mux.h, wire_map.h, wire_map.cc -/

/-- Source: `InputMux::Config`. -/
structure InputMux.Config where
  nBits : Nat
  nMux : Nat
  deriving DecidableEq

/-- Source: `class InputMux`. -/
structure InputMux where
  nBits : Nat
  nMux : Nat
  deriving DecidableEq

/-- Source: the constructor `InputMux(cfg)`. -/
def InputMux.create (cfg : InputMux.Config) : InputMux :=
  { nBits := cfg.nBits, nMux := cfg.nMux }

/-- Source: `WireMap::Config`. -/
structure WireMap.Config where
  muxes : InputMux.Config
  nVirtualOutput : Nat
  mappings : List (Nat × Nat)
  deriving DecidableEq

/-- Source: `class WireMap`; the arrays `map` (of `2 * nMappings` entries),
`fullMap` (of `nVirtualOutput` entries) and `counts` (of `nInput`
entries). -/
structure WireMap where
  muxes : InputMux
  nInput : Nat
  nVirtualOutput : Nat
  nMappings : Nat
  map : List Nat
  fullMap : List Nat
  counts : List Nat
  deriving DecidableEq

/-- The difference `a - b` of two `unsigned int`. -/
def u32sub (a b : Nat) : Nat := (a + 2 ^ 32 - b % 2 ^ 32) % 2 ^ 32

/-- The conversion of an `unsigned int` to `int`. -/
def toInt32 (d : Nat) : Int := if d < 2 ^ 31 then (d : Int) else (d : Int) - 2 ^ 32

/-- Source: the loop and the tail of `WireMap::lookup`, from the bounds `l`
and `h`; the first argument is the fuel, `none` is a loop that has not
ended when the fuel has. The sum `l + h` is below `2 ^ 32`, as the array
`map` has `2 * nMappings` entries. -/
def WireMap.lookupFuel (map : List Nat) (id : Nat) : Nat → Nat → Nat → Option Nat
  | 0, _, _ => none
  | fuel + 1, l, h =>
    if l < h then
      let m := (l + h) >>> 1
      let c := toInt32 (u32sub id (map.getD ((m <<< 1) + 0) 0))
      if c > 0 then WireMap.lookupFuel map id fuel (m + 1) h
      else if c < 0 then WireMap.lookupFuel map id fuel l m
      else some (map.getD ((m <<< 1) + 1) 0)
    else some (u32sub id l)

/-- Source: `WireMap::lookup`, on the array `map` of `nMappings` pairs. Every
round of the loop brings `l` and `h` closer, so that the fuel
`nMappings + 1` is enough (`lookupFuel_total`). -/
def WireMap.lookupIn (map : List Nat) (nMappings id : Nat) : Nat :=
  (WireMap.lookupFuel map id (nMappings + 1) 0 nMappings).getD 0

/-- Source: `WireMap::lookup`. -/
def WireMap.lookup (wm : WireMap) (id : Nat) : Nat :=
  WireMap.lookupIn wm.map wm.nMappings id

/-- Source: the constructor `WireMap::WireMap(cfg)`. -/
def WireMap.create (cfg : WireMap.Config) : WireMap :=
  let nInput := cfg.muxes.nMux
  let nMappings := cfg.mappings.length
  let counts := List.replicate nInput 1
  let filled := cfg.mappings.foldl
    (fun (mc : List Nat × List Nat) item =>
      (mc.1 ++ [item.1, item.2], mc.2.set item.2 (mc.2.getD item.2 0 + 1)))
    ([], counts)
  { muxes := InputMux.create cfg.muxes
    nInput := nInput
    nVirtualOutput := cfg.nVirtualOutput
    nMappings := nMappings
    map := filled.1
    fullMap := (List.range cfg.nVirtualOutput).map (WireMap.lookupIn filled.1 nMappings)
    counts := filled.2 }

/-- Source: the first two loops of `WireMap::bestFit`: the array `table`
after them. -/
def WireMap.bestFitTable (wm : WireMap) (outputs : AbstractBufferBitmask) : List Nat :=
  forLoop (fun _ r => decide (r < outputs.size)) (fun _ r => outputs.fns r)
    (fun (table : List Nat) r =>
      table.set (wm.fullMap.getD r 0) (table.getD (wm.fullMap.getD r 0) 0 + 1))
    outputs.size (List.replicate wm.nInput 0) outputs.ffs

/-- Source: the third loop of `WireMap::bestFit`, from the index `i` with
the pair `(bestScore, bestInput)`; the result is the pair on exit. The
first argument is the fuel, one unit for every index. -/
def WireMap.bestFitScan (wm : WireMap) (table : List Nat) (nparty : Nat) :
    Nat → Nat → Nat × Nat → Nat × Nat
  | 0, _, best => best
  | fuel + 1, i, best =>
    if i < wm.nInput then
      if table.getD i 0 = 0 then WireMap.bestFitScan wm table nparty fuel (i + 1) best
      else if wm.counts.getD i 0 = table.getD i 0 ∧ table.getD i 0 = nparty then (0xff, i)
      else
        let score := 1
        let score := if wm.counts.getD i 0 = table.getD i 0 then score + 1 else score
        let score := if table.getD i 0 = nparty then score + 1 else score
        let score := if nparty ≠ 1 ∧ table.getD i 0 ≠ 1 then score + 1 else score
        if score > best.1 then WireMap.bestFitScan wm table nparty fuel (i + 1) (score, i)
        else WireMap.bestFitScan wm table nparty fuel (i + 1) best
    else best

/-- Source: `WireMap::bestFit`; the result is the list `out` on return. -/
def WireMap.bestFit (wm : WireMap) (outputs : AbstractBufferBitmask) (nparty : Nat)
    (out : List Nat) : Except AssertFailure (List Nat) :=
  let table := wm.bestFitTable outputs
  let best := wm.bestFitScan table nparty wm.nInput 0 (0, UINT_MAX)
  if best.1 = 0 then .error .noSuitableWire
  else .ok (out ++ (List.range wm.nVirtualOutput).filter
    (fun i => decide (wm.fullMap.getD i 0 = best.2)))

/-- The number of virtual inputs set in `outputs` that are mapped to the
physical input `i`: what the claims call `table[i]`. -/
def WireMap.demand (wm : WireMap) (outputs : AbstractBufferBitmask) (i : Nat) : Nat :=
  ((List.range outputs.size).filter
    (fun r => outputs.get r && decide (wm.fullMap.getD r 0 = i))).length

/-- The score of the candidate `i` under the demand `t = table[i]`:
`1 + [counts[i] = t] + [t = nparty] + [nparty != 1 and t != 1]`. -/
def WireMap.score (wm : WireMap) (nparty i t : Nat) : Nat :=
  1 + (if wm.counts.getD i 0 = t then 1 else 0) + (if t = nparty then 1 else 0)
    + (if nparty ≠ 1 ∧ t ≠ 1 then 1 else 0)

/-- What the arrays of a `WireMap` must satisfy for `bestFit` to stay inside
them: `fullMap` has `nVirtualOutput` entries below `nInput`, and `counts`
has `nInput` entries, each of them at least 1 (the constructor starts them
at 1). -/
structure WireMap.WellFormed (wm : WireMap) : Prop where
  fullMap_length : wm.fullMap.length = wm.nVirtualOutput
  fullMap_lt : ∀ v, v < wm.nVirtualOutput → wm.fullMap.getD v 0 < wm.nInput
  counts_length : wm.counts.length = wm.nInput
  counts_pos : ∀ i, i < wm.nInput → 1 ≤ wm.counts.getD i 0

/-- Source: `PrismConfig::fallback`, the wire map of the built-in
configuration "LUT4+LUT4". -/
def WireMap.Config.fallback : WireMap.Config :=
  { muxes := { nBits := 4, nMux := 7 }
    nVirtualOutput := 14
    mappings := [(4, 3), (8, 0), (9, 1), (10, 2), (11, 3), (12, 5), (13, 6)] }

/-- The wire map of the built-in configuration. -/
def WireMap.fallback : WireMap := WireMap.create WireMap.Config.fallback

/-! ## state.h, decision_tree.h, decision_tree.cc: splitting a state -/

/-- Source: `dynamic_cast<LogicTrueExpression *>(expr) != NULL`. -/
def LogicExpression.isLogicTrue : LogicExpression → Bool
  | .logicTrue => true
  | _ => false

/-- Source: `StateTransition::isFallthrough`. -/
def StateTransition.isFallthrough (x : StateTransition) (inp : Nat) : Bool :=
  if x.state ≠ inp then false else x.expr.isLogicTrue

/-- Source: `struct ConditionalOutput` (with the member `expr` of
`StateCondition`). -/
structure ConditionalOutput where
  output : Nat
  expr : LogicExpression

/-- Source: `struct VirtualState`, without `filepos`; `isPartial` is the
member `partial`. -/
structure VirtualState where
  index : Nat
  isPartial : Bool
  partialOutput : DynamicBitmask
  transitions : List StateTransition
  conditionalOutputs : List ConditionalOutput

/-- Source: the constructor `VirtualState(id, pos)`. -/
def VirtualState.create (id : Nat) : VirtualState :=
  { index := id, isPartial := false, partialOutput := DynamicBitmask.empty,
    transitions := [], conditionalOutputs := [] }

/-- Source: `out.setIntersection(out, other)` of `Bitmask`, on an object
`out` and another object `other`: the branch `&out == this`. -/
def DynamicBitmask.intersectWith (out other : DynamicBitmask) : DynamicBitmask :=
  (Bitmask.setIntersection [out, other] 0 0 1).obj 0

/-- Source: `VirtualState::collectSteadyState` on the list `transitions`;
the result is `out` on return. The second component of the loop state is
`idx`. -/
def VirtualState.collectSteadyState (transitions : List StateTransition)
    (out : DynamicBitmask) : DynamicBitmask :=
  (transitions.foldl
    (fun (s : DynamicBitmask × Nat) x =>
      if s.2 = 0 then (s.1.copy x.output, s.2 + 1)
      else (s.1.intersectWith x.output, s.2 + 1))
    (out, 0)).1

/-- Source: `std::map<unsigned int, unsigned int>`, as the list of the
assignments made, the latest first. -/
abbrev StateMap := List (Nat × Nat)

/-- Source: `stateMap.find(k)`: the value at `k`, `none` for `end()`. -/
def StateMap.find (m : StateMap) (k : Nat) : Option Nat := m.lookup k

/-- Source: `stateMap[k] = v`. -/
def StateMap.assign (m : StateMap) (k v : Nat) : StateMap := (k, v) :: m

/-- Source: `stateMap[k]` as a value: a missing key is added with the
value 0. -/
def StateMap.index (m : StateMap) (k : Nat) : Nat × StateMap :=
  match m.lookup k with
  | some v => (v, m)
  | none => (0, (k, 0) :: m)

/-- Source: `class LUT`, the one subclass of `DecisionTree::Component`, with
the members `inputSize` and `inputOffset` of the base class. -/
structure LUT where
  inputSize : Nat
  inputOffset : Nat
  deriving DecidableEq

/-- Source: `DecisionTree::Config`. -/
structure DecisionTree.Config where
  wires : WireMap.Config
  staticComponents : List LUT
  condComponents : List LUT

/-- Source: `class DecisionTree`. -/
structure DecisionTree where
  wires : WireMap
  components : List LUT
  nStaticComponents : Nat
  nConditionalComponents : Nat
  nInputs : Nat
  nVirtualInputs : Nat

/-- Source: the constructor `DecisionTree::DecisionTree(cfg)`. -/
def DecisionTree.create (cfg : DecisionTree.Config) : DecisionTree :=
  { wires := WireMap.create cfg.wires
    components := cfg.staticComponents ++ cfg.condComponents
    nStaticComponents := cfg.staticComponents.length
    nConditionalComponents := cfg.condComponents.length
    nInputs := 1 <<< cfg.wires.muxes.nBits
    nVirtualInputs :=
      (cfg.staticComponents ++ cfg.condComponents).foldl (fun n c => n + c.inputSize) 0 }

/-- Source: the loop of `DecisionTree::splitState` and the `push_back`
after it, from the list `out` and the state `vs`; the result is the list
`out` on return. The first argument is the fuel, `none` is a loop that has
not ended when the fuel has. -/
def DecisionTree.splitStateLoop (dt : DecisionTree) :
    Nat → List VirtualState → VirtualState → Option (List VirtualState)
  | 0, _, _ => none
  | fuel + 1, out, vs =>
    if vs.transitions.length > dt.nStaticComponents then
      let back := vs.transitions.getLast?
      if vs.transitions.length = dt.nStaticComponents + 1
          ∧ (back.map fun x => x.isFallthrough vs.index) = some true then
        let vs := if (back.map fun x => decide ((vs.index + 1) % 2 ^ 32 = x.state)) = some true
          then { vs with isPartial := true } else vs
        some (out ++ [vs])
      else
        let lower : VirtualState :=
          { VirtualState.create vs.index with
            transitions := vs.transitions.drop dt.nStaticComponents
            conditionalOutputs := vs.conditionalOutputs }
        let steady := VirtualState.collectSteadyState lower.transitions vs.partialOutput
        let vs : VirtualState :=
          { vs with
            transitions := vs.transitions.take dt.nStaticComponents
            partialOutput := steady
            isPartial := true }
        DecisionTree.splitStateLoop dt fuel (out ++ [vs]) lower
    else some (out ++ [vs])

/-- Source: `DecisionTree::splitState`; the result is the pair of `out` and
`stateMap` on return. With at least one static component every round of
the loop shortens the list of transitions, so that the fuel is enough
(`splitStateLoop_total`); without static components the loop of the source
does not end on a state that has a transition. -/
def DecisionTree.splitState (dt : DecisionTree) (out : List VirtualState) (vs : VirtualState)
    (stateMap : StateMap) : Option (List VirtualState × StateMap) :=
  let stateMap := stateMap.assign vs.index out.length
  (dt.splitStateLoop (vs.transitions.length + 1) out vs).map fun out => (out, stateMap)

/-! ## bitmask.h: a `Bitmask &`, slices, mapped bitmasks -/

/-- A `for (...; cond; bit = next) body` loop whose body can fail: the
failure of an assertion in the body ends the loop with it. The first
argument is the fuel. -/
def forLoopE {σ : Type} (cond : σ → Nat → Bool) (next : σ → Nat → Nat)
    (body : σ → Nat → Except AssertFailure σ) : Nat → σ → Nat → Except AssertFailure σ
  | 0, s, _ => .ok s
  | fuel + 1, s, bit =>
    if cond s bit then
      match body s bit with
      | .ok t => forLoopE cond next body fuel t (next t bit)
      | .error e => .error e
    else .ok s

/-- A range-based `for (x : list) body` loop whose body can fail. -/
def forEachE {σ α : Type} (body : σ → α → Except AssertFailure σ) :
    List α → σ → Except AssertFailure σ
  | [], s => .ok s
  | x :: xs, s =>
    match body s x with
    | .ok t => forEachE body xs t
    | .error e => .error e

/-- The object behind a reference `Bitmask &`, by its class: a
`DynamicBitmask`, a `BufferBitmask`, or a `BitmaskSlice` with its members
`source`, `offset` and `nbits` (the source is held by value here: after a
write through the slice, `source` is the object written to). -/
inductive BitmaskRef where
  | dynamic (d : DynamicBitmask)
  | buffer (b : BufferBitmask)
  | slice (source : BitmaskRef) (offset nbits : Nat)

namespace BitmaskRef

/-- Source: the virtual `size()`. -/
def size : BitmaskRef → Nat
  | .dynamic d => d.size
  | .buffer b => b.size
  | .slice _ _ nbits => nbits

/-- Source: the virtual `get(bit)`; for a slice `BitmaskSlice::get`. -/
def get : BitmaskRef → Nat → Bool
  | .dynamic d, bit => d.get bit
  | .buffer b, bit => b.get bit
  | .slice source offset nbits, bit =>
    if bit ≥ nbits then false else source.get (bit + offset)

/-- Source: the virtual `set(bit)`; for a slice `BitmaskSlice::set` with its
assertion `bit < nbits`, for a buffer the assertion of its `resize`. -/
def set : BitmaskRef → Nat → Except AssertFailure BitmaskRef
  | .dynamic d, bit => .ok (.dynamic (d.set bit))
  | .buffer b, bit =>
    match b.set bit with
    | some b => .ok (.buffer b)
    | none => .error .outOfRange
  | .slice source offset nbits, bit =>
    if bit < nbits then
      match source.set (bit + offset) with
      | .ok s => .ok (.slice s offset nbits)
      | .error e => .error e
    else .error .outOfRange

/-- Source: the virtual `clear(bit)`; for a slice `BitmaskSlice::clear`. -/
def clear : BitmaskRef → Nat → Except AssertFailure BitmaskRef
  | .dynamic d, bit => .ok (.dynamic (d.clear bit))
  | .buffer b, bit =>
    match b.clear bit with
    | some b => .ok (.buffer b)
    | none => .error .outOfRange
  | .slice source offset nbits, bit =>
    if bit < nbits then
      match source.clear (bit + offset) with
      | .ok s => .ok (.slice s offset nbits)
      | .error e => .error e
    else .error .outOfRange

/-- Source: `Bitmask::write`. -/
def write (m : BitmaskRef) (bit : Nat) (value : Bool) : Except AssertFailure BitmaskRef :=
  if value then m.set bit else m.clear bit

/-- The member `source` of a slice, after the writes through the slice. -/
def source : BitmaskRef → BitmaskRef
  | .slice source _ _ => source
  | m => m

/-- Source: `Bitmask::copy`, `m.copy(from)` with `from` a buffer that is not
reached through `m`. -/
def copy (m : BitmaskRef) (frm : AbstractBufferBitmask) : Except AssertFailure BitmaskRef :=
  forLoopE (fun _ bit => decide (bit < frm.size)) (fun _ bit => bit + 1)
    (fun (m : BitmaskRef) bit => m.write bit (frm.get bit)) frm.size m 0

end BitmaskRef

/-- The invariant of the object behind a `Bitmask &`: the invariant of the
buffer at its root, and every slice within its source, as `init()` leaves
it. -/
def BitmaskRef.Valid : BitmaskRef → Prop
  | .dynamic d => d.Valid
  | .buffer b => b.toAbstractBufferBitmask.Valid
  | .slice source offset nbits => source.Valid ∧ offset + nbits ≤ source.size

/-- The object `m` is the slice of `nbits` bits at `offset` of an object
that is `src` after writes inside the slice: valid, of the size of `src`,
and equal to `src` outside the slice. -/
def BitmaskRef.IsSliceOf (m src : BitmaskRef) (offset nbits : Nat) : Prop :=
  ∃ s, m = .slice s offset nbits ∧ s.Valid ∧ s.size = src.size ∧
    ∀ j, (j < offset ∨ offset + nbits ≤ j) → s.get j = src.get j

/-- Source: the loop of `Bitmask::writeInteger`, over the virtual `write` of
the object, from the index `bit` with the remaining `value`. The first
argument is the fuel. -/
def Bitmask.writeIntegerLoop {σ : Type} (write : σ → Nat → Bool → Except AssertFailure σ) :
    Nat → σ → Nat → Nat → Except AssertFailure σ
  | 0, m, _, _ => .ok m
  | fuel + 1, m, bit, value =>
    if value ≠ 0 then
      match write m bit (value &&& 1 != 0) with
      | .ok t => Bitmask.writeIntegerLoop write fuel t (bit + 1) (value >>> 1)
      | .error e => .error e
    else .ok m

/-- Source: `Bitmask::writeInteger`; `value` is an `unsigned long`, which is
zero after 64 shifts at most. -/
def Bitmask.writeInteger {σ : Type} (write : σ → Nat → Bool → Except AssertFailure σ)
    (m : σ) (value : Nat) : Except AssertFailure σ :=
  Bitmask.writeIntegerLoop write 64 m 0 (value % 2 ^ 64)

/-- Source: the members `offset` and `nbits` of a `BitmaskSlice`. -/
structure BitmaskSlice where
  offset : Nat
  nbits : Nat
  deriving DecidableEq

/-- Source: the constructor `BitmaskSlice(Bitmask &src, off, sz)` with
`init()`, which clamps the slice to the size the source has then. -/
def BitmaskSlice.create (src : BitmaskRef) (off sz : Nat) : BitmaskSlice :=
  let offset := if off > src.size then src.size else off
  let nbits := if offset + sz > src.size then src.size - offset else sz
  { offset := offset, nbits := nbits }

/-- The slice as an object, on the current value of its source. -/
def BitmaskSlice.on (v : BitmaskSlice) (src : BitmaskRef) : BitmaskRef :=
  .slice src v.offset v.nbits

/-! ## bitgroup.h: the classes of `BitGroup` -/

/-- Source: the classes `OffsetBitGroup`, `SliceBitGroup`, `ConcatBitGroup`
and `MappedBitGroup` behind a `const BitGroup &`. -/
inductive BitGroup where
  | offset (off nbit : Nat)
  | slice (parent : BitGroup) (off nbit : Nat)
  | concat (hi lo : BitGroup)
  | mapped (bits : MappedBitGroup)

namespace BitGroup

/-- Source: the virtual `size()`. -/
def size : BitGroup → Nat
  | .offset _ nbit => nbit
  | .slice _ _ nbit => nbit
  | .concat hi lo => hi.size + lo.size
  | .mapped bits => bits.size

/-- Source: the virtual `map(idx)`, with the assertion on `idx` that every
class makes. -/
def map : BitGroup → Nat → Except AssertFailure Nat
  | .offset off nbit, idx => if idx < nbit then .ok (idx + off) else .error .outOfRange
  | .slice parent off nbit, idx =>
    if idx < nbit then parent.map (idx + off) else .error .outOfRange
  | .concat hi lo, idx =>
    if idx < hi.size + lo.size then
      if idx < lo.size then lo.map idx else hi.map (idx - lo.size)
    else .error .outOfRange
  | .mapped bits, idx => if idx < bits.size then .ok (MappedBitGroup.map bits idx)
    else .error .outOfRange

end BitGroup

/-- Source: `Bitmask::write` on a `MappedBitmask(source, group)` over a
`DynamicBitmask`: `MappedBitmask::set` and `MappedBitmask::clear`, which
go through `group.map`. The result is the source. -/
def MappedBitmask.write (group : BitGroup) (source : DynamicBitmask) (bit : Nat)
    (value : Bool) : Except AssertFailure DynamicBitmask :=
  match group.map bit with
  | .ok idx => .ok (if value then source.set idx else source.clear idx)
  | .error e => .error e

/-! ## expr.h: the inputs of an expression -/

mutual
/-- Source: `Expression::collectInputs` of each class: the value of `nodes`
on return. -/
def Expression.collectInputs : Expression → DynamicBitmask → DynamicBitmask
  | .identifier group, nodes =>
    forLoop (fun _ bit => decide (bit < group.size)) (fun _ bit => bit + 1)
      (fun (nodes : DynamicBitmask) bit => nodes.set (group.map bit)) group.size nodes 0
  | .logic e, nodes => e.collectInputs nodes
  | .bitwiseNot child, nodes => child.collectInputs nodes
  | .bitwiseAnd lhs rhs, nodes => rhs.collectInputs (lhs.collectInputs nodes)
  | .bitwiseOr lhs rhs, nodes => rhs.collectInputs (lhs.collectInputs nodes)
  | .bitwiseXor lhs rhs, nodes => rhs.collectInputs (lhs.collectInputs nodes)
  | .bitwiseXnor lhs rhs, nodes => rhs.collectInputs (lhs.collectInputs nodes)
  | .constant _, nodes => nodes

/-- Source: `collectInputs` of each class of `LogicExpression`. -/
def LogicExpression.collectInputs : LogicExpression → DynamicBitmask → DynamicBitmask
  | .logicTrue, nodes => nodes
  | .logicFalse, nodes => nodes
  | .reduceOr child, nodes => child.collectInputs nodes
  | .reduceAnd child, nodes => child.collectInputs nodes
  | .reduceXor child, nodes => child.collectInputs nodes
  | .logicNot child, nodes => child.collectInputs nodes
  | .equality lhs rhs, nodes => rhs.collectInputs (lhs.collectInputs nodes)
  | .logicOr lhs rhs, nodes => rhs.collectInputs (lhs.collectInputs nodes)
  | .logicAnd lhs rhs, nodes => rhs.collectInputs (lhs.collectInputs nodes)
  | .state _, nodes => nodes
end

mutual
/-- The expression has an identifier that reads the input bit `p`. -/
def Expression.readsInput : Expression → Nat → Bool
  | .identifier group, p => (List.range group.size).any fun bit => group.map bit == p
  | .logic e, p => e.readsInput p
  | .bitwiseNot child, p => child.readsInput p
  | .bitwiseAnd lhs rhs, p => lhs.readsInput p || rhs.readsInput p
  | .bitwiseOr lhs rhs, p => lhs.readsInput p || rhs.readsInput p
  | .bitwiseXor lhs rhs, p => lhs.readsInput p || rhs.readsInput p
  | .bitwiseXnor lhs rhs, p => lhs.readsInput p || rhs.readsInput p
  | .constant _, _ => false

/-- The logic expression has an identifier that reads the input bit `p`. -/
def LogicExpression.readsInput : LogicExpression → Nat → Bool
  | .logicTrue, _ => false
  | .logicFalse, _ => false
  | .reduceOr child, p => child.readsInput p
  | .reduceAnd child, p => child.readsInput p
  | .reduceXor child, p => child.readsInput p
  | .logicNot child, p => child.readsInput p
  | .equality lhs rhs, p => lhs.readsInput p || rhs.readsInput p
  | .logicOr lhs rhs, p => lhs.readsInput p || rhs.readsInput p
  | .logicAnd lhs rhs, p => lhs.readsInput p || rhs.readsInput p
  | .state _, _ => false
end

/-! ## components.cc -/

/-- Source: the first three lines of the body of the loop of `LUT::write`:
the mask that `map.writeInteger(bit)` leaves in the fresh `mask`. -/
def LUT.inputMask (grp : BitGroup) (bit : Nat) : Except AssertFailure DynamicBitmask :=
  Bitmask.writeInteger (MappedBitmask.write grp) DynamicBitmask.empty bit

/-- Source: `LUT::write`; the result is `out` on return. The counter `bit`
is an `unsigned int` compared with `1ul << inputSize`, which it reaches for
`inputSize < 32`. -/
def LUT.write (c : LUT) (out : BitmaskRef) (grp : BitGroup) (expr : LogicExpression) :
    Except AssertFailure BitmaskRef :=
  forLoopE (fun _ bit => decide (bit < 1 <<< c.inputSize)) (fun _ bit => bit + 1)
    (fun (out : BitmaskRef) bit =>
      match LUT.inputMask grp bit with
      | .ok mask => out.write bit (expr.resolveLogic mask.toAbstractBufferBitmask)
      | .error e => .error e)
    (1 <<< c.inputSize) out 0

/-! ## stew.h -/

/-- Source: `enum STEW::Type`. -/
inductive STEW.ItemType where
  | NIL
  | INC
  | MUX
  | JMP
  | OUT
  | CFG
  deriving DecidableEq

/-- Source: `struct STEW::Item`. -/
structure STEW.Item where
  type : STEW.ItemType
  offset : Nat
  size : Nat
  deriving DecidableEq

/-- Source: `struct STEW`. -/
structure STEW where
  count : Nat
  size : Nat
  items : List STEW.Item

/-- Source: the loop and the tail of `STEW::slice`, on the rest of the
items. -/
def STEW.sliceLoop (type : STEW.ItemType) : List STEW.Item → Nat → STEW.Item
  | [], _ => { type := .NIL, offset := 0, size := 0 }
  | item :: rest, which =>
    if item.type ≠ type then STEW.sliceLoop type rest which
    else if which = 0 then item
    else STEW.sliceLoop type rest (which - 1)

/-- Source: `STEW::slice(type, which)`. -/
def STEW.slice (stew : STEW) (type : STEW.ItemType) (which : Nat) : STEW.Item :=
  STEW.sliceLoop type stew.items which

/-- The bit `p` of the word lies in the field. -/
def STEW.Item.covers (a : STEW.Item) (p : Nat) : Prop :=
  a.offset ≤ p ∧ p < a.offset + a.size

/-- Two fields of the word do not overlap. -/
def STEW.Item.disjoint (a b : STEW.Item) : Prop :=
  a.offset + a.size ≤ b.offset ∨ b.offset + b.size ≤ a.offset

instance (a : STEW.Item) (p : Nat) : Decidable (a.covers p) := by
  unfold STEW.Item.covers; exact inferInstance

instance (a b : STEW.Item) : Decidable (a.disjoint b) := by
  unfold STEW.Item.disjoint; exact inferInstance

/-! ## input_mux.h and wire_map.cc: writing the muxes -/

/-- Source: `InputMux::write`; the result is `mask` on return. -/
def InputMux.write (muxes : InputMux) (mask : BitmaskRef) (stew : STEW) (mapping : List Nat) :
    Except AssertFailure BitmaskRef :=
  let cfg := stew.slice .MUX 0
  forLoopE (fun _ mux => decide (mux < muxes.nMux)) (fun _ mux => mux + 1)
    (fun (mask : BitmaskRef) mux =>
      let slice := BitmaskSlice.create mask (mux * muxes.nBits + cfg.offset) muxes.nBits
      match Bitmask.writeInteger BitmaskRef.write (slice.on mask) (mapping.getD mux 0) with
      | .ok sl => .ok sl.source
      | .error e => .error e)
    muxes.nMux mask 0

/-- Source: `WireMap::write`; the result is `mask` on return. The array
`inputMapping` is not initialised in the source: `uninit` is what it holds
at first. -/
def WireMap.write (wm : WireMap) (mask : BitmaskRef) (stew : STEW) (outputMapping : List Nat)
    (uninit : List Nat) : Except AssertFailure BitmaskRef :=
  let inputMapping :=
    forLoop (fun _ i => decide (i < wm.nVirtualOutput)) (fun _ i => i + 1)
      (fun (inputMapping : List Nat) i =>
        inputMapping.set (wm.fullMap.getD i 0) (outputMapping.getD i 0))
      wm.nVirtualOutput uninit 0
  wm.muxes.write mask stew inputMapping

/-! ## state.h and decision_tree.cc: writing a state -/

/-- Source: `StateTransition::writeOutput`; the result is `out` on return. -/
def StateTransition.writeOutput (x : StateTransition) (out : BitmaskRef) :
    Except AssertFailure BitmaskRef :=
  forLoopE (fun (out : BitmaskRef) i => decide (i < out.size)) (fun _ i => i + 1)
    (fun (out : BitmaskRef) i => out.write i (x.output.get i)) out.size out 0

/-- Source: `StateTransition::writeState`; the result is the pair of `out`
and `stateMap` on return. -/
def StateTransition.writeState (x : StateTransition) (out : BitmaskRef) (stateMap : StateMap) :
    Except AssertFailure (BitmaskRef × StateMap) :=
  let target := stateMap.index x.state
  match Bitmask.writeInteger BitmaskRef.write out target.1 with
  | .ok out => .ok (out, target.2)
  | .error e => .error e

/-- The variables of `writeState` that its first loop changes: `out`,
`stateMap`, the array `exprs` and the counter `comp`. -/
structure DecisionTree.Breakdown where
  out : BitmaskRef
  stateMap : StateMap
  exprs : List (Option LogicExpression)
  comp : Nat

/-- Source: the block under `if (comp != nStaticComponents)` in the first
loop of `DecisionTree::writeState`, for the transition `x`. -/
def DecisionTree.writeJump (stew : STEW) (vs : VirtualState)
    (s : DecisionTree.Breakdown) (x : StateTransition) :
    Except AssertFailure DecisionTree.Breakdown :=
  let stew_jmp := stew.slice .JMP s.comp
  if stew_jmp.type = .NIL then .error .missingField
  else
    let slice_jmp := BitmaskSlice.create s.out stew_jmp.offset stew_jmp.size
    match
      (if s.stateMap.find x.state = none then
        if x.state = vs.index then
          (.ok (s.stateMap.assign vs.index x.state) : Except AssertFailure StateMap)
        else .error .undefinedJump
      else .ok s.stateMap) with
    | .error e => .error e
    | .ok stateMap =>
      match x.writeState (slice_jmp.on s.out) stateMap with
      | .error e => .error e
      | .ok r =>
        .ok { s with out := r.1.source, stateMap := r.2,
                     exprs := s.exprs.set s.comp (some x.expr) }

/-- Source: the body of the first loop of `DecisionTree::writeState`, for
the transition `x`. The slice for the output is made before the jump is
written, and written to after it. -/
def DecisionTree.writeTransition (dt : DecisionTree) (stew : STEW) (vs : VirtualState)
    (s : DecisionTree.Breakdown) (x : StateTransition) :
    Except AssertFailure DecisionTree.Breakdown :=
  let stew_out := stew.slice .OUT s.comp
  if stew_out.type = .NIL then .error .missingField
  else
    let slice_out := BitmaskSlice.create s.out stew_out.offset stew_out.size
    match
      (if s.comp ≠ dt.nStaticComponents then DecisionTree.writeJump stew vs s x
      else .ok s) with
    | .error e => .error e
    | .ok s =>
      match x.writeOutput (slice_out.on s.out) with
      | .error e => .error e
      | .ok sl => .ok { s with out := sl.source, comp := s.comp + 1 }

/-- Source: the first loop of `DecisionTree::writeState`, with the loop
that sets `exprs` to null before it. -/
def DecisionTree.writeTransitions (dt : DecisionTree) (out : BitmaskRef) (stew : STEW)
    (vs : VirtualState) (stateMap : StateMap) : Except AssertFailure DecisionTree.Breakdown :=
  forEachE (dt.writeTransition stew vs) vs.transitions
    { out := out, stateMap := stateMap,
      exprs := List.replicate (dt.nStaticComponents + dt.nConditionalComponents) none,
      comp := 0 }

/-- Source: the block `if (vs.partial)` of `DecisionTree::writeState`; the
result is `out` after it. -/
def DecisionTree.writePartial (stew : STEW) (vs : VirtualState) (out : BitmaskRef)
    (comp : Nat) : Except AssertFailure BitmaskRef :=
  if vs.isPartial then
    let inc := stew.slice .INC 0
    let stew_out := stew.slice .OUT comp
    match ((BitmaskSlice.create out stew_out.offset stew_out.size).on out).copy
        vs.partialOutput.toAbstractBufferBitmask with
    | .error e => .error e
    | .ok sl => sl.source.set inc.offset
  else .ok out

/-- Source: the loop over `vs.conditionalOutputs` of
`DecisionTree::writeState`; the result is the array `exprs` after it. -/
def DecisionTree.assignConditional (dt : DecisionTree) (vs : VirtualState)
    (exprs : List (Option LogicExpression)) : List (Option LogicExpression) :=
  vs.conditionalOutputs.foldl
    (fun exprs outp => exprs.set (dt.nStaticComponents + outp.output) (some outp.expr)) exprs

/-- The arrays that the loop over the components of `writeState` fills:
`inputReqCount`, `inputReq` and `compMapping`. -/
structure DecisionTree.Requirements where
  inputReqCount : List Nat
  inputReq : List DynamicBitmask
  compMapping : List Nat

/-- Source: the loop `for (bit = 0; bit < c->inputSize; ++bit)
req.set(bit + offset)` of `DecisionTree::writeState`. -/
def LUT.setInputs (c : LUT) (req : DynamicBitmask) : DynamicBitmask :=
  forLoop (fun _ bit => decide (bit < c.inputSize)) (fun _ bit => bit + 1)
    (fun (req : DynamicBitmask) bit => req.set (bit + c.inputOffset)) c.inputSize req 0

/-- Source: the loop `for (ibit = 0; ibit < c->inputSize; ++ibit)
req.clear(c->inputOffset + ibit)` of `DecisionTree::writeState`. -/
def LUT.clearInputs (c : LUT) (req : DynamicBitmask) : DynamicBitmask :=
  forLoop (fun _ ibit => decide (ibit < c.inputSize)) (fun _ ibit => ibit + 1)
    (fun (req : DynamicBitmask) ibit => req.clear (c.inputOffset + ibit)) c.inputSize req 0

/-- Source: the body of the loop "collect necessary inputs for each
expression, per input" of `DecisionTree::writeState`, for the component
`comp`. -/
def DecisionTree.collectRequirement (dt : DecisionTree)
    (exprs : List (Option LogicExpression)) (s : DecisionTree.Requirements) (comp : Nat) :
    Except AssertFailure DecisionTree.Requirements :=
  let c := dt.components.getD comp ⟨0, 0⟩
  let bitmask :=
    match exprs.getD comp none with
    | some e => e.collectInputs DynamicBitmask.empty
    | none => DynamicBitmask.empty
  if bitmask.count ≤ c.inputSize then
    let s := forLoop (fun _ i => decide (i < bitmask.size)) (fun _ i => bitmask.fns i)
      (fun (s : DecisionTree.Requirements) i =>
        { s with
          inputReq := s.inputReq.set i (c.setInputs (s.inputReq.getD i DynamicBitmask.empty))
          inputReqCount := s.inputReqCount.set i (s.inputReqCount.getD i 0 + 1) })
      bitmask.size s bitmask.ffs
    let compMapping :=
      forLoop (fun _ bit => decide (bit < c.inputSize)) (fun _ bit => bit + 1)
        (fun (compMapping : List Nat) bit => compMapping.set (bit + c.inputOffset) comp)
        c.inputSize s.compMapping 0
    .ok { s with compMapping := compMapping }
  else .error .tooManyInputs

/-- Source: the loop "collect necessary inputs for each expression, per
input" of `DecisionTree::writeState`, with the loop that clears
`inputReqCount` before it. The entries of `compMapping` outside every
component are not initialised in the source and are 0 here. -/
def DecisionTree.collectRequirements (dt : DecisionTree)
    (exprs : List (Option LogicExpression)) : Except AssertFailure DecisionTree.Requirements :=
  forLoopE
    (fun _ comp => decide (comp < dt.nStaticComponents + dt.nConditionalComponents))
    (fun _ comp => comp + 1) (dt.collectRequirement exprs)
    (dt.nStaticComponents + dt.nConditionalComponents)
    { inputReqCount := List.replicate dt.nInputs 0
      inputReq := List.replicate dt.nInputs DynamicBitmask.empty
      compMapping := List.replicate dt.nVirtualInputs 0 } 0

/-- The variables of `writeState` that the allocation changes:
`inputReqCount`, `inputReq`, `wireMapping` and `used`. The member `rounds`
is not in the source: it records, for every call of `bestFit` that
returned, the system input `i` and the list `which`. -/
structure DecisionTree.Allocation where
  inputReqCount : List Nat
  inputReq : List DynamicBitmask
  wireMapping : List Nat
  used : DynamicBitmask
  rounds : List (Nat × List Nat)

/-- Source: the body of the loop `for (unsigned int bit : which)` of
`DecisionTree::writeState`, for the system input `i`. -/
def DecisionTree.allocateBit (dt : DecisionTree) (compMapping : List Nat) (i : Nat)
    (s : DecisionTree.Allocation) (bit : Nat) : DecisionTree.Allocation :=
  let c := dt.components.getD (compMapping.getD bit 0) ⟨0, 0⟩
  let req := s.inputReq.getD i DynamicBitmask.empty
  let count := s.inputReqCount.getD i 0
  let count := if req.get bit then u32sub count 1 else count
  { s with
    inputReqCount := s.inputReqCount.set i count
    inputReq := s.inputReq.set i (c.clearInputs req)
    wireMapping := s.wireMapping.set bit i
    used := s.used.set bit }

/-- Source: the mask that a round of the allocation passes to `bestFit`:
the copy of `req` with the bits of `used` cleared. -/
def DecisionTree.demandMask (req used : DynamicBitmask) : DynamicBitmask :=
  forLoop (fun _ bit => decide (bit < used.size)) (fun _ bit => used.fns bit)
    (fun (mask : DynamicBitmask) bit => mask.clear bit) used.size
    (DynamicBitmask.ofBitmask req.toAbstractBufferBitmask) used.ffs

/-- Source: the body of the loop `while (count > 0)` of
`DecisionTree::writeState`, for the system input `i`. -/
def DecisionTree.allocateRound (dt : DecisionTree) (compMapping : List Nat) (i : Nat)
    (s : DecisionTree.Allocation) : Except AssertFailure DecisionTree.Allocation :=
  let mask := DecisionTree.demandMask (s.inputReq.getD i DynamicBitmask.empty) s.used
  match dt.wires.bestFit mask.toAbstractBufferBitmask (s.inputReqCount.getD i 0) [] with
  | .error e => .error e
  | .ok which =>
    let s := which.foldl (dt.allocateBit compMapping i) s
    .ok { s with rounds := s.rounds ++ [(i, which)] }

/-- Source: the loop `while (count > 0)` of `DecisionTree::writeState`, for
the system input `i`. The first argument is the fuel; a round that returns
takes at least one from `count`, so that the value of `count` before the
loop is enough fuel. -/
def DecisionTree.allocateInput (dt : DecisionTree) (compMapping : List Nat) (i : Nat) :
    Nat → DecisionTree.Allocation → Except AssertFailure DecisionTree.Allocation
  | 0, s => if s.inputReqCount.getD i 0 > 0 then .error .outOfFuel else .ok s
  | fuel + 1, s =>
    if s.inputReqCount.getD i 0 > 0 then
      match dt.allocateRound compMapping i s with
      | .error e => .error e
      | .ok s => DecisionTree.allocateInput dt compMapping i fuel s
    else .ok s

/-- Source: the loop "map each system input to virtual component input" of
`DecisionTree::writeState`, with the declaration of `used` and the loop
that clears `wireMapping` before it. -/
def DecisionTree.allocate (dt : DecisionTree) (req : DecisionTree.Requirements) :
    Except AssertFailure DecisionTree.Allocation :=
  forLoopE (fun _ i => decide (i < dt.nInputs)) (fun _ i => i + 1)
    (fun (s : DecisionTree.Allocation) i =>
      dt.allocateInput req.compMapping i (s.inputReqCount.getD i 0) s)
    dt.nInputs
    { inputReqCount := req.inputReqCount
      inputReq := req.inputReq
      wireMapping := List.replicate dt.nVirtualInputs 0
      used := DynamicBitmask.empty
      rounds := [] } 0

/-- The expression that `writeState` passes to the component `comp`: its
entry of `exprs`, and for a null entry `LogicTrueExpression` on a static
component and `LogicFalseExpression` on a conditional one. -/
def DecisionTree.componentExpr (dt : DecisionTree) (exprs : List (Option LogicExpression))
    (comp : Nat) : LogicExpression :=
  match exprs.getD comp none with
  | some e => e
  | none => if comp < dt.nStaticComponents then .logicTrue else .logicFalse

/-- Source: the body of the loop "write component conditional
configuration" of `DecisionTree::writeState`, for the component `comp`. -/
def DecisionTree.writeComponent (dt : DecisionTree) (stew : STEW)
    (exprs : List (Option LogicExpression)) (wireMapping : List Nat) (out : BitmaskRef)
    (comp : Nat) : Except AssertFailure BitmaskRef :=
  let c := dt.components.getD comp ⟨0, 0⟩
  let sgrp := BitGroup.slice (.mapped wireMapping) c.inputOffset c.inputSize
  let stewi := stew.slice .CFG comp
  let slice := BitmaskSlice.create out stewi.offset stewi.size
  match c.write (slice.on out) sgrp (dt.componentExpr exprs comp) with
  | .ok sl => .ok sl.source
  | .error e => .error e

/-- Source: the loop "write component conditional configuration" of
`DecisionTree::writeState`. -/
def DecisionTree.writeComponents (dt : DecisionTree) (stew : STEW)
    (exprs : List (Option LogicExpression)) (wireMapping : List Nat) (out : BitmaskRef) :
    Except AssertFailure BitmaskRef :=
  forLoopE
    (fun _ comp => decide (comp < dt.nStaticComponents + dt.nConditionalComponents))
    (fun _ comp => comp + 1) (dt.writeComponent stew exprs wireMapping)
    (dt.nStaticComponents + dt.nConditionalComponents) out 0

/-- What `writeState` leaves: `out` and `stateMap` on return, and the values
that its arrays `exprs` and `wireMapping` had, with the record of the
rounds of the allocation. -/
structure DecisionTree.Written where
  out : BitmaskRef
  stateMap : StateMap
  exprs : List (Option LogicExpression)
  wireMapping : List Nat
  rounds : List (Nat × List Nat)

/-- Source: `DecisionTree::writeState`, with its local arrays in the
result. -/
def DecisionTree.writeStateFull (dt : DecisionTree) (out : BitmaskRef) (stew : STEW)
    (vs : VirtualState) (stateMap : StateMap) (uninit : List Nat) :
    Except AssertFailure DecisionTree.Written :=
  match dt.writeTransitions out stew vs stateMap with
  | .error e => .error e
  | .ok s =>
    match DecisionTree.writePartial stew vs s.out s.comp with
    | .error e => .error e
    | .ok out =>
      match dt.collectRequirements (dt.assignConditional vs s.exprs) with
      | .error e => .error e
      | .ok req =>
        match dt.allocate req with
        | .error e => .error e
        | .ok alloc =>
          match dt.writeComponents stew (dt.assignConditional vs s.exprs)
              alloc.wireMapping out with
          | .error e => .error e
          | .ok out =>
            match dt.wires.write out stew alloc.wireMapping uninit with
            | .error e => .error e
            | .ok out =>
              .ok { out := out, stateMap := s.stateMap
                    exprs := dt.assignConditional vs s.exprs
                    wireMapping := alloc.wireMapping, rounds := alloc.rounds }

/-- Source: `DecisionTree::writeState`; the result is the pair of `out` and
`stateMap` on return. -/
def DecisionTree.writeState (dt : DecisionTree) (out : BitmaskRef) (stew : STEW)
    (vs : VirtualState) (stateMap : StateMap) (uninit : List Nat) :
    Except AssertFailure (BitmaskRef × StateMap) :=
  match dt.writeStateFull out stew vs stateMap uninit with
  | .ok w => .ok (w.out, w.stateMap)
  | .error e => .error e

/-! ## A small configuration and state, for the instances -/

/-- Two static 4-input lookup tables over an 8-bit system input, one mux of
3 bits for every virtual input and no shared mux. -/
def Example.config : DecisionTree.Config :=
  { wires := { muxes := { nBits := 3, nMux := 8 }, nVirtualOutput := 8, mappings := [] }
    staticComponents := [{ inputSize := 4, inputOffset := 0 }, { inputSize := 4, inputOffset := 4 }]
    condComponents := [] }

/-- A word layout for `Example.config`: the INC bit, 8 muxes of 3 bits, two
JMP fields of 4 bits, three OUT fields of 3 bits and two CFG fields of 16
bits, in a word of 74 bits. -/
def Example.stew : STEW :=
  { count := 4, size := 74
    items := [⟨.INC, 0, 1⟩, ⟨.MUX, 1, 24⟩, ⟨.JMP, 25, 4⟩, ⟨.JMP, 29, 4⟩, ⟨.OUT, 33, 3⟩,
      ⟨.OUT, 36, 3⟩, ⟨.OUT, 39, 3⟩, ⟨.CFG, 42, 16⟩, ⟨.CFG, 58, 16⟩] }

/-- The decision tree of `Example.config`. -/
def Example.tree : DecisionTree := DecisionTree.create Example.config

/-- The output vector with the bits of the list set. -/
def Example.output (bits : List Nat) : DynamicBitmask :=
  bits.foldl (fun (o : DynamicBitmask) b => o.set b) DynamicBitmask.empty

/-- The guard `I0 && I5`. -/
def Example.guard0 : LogicExpression :=
  .logicAnd (.reduceOr (.identifier [0])) (.reduceOr (.identifier [5]))

/-- The guard `{I2, I1} == {I7, I6}`. -/
def Example.guard1 : LogicExpression :=
  .equality (.identifier [1, 2]) (.identifier [6, 7])

/-- The guard `!(^{I4, I3})`. -/
def Example.guard2 : LogicExpression :=
  .logicNot (.reduceXor (.identifier [3, 4]))

/-- State 0 with three guarded transitions and the implicit else, which
stays in state 0. -/
def Example.state : VirtualState :=
  { VirtualState.create 0 with
    transitions :=
      [StateTransition.create (Example.output [0]) (some Example.guard0) 1,
       StateTransition.create (Example.output [0, 1]) (some Example.guard1) 2,
       StateTransition.create (Example.output [1, 2]) (some Example.guard2) 1,
       StateTransition.create (Example.output [1]) none 0] }

/-- State 0 with two guarded transitions and the implicit else, which stays
in state 0. -/
def Example.shortState : VirtualState :=
  { VirtualState.create 0 with
    transitions :=
      [StateTransition.create (Example.output [0]) (some Example.guard0) 1,
       StateTransition.create (Example.output [0, 1]) (some Example.guard1) 2,
       StateTransition.create (Example.output [1]) none 0] }

end Prism

namespace Prism

/-! ## The fields of a state word -/

/-- The OUT field of the position `k` overlaps neither the OUT field nor
the JMP field of the position `k2`, and their JMP fields do not overlap;
the JMP field of the position `nStaticComponents` does not count. -/
def DecisionTree.FieldsApartAt (dt : DecisionTree) (stew : STEW) (k k2 : Nat) : Prop :=
  (k ≠ k2 → (stew.slice .OUT k).disjoint (stew.slice .OUT k2)) ∧
  (k2 ≠ dt.nStaticComponents → (stew.slice .OUT k).disjoint (stew.slice .JMP k2)) ∧
  (k ≠ k2 → k ≠ dt.nStaticComponents → k2 ≠ dt.nStaticComponents →
    (stew.slice .JMP k).disjoint (stew.slice .JMP k2))

instance (dt : DecisionTree) (stew : STEW) (k k2 : Nat) :
    Decidable (dt.FieldsApartAt stew k k2) := by
  unfold DecisionTree.FieldsApartAt; exact inferInstance

/-- The OUT fields of the positions below `n`, and the JMP fields of those
other than `nStaticComponents`, lie inside a word of `size` bits and no two
of them overlap. -/
def DecisionTree.FieldsApart (dt : DecisionTree) (stew : STEW) (n size : Nat) : Prop :=
  ∀ k, k < n →
    (stew.slice .OUT k).offset + (stew.slice .OUT k).size ≤ size ∧
    (k ≠ dt.nStaticComponents →
      (stew.slice .JMP k).offset + (stew.slice .JMP k).size ≤ size) ∧
    ∀ k2, k2 < n → dt.FieldsApartAt stew k k2

instance (dt : DecisionTree) (stew : STEW) (n size : Nat) :
    Decidable (dt.FieldsApart stew n size) := by
  unfold DecisionTree.FieldsApart; exact inferInstance

/-- What the first loop of `writeState` has done for the transition `x` at
the position `k`, in the variables `s`, on a word that was `out` at first:
the OUT field of `k` holds the output of `x`; when `k` is not
`nStaticComponents`, the JMP field of `k` holds the low 64 bits of the
target that `stateMap` gives for the state of `x`, up to the last set bit,
and is as it was above it, and `exprs[k]` is the guard of `x`. -/
def DecisionTree.TransitionWritten (dt : DecisionTree) (stew : STEW) (out : BitmaskRef)
    (s : DecisionTree.Breakdown) (k : Nat) (x : StateTransition) : Prop :=
  (stew.slice .OUT k).type ≠ .NIL ∧
  (∀ i, i < (stew.slice .OUT k).size →
    s.out.get ((stew.slice .OUT k).offset + i) = x.output.get i) ∧
  (k ≠ dt.nStaticComponents →
    (stew.slice .JMP k).type ≠ .NIL ∧
    (∃ target, s.stateMap.find x.state = some target ∧
      (∀ i, (target % 2 ^ 64) >>> i ≠ 0 → i < (stew.slice .JMP k).size ∧
        s.out.get ((stew.slice .JMP k).offset + i) = (target % 2 ^ 64).testBit i) ∧
      ∀ i, i < (stew.slice .JMP k).size → (target % 2 ^ 64) >>> i = 0 →
        s.out.get ((stew.slice .JMP k).offset + i) =
          out.get ((stew.slice .JMP k).offset + i)) ∧
    (k < dt.nStaticComponents + dt.nConditionalComponents →
      s.exprs.getD k none = some x.expr))

/-! ## The components and their pins -/

/-- The component `components[c]`. -/
def DecisionTree.comp (dt : DecisionTree) (c : Nat) : LUT := dt.components.getD c ⟨0, 0⟩

/-- The virtual input `p` is one of the pins of the component:
`inputOffset <= p < inputOffset + inputSize`. -/
def LUT.hasPin (c : LUT) (p : Nat) : Prop :=
  c.inputOffset ≤ p ∧ p < c.inputOffset + c.inputSize

instance (c : LUT) (p : Nat) : Decidable (c.hasPin p) := by
  unfold LUT.hasPin; exact inferInstance

/-- The expression that the array `exprs` gives to the component `c` reads
the system input `i`; a null entry reads nothing. -/
def DecisionTree.compReads (exprs : List (Option LogicExpression)) (c i : Nat) : Bool :=
  match exprs.getD c none with
  | some e => e.readsInput i
  | none => false

/-- What the arrays of a decision tree must satisfy for `writeState` to stay
inside them: the wire map has one virtual output for every virtual input,
the number of components fits an `unsigned int`, a component has fewer than
32 pins (the counter of `LUT::write`, an `unsigned int`, then reaches
`1ul << inputSize`), and the pins of the components are below
`nVirtualInputs`, belong to one component each, and are all the virtual
inputs. -/
structure DecisionTree.WellFormed (dt : DecisionTree) : Prop where
  wires_eq : dt.wires.nVirtualOutput = dt.nVirtualInputs
  count_lt : dt.nStaticComponents + dt.nConditionalComponents < 2 ^ 32
  pins_small : ∀ c, c < dt.nStaticComponents + dt.nConditionalComponents →
    (dt.comp c).inputSize < 32
  pins_le : ∀ c, c < dt.nStaticComponents + dt.nConditionalComponents →
    (dt.comp c).inputOffset + (dt.comp c).inputSize ≤ dt.nVirtualInputs
  pins_apart : ∀ c, c < dt.nStaticComponents + dt.nConditionalComponents →
    ∀ c2, c2 < dt.nStaticComponents + dt.nConditionalComponents → c ≠ c2 →
      (dt.comp c).inputOffset + (dt.comp c).inputSize ≤ (dt.comp c2).inputOffset ∨
      (dt.comp c2).inputOffset + (dt.comp c2).inputSize ≤ (dt.comp c).inputOffset
  pins_cover : ∀ v, v < dt.nVirtualInputs →
    ∃ c, c < dt.nStaticComponents + dt.nConditionalComponents ∧ (dt.comp c).hasPin v

/-- The field of the word that `WireMap::write` writes: the `nMux` fields of
`nBits` bits from the offset of the MUX item on. -/
def DecisionTree.muxField (dt : DecisionTree) (stew : STEW) : STEW.Item :=
  { type := .MUX, offset := (stew.slice .MUX 0).offset
    size := dt.wires.muxes.nMux * dt.wires.muxes.nBits }

/-- The CFG fields of the components overlap neither one another nor the
field of the muxes. -/
def DecisionTree.TablesApart (dt : DecisionTree) (stew : STEW) : Prop :=
  ∀ c, c < dt.nStaticComponents + dt.nConditionalComponents →
    (stew.slice .CFG c).disjoint (dt.muxField stew) ∧
    ∀ c2, c2 < dt.nStaticComponents + dt.nConditionalComponents → c ≠ c2 →
      (stew.slice .CFG c).disjoint (stew.slice .CFG c2)

instance (dt : DecisionTree) (stew : STEW) : Decidable (dt.TablesApart stew) := by
  unfold DecisionTree.TablesApart; exact inferInstance

/-- What holds of the arrays of the requests after the loop of `writeState`
over the components has done the components below `b`: the request of the
system input `i` holds the pins of the components whose expression reads
`i`, `inputReqCount[i]` counts these components, `compMapping` sends the
pins of a component to it, and a component whose expression reads an input
has a pin. -/
def DecisionTree.ReqInv (dt : DecisionTree) (exprs : List (Option LogicExpression))
    (s : DecisionTree.Requirements) (b : Nat) : Prop :=
  s.inputReq.length = dt.nInputs ∧ s.inputReqCount.length = dt.nInputs ∧
  s.compMapping.length = dt.nVirtualInputs ∧
  (∀ i, (s.inputReq.getD i DynamicBitmask.empty).Valid ∧
    ∀ p, (s.inputReq.getD i DynamicBitmask.empty).get p = true ↔
      ∃ c, c < b ∧ DecisionTree.compReads exprs c i = true ∧ (dt.comp c).hasPin p) ∧
  (∀ i, s.inputReqCount.getD i 0
    = ((List.range b).filter (fun c => DecisionTree.compReads exprs c i)).length) ∧
  (∀ c, c < b → ∀ p, (dt.comp c).hasPin p → s.compMapping.getD p 0 = c) ∧
  ∀ c, c < b → ∀ i, DecisionTree.compReads exprs c i = true → 0 < (dt.comp c).inputSize

/-! ## The allocation of the muxes -/

/-- The virtual inputs that the physical input (mux) `m` feeds, in ascending
order: the list that `bestFit` returns when it selects `m`. -/
def WireMap.outputsOf (wm : WireMap) (m : Nat) : List Nat :=
  (List.range wm.nVirtualOutput).filter (fun i => decide (wm.fullMap.getD i 0 = m))

/-- What holds of the variables of the allocation between two rounds, with
`muxes` the physical inputs selected so far, in the order of the rounds:
the masks are valid and hold pins below `nVirtualOutput` only; no mux was
selected twice; every round took all the pins of its mux, at least one;
`used` holds the pins of the selected muxes; the pins of a round are wired
to the system input of the round, and the other pins to 0. -/
def DecisionTree.AllocInv (dt : DecisionTree) (s : DecisionTree.Allocation)
    (muxes : List Nat) : Prop :=
  s.used.Valid ∧
  (∀ k, (s.inputReq.getD k DynamicBitmask.empty).Valid ∧
    ∀ p, (s.inputReq.getD k DynamicBitmask.empty).get p = true →
      p < dt.wires.nVirtualOutput) ∧
  s.wireMapping.length = dt.nVirtualInputs ∧
  muxes.Nodup ∧ (∀ m ∈ muxes, m < dt.wires.nInput) ∧
  s.rounds.map Prod.snd = muxes.map dt.wires.outputsOf ∧
  (∀ r ∈ s.rounds, r.2 ≠ []) ∧
  (∀ v, s.used.get v = true ↔
    v < dt.wires.nVirtualOutput ∧ dt.wires.fullMap.getD v 0 ∈ muxes) ∧
  (∀ r ∈ s.rounds, ∀ v ∈ r.2, s.wireMapping.getD v 0 = r.1) ∧
  ∀ v, s.used.get v = false → s.wireMapping.getD v 0 = 0

/-- What holds of the requests between two steps of the allocation: for
every system input `i`, the request holds all the pins of a component or
none, and pins of components that read `i` only; `inputReqCount[i]` counts
the components that read `i` and are still in the request; and a component
that reads `i` and is no longer in the request has a pin that is marked
used and wired to `i`. -/
def DecisionTree.CoverInv (dt : DecisionTree) (exprs : List (Option LogicExpression))
    (s : DecisionTree.Allocation) : Prop :=
  s.inputReq.length = dt.nInputs ∧ s.inputReqCount.length = dt.nInputs ∧
  ∀ i, i < dt.nInputs →
    (∀ c, c < dt.nStaticComponents + dt.nConditionalComponents → ∀ p, (dt.comp c).hasPin p →
      (s.inputReq.getD i DynamicBitmask.empty).get p
        = (s.inputReq.getD i DynamicBitmask.empty).get (dt.comp c).inputOffset) ∧
    (∀ p, (s.inputReq.getD i DynamicBitmask.empty).get p = true →
      ∃ c, c < dt.nStaticComponents + dt.nConditionalComponents ∧ (dt.comp c).hasPin p ∧
        DecisionTree.compReads exprs c i = true) ∧
    s.inputReqCount.getD i 0
      = ((List.range (dt.nStaticComponents + dt.nConditionalComponents)).filter (fun c =>
          DecisionTree.compReads exprs c i
            && (s.inputReq.getD i DynamicBitmask.empty).get (dt.comp c).inputOffset)).length ∧
    ∀ c, c < dt.nStaticComponents + dt.nConditionalComponents →
      DecisionTree.compReads exprs c i = true →
      (s.inputReq.getD i DynamicBitmask.empty).get (dt.comp c).inputOffset = false →
      ∃ j, j < (dt.comp c).inputSize ∧
        s.wireMapping.getD ((dt.comp c).inputOffset + j) 0 = i ∧
        s.used.get ((dt.comp c).inputOffset + j) = true

/-! ## config.cc: the built-in configuration -/

/-- Source: `PrismConfig::fallback`, the decision tree of the built-in
configuration "LUT4+LUT4": two static tables of 4 pins and three conditional
tables of 2 pins, on the wire map `WireMap.Config.fallback`, where the muxes
0, 1, 2, 5 and 6 feed two pins and the mux 3 feeds three. -/
def DecisionTree.Config.fallback : DecisionTree.Config :=
  { wires := WireMap.Config.fallback
    staticComponents := [⟨4, 0⟩, ⟨4, 4⟩]
    condComponents := [⟨2, 8⟩, ⟨2, 10⟩, ⟨2, 12⟩] }

/-- Source: `PrismConfig::fallback`, the layout of the word of the built-in
configuration. -/
def STEW.fallback : STEW :=
  { count := 48, size := 168
    items := [⟨.INC, 0, 1⟩, ⟨.MUX, 1, 28⟩, ⟨.JMP, 29, 6⟩, ⟨.JMP, 35, 6⟩, ⟨.OUT, 65, 24⟩,
      ⟨.OUT, 89, 24⟩, ⟨.OUT, 41, 24⟩, ⟨.CFG, 121, 16⟩, ⟨.CFG, 137, 16⟩, ⟨.CFG, 153, 4⟩,
      ⟨.CFG, 157, 4⟩, ⟨.CFG, 161, 4⟩] }

/-- The decision tree of the built-in configuration. -/
def DecisionTree.fallback : DecisionTree := DecisionTree.create DecisionTree.Config.fallback

/-- State 0 with two guarded transitions and the implicit else, and two
conditional outputs, for the built-in configuration. -/
def Example.sharedState : VirtualState :=
  { VirtualState.create 0 with
    transitions :=
      [StateTransition.create (Example.output [0]) (some Example.guard0) 1,
       StateTransition.create (Example.output [0, 1]) (some Example.guard2) 2,
       StateTransition.create (Example.output [1]) none 0]
    conditionalOutputs := [⟨0, Example.guard0⟩, ⟨2, Example.guard2⟩] }

/-- State 0 with the implicit else only, which goes to state 1. -/
def Example.single : VirtualState :=
  { VirtualState.create 0 with
    transitions := [StateTransition.create (Example.output [0]) none 1] }

/-- The words that `splitState` makes of the state of the example. -/
def Example.words : List VirtualState :=
  ((Example.tree.splitState [] Example.state []).getD ([], [])).1

/-- A map of the states 0, 1 and 2 to the words 0, 2 and 3. -/
def Example.stateMap : StateMap := [(2, 3), (1, 2), (0, 0)]

/-- The word `index` of a table of 4 words of 74 bits, as `writeStates`
passes it to `writeState`: the slice at `(4 - index - 1) * 74`. -/
def Example.word (index : Nat) : BitmaskRef :=
  (BitmaskSlice.create (.buffer (BufferBitmask.ofSize (4 * 74))) ((4 - index - 1) * 74) 74).on
    (.buffer (BufferBitmask.ofSize (4 * 74)))

end Prism

namespace Prism

/-! ## bitmask.h: `IntegerBitmask`, `MappedBitmask`, `ffs` and `fns` of a slice -/

/-- Source: `class IntegerBitmask`: a buffer bitmask on the one word
`value`. -/
structure IntegerBitmask extends AbstractBufferBitmask where
  deriving DecidableEq

namespace IntegerBitmask

/-- Source: the constructor `IntegerBitmask(v, nbits_)`. -/
def create (v nbits_ : Nat) : IntegerBitmask := { nbits := nbits_, bits := [v] }

/-- Source: `IntegerBitmask::resize`; `none` is the failed assertion. -/
def resize (v : IntegerBitmask) (count : Nat) : Option IntegerBitmask :=
  if count ≤ v.nbits then some v else none

/-- Source: `AbstractBufferBitmask::set`, with `IntegerBitmask::resize`. -/
def set (v : IntegerBitmask) (bit : Nat) : Option IntegerBitmask :=
  (v.resize (bit + 1)).map fun v =>
    { v with toAbstractBufferBitmask := v.toAbstractBufferBitmask.orBit bit }

/-- Source: `AbstractBufferBitmask::clear`, with `IntegerBitmask::resize`. -/
def clear (v : IntegerBitmask) (bit : Nat) : Option IntegerBitmask :=
  (v.resize (bit + 1)).map fun v =>
    { v with toAbstractBufferBitmask := v.toAbstractBufferBitmask.andNotBit bit }

end IntegerBitmask

/-- Source: `MappedBitmask::size`, for the mapped bitmask of `group` over
`source`. -/
def MappedBitmask.size (group : BitGroup) (source : BitmaskRef) : Nat :=
  let ssz := source.size
  let gsz := group.size
  if ssz < gsz then ssz else gsz

/-- Source: `MappedBitmask::get`: the index goes through `group.map`, with
the assertion of the group. -/
def MappedBitmask.get (group : BitGroup) (source : BitmaskRef) (bit : Nat) :
    Except AssertFailure Bool :=
  match group.map bit with
  | .ok idx => .ok (source.get idx)
  | .error e => .error e

namespace BitmaskRef

/-- Source: the virtual `fns(cbit)`; for a slice `BitmaskSlice::fns`, where
the difference is one of `unsigned int`. -/
def fns : BitmaskRef → Nat → Nat
  | .dynamic d, cbit => d.fns cbit
  | .buffer b, cbit => b.fns cbit
  | .slice source offset nbits, cbit =>
    let ret := u32sub (source.fns (cbit + offset)) offset
    if ret > nbits then nbits else ret

/-- Source: the virtual `ffs()`; for a slice `BitmaskSlice::ffs`. -/
def ffs : BitmaskRef → Nat
  | .dynamic d => d.ffs
  | .buffer b => b.ffs
  | .slice source offset nbits =>
    if offset = 0 then source.ffs
    else
      let ret := u32sub (source.fns (offset - 1)) offset
      if ret > nbits then nbits else ret

end BitmaskRef

/-! ## filepos.h, assert.h -/

/-- Source: `struct FilePos`. -/
structure FilePos where
  filename : String
  lineno : Nat
  deriving DecidableEq

/-- Source: the constructor `FilePos()`. -/
def FilePos.empty : FilePos := { filename := "", lineno := 0 }

/-- Source: `class Assertion`, as the diagram builder and `writeStates` throw
it: the message, and for a duplicate state the position. -/
inductive Assertion where
  /-- "Duplicate case for state N", with the position given to
  `splitStateCase`. -/
  | duplicateState (state : Nat) (pos : FilePos)
  /-- "Too many states for STEW configuration" -/
  | tooManyStates
  /-- An assertion that fails inside `DecisionTree::writeState`. -/
  | inWriteState (e : AssertFailure)
  /-- Not an assertion: the source goes through a null pointer (`parent` in
  `switchSplit` and `join`, `defaultState` in `writeStates`). -/
  | nullPointer
  /-- Not an assertion: the loop of `splitState` does not end. -/
  | noReturn
  deriving DecidableEq

/-! ## parse_context.h, parse_context.cc: the diagram -/

/-- Source: `AbstractBufferBitmask::equals`. -/
def AbstractBufferBitmask.equals (v other : AbstractBufferBitmask) : Bool :=
  let swap := decide (BITMASK_NLONGS other.nbits < BITMASK_NLONGS v.nbits)
  let small := if swap then other else v
  let large := if swap then v else other
  (List.range (BITMASK_NLONGS small.nbits)).all (fun i => small.word i == large.word i) &&
  (List.range' (BITMASK_NLONGS small.nbits)
    (BITMASK_NLONGS large.nbits - BITMASK_NLONGS small.nbits)).all (fun i => large.word i == 0)

namespace Node

/-- Source: `Branch::clone` and `Leaf::clone`; the copy of a leaf has the
output `DynamicBitmask(leaf.output)`. -/
def clone : Node → Node
  | .branch expr t f => .branch expr.cloneLogic t.clone f.clone
  | .leaf output targetState =>
    .leaf (DynamicBitmask.ofBitmask output.toAbstractBufferBitmask) targetState

/-- Source: `Branch::setTargetState` and `Leaf::setTargetState`. -/
def setTargetState : Node → Nat → Node
  | .branch expr t f, state => .branch expr (t.setTargetState state) (f.setTargetState state)
  | .leaf output _, state => .leaf output state

/-- Source: `Branch::assign` and `Leaf::assign`. -/
def assign : Node → Nat → Bool → Node
  | .branch expr t f, bit, value => .branch expr (t.assign bit value) (f.assign bit value)
  | .leaf output targetState, bit, value => .leaf (output.write bit value) targetState

/-- Source: `Branch::equals` and `Leaf::equals`. -/
def equals : Node → Node → Bool
  | .branch _ t f, .branch _ t2 f2 => if !t.equals t2 then false else f.equals f2
  | .branch _ _ _, .leaf _ _ => false
  | .leaf output targetState, .leaf output2 targetState2 =>
    if targetState ≠ targetState2 then false
    else output.toAbstractBufferBitmask.equals output2.toAbstractBufferBitmask
  | .leaf _ _, .branch _ _ _ => false

end Node

/-- Source: `ParseContextTree::CState`, the pair of the polarity and the
conditional output. -/
structure ParseContextTree.CState where
  first : Bool
  second : ConditionalOutput

/-- Source: `std::map<unsigned int, CState>`: the entries, in ascending order
of the key. -/
abbrev ParseContextTree.CondMap := List (Nat × ParseContextTree.CState)

namespace ParseContextTree.CondMap

/-- Source: `condOut.find(bit)`: the entry at `bit`, `none` for `end()`. -/
def find (m : ParseContextTree.CondMap) (bit : Nat) : Option ParseContextTree.CState :=
  m.lookup bit

/-- Source: `condOut[bit] = cs`. -/
def assign : ParseContextTree.CondMap → Nat → ParseContextTree.CState →
    ParseContextTree.CondMap
  | [], bit, cs => [(bit, cs)]
  | (k, v) :: rest, bit, cs =>
    if bit < k then (bit, cs) :: (k, v) :: rest
    else if bit = k then (bit, cs) :: rest
    else (k, v) :: assign rest bit cs

end ParseContextTree.CondMap

/-- Source: `ParseContextTree::State`. -/
structure ParseContextTree.State where
  condOut : ParseContextTree.CondMap
  state : Nat
  filepos : FilePos

namespace ParseContextTree.State

/-- Source: the constructor `State(state_, cout, pos)`, which copies every
entry of `cout` with a clone of its expression. -/
def create (state_ : Nat) (cout : ParseContextTree.CondMap) (pos : FilePos) :
    ParseContextTree.State :=
  { condOut := cout.foldl
      (fun (m : ParseContextTree.CondMap) it =>
        m.assign it.2.second.output
          { first := it.2.first
            second := { output := it.2.second.output, expr := it.2.second.expr.cloneLogic } })
      []
    state := state_
    filepos := pos }

/-- Source: `State::mergeConditionalOutput`; `expr` is what the caller hands
over, the guard of the assignment. -/
def mergeConditionalOutput (st : ParseContextTree.State) (bit : Nat) (expr : LogicExpression)
    (value : Bool) : ParseContextTree.State :=
  match st.condOut.find bit with
  | some cs =>
    if value = cs.first then
      let cout : ConditionalOutput :=
        { output := cs.second.output, expr := .logicOr cs.second.expr expr }
      { st with condOut := st.condOut.assign bit { first := cs.first, second := cout } }
    else
      let expr := LogicExpression.logicNot expr
      let cout : ConditionalOutput :=
        { output := cs.second.output, expr := .logicAnd cs.second.expr expr }
      { st with condOut := st.condOut.assign bit { first := cs.first, second := cout } }
  | none =>
    let cout : ConditionalOutput := { output := bit, expr := expr }
    { st with condOut := st.condOut.assign bit { first := value, second := cout } }

/-- Source: `State::collectConditionalOutputs`; the result is the list `out`
on return. -/
def collectConditionalOutputs (st : ParseContextTree.State) (out : List ConditionalOutput) :
    List ConditionalOutput :=
  st.condOut.foldl
    (fun out it =>
      let expr := it.2.second.expr.cloneLogic
      let expr := if !it.2.first then LogicExpression.logicNot expr else expr
      out ++ [{ output := it.2.second.output, expr := expr }])
    out

end ParseContextTree.State

/-- Source: a `Branch` on the chain `parent`, `parent->parent`, ... of the
open branches: its condition, whether `links[0]` (the true edge) is the link
to the visible side, which holds `current`, and the node at the other
link. -/
structure ParseContextTree.Scope where
  expr : LogicExpression
  onTrue : Bool
  other : Node

/-- Source: the value of the pointer `activeState`: null, the state at a
position of the list `states`, or the object `defaultState`. -/
inductive ParseContextTree.StateRef where
  | null
  | declared (index : Nat)
  | dflt
  deriving DecidableEq

/-- Source: `class ParseContextTree`. The diagram is held as the visible
node `current` and the chain of the open branches from `parent` up to the
root, each with its other link; the member `condOut` is not used by the
source and left out. -/
structure ParseContextTree where
  states : List ParseContextTree.State
  activeState : ParseContextTree.StateRef
  defaultState : Option ParseContextTree.State
  globalState : ParseContextTree.State
  current : Node
  parent : List ParseContextTree.Scope
  m_ctrlReg : Nat

/-- What a call of the builder leaves: the assertion thrown, if any, and the
object on return or when the assertion is thrown. -/
structure ParseContextTree.Result where
  thrown : Option Assertion
  ctx : ParseContextTree

namespace ParseContextTree

/-- Source: the constructor `ParseContextTree()`; `current` is `new Leaf()`,
with no output bit and the target `(unsigned int)-1`. -/
def create : ParseContextTree :=
  { states := []
    activeState := .null
    defaultState := none
    globalState := { condOut := [], state := 0, filepos := FilePos.empty }
    current := .leaf DynamicBitmask.empty UINT_MAX
    parent := []
    m_ctrlReg := 0 }

/-- The links of the innermost open branch `p` over the visible node:
`links[0]` and `links[1]`. -/
def Scope.links (p : ParseContextTree.Scope) (visible : Node) : Node × Node :=
  if p.onTrue then (visible, p.other) else (p.other, visible)

/-- Source: `ParseContextTree::switchSplit`. -/
def switchSplit (ctx : ParseContextTree) (istrue : Bool) : ParseContextTree.Result :=
  match ctx.parent with
  | [] => { thrown := some .nullPointer, ctx := ctx }
  | p :: rest =>
    let links := p.links ctx.current
    { thrown := none
      ctx := { ctx with
        current := if !istrue then links.2 else links.1
        parent := { expr := p.expr, onTrue := istrue
                    other := if !istrue then links.1 else links.2 } :: rest } }

/-- Source: `ParseContextTree::split`: the new branch holds `current` at its
true edge and a clone of it at the other, and the true side is visible. -/
def split (ctx : ParseContextTree) (expr : LogicExpression) : ParseContextTree :=
  (switchSplit
    { ctx with
      parent := { expr := expr, onTrue := true, other := ctx.current.clone } :: ctx.parent }
    true).ctx

/-- Source: `ParseContextTree::join`. -/
def join (ctx : ParseContextTree) : ParseContextTree.Result :=
  match ctx.parent with
  | [] => { thrown := some .nullPointer, ctx := ctx }
  | p :: rest =>
    let links := p.links ctx.current
    if links.1.equals links.2 then { thrown := none, ctx := { ctx with parent := rest } }
    else
      { thrown := none
        ctx := { ctx with current := .branch p.expr links.1 links.2, parent := rest } }

/-- Source: the loop "collapse conditional" of `ParseContextTree::assign`,
from the branch `parent` up to the root; the result is `expr` after it, `none`
for the null pointer. -/
def collapse : List ParseContextTree.Scope → Option LogicExpression → Option LogicExpression
  | [], expr => expr
  | p :: rest, expr =>
    match p.expr.asState with
    | some _ => collapse rest expr
    | none =>
      let cexpr := p.expr.cloneLogic
      match expr with
      | none => collapse rest (some cexpr)
      | some e => collapse rest (some (.logicAnd e cexpr))

/-- Source: the expression that `ParseContextTree::assign` hands to
`mergeConditionalOutput` for a conditional output: the result of the loop,
and `LogicTrueExpression` when it is null. -/
def guard (ctx : ParseContextTree) : LogicExpression :=
  match collapse ctx.parent none with
  | some e => e
  | none => .logicTrue

/-- Source: `ParseContextTree::assign`. -/
def assign (ctx : ParseContextTree) (bit : Nat) (value : Bool) : ParseContextTree :=
  if bit ≥ 0x10000 ∧ bit < 0x20000 then
    let expr := ctx.guard
    let bit := bit - 0x10000
    match ctx.activeState with
    | .null =>
      { ctx with
        states := ctx.states.map fun st => st.mergeConditionalOutput bit expr.cloneLogic value
        defaultState :=
          ctx.defaultState.map fun st => st.mergeConditionalOutput bit expr.cloneLogic value
        globalState := ctx.globalState.mergeConditionalOutput bit expr value }
    | .declared index =>
      { ctx with
        states := ctx.states.modify (fun st => st.mergeConditionalOutput bit expr value) index }
    | .dflt =>
      { ctx with
        defaultState := ctx.defaultState.map fun st => st.mergeConditionalOutput bit expr value }
  else if bit ≥ 0x20000 then
    { ctx with
      m_ctrlReg := ctx.m_ctrlReg ||| ((if value then 1 else 0) <<< (bit - 0x20000)) % 2 ^ 32 }
  else { ctx with current := ctx.current.assign bit value }

/-- Source: `ParseContextTree::setTargetState`. -/
def setTargetState (ctx : ParseContextTree) (state : Nat) : ParseContextTree :=
  { ctx with current := ctx.current.setTargetState state }

/-- Source: `ParseContextTree::splitStateCase`; the assertion is thrown in
the loop over `states`, before any member is changed. -/
def splitStateCase (ctx : ParseContextTree) (state : Nat) (pos : FilePos) :
    ParseContextTree.Result :=
  if ctx.states.any (fun existingState => existingState.state == state) then
    { thrown := some (.duplicateState state pos), ctx := ctx }
  else
    { thrown := none
      ctx := split
        { ctx with
          activeState := .declared ctx.states.length
          states := ctx.states ++ [ParseContextTree.State.create state ctx.globalState.condOut pos] }
        (.state state) }

/-- Source: `ParseContextTree::defaultStateCase`. -/
def defaultStateCase (ctx : ParseContextTree) (pos : FilePos) : ParseContextTree :=
  { ctx with
    defaultState := some (ParseContextTree.State.create UINT_MAX ctx.globalState.condOut pos)
    activeState := .dflt }

/-- Source: `ParseContextTree::exitStateSwitch`. -/
def exitStateSwitch (ctx : ParseContextTree) : ParseContextTree :=
  { ctx with
    defaultState :=
      match ctx.defaultState with
      | none => some (ParseContextTree.State.create UINT_MAX ctx.globalState.condOut FilePos.empty)
      | some d => some d
    activeState := .null }

end ParseContextTree

/-- A call of the builder by the front end. -/
inductive BuilderCall where
  | split (expr : LogicExpression)
  | switchSplit (istrue : Bool)
  | join
  | assign (bit : Nat) (value : Bool)
  | setTargetState (state : Nat)
  | splitStateCase (state : Nat) (pos : FilePos)
  | defaultStateCase (pos : FilePos)
  | enterStateSwitch
  | exitStateSwitch

/-- The state ids that the calls of `splitStateCase` of a history declare, in
the order of the calls. -/
def BuilderCall.declared : List BuilderCall → List Nat
  | [] => []
  | .splitStateCase state _ :: rest => state :: BuilderCall.declared rest
  | _ :: rest => BuilderCall.declared rest

namespace ParseContextTree

/-- One call of the builder. -/
def call (ctx : ParseContextTree) : BuilderCall → ParseContextTree.Result
  | .split expr => { thrown := none, ctx := ctx.split expr }
  | .switchSplit istrue => ctx.switchSplit istrue
  | .join => ctx.join
  | .assign bit value => { thrown := none, ctx := ctx.assign bit value }
  | .setTargetState state => { thrown := none, ctx := ctx.setTargetState state }
  | .splitStateCase state pos => ctx.splitStateCase state pos
  | .defaultStateCase pos => { thrown := none, ctx := ctx.defaultStateCase pos }
  | .enterStateSwitch => { thrown := none, ctx := ctx }
  | .exitStateSwitch => { thrown := none, ctx := ctx.exitStateSwitch }

/-- A history of calls of the builder, up to the first one that throws. -/
def run : ParseContextTree → List BuilderCall → ParseContextTree.Result
  | ctx, [] => { thrown := none, ctx := ctx }
  | ctx, c :: rest =>
    match (ctx.call c).thrown with
    | some a => { thrown := some a, ctx := (ctx.call c).ctx }
    | none => run (ctx.call c).ctx rest

/-- Source: the loop `for (root = current; root->parent != NULL; ...)` of
`writeStates`: the diagram from its root. -/
def root (ctx : ParseContextTree) : Node :=
  ctx.parent.foldl (fun node p => .branch p.expr (p.links node).1 (p.links node).2) ctx.current

/-- Source: the state `vstate` that the first loop of `writeStates` makes of
the declared state `st`. -/
def declaredState (ctx : ParseContextTree) (st : ParseContextTree.State) : VirtualState :=
  { VirtualState.create st.state with
    transitions := collectStateRecurse [] ctx.root none st.state
    conditionalOutputs := st.collectConditionalOutputs [] }

/-- Source: the state `vstate` that the last loop of `writeStates` makes for
the word `index` that no declared state fills, from the default state
`d`. -/
def defaultWord (ctx : ParseContextTree) (d : ParseContextTree.State) (index : Nat) :
    VirtualState :=
  { VirtualState.create index with
    conditionalOutputs := d.collectConditionalOutputs []
    transitions := collectStateRecurse [] ctx.root none index }

/-- Source: the loop "collect and split all specified states" of
`writeStates`, on the rest of the list `states`, from the pair of
`outputStates` and `stateMap`; `none` when `splitState` does not return. -/
def collectStatesLoop (ctx : ParseContextTree) (tree : DecisionTree) :
    List ParseContextTree.State → List VirtualState × StateMap →
    Option (List VirtualState × StateMap)
  | [], acc => some acc
  | st :: rest, acc =>
    match tree.splitState acc.1 (ctx.declaredState st) acc.2 with
    | some acc => collectStatesLoop ctx tree rest acc
    | none => none

/-- Source: the loop "collect and split all specified states" of
`writeStates`: the pair of `outputStates` and `stateMap` after it. -/
def collectStates (ctx : ParseContextTree) (tree : DecisionTree) :
    Option (List VirtualState × StateMap) :=
  ctx.collectStatesLoop tree ctx.states ([], [])

/-- Source: the object `word` of `writeStates` for the word `index`:
`BitmaskSlice word(out, (stew.count - index - 1) * stew.size, stew.size)`. -/
def word (out : BitmaskRef) (stew : STEW) (index : Nat) : BitmaskRef :=
  (BitmaskSlice.create out ((stew.count - index - 1) * stew.size) stew.size).on out

/-- What `writeStates` has thrown: the assertion, and the image `out` as it
is then. The model of `writeState` does not keep a word that is written in
part, so that the image is `none` for an assertion thrown inside
`writeState`. -/
structure Thrown where
  assertion : Assertion
  image : Option BitmaskRef

/-- The variables of the loops of `writeStates` that write: the image `out`,
`stateMap` and `index`. -/
structure Writing where
  out : BitmaskRef
  stateMap : StateMap
  index : Nat

/-- Source: the body of the two loops of `writeStates` that write, for the
state `vstate`: the word is written and `index` goes up. The array
`inputMapping` of `WireMap::write` holds `uninit index` at first. -/
def writeWord (stew : STEW) (tree : DecisionTree) (uninit : Nat → List Nat)
    (s : ParseContextTree.Writing) (vstate : VirtualState) :
    Except ParseContextTree.Thrown ParseContextTree.Writing :=
  match tree.writeState (ParseContextTree.word s.out stew s.index) stew vstate s.stateMap
      (uninit s.index) with
  | .ok r => .ok { out := r.1.source, stateMap := r.2, index := s.index + 1 }
  | .error e => .error { assertion := .inWriteState e, image := none }

/-- Source: the loop "write all specified states" of `writeStates`, on the
rest of the list `outputStates`. -/
def writeDeclared (stew : STEW) (tree : DecisionTree) (uninit : Nat → List Nat) :
    List VirtualState → ParseContextTree.Writing →
    Except ParseContextTree.Thrown ParseContextTree.Writing
  | [], s => .ok s
  | vstate :: rest, s =>
    match ParseContextTree.writeWord stew tree uninit s vstate with
    | .ok t => writeDeclared stew tree uninit rest t
    | .error e => .error e

/-- Source: the loop "write all other possible states" of `writeStates`,
from the variables `s`. The first argument is the fuel, one unit for every
word left. -/
def writeOthers (ctx : ParseContextTree) (stew : STEW) (tree : DecisionTree)
    (uninit : Nat → List Nat) : Nat → ParseContextTree.Writing →
    Except ParseContextTree.Thrown ParseContextTree.Writing
  | 0, s => .ok s
  | fuel + 1, s =>
    if s.index < stew.count then
      match ctx.defaultState with
      | none => .error { assertion := .nullPointer, image := some s.out }
      | some d =>
        match ParseContextTree.writeWord stew tree uninit s (ctx.defaultWord d s.index) with
        | .ok t => writeOthers ctx stew tree uninit fuel t
        | .error e => .error e
    else .ok s

/-- Source: `ParseContextTree::writeStates`; the result is the pair of the
image `out` and `ctrlReg` on return. -/
def writeStates (ctx : ParseContextTree) (out : BitmaskRef) (stew : STEW) (tree : DecisionTree)
    (uninit : Nat → List Nat) : Except ParseContextTree.Thrown (BitmaskRef × Nat) :=
  match ctx.collectStates tree with
  | none => .error { assertion := .noReturn, image := some out }
  | some (outputStates, stateMap) =>
    if outputStates.length ≤ stew.count then
      match ParseContextTree.writeDeclared stew tree uninit outputStates
          { out := out, stateMap := stateMap, index := 0 } with
      | .error e => .error e
      | .ok s =>
        match ctx.writeOthers stew tree uninit (stew.count - s.index) s with
        | .error e => .error e
        | .ok s => .ok (s.out, ctx.m_ctrlReg)
    else .error { assertion := .tooManyStates, image := some out }

/-- The assertion of a run of `writeStates` that has thrown. -/
def thrownBy {α : Type} : Except ParseContextTree.Thrown α → Option Assertion
  | .ok _ => none
  | .error t => some t.assertion

/-- The path condition of the visible node on the input `inp`: every open
branch that is not a state test has the value of the edge that the visible
node lies under. -/
def pathCondition (ctx : ParseContextTree) (inp : AbstractBufferBitmask) : Bool :=
  ctx.parent.all fun p => p.expr.asState.isSome || (p.expr.resolveLogic inp == p.onTrue)

end ParseContextTree

/-! ## decision_tree.cc: a layout that serves a state -/

/-- The layout has what the first loop of `writeState` needs for the state:
for every position of a transition an OUT field inside the word and, other
than at the position `nStaticComponents`, a JMP field inside the word that
is wide enough for the index of the state and for every word index of
`stateMap`. -/
def DecisionTree.JumpsFit (dt : DecisionTree) (stew : STEW) (size : Nat) (vs : VirtualState)
    (stateMap : StateMap) : Prop :=
  ∀ k, k < vs.transitions.length →
    (stew.slice .OUT k).type ≠ .NIL ∧
    (stew.slice .OUT k).offset + (stew.slice .OUT k).size ≤ size ∧
    (k ≠ dt.nStaticComponents →
      (stew.slice .JMP k).type ≠ .NIL ∧
      (stew.slice .JMP k).offset + (stew.slice .JMP k).size ≤ size ∧
      vs.index < 2 ^ (stew.slice .JMP k).size ∧
      ∀ kv ∈ stateMap, kv.2 < 2 ^ (stew.slice .JMP k).size)

instance (dt : DecisionTree) (stew : STEW) (size : Nat) (vs : VirtualState)
    (stateMap : StateMap) : Decidable (dt.JumpsFit stew size vs stateMap) := by
  unfold DecisionTree.JumpsFit; exact inferInstance

/-- The transition at the position `k` of the state carries a jump to a
state that `stateMap` does not hold and that is not the state itself. -/
def DecisionTree.undefinedJumpAt (dt : DecisionTree) (vs : VirtualState) (stateMap : StateMap)
    (k : Nat) : Prop :=
  ∃ x, vs.transitions[k]? = some x ∧ k ≠ dt.nStaticComponents ∧
    stateMap.find x.state = none ∧ x.state ≠ vs.index

/-- What the first loop of `writeState` keeps of `stateMap`, before the
transition at the position `n`: the word is valid and of its size, and the
map holds what it held at first, and for the index of the state at most the
index itself. -/
def DecisionTree.JumpInv (out : BitmaskRef) (vs : VirtualState) (stateMap : StateMap)
    (s : DecisionTree.Breakdown) (n : Nat) : Prop :=
  s.comp = n ∧ s.out.Valid ∧ s.out.size = out.size ∧
  (∀ key v, s.stateMap.find key = some v →
    stateMap.find key = some v ∨ (key = vs.index ∧ v = vs.index)) ∧
  ∀ key v, stateMap.find key = some v → s.stateMap.find key = some v

/-! ## What every write through a reference keeps -/

/-- The property `P` of the object behind a reference is kept by every
`write` that returns. -/
def BitmaskRef.WriteClosed (P : BitmaskRef → Prop) : Prop :=
  ∀ (m : BitmaskRef) (bit : Nat) (value : Bool) (m2 : BitmaskRef),
    P m → m.write bit value = .ok m2 → P m2

/-- The object is a slice of a source that has the property `P`. -/
def BitmaskRef.Through (P : BitmaskRef → Prop) (sl : BitmaskRef) : Prop :=
  ∃ m offset nbits, sl = .slice m offset nbits ∧ P m

/-- What the loops of `writeStates` that write keep, before the word `k`, on
an image that was `out` at first: the image is valid and of its size, and
every word below `k` holds what `writeState` has written for it, on some
state of the image and of the state map. -/
def ParseContextTree.WordsWritten (stew : STEW) (tree : DecisionTree) (uninit : Nat → List Nat)
    (out : BitmaskRef) (vstate : Nat → VirtualState) (s : ParseContextTree.Writing) (k : Nat) :
    Prop :=
  s.index = k ∧ s.out.Valid ∧ s.out.size = out.size ∧
  ∀ index, index < k → ∃ before stateMap w,
    tree.writeStateFull (ParseContextTree.word before stew index) stew (vstate index) stateMap
      (uninit index) = .ok w ∧
    ∀ j, j < stew.size →
      s.out.get ((stew.count - index - 1) * stew.size + j) = w.out.get j

/-! ## Instances for the failures -/

/-- The layout of the example without its INC field. -/
def Example.stewNoInc : STEW :=
  { count := 4, size := 74
    items := [⟨.MUX, 1, 24⟩, ⟨.JMP, 25, 4⟩, ⟨.JMP, 29, 4⟩, ⟨.OUT, 33, 3⟩,
      ⟨.OUT, 36, 3⟩, ⟨.OUT, 39, 3⟩, ⟨.CFG, 42, 16⟩, ⟨.CFG, 58, 16⟩] }

/-- The layout of the example without its MUX field. -/
def Example.stewNoMux : STEW :=
  { count := 4, size := 74
    items := [⟨.INC, 0, 1⟩, ⟨.JMP, 25, 4⟩, ⟨.JMP, 29, 4⟩, ⟨.OUT, 33, 3⟩,
      ⟨.OUT, 36, 3⟩, ⟨.OUT, 39, 3⟩, ⟨.CFG, 42, 16⟩, ⟨.CFG, 58, 16⟩] }

/-- State 0 with a guard that reads five inputs, on tables of four pins, and
the implicit else. -/
def Example.wideState : VirtualState :=
  { VirtualState.create 0 with
    transitions :=
      [StateTransition.create (Example.output [0])
         (some (.reduceOr (.identifier [0, 1, 2, 3, 4]))) 1,
       StateTransition.create (Example.output [1]) none 0] }

/-- The condition `I0`. -/
def Example.cond : LogicExpression := .reduceOr (.identifier [0])

/-- The builder inside the else branch of `if (I0)`: after `split(I0)` and
`switchSplit(false)`. -/
def Example.elseBranch : ParseContextTree :=
  (ParseContextTree.create.run [.split Example.cond, .switchSplit false]).ctx

/-- The calls for a state switch with the default arm alone, which jumps to
state 5. -/
def Example.defaultCalls : List BuilderCall :=
  [.enterStateSwitch, .defaultStateCase FilePos.empty, .setTargetState 5, .exitStateSwitch]

/-- The builder after the calls `Example.defaultCalls`. -/
def Example.defaultOnly : ParseContextTree :=
  (ParseContextTree.create.run Example.defaultCalls).ctx

/-- The calls for a state switch with the default arm alone, which sets the
output 1 and jumps to state 0. -/
def Example.restartCalls : List BuilderCall :=
  [.enterStateSwitch, .defaultStateCase FilePos.empty, .assign 1 true, .setTargetState 0,
    .exitStateSwitch]

/-- The calls for a state switch with the arms of the states 1 and 0 and the
default arm; state 1 goes to state 0 when `I0` holds. -/
def Example.twoStates : List BuilderCall :=
  [.enterStateSwitch, .splitStateCase 1 ⟨"fsm.v", 10⟩,
    .split Example.cond, .setTargetState 0, .switchSplit false, .join,
    .switchSplit false, .splitStateCase 0 ⟨"fsm.v", 14⟩, .setTargetState 1,
    .switchSplit false, .defaultStateCase ⟨"fsm.v", 18⟩, .join, .join, .exitStateSwitch]

/-- The layout of the example with one word only. -/
def Example.smallStew : STEW := { Example.stew with count := 1 }

/-- An image of 4 words of 74 bits, all clear. -/
def Example.image : BitmaskRef := .buffer (BufferBitmask.ofSize (4 * 74))

end Prism

namespace Prism

/-! ## The diagram as a function of the state and the inputs -/

namespace Node

/-- The leaves under a node, those of the true edge first: the output and
the member `targetState` of each. -/
def leaves : Node → List (DynamicBitmask × Nat)
  | .branch _ t f => t.leaves ++ f.leaves
  | .leaf output targetState => [(output, targetState)]

/-- The branches under a node with their conditions, the content of every
leaf left out. -/
def skeleton : Node → Node
  | .branch bexpr t f => .branch bexpr t.skeleton f.skeleton
  | .leaf _ _ => .leaf DynamicBitmask.empty 0

/-- Every leaf under the node holds an output mask in the state that the
methods of `DynamicBitmask` maintain. -/
def OutputsValid (n : Node) : Prop := ∀ l ∈ n.leaves, l.1.Valid

/-- The leaf that the evaluation of the branch conditions ends at, from the
node down, on the input `inp`: a test of the state is resolved against
`state` (it picks `links[sexpr->state != state]`, as in
`collectStateRecurse`), any other condition by `resolveLogic`. The result
is the output and the member `targetState` of the leaf. -/
def reach : Node → Nat → AbstractBufferBitmask → DynamicBitmask × Nat
  | .branch bexpr t f, state, inp =>
    match bexpr.asState with
    | some sexpr => if sexpr ≠ state then f.reach state inp else t.reach state inp
    | none => if bexpr.resolveLogic inp then t.reach state inp else f.reach state inp
  | .leaf output targetState, _, _ => (output, targetState)

/-- The state that a leaf with the member `targetState` sends the state
`state` to: the override, and `state` itself without one (the value
`(unsigned int)-1` of the constructor `Leaf()`). -/
def target (targetState state : Nat) : Nat :=
  if targetState = UINT_MAX then state else targetState

end Node

/-- Every leaf of the diagram, under the visible node or at the other link
of an open branch, holds a valid output mask. -/
def ParseContextTree.OutputsValid (ctx : ParseContextTree) : Prop :=
  ctx.current.OutputsValid ∧ ∀ p ∈ ctx.parent, p.other.OutputsValid

/-- The calls of `mergeConditionalOutput` for the output `bit` with the
guards and values of the list, in its order. -/
def ParseContextTree.State.mergeAll (st : ParseContextTree.State) (bit : Nat)
    (assignments : List (LogicExpression × Bool)) : ParseContextTree.State :=
  assignments.foldl (fun st a => st.mergeConditionalOutput bit a.1 a.2) st

/-- The value that the guarded assignments of the list leave to an output
on the input `inp`, from the value `dflt`: each assignment whose guard holds
on `inp` replaces the value. -/
def lastAssigned (inp : AbstractBufferBitmask) : List (LogicExpression × Bool) → Bool → Bool
  | [], dflt => dflt
  | a :: rest, dflt => lastAssigned inp rest (if a.1.resolveLogic inp then a.2 else dflt)

/-! ## Examples -/

/-- The condition that the front end builds for `if (I_k)`: the comparison
of the input `k` with the constant 1, which it parses to
`LogicTrueExpression`. -/
def Example.test (k : Nat) : LogicExpression :=
  .equality (.identifier [k]) (.logic .logicTrue)

/-- The calls for `if (I0) begin if (I1) out[0] = 1; end else begin
if (I2) out[0] = 1; end`, up to the `join` that closes the outer branch. -/
def Example.nestedCalls : List BuilderCall :=
  [.split (Example.test 0),
    .split (Example.test 1), .assign 0 true, .switchSplit false, .join,
    .switchSplit false,
    .split (Example.test 2), .assign 0 true, .switchSplit false, .join]

/-- The builder after the calls `Example.nestedCalls`. -/
def Example.nested : ParseContextTree :=
  (ParseContextTree.create.run Example.nestedCalls).ctx

/-- The constant `4'b0011` as the front end builds it:
`ConstantExpression(IntegerBitmask(3, 4))`. -/
def Example.constant : Expression :=
  .constant (IntegerBitmask.create 3 4).toAbstractBufferBitmask

end Prism

namespace Prism

/-! ## Words -/

theorem BITMASK_BIT_eq (b : Nat) : BITMASK_BIT b = 2 ^ (b % 64) := by
  simp [BITMASK_BIT, BITS_PER_LONG, Nat.shiftLeft_eq]

theorem BITMASK_BIT_pos (b : Nat) : 0 < BITMASK_BIT b := by
  rw [BITMASK_BIT_eq]; exact Nat.pos_pow_of_pos _ (by decide)

theorem and_two_pow_ne_zero (w k : Nat) : (w &&& 2 ^ k != 0) = w.testBit k := by
  rw [Nat.and_two_pow]
  cases h : w.testBit k <;> simp

theorem testBit_wordNot (x j : Nat) :
    (wordNot x).testBit j = (decide (j < 64) ^^ x.testBit j) := by
  unfold wordNot BITS_PER_LONG
  rw [Nat.testBit_xor, Nat.testBit_two_pow_sub_one]

theorem testBit_false_of_lt {w j : Nat} (hw : w < 2 ^ 64) (hj : 64 ≤ j) :
    w.testBit j = false :=
  Nat.testBit_lt_two_pow (Nat.lt_of_lt_of_le hw (Nat.pow_le_pow_right (by decide) hj))

theorem lt_two_pow_of_testBit {w : Nat} (h : ∀ j, 64 ≤ j → w.testBit j = false) :
    w < 2 ^ 64 :=
  Nat.lt_pow_two_of_testBit w h

theorem or_bit_lt {w k : Nat} (hw : w < 2 ^ 64) (hk : k < 64) : w ||| 2 ^ k < 2 ^ 64 := by
  apply lt_two_pow_of_testBit
  intro j hj
  rw [Nat.testBit_or, testBit_false_of_lt hw hj, Nat.testBit_two_pow]
  simp; omega

theorem and_lt {w m : Nat} (hw : w < 2 ^ 64) : w &&& m < 2 ^ 64 :=
  Nat.lt_of_le_of_lt Nat.and_le_left hw

theorem and_wordNot_lt (w : Nat) {m : Nat} (hm : m < 2 ^ 64) : w &&& wordNot m < 2 ^ 64 := by
  apply lt_two_pow_of_testBit
  intro j hj
  rw [Nat.testBit_and, testBit_wordNot, testBit_false_of_lt hm hj]
  have : ¬ j < 64 := by omega
  simp [this]

theorem ctzl_spec (n : Nat) : ∀ x : Nat, (∃ j, j < n ∧ x.testBit j = true) →
    ctzl n x < n ∧ x.testBit (ctzl n x) = true ∧ ∀ j, j < ctzl n x → x.testBit j = false := by
  induction n with
  | zero => intro x ⟨j, hj, _⟩; omega
  | succ n ih =>
    intro x ⟨j, hj, hx⟩
    unfold ctzl
    by_cases h : x % 2 = 1
    · simp [h, Nat.testBit_zero]
    · simp only [h, if_false]
      have hj0 : j ≠ 0 := by
        rintro rfl
        rw [Nat.testBit_zero] at hx
        simp at hx; exact h hx
      obtain ⟨k, rfl⟩ := Nat.exists_eq_succ_of_ne_zero hj0
      have hk : (x / 2).testBit k = true := by rw [← Nat.testBit_succ]; exact hx
      obtain ⟨h1, h2, h3⟩ := ih (x / 2) ⟨k, by omega, hk⟩
      refine ⟨by omega, ?_, ?_⟩
      · rw [Nat.add_comm, Nat.testBit_succ]; exact h2
      · intro i hi
        cases i with
        | zero => rw [Nat.testBit_zero]; simp; omega
        | succ i => rw [Nat.testBit_succ]; exact h3 i (by omega)

theorem bitops_ctz_spec {x : Nat} (hx : x ≠ 0) (hlt : x < 2 ^ 64) :
    bitops_ctz x < 64 ∧ x.testBit (bitops_ctz x) = true ∧
      ∀ j, j < bitops_ctz x → x.testBit j = false := by
  obtain ⟨j, hj⟩ := Nat.ne_zero_implies_bit_true hx
  have hj64 : j < 64 := by
    by_contra hge
    rw [testBit_false_of_lt hlt (by omega)] at hj
    exact Bool.noConfusion hj
  have := ctzl_spec 64 x ⟨j, hj64, hj⟩
  simpa [bitops_ctz, hx, BITS_PER_LONG] using this

end Prism

namespace Prism

/-! ## Loops -/

theorem forLoop_eq_foldl {σ : Type} (cond : Nat → Bool) (next : Nat → Nat)
    (body : σ → Nat → σ) : ∀ (fuel : Nat) (s : σ) (bit : Nat),
    forLoop (fun _ b => cond b) (fun _ b => next b) body fuel s bit =
      (forLoopVisits cond next fuel bit).foldl body s := by
  intro fuel
  induction fuel with
  | zero => intro s bit; rfl
  | succ fuel ih =>
    intro s bit
    unfold forLoop forLoopVisits
    by_cases h : cond bit = true
    · simp only [h, if_true, List.foldl_cons]; exact ih _ _
    · simp [h]

theorem forLoopVisits_range (n : Nat) : ∀ (fuel lo : Nat), n - lo ≤ fuel →
    forLoopVisits (fun b => decide (b < n)) (fun b => b + 1) fuel lo =
      List.range' lo (n - lo) := by
  intro fuel
  induction fuel with
  | zero =>
    intro lo h
    have : n - lo = 0 := by omega
    simp [forLoopVisits, this]
  | succ fuel ih =>
    intro lo h
    unfold forLoopVisits
    by_cases hlt : lo < n
    · have e : n - lo = (n - (lo + 1)) + 1 := by omega
      simp only [hlt, decide_True, if_true]
      rw [ih (lo + 1) (by omega), e, List.range'_succ]
    · have : n - lo = 0 := by omega
      simp [hlt, this]

/-- A counting loop `for (bit = lo; bit < n; ++bit)` runs its body on
`lo, lo + 1, ..., n - 1`, whatever fuel at or above `n - lo` it gets. -/
theorem forLoop_range {σ : Type} (n : Nat) (body : σ → Nat → σ) (fuel : Nat) (s : σ)
    (lo : Nat) (h : n - lo ≤ fuel) :
    forLoop (fun _ b => decide (b < n)) (fun _ b => b + 1) body fuel s lo =
      (List.range' lo (n - lo)).foldl body s := by
  rw [forLoop_eq_foldl (fun b => decide (b < n)) (fun b => b + 1), forLoopVisits_range n fuel lo h]

/-! ## Word arrays -/

theorem NLONGS_le_iff (n len : Nat) : BITMASK_NLONGS n ≤ len ↔ n ≤ 64 * len := by
  unfold BITMASK_NLONGS BITS_PER_LONG
  split <;> omega

theorem NLONGS_mul (len : Nat) : BITMASK_NLONGS (64 * len) = len := by
  unfold BITMASK_NLONGS BITS_PER_LONG
  split <;> omega

theorem div_lt_NLONGS {i n : Nat} (h : i < n) : i / 64 < BITMASK_NLONGS n := by
  unfold BITMASK_NLONGS BITS_PER_LONG
  split <;> omega

theorem getD_set_zero (l : List Nat) (i j a : Nat) :
    (l.set i a).getD j 0 = if i = j ∧ i < l.length then a else l.getD j 0 := by
  simp only [List.getD_eq_getElem?_getD, List.getElem?_set]
  by_cases h : i = j
  · subst h
    by_cases hl : i < l.length
    · simp [hl]
    · simp [hl, List.getElem?_eq_none (Nat.le_of_not_lt hl)]
  · simp [h]

theorem getD_lt_of_forall {l : List Nat} (h : ∀ w ∈ l, w < 2 ^ 64) (i : Nat) :
    l.getD i 0 < 2 ^ 64 := by
  rw [List.getD_eq_getElem?_getD]
  by_cases hi : i < l.length
  · rw [List.getElem?_eq_getElem hi]; exact h _ (List.getElem_mem hi)
  · rw [List.getElem?_eq_none (by omega)]; decide

namespace AbstractBufferBitmask

theorem get_eq (v : AbstractBufferBitmask) (i : Nat) :
    v.get i = (decide (i < v.nbits) && v.bitAt i) := by
  unfold get bitAt
  by_cases h : i < v.nbits
  · have : ¬ i ≥ v.nbits := by omega
    simp only [this, if_false, h, decide_True, Bool.true_and]
    rw [BITMASK_BIT_eq, and_two_pow_ne_zero]; rfl
  · have : i ≥ v.nbits := by omega
    simp [this, h]

theorem Valid.get_eq_bitAt {v : AbstractBufferBitmask} (hv : v.Valid) (i : Nat) :
    v.get i = v.bitAt i := by
  rw [get_eq]
  by_cases h : i < v.nbits
  · simp [h]
  · simp [h, hv.high i (by omega)]

theorem Valid.word_lt {v : AbstractBufferBitmask} (hv : v.Valid) (i : Nat) :
    v.word i < 2 ^ 64 := getD_lt_of_forall hv.lt i

theorem get_false_of_le (v : AbstractBufferBitmask) {i : Nat} (h : v.nbits ≤ i) :
    v.get i = false := by
  rw [get_eq]; simp; intro h2; omega

theorem bitAt_orBit (v : AbstractBufferBitmask) {b : Nat} (hb : b / 64 < v.bits.length)
    (i : Nat) : (v.orBit b).bitAt i = (decide (i = b) || v.bitAt i) := by
  unfold orBit bitAt word BITMASK_INDEX
  simp only [BITS_PER_LONG, getD_set_zero, BITMASK_BIT_eq]
  by_cases h : b / 64 = i / 64
  · simp only [h, true_and]
    have hi : i / 64 < v.bits.length := by omega
    simp only [hi, if_true, Nat.testBit_or, Nat.testBit_two_pow]
    by_cases h2 : b % 64 = i % 64
    · have : i = b := by omega
      simp [this]
    · have : ¬ i = b := by omega
      simp [h2, this]
  · have : ¬ i = b := by intro e; subst e; exact h rfl
    simp [h, this]

theorem bitAt_andNotBit (v : AbstractBufferBitmask) {b : Nat} (hb : b / 64 < v.bits.length)
    (i : Nat) : (v.andNotBit b).bitAt i = (!decide (i = b) && v.bitAt i) := by
  unfold andNotBit bitAt word BITMASK_INDEX
  simp only [BITS_PER_LONG, getD_set_zero, BITMASK_BIT_eq]
  by_cases h : b / 64 = i / 64
  · simp only [h, true_and]
    have hi : i / 64 < v.bits.length := by omega
    have h64 : i % 64 < 64 := Nat.mod_lt _ (by decide)
    simp only [hi, if_true, Nat.testBit_and, testBit_wordNot, Nat.testBit_two_pow, h64,
      decide_True]
    by_cases h2 : b % 64 = i % 64
    · have : i = b := by omega
      simp [this]
    · have : ¬ i = b := by omega
      simp [h2, this]
  · have : ¬ i = b := by intro e; subst e; exact h rfl
    simp [h, this]

theorem Valid.orBit {v : AbstractBufferBitmask} (hv : v.Valid) {b : Nat} (hb : b < v.nbits) :
    (v.orBit b).Valid := by
  have hlen : b / 64 < v.bits.length :=
    Nat.lt_of_lt_of_le (div_lt_NLONGS hb) hv.len
  refine ⟨?_, ?_, ?_⟩
  · simpa [AbstractBufferBitmask.orBit] using hv.len
  · intro w hw
    simp only [AbstractBufferBitmask.orBit] at hw
    rcases List.mem_or_eq_of_mem_set hw with h | h
    · exact hv.lt w h
    · subst h
      rw [BITMASK_BIT_eq]
      exact or_bit_lt (hv.word_lt _) (Nat.mod_lt _ (by decide))
  · intro i hi
    have hi2 : v.nbits ≤ i := hi
    rw [bitAt_orBit v hlen, hv.high i hi2]
    have : ¬ i = b := by omega
    simp [this]

theorem Valid.andNotBit {v : AbstractBufferBitmask} (hv : v.Valid) {b : Nat}
    (hb : b < v.nbits) : (v.andNotBit b).Valid := by
  have hlen : b / 64 < v.bits.length :=
    Nat.lt_of_lt_of_le (div_lt_NLONGS hb) hv.len
  refine ⟨?_, ?_, ?_⟩
  · simpa [AbstractBufferBitmask.andNotBit] using hv.len
  · intro w hw
    simp only [AbstractBufferBitmask.andNotBit] at hw
    rcases List.mem_or_eq_of_mem_set hw with h | h
    · exact hv.lt w h
    · subst h
      exact and_lt (hv.word_lt _)
  · intro i hi
    have hi2 : v.nbits ≤ i := hi
    rw [bitAt_andNotBit v hlen, hv.high i hi2]
    simp

end AbstractBufferBitmask

end Prism

namespace Prism

namespace DynamicBitmask

theorem valid_empty : empty.Valid := by
  refine ⟨⟨?_, ?_, ?_⟩, ?_⟩
  · decide
  · intro w hw; simp [empty] at hw
  · intro i _; simp [AbstractBufferBitmask.bitAt, AbstractBufferBitmask.word, empty]
  · rfl

theorem size_empty : empty.size = 0 := rfl

theorem get_empty (i : Nat) : empty.get i = false :=
  AbstractBufferBitmask.get_false_of_le _ (Nat.zero_le i)

theorem size_resize (v : DynamicBitmask) (c : Nat) : (v.resize c).size = max v.size c := by
  unfold resize AbstractBufferBitmask.size
  by_cases h1 : c ≤ v.nbits
  · simp [h1]
  · by_cases h2 : c ≤ v.nalloc
    · simp only [h1, h2, if_false, if_true]; omega
    · simp only [h1, h2, if_false]; omega

theorem bitAt_resize {v : DynamicBitmask} (hv : v.Valid) (c i : Nat) :
    (v.resize c).bitAt i = v.bitAt i := by
  unfold resize
  by_cases h1 : c ≤ v.nbits
  · simp [h1]
  · by_cases h2 : c ≤ v.nalloc
    · simp only [h1, h2, if_false, if_true]; rfl
    · simp only [h1, h2, if_false]
      unfold AbstractBufferBitmask.bitAt AbstractBufferBitmask.word
      congr 1
      simp only [BITS_PER_LONG, hv.2, NLONGS_mul]
      have hc : v.bits.length < BITMASK_NLONGS c := by
        have := hv.2
        simp only [BITS_PER_LONG] at this
        by_contra hcon
        have := (NLONGS_le_iff c v.bits.length).1 (by omega)
        omega
      rw [List.getD_eq_getElem?_getD, List.getD_eq_getElem?_getD]
      by_cases hi : i / 64 < BITMASK_NLONGS c
      · rw [List.getElem?_map, List.getElem?_range hi]
        by_cases hl : i / 64 < v.bits.length
        · simp [hl, AbstractBufferBitmask.word, List.getD_eq_getElem?_getD]
        · simp [hl, List.getElem?_eq_none (Nat.le_of_not_lt hl)]
      · rw [List.getElem?_eq_none (by simp; omega), List.getElem?_eq_none (by omega)]

theorem valid_resize {v : DynamicBitmask} (hv : v.Valid) (c : Nat) : (v.resize c).Valid := by
  have hbit := bitAt_resize hv c
  unfold resize at hbit ⊢
  by_cases h1 : c ≤ v.nbits
  · simpa [h1] using hv
  · by_cases h2 : c ≤ v.nalloc
    · simp only [h1, h2, if_false, if_true]
      refine ⟨⟨?_, hv.1.lt, ?_⟩, hv.2⟩
      · have := hv.2
        simp only [BITS_PER_LONG] at this
        exact (NLONGS_le_iff c _).2 (by simp only; omega)
      · intro i hi
        exact hv.1.high i (by simp only at hi; omega)
    · simp only [h1, h2, if_false] at hbit ⊢
      refine ⟨⟨?_, ?_, ?_⟩, ?_⟩
      · simp
      · intro w hw
        simp only [List.mem_map, List.mem_range] at hw
        obtain ⟨j, _, rfl⟩ := hw
        split
        · exact hv.1.word_lt j
        · decide
      · intro i hi
        rw [hbit i]
        exact hv.1.high i (by simp only at hi; omega)
      · simp

theorem get_resize {v : DynamicBitmask} (hv : v.Valid) (c i : Nat) :
    (v.resize c).get i = v.get i := by
  rw [(valid_resize hv c).1.get_eq_bitAt, hv.1.get_eq_bitAt, bitAt_resize hv]

theorem lt_nbits_resize (v : DynamicBitmask) (b : Nat) : b < (v.resize (b + 1)).nbits := by
  have := size_resize v (b + 1)
  unfold AbstractBufferBitmask.size at this
  omega

theorem valid_set {v : DynamicBitmask} (hv : v.Valid) (b : Nat) : (v.set b).Valid := by
  have hr := valid_resize hv (b + 1)
  refine ⟨hr.1.orBit (lt_nbits_resize v b), ?_⟩
  simpa [set, AbstractBufferBitmask.orBit] using hr.2

theorem size_set (v : DynamicBitmask) (b : Nat) : (v.set b).size = max v.size (b + 1) :=
  size_resize v (b + 1)

theorem get_set {v : DynamicBitmask} (hv : v.Valid) (b i : Nat) :
    (v.set b).get i = (decide (i = b) || v.get i) := by
  have hr := valid_resize hv (b + 1)
  have hlen : b / 64 < (v.resize (b + 1)).bits.length :=
    Nat.lt_of_lt_of_le (div_lt_NLONGS (lt_nbits_resize v b)) hr.1.len
  rw [(valid_set hv b).1.get_eq_bitAt, hv.1.get_eq_bitAt, ← bitAt_resize hv (b + 1)]
  exact AbstractBufferBitmask.bitAt_orBit _ hlen i

theorem valid_clear {v : DynamicBitmask} (hv : v.Valid) (b : Nat) : (v.clear b).Valid := by
  have hr := valid_resize hv (b + 1)
  refine ⟨hr.1.andNotBit (lt_nbits_resize v b), ?_⟩
  simpa [clear, AbstractBufferBitmask.andNotBit] using hr.2

theorem size_clear (v : DynamicBitmask) (b : Nat) : (v.clear b).size = max v.size (b + 1) :=
  size_resize v (b + 1)

theorem get_clear {v : DynamicBitmask} (hv : v.Valid) (b i : Nat) :
    (v.clear b).get i = (!decide (i = b) && v.get i) := by
  have hr := valid_resize hv (b + 1)
  have hlen : b / 64 < (v.resize (b + 1)).bits.length :=
    Nat.lt_of_lt_of_le (div_lt_NLONGS (lt_nbits_resize v b)) hr.1.len
  rw [(valid_clear hv b).1.get_eq_bitAt, hv.1.get_eq_bitAt, ← bitAt_resize hv (b + 1)]
  exact AbstractBufferBitmask.bitAt_andNotBit _ hlen i

theorem valid_write {v : DynamicBitmask} (hv : v.Valid) (b : Nat) (x : Bool) :
    (v.write b x).Valid := by
  unfold write; split
  · exact valid_set hv b
  · exact valid_clear hv b

theorem size_write (v : DynamicBitmask) (b : Nat) (x : Bool) :
    (v.write b x).size = max v.size (b + 1) := by
  unfold write; split
  · exact size_set v b
  · exact size_clear v b

theorem get_write {v : DynamicBitmask} (hv : v.Valid) (b : Nat) (x : Bool) (i : Nat) :
    (v.write b x).get i = if i = b then x else v.get i := by
  unfold write
  cases x
  · simp only [if_false, Bool.false_eq_true]
    rw [get_clear hv]
    by_cases h : i = b <;> simp [h]
  · simp only [if_true]
    rw [get_set hv]
    by_cases h : i = b <;> simp [h]

end DynamicBitmask

/-- Zeroing the words listed in `l`. -/
theorem getD_foldl_set_zero (l : List Nat) : ∀ (bits : List Nat) (j : Nat),
    (l.foldl (fun (b : List Nat) i => b.set i 0) bits).getD j 0 =
      if j ∈ l then 0 else bits.getD j 0 := by
  induction l with
  | nil => intro bits j; simp
  | cons a l ih =>
    intro bits j
    rw [List.foldl_cons, ih, getD_set_zero]
    by_cases h1 : j ∈ l
    · simp [h1]
    · by_cases h2 : a = j
      · subst h2
        simp only [h1, if_false, true_and, List.mem_cons, true_or, if_true]
        split
        · rfl
        · rw [List.getD_eq_getElem?_getD, List.getElem?_eq_none (by omega)]; rfl
      · have : ¬ j = a := fun e => h2 e.symm
        simp [h1, h2, this]

theorem length_foldl_set_zero (l : List Nat) : ∀ (bits : List Nat),
    (l.foldl (fun (b : List Nat) i => b.set i 0) bits).length = bits.length := by
  induction l with
  | nil => intro bits; rfl
  | cons a l ih => intro bits; rw [List.foldl_cons, ih, List.length_set]

namespace AbstractBufferBitmask

theorem word_reset (v : AbstractBufferBitmask) (j : Nat) :
    v.reset.word j = if j < BITMASK_NLONGS v.nbits then 0 else v.word j := by
  unfold reset word
  simp only
  rw [forLoop_range _ _ _ _ _ (by omega), getD_foldl_set_zero]
  simp [List.mem_range']

theorem Valid.bitAt_reset {v : AbstractBufferBitmask} (hv : v.Valid) (i : Nat) :
    v.reset.bitAt i = false := by
  unfold bitAt
  rw [word_reset]
  split
  · simp
  · next h =>
    refine hv.high i ?_
    simp only [BITS_PER_LONG] at h
    by_contra hlt
    exact h (div_lt_NLONGS (by omega))

theorem Valid.reset {v : AbstractBufferBitmask} (hv : v.Valid) : v.reset.Valid := by
  refine ⟨?_, ?_, fun i _ => hv.bitAt_reset i⟩
  · have : v.reset.bits.length = v.bits.length := by
      unfold AbstractBufferBitmask.reset
      simp only
      rw [forLoop_range _ _ _ _ _ (by omega), length_foldl_set_zero]
    rw [this]; exact hv.len
  · intro w hw
    obtain ⟨n, hn, rfl⟩ := List.getElem_of_mem hw
    have h1 : v.reset.word n = v.reset.bits[n] := by
      unfold word
      rw [List.getD_eq_getElem?_getD, List.getElem?_eq_getElem hn]; rfl
    rw [← h1, word_reset]
    split
    · decide
    · exact hv.word_lt n

end AbstractBufferBitmask

namespace DynamicBitmask

theorem valid_reset {v : DynamicBitmask} (hv : v.Valid) : v.reset.Valid := by
  refine ⟨hv.1.reset, ?_⟩
  have : v.reset.bits.length = v.bits.length := by
    show v.toAbstractBufferBitmask.reset.bits.length = _
    unfold AbstractBufferBitmask.reset
    simp only
    rw [forLoop_range _ _ _ _ _ (by omega), length_foldl_set_zero]
  rw [this]; exact hv.2

theorem size_reset (v : DynamicBitmask) : v.reset.size = v.size := rfl

theorem get_reset {v : DynamicBitmask} (hv : v.Valid) (i : Nat) : v.reset.get i = false := by
  rw [(valid_reset hv).1.get_eq_bitAt]
  exact hv.1.bitAt_reset i

end DynamicBitmask

end Prism

namespace Prism

/-! ## Finding set bits -/

theorem testBit_low_mask (k j : Nat) :
    (2 ^ k ||| (2 ^ k - 1)).testBit j = decide (j ≤ k) := by
  rw [Nat.testBit_or, Nat.testBit_two_pow, Nat.testBit_two_pow_sub_one]
  by_cases h1 : k = j
  · subst h1; simp
  · by_cases h2 : j < k
    · simp [h1, h2]; omega
    · simp [h1, h2]; omega

theorem low_mask_lt {k : Nat} (hk : k < 64) : 2 ^ k ||| (2 ^ k - 1) < 2 ^ 64 := by
  apply lt_two_pow_of_testBit
  intro j hj
  rw [testBit_low_mask]
  simp; omega

namespace AbstractBufferBitmask

/-- What `array_ffs` returns on an array whose words fit 64 bits and whose
bits at or above `n` are clear: the least set bit, or `n`. -/
theorem array_ffs_loop_spec (ar : List Nat) (n : Nat)
    (hlt : ∀ k, ar.getD k 0 < 2 ^ 64)
    (hhigh : ∀ j, n ≤ j → (ar.getD (j / 64) 0).testBit (j % 64) = false) :
    ∀ (fuel i : Nat), BITMASK_NLONGS n - i ≤ fuel →
      (∀ j, j < 64 * i → (ar.getD (j / 64) 0).testBit (j % 64) = false) →
      array_ffs_loop ar n fuel i ≤ n ∧
      (array_ffs_loop ar n fuel i < n →
        (ar.getD (array_ffs_loop ar n fuel i / 64) 0).testBit
          (array_ffs_loop ar n fuel i % 64) = true) ∧
      ∀ j, j < array_ffs_loop ar n fuel i →
        (ar.getD (j / 64) 0).testBit (j % 64) = false := by
  intro fuel
  induction fuel with
  | zero =>
    intro i hf hz
    have hn : n ≤ 64 * i := (NLONGS_le_iff n i).1 (by omega)
    unfold array_ffs_loop
    exact ⟨Nat.le_refl _, fun h => absurd h (Nat.lt_irrefl _), fun j hj => hz j (by omega)⟩
  | succ fuel ih =>
    intro i hf hz
    unfold array_ffs_loop
    by_cases hi : i < BITMASK_NLONGS n
    · simp only [hi, if_true]
      by_cases hw : ar.getD i 0 = 0
      · simp only [hw, if_true]
        refine ih (i + 1) (by omega) ?_
        intro j hj
        by_cases hj2 : j < 64 * i
        · exact hz j hj2
        · have : j / 64 = i := by omega
          rw [this, hw]; simp
      · simp only [hw, if_false, BITS_PER_LONG]
        obtain ⟨c1, c2, c3⟩ := bitops_ctz_spec hw (hlt i)
        have hdiv : (i * 64 + bitops_ctz (ar.getD i 0)) / 64 = i := by omega
        have hmod : (i * 64 + bitops_ctz (ar.getD i 0)) % 64 = bitops_ctz (ar.getD i 0) := by
          omega
        have hset : (ar.getD ((i * 64 + bitops_ctz (ar.getD i 0)) / 64) 0).testBit
            ((i * 64 + bitops_ctz (ar.getD i 0)) % 64) = true := by
          rw [hdiv, hmod]; exact c2
        refine ⟨?_, fun _ => hset, ?_⟩
        · by_contra hcon
          rw [hhigh _ (by omega)] at hset
          exact Bool.noConfusion hset
        · intro j hj
          by_cases hj2 : j < 64 * i
          · exact hz j hj2
          · have e1 : j / 64 = i := by omega
            rw [e1]
            exact c3 _ (by omega)
    · simp only [hi, if_false]
      have hn : n ≤ 64 * i := (NLONGS_le_iff n i).1 (by omega)
      exact ⟨Nat.le_refl _, fun h => absurd h (Nat.lt_irrefl _), fun j hj => hz j (by omega)⟩

theorem array_ffs_spec (ar : List Nat) (n : Nat)
    (hlt : ∀ k, ar.getD k 0 < 2 ^ 64)
    (hhigh : ∀ j, n ≤ j → (ar.getD (j / 64) 0).testBit (j % 64) = false) :
    array_ffs ar n ≤ n ∧
      (array_ffs ar n < n →
        (ar.getD (array_ffs ar n / 64) 0).testBit (array_ffs ar n % 64) = true) ∧
      ∀ j, j < array_ffs ar n → (ar.getD (j / 64) 0).testBit (j % 64) = false :=
  array_ffs_loop_spec ar n hlt hhigh _ 0 (by omega) (fun j hj => by omega)

/-- What `ffs` returns on a valid buffer: the least set bit, or `nbits`. -/
theorem Valid.ffs_spec {v : AbstractBufferBitmask} (hv : v.Valid) :
    v.ffs ≤ v.nbits ∧ (v.ffs < v.nbits → v.bitAt v.ffs = true) ∧
      ∀ j, j < v.ffs → v.bitAt j = false :=
  array_ffs_spec v.bits v.nbits hv.word_lt hv.high

theorem testBit_fns_val (w : Nat) {k : Nat} (hk : k < 64) (j : Nat) :
    (w &&& wordNot (2 ^ k ||| (2 ^ k - 1))).testBit j =
      (w.testBit j && (decide (j < 64) && decide (k < j))) := by
  rw [Nat.testBit_and, testBit_wordNot, testBit_low_mask]
  by_cases h1 : j < 64 <;> by_cases h2 : k < j <;> simp [h1, h2] <;> omega

theorem array_ffs_loop_ge (ar : List Nat) (n : Nat) : ∀ (fuel i : Nat),
    n ≤ array_ffs_loop ar n fuel i ∨ 64 * i ≤ array_ffs_loop ar n fuel i := by
  intro fuel
  induction fuel with
  | zero => intro i; left; unfold array_ffs_loop; exact Nat.le_refl _
  | succ fuel ih =>
    intro i
    unfold array_ffs_loop
    split
    · split
      · rcases ih (i + 1) with h | h
        · left; exact h
        · right; omega
      · right; simp only [BITS_PER_LONG]; omega
    · left; exact Nat.le_refl _

/-- On any buffer, `fns` moves forward. -/
theorem lt_fns (v : AbstractBufferBitmask) {c : Nat} (hc : c < v.nbits) : c < v.fns c := by
  unfold fns
  simp only [BITMASK_INDEX, BITS_PER_LONG, BITMASK_BIT_eq]
  have hk : c % 64 < 64 := Nat.mod_lt _ (by decide)
  split
  · next hval =>
    obtain ⟨c1, c2, -⟩ := bitops_ctz_spec hval (and_wordNot_lt _ (low_mask_lt hk))
    rw [testBit_fns_val _ hk] at c2
    simp at c2
    omega
  · split
    · exact hc
    · omega

/-- What `fns` returns on a valid buffer: the least set bit after `c`, or
`nbits`. -/
theorem Valid.fns_spec {v : AbstractBufferBitmask} (hv : v.Valid) (c : Nat) :
    v.fns c ≤ v.nbits ∧ (v.fns c < v.nbits → v.bitAt (v.fns c) = true) ∧
      ∀ j, c < j → j < v.fns c → v.bitAt j = false := by
  unfold fns
  simp only [BITMASK_INDEX, BITS_PER_LONG, BITMASK_BIT_eq]
  have hk : c % 64 < 64 := Nat.mod_lt _ (by decide)
  split
  · next hval =>
    obtain ⟨c1, c2, c3⟩ := bitops_ctz_spec hval (and_wordNot_lt _ (low_mask_lt hk))
    generalize bitops_ctz (v.word (c / 64) &&& wordNot (2 ^ (c % 64) ||| (2 ^ (c % 64) - 1)))
      = t at c1 c2 c3
    rw [testBit_fns_val _ hk] at c2
    simp only [Bool.and_eq_true, decide_eq_true_eq] at c2
    have hset : v.bitAt (64 * (c / 64) + t) = true := by
      unfold bitAt
      have e1 : (64 * (c / 64) + t) / BITS_PER_LONG = c / 64 := by
        simp only [BITS_PER_LONG]; omega
      have e2 : (64 * (c / 64) + t) % BITS_PER_LONG = t := by
        simp only [BITS_PER_LONG]; omega
      rw [e1, e2]; exact c2.1
    refine ⟨?_, fun _ => hset, ?_⟩
    · by_contra hcon
      rw [hv.high _ (by omega)] at hset
      exact Bool.noConfusion hset
    · intro j hj1 hj2
      have h3 := c3 (j % 64) (by omega)
      rw [testBit_fns_val _ hk] at h3
      have e1 : j / 64 = c / 64 := by omega
      have e2 : c % 64 < j % 64 := by omega
      unfold bitAt
      simp only [BITS_PER_LONG, e1]
      have h64 : j % 64 < 64 := Nat.mod_lt _ (by decide)
      simpa [h64, e2] using h3
  · next hval =>
    have hval0 : v.word (c / 64) &&& wordNot (2 ^ (c % 64) ||| (2 ^ (c % 64) - 1)) = 0 := by
      by_contra h; exact hval h
    have hword : ∀ j, c < j → j < 64 * (c / 64) + 64 → v.bitAt j = false := by
      intro j hj1 hj2
      have h3 : (v.word (c / 64) &&& wordNot (2 ^ (c % 64) ||| (2 ^ (c % 64) - 1))).testBit
          (j % 64) = false := by rw [hval0]; simp
      rw [testBit_fns_val _ hk] at h3
      have e1 : j / 64 = c / 64 := by omega
      have e2 : c % 64 < j % 64 := by omega
      unfold bitAt
      simp only [BITS_PER_LONG, e1]
      have h64 : j % 64 < 64 := Nat.mod_lt _ (by decide)
      simpa [h64, e2] using h3
    split
    · next hoff =>
      exact ⟨Nat.le_refl _, fun h => absurd h (Nat.lt_irrefl _),
        fun j hj1 hj2 => hword j hj1 (by omega)⟩
    · next hoff =>
      have hdrop : ∀ k, (v.bits.drop ((64 * (c / 64) + 64) / 64)).getD k 0
          = v.word (c / 64 + 1 + k) := by
        intro k
        have : (64 * (c / 64) + 64) / 64 = c / 64 + 1 := by omega
        rw [this]
        unfold word
        simp [List.getD_eq_getElem?_getD, List.getElem?_drop]
      have hbit : ∀ j, ((v.bits.drop ((64 * (c / 64) + 64) / 64)).getD (j / 64) 0).testBit
          (j % 64) = v.bitAt (j + (64 * (c / 64) + 64)) := by
        intro j
        rw [hdrop]
        unfold bitAt
        simp only [BITS_PER_LONG]
        have e1 : (j + (64 * (c / 64) + 64)) / 64 = c / 64 + 1 + j / 64 := by omega
        have e2 : (j + (64 * (c / 64) + 64)) % 64 = j % 64 := by omega
        rw [e1, e2]
      obtain ⟨a1, a2, a3⟩ := array_ffs_spec (v.bits.drop ((64 * (c / 64) + 64) / 64))
        (v.nbits - (64 * (c / 64) + 64))
        (fun k => by rw [hdrop]; exact hv.word_lt _)
        (fun j hj => by rw [hbit]; exact hv.high _ (by omega))
      generalize array_ffs (v.bits.drop ((64 * (c / 64) + 64) / 64))
        (v.nbits - (64 * (c / 64) + 64)) = r at a1 a2 a3
      refine ⟨by omega, ?_, ?_⟩
      · intro h
        have := a2 (by omega)
        rw [hbit] at this
        exact this
      · intro j hj1 hj2
        by_cases hj3 : j < 64 * (c / 64) + 64
        · exact hword j hj1 hj3
        · have := a3 (j - (64 * (c / 64) + 64)) (by omega)
          rw [hbit] at this
          have e : j - (64 * (c / 64) + 64) + (64 * (c / 64) + 64) = j := by omega
          rw [e] at this
          exact this

end AbstractBufferBitmask

end Prism

namespace Prism

theorem filter_range'_skip (p : Nat → Bool) {lo r n : Nat} (h1 : lo ≤ r) (h2 : r ≤ n)
    (hp : ∀ j, lo ≤ j → j < r → p j = false) :
    (List.range' lo (n - lo)).filter p = (List.range' r (n - r)).filter p := by
  have e : List.range' lo (n - lo) = List.range' lo (r - lo) ++ List.range' r (n - r) := by
    have := List.range'_append lo (r - lo) (n - r) 1
    rw [show lo + 1 * (r - lo) = r by omega] at this
    rw [this]
    congr 1; omega
  rw [e, List.filter_append]
  have : (List.range' lo (r - lo)).filter p = [] := by
    rw [List.filter_eq_nil_iff]
    intro a ha
    rw [List.mem_range'_1] at ha
    rw [hp a ha.1 (by omega)]
    exact Bool.false_ne_true
  rw [this, List.nil_append]

namespace AbstractBufferBitmask

/-- From a set bit `b` (or from `nbits`) on, the loop over `fns` visits
the set bits from `b` on, in ascending order. -/
theorem Valid.visits_eq {v : AbstractBufferBitmask} (hv : v.Valid) : ∀ (fuel b : Nat),
    b ≤ v.nbits → (b < v.nbits → v.bitAt b = true) → v.nbits - b ≤ fuel →
    forLoopVisits (fun bit => decide (bit < v.size)) v.fns fuel b =
      (List.range' b (v.nbits - b)).filter v.bitAt := by
  intro fuel
  induction fuel with
  | zero =>
    intro b _ _ hf
    have : v.nbits - b = 0 := by omega
    simp [forLoopVisits, this]
  | succ fuel ih =>
    intro b hb hset hf
    unfold forLoopVisits
    by_cases hlt : b < v.nbits
    · have hlt2 : b < v.size := hlt
      simp only [hlt2, decide_True, if_true]
      obtain ⟨f1, f2, f3⟩ := hv.fns_spec b
      have fgt := v.lt_fns hlt
      rw [ih (v.fns b) f1 f2 (by omega)]
      have e : v.nbits - b = (v.nbits - (b + 1)) + 1 := by omega
      rw [e, List.range'_succ, List.filter_cons, hset hlt, if_pos rfl]
      congr 1
      exact (filter_range'_skip v.bitAt (by omega) f1 (fun j hj1 hj2 => f3 j (by omega) hj2)).symm
    · have : v.nbits - b = 0 := by omega
      have hlt2 : ¬ b < v.size := hlt
      simp [hlt2, this]

/-- The loop `for (bit = ffs(); bit < size(); bit = fns(bit))` over a valid
buffer visits the indices below `size()` whose bit is set, in ascending
order, with any fuel at or above `size()`. -/
theorem Valid.visits_ffs {v : AbstractBufferBitmask} (hv : v.Valid) (k : Nat) :
    forLoopVisits (fun bit => decide (bit < v.size)) v.fns (v.size + k) v.ffs =
      (List.range v.size).filter v.get := by
  obtain ⟨f1, f2, f3⟩ := hv.ffs_spec
  rw [hv.visits_eq _ _ f1 f2 (by show v.nbits - v.ffs ≤ v.nbits + k; omega)]
  have := filter_range'_skip v.bitAt (Nat.zero_le _) f1 (fun j _ hj => f3 j hj)
  simp only [Nat.sub_zero] at this
  rw [← this, List.range_eq_range']
  apply List.filter_congr
  intro x _
  exact (hv.get_eq_bitAt x).symm

theorem Valid.setBits_eq {v : AbstractBufferBitmask} (hv : v.Valid) :
    v.setBits = (List.range v.size).filter v.get :=
  hv.visits_ffs 0

/-- On any buffer the loop over `fns` visits strictly ascending indices
below `size()`. -/
theorem visits_sorted (v : AbstractBufferBitmask) : ∀ (fuel b : Nat),
    (forLoopVisits (fun bit => decide (bit < v.size)) v.fns fuel b).Chain' (· < ·) ∧
    ∀ x ∈ forLoopVisits (fun bit => decide (bit < v.size)) v.fns fuel b,
      b ≤ x ∧ x < v.size := by
  intro fuel
  induction fuel with
  | zero => intro b; simp [forLoopVisits]
  | succ fuel ih =>
    intro b
    unfold forLoopVisits
    by_cases hlt : b < v.size
    · simp only [hlt, decide_True, if_true]
      obtain ⟨i1, i2⟩ := ih (v.fns b)
      have fgt := v.lt_fns hlt
      refine ⟨?_, ?_⟩
      · rw [List.chain'_cons']
        refine ⟨?_, i1⟩
        intro y hy
        have := i2 y (List.mem_of_mem_head? hy)
        omega
      · intro x hx
        rcases List.mem_cons.1 hx with h | h
        · subst h; exact ⟨Nat.le_refl _, hlt⟩
        · have := i2 x h
          omega
    · simp [hlt]

theorem setBits_sorted (v : AbstractBufferBitmask) : v.setBits.Sorted (· < ·) :=
  List.chain'_iff_pairwise.1 (visits_sorted v _ _).1

theorem lt_size_of_mem_setBits (v : AbstractBufferBitmask) {x : Nat} (h : x ∈ v.setBits) :
    x < v.size :=
  ((visits_sorted v _ _).2 x h).2

end AbstractBufferBitmask

end Prism

namespace Prism

/-! ## Reachable bitmasks -/

theorem DynamicBitmask.dynamic_valid_ofSize (n : Nat) : (DynamicBitmask.ofSize n).Valid :=
  DynamicBitmask.valid_resize DynamicBitmask.valid_empty n

theorem DynamicBitmask.dynamic_valid_apply {v : DynamicBitmask} (hv : v.Valid) (op : BitmaskOp) :
    (v.apply op).Valid := by
  cases op with
  | set bit => exact DynamicBitmask.valid_set hv bit
  | clear bit => exact DynamicBitmask.valid_clear hv bit
  | resize count => exact DynamicBitmask.valid_resize hv count
  | reset => exact DynamicBitmask.valid_reset hv

theorem DynamicBitmask.dynamic_valid_run (ops : List BitmaskOp) : ∀ {v : DynamicBitmask}, v.Valid →
    (v.run ops).Valid := by
  induction ops with
  | nil => intro v hv; exact hv
  | cons op ops ih => intro v hv; exact ih (DynamicBitmask.dynamic_valid_apply hv op)

theorem BufferBitmask.buffer_valid_ofSize (n : Nat) :
    (BufferBitmask.ofSize n).toAbstractBufferBitmask.Valid := by
  refine ⟨?_, ?_, ?_⟩
  · simp [BufferBitmask.ofSize]
  · intro w hw
    simp only [BufferBitmask.ofSize] at hw
    rw [List.eq_of_mem_replicate hw]
    decide
  · intro i _
    unfold AbstractBufferBitmask.bitAt AbstractBufferBitmask.word
    simp only [BufferBitmask.ofSize, List.getD_eq_getElem?_getD]
    cases h : (List.replicate (BITMASK_NLONGS n) 0)[i / BITS_PER_LONG]? with
    | none => simp
    | some w =>
      have := List.eq_of_mem_replicate (List.getElem?_mem h)
      subst this
      simp

theorem BufferBitmask.buffer_valid_apply {v w : BufferBitmask}
    (hv : v.toAbstractBufferBitmask.Valid) {op : BitmaskOp} (h : v.apply op = some w) :
    w.toAbstractBufferBitmask.Valid := by
  cases op with
  | set bit =>
    simp only [BufferBitmask.apply, BufferBitmask.set, BufferBitmask.resize] at h
    split at h
    · simp only [Option.map_some', Option.some.injEq] at h
      subst h
      exact hv.orBit (by omega)
    · simp at h
  | clear bit =>
    simp only [BufferBitmask.apply, BufferBitmask.clear, BufferBitmask.resize] at h
    split at h
    · simp only [Option.map_some', Option.some.injEq] at h
      subst h
      exact hv.andNotBit (by omega)
    · simp at h
  | resize count =>
    simp only [BufferBitmask.apply, BufferBitmask.resize] at h
    split at h
    · simp only [Option.some.injEq] at h
      subst h
      exact hv
    · simp at h
  | reset =>
    simp only [BufferBitmask.apply, Option.some.injEq] at h
    subst h
    exact hv.reset

theorem BufferBitmask.buffer_valid_run (ops : List BitmaskOp) : ∀ {v w : BufferBitmask},
    v.toAbstractBufferBitmask.Valid → v.run ops = some w →
    w.toAbstractBufferBitmask.Valid := by
  induction ops with
  | nil =>
    intro v w hv h
    simp only [BufferBitmask.run, Option.some.injEq] at h
    subst h; exact hv
  | cons op ops ih =>
    intro v w hv h
    simp only [BufferBitmask.run] at h
    cases h1 : v.apply op with
    | none => simp [h1] at h
    | some u =>
      simp only [h1, Option.some_bind] at h
      exact ih (BufferBitmask.buffer_valid_apply hv h1) h

/-- C3: on a `DynamicBitmask` or a `BufferBitmask` reached from its
constructor by any sequence of `set`/`clear`/`resize`/`reset` calls, the
loop `for (b = ffs(); b < size(); b = fns(b))` visits exactly the indices
below `size()` whose bit reads true, each once and in strictly ascending
order (the list of visits is the ascending list of those indices), whatever
fuel at or above `size()` the loop is given; if no bit reads true it visits
nothing. -/
theorem ffs_fns_enumerate_set_bits (n : Nat) (ops : List BitmaskOp) (k : Nat) :
    (forLoopVisits (fun b => decide (b < ((DynamicBitmask.ofSize n).run ops).size))
        ((DynamicBitmask.ofSize n).run ops).fns
        (((DynamicBitmask.ofSize n).run ops).size + k) ((DynamicBitmask.ofSize n).run ops).ffs
      = (List.range ((DynamicBitmask.ofSize n).run ops).size).filter
          ((DynamicBitmask.ofSize n).run ops).get) ∧
    (∀ w : BufferBitmask, (BufferBitmask.ofSize n).run ops = some w →
      forLoopVisits (fun b => decide (b < w.size)) w.fns (w.size + k) w.ffs
        = (List.range w.size).filter w.get) ∧
    (∀ v : AbstractBufferBitmask, ((List.range v.size).filter v.get).Sorted (· < ·)) ∧
    (∀ v : AbstractBufferBitmask, (∀ i, v.get i = false) →
      (List.range v.size).filter v.get = []) := by
  refine ⟨?_, ?_, ?_, ?_⟩
  · exact (DynamicBitmask.dynamic_valid_run ops (DynamicBitmask.dynamic_valid_ofSize n)).1.visits_ffs k
  · intro w hw
    exact (BufferBitmask.buffer_valid_run ops (BufferBitmask.buffer_valid_ofSize n) hw).visits_ffs k
  · intro v
    exact List.Pairwise.sublist (List.filter_sublist _) (List.pairwise_lt_range _)
  · intro v hv
    rw [List.filter_eq_nil_iff]
    intro a _
    rw [hv a]
    exact Bool.false_ne_true

/-- C3, an instance: a `BufferBitmask(70)` after `set(3); set(68); clear(3);
set(5)`. -/
theorem ffs_fns_enumerate_set_bits_witness :
    (BufferBitmask.ofSize 70).run [.set 3, .set 68, .clear 3, .set 5]
      = some { nbits := 70, bits := [32, 16] } ∧
    forLoopVisits (fun b => decide (b < 70))
        (AbstractBufferBitmask.fns { nbits := 70, bits := [32, 16] }) (70 + 0)
        (AbstractBufferBitmask.ffs { nbits := 70, bits := [32, 16] })
      = (List.range 70).filter (AbstractBufferBitmask.get { nbits := 70, bits := [32, 16] }) :=
  ⟨by decide,
    (ffs_fns_enumerate_set_bits 70 [.set 3, .set 68, .clear 3, .set 5] 0).2.1
      { nbits := 70, bits := [32, 16] } (by decide)⟩

end Prism

namespace Prism

/-! ## Loops over bitmasks -/

/-- A loop on a state that embeds another state runs as the loop on the
embedded state. -/
theorem forLoop_embed {σ τ : Type} (emb : τ → σ) (cond : σ → Nat → Bool)
    (next : σ → Nat → Nat) (body : σ → Nat → σ) (cond2 : τ → Nat → Bool)
    (next2 : τ → Nat → Nat) (body2 : τ → Nat → τ)
    (hc : ∀ t b, cond (emb t) b = cond2 t b) (hn : ∀ t b, next (emb t) b = next2 t b)
    (hb : ∀ t b, body (emb t) b = emb (body2 t b)) : ∀ (fuel : Nat) (t : τ) (bit : Nat),
    forLoop cond next body fuel (emb t) bit = emb (forLoop cond2 next2 body2 fuel t bit) := by
  intro fuel
  induction fuel with
  | zero => intro t bit; rfl
  | succ fuel ih =>
    intro t bit
    unfold forLoop
    rw [hc]
    split
    · rw [hb, hn, ih]
    · rfl

namespace DynamicBitmask

/-- The effect of a run of conditional `set` calls. -/
theorem foldl_set_if (p : Nat → Bool) (l : List Nat) : ∀ {out : DynamicBitmask}, out.Valid →
    (l.foldl (fun (o : DynamicBitmask) b => if p b then o.set b else o) out).Valid ∧
    (∀ i, (l.foldl (fun (o : DynamicBitmask) b => if p b then o.set b else o) out).get i =
      (out.get i || (decide (i ∈ l) && p i))) ∧
    out.size ≤ (l.foldl (fun (o : DynamicBitmask) b => if p b then o.set b else o) out).size ∧
    (∀ n, out.size ≤ n → (∀ b ∈ l, b < n) →
      (l.foldl (fun (o : DynamicBitmask) b => if p b then o.set b else o) out).size ≤ n) := by
  induction l with
  | nil => intro out hv; simp [hv]
  | cons a l ih =>
    intro out hv
    rw [List.foldl_cons]
    by_cases hp : p a = true
    · simp only [hp, if_true]
      obtain ⟨i1, i2, i3, i4⟩ := ih (valid_set hv a)
      refine ⟨i1, ?_, ?_, ?_⟩
      · intro i
        rw [i2, get_set hv]
        by_cases e : i = a
        · subst e; simp [hp]
        · simp [e]
      · have := size_set out a; omega
      · intro n h1 h2
        refine i4 n ?_ (fun b hb => h2 b (List.mem_cons_of_mem _ hb))
        have := size_set out a
        have := h2 a (List.mem_cons_self _ _)
        omega
    · simp only [hp, if_false, Bool.false_eq_true]
      obtain ⟨i1, i2, i3, i4⟩ := ih hv
      refine ⟨i1, ?_, i3, ?_⟩
      · intro i
        rw [i2]
        by_cases e : i = a
        · subst e; simp [hp]
        · simp [e]
      · intro n h1 h2
        exact i4 n h1 (fun b hb => h2 b (List.mem_cons_of_mem _ hb))

/-- The effect of a run of `set` calls. -/
theorem foldl_set (l : List Nat) {out : DynamicBitmask} (hv : out.Valid) :
    (l.foldl (fun (o : DynamicBitmask) b => o.set b) out).Valid ∧
    (∀ i, (l.foldl (fun (o : DynamicBitmask) b => o.set b) out).get i =
      (out.get i || decide (i ∈ l))) ∧
    out.size ≤ (l.foldl (fun (o : DynamicBitmask) b => o.set b) out).size ∧
    (∀ n, out.size ≤ n → (∀ b ∈ l, b < n) →
      (l.foldl (fun (o : DynamicBitmask) b => o.set b) out).size ≤ n) := by
  have := foldl_set_if (fun _ => true) l hv
  simpa using this

/-- The effect of a run of `write` calls on the indices `lo .. lo + m - 1`. -/
theorem foldl_write_range (f : Nat → Bool) (m : Nat) : ∀ (lo : Nat) {out : DynamicBitmask},
    out.Valid →
    ((List.range' lo m).foldl (fun (o : DynamicBitmask) b => o.write b (f b)) out).Valid ∧
    (∀ i, ((List.range' lo m).foldl (fun (o : DynamicBitmask) b => o.write b (f b)) out).get i
      = if lo ≤ i ∧ i < lo + m then f i else out.get i) ∧
    ((List.range' lo m).foldl (fun (o : DynamicBitmask) b => o.write b (f b)) out).size
      = if m = 0 then out.size else max out.size (lo + m) := by
  induction m with
  | zero =>
    intro lo out hv
    refine ⟨hv, fun i => ?_, by simp⟩
    have : ¬ (lo ≤ i ∧ i < lo) := by omega
    simp [this]
  | succ m ih =>
    intro lo out hv
    rw [List.range'_succ, List.foldl_cons]
    obtain ⟨i1, i2, i3⟩ := ih (lo + 1) (valid_write hv lo (f lo))
    refine ⟨i1, ?_, ?_⟩
    · intro i
      rw [i2, get_write hv]
      by_cases h1 : i = lo
      · subst h1
        have : ¬ (i + 1 ≤ i ∧ i < i + 1 + m) := by omega
        simp [this]
      · by_cases h2 : lo + 1 ≤ i ∧ i < lo + 1 + m
        · have : lo ≤ i ∧ i < lo + (m + 1) := by omega
          simp [h2, this]
        · have : ¬ (lo ≤ i ∧ i < lo + (m + 1)) := by omega
          simp [h1, h2, this]
    · rw [i3, size_write]
      simp only [Nat.succ_ne_zero, if_false]
      split <;> omega

/-- `out.copy(from)` on two distinct objects is the loop of `write` calls. -/
theorem copy_eq (out frm : DynamicBitmask) :
    out.copy frm = (List.range' 0 frm.size).foldl
      (fun (o : DynamicBitmask) b => o.write b (frm.get b)) out := by
  unfold copy Bitmask.copy
  have h := forLoop_embed (fun o : DynamicBitmask => ([o, frm] : Heap))
    (fun (h : Heap) bit => decide (bit < (h.obj 1).size)) (fun _ bit => bit + 1)
    (fun (h : Heap) bit => Bitmask.write h 0 bit ((h.obj 1).get bit))
    (fun _ bit => decide (bit < frm.size)) (fun _ bit => bit + 1)
    (fun o bit => o.write bit (frm.get bit))
    (fun t b => rfl) (fun t b => rfl)
    (fun t b => by
      show Bitmask.write [t, frm] 0 b (frm.get b) = [t.write b (frm.get b), frm]
      cases frm.get b <;> rfl)
    frm.size out 0
  have e : Heap.obj [out, frm] 1 = frm := rfl
  rw [e, h, forLoop_range _ _ _ _ _ (by omega)]
  rfl

theorem valid_copy {out : DynamicBitmask} (frm : DynamicBitmask) (hv : out.Valid) :
    (out.copy frm).Valid := by
  rw [copy_eq]; exact (foldl_write_range _ _ 0 hv).1

theorem get_copy {out frm : DynamicBitmask} (hv : out.Valid) (i : Nat) :
    (out.copy frm).get i = if i < frm.size then frm.get i else out.get i := by
  rw [copy_eq, (foldl_write_range _ _ 0 hv).2.1]
  simp

theorem size_copy {out : DynamicBitmask} (frm : DynamicBitmask) (hv : out.Valid) :
    (out.copy frm).size = max out.size frm.size := by
  rw [copy_eq, (foldl_write_range _ _ 0 hv).2.2]
  split
  · next h => rw [h]; simp
  · simp

end DynamicBitmask

end Prism

namespace Prism

namespace DynamicBitmask

theorem get_lt_size (v : DynamicBitmask) {i : Nat} (h : v.get i = true) : i < v.size := by
  by_contra hcon
  rw [AbstractBufferBitmask.get_false_of_le _ (by exact Nat.le_of_not_lt hcon)] at h
  exact Bool.noConfusion h

theorem mem_setBits {v : DynamicBitmask} (hv : v.Valid) (i : Nat) :
    i ∈ v.setBits ↔ v.get i = true := by
  rw [hv.1.setBits_eq, List.mem_filter, List.mem_range]
  constructor
  · exact fun h => h.2
  · exact fun h => ⟨get_lt_size v h, h⟩

/-- `lk.setIntersection(out, rk)` on three distinct objects. -/
theorem setIntersection_eq (lk out rk : DynamicBitmask) :
    lk.setIntersection out rk =
      lk.setBits.foldl (fun (o : DynamicBitmask) b => if rk.get b then o.set b else o)
        out.reset := by
  unfold setIntersection Bitmask.setIntersection Bitmask.setIntersectionDepth
  have h := forLoop_embed (fun o : DynamicBitmask => ([lk, rk, o] : Heap))
    (fun (h : Heap) bit => decide (bit < (h.obj 0).size)) (fun (h : Heap) bit => (h.obj 0).fns bit)
    (fun (h : Heap) bit => if (h.obj 1).get bit then Bitmask.set h 2 bit else h)
    (fun _ bit => decide (bit < lk.size)) (fun _ bit => lk.fns bit)
    (fun o bit => if rk.get bit then o.set bit else o)
    (fun t b => rfl) (fun t b => rfl)
    (fun t b => by
      show (if rk.get b = true then Bitmask.set [lk, rk, t] 2 b else [lk, rk, t])
        = [lk, rk, if rk.get b = true then t.set b else t]
      cases rk.get b <;> rfl)
    lk.size out.reset lk.ffs
  have e1 : Bitmask.reset [lk, rk, out] 2 = [lk, rk, out.reset] := rfl
  have e2 : Heap.obj [lk, rk, out.reset] 0 = lk := rfl
  simp only [show (1 : Nat) ≠ 0 by decide, show (2 : Nat) ≠ 1 by decide,
    show (2 : Nat) ≠ 0 by decide, if_false, e1, e2]
  rw [h, forLoop_eq_foldl (fun bit => decide (bit < lk.size)) lk.fns]
  rfl

theorem copy_heap (lk rk out : DynamicBitmask) :
    Bitmask.copy [lk, rk, out] 2 1 = [lk, rk, out.copy rk] := by
  rw [copy_eq]
  unfold Bitmask.copy
  have h := forLoop_embed (fun o : DynamicBitmask => ([lk, rk, o] : Heap))
    (fun (h : Heap) bit => decide (bit < (h.obj 1).size)) (fun _ bit => bit + 1)
    (fun (h : Heap) bit => Bitmask.write h 2 bit ((h.obj 1).get bit))
    (fun _ bit => decide (bit < rk.size)) (fun _ bit => bit + 1)
    (fun o bit => o.write bit (rk.get bit))
    (fun t b => rfl) (fun t b => rfl)
    (fun t b => by
      show Bitmask.write [lk, rk, t] 2 b (rk.get b) = [lk, rk, t.write b (rk.get b)]
      cases rk.get b <;> rfl)
    rk.size out 0
  have e : Heap.obj [lk, rk, out] 1 = rk := rfl
  rw [e, h, forLoop_range _ _ _ _ _ (by omega)]
  rfl

/-- `lk.setUnion(out, rk)` on three distinct objects. -/
theorem setUnion_eq (lk out rk : DynamicBitmask) :
    lk.setUnion out rk =
      lk.setBits.foldl (fun (o : DynamicBitmask) b => o.set b) (out.copy rk) := by
  unfold setUnion Bitmask.setUnion
  have h := forLoop_embed (fun o : DynamicBitmask => ([lk, rk, o] : Heap))
    (fun (h : Heap) bit => decide (bit < (h.obj 0).size)) (fun (h : Heap) bit => (h.obj 0).fns bit)
    (fun (h : Heap) bit => Bitmask.set h 2 bit)
    (fun _ bit => decide (bit < lk.size)) (fun _ bit => lk.fns bit)
    (fun o bit => o.set bit)
    (fun t b => rfl) (fun t b => rfl) (fun t b => rfl)
    lk.size (out.copy rk) lk.ffs
  have e2 : Heap.obj [lk, rk, out.copy rk] 0 = lk := rfl
  simp only [show (2 : Nat) ≠ 1 by decide, show (2 : Nat) ≠ 0 by decide, if_false,
    copy_heap, e2]
  rw [h, forLoop_eq_foldl (fun bit => decide (bit < lk.size)) lk.fns]
  rfl

theorem setIntersection_spec {lk out : DynamicBitmask} (rk : DynamicBitmask) (hl : lk.Valid)
    (ho : out.Valid) :
    (lk.setIntersection out rk).Valid ∧
    (∀ i, (lk.setIntersection out rk).get i = (lk.get i && rk.get i)) ∧
    (∀ n, out.size ≤ n → lk.size ≤ n → (lk.setIntersection out rk).size ≤ n) := by
  rw [setIntersection_eq]
  obtain ⟨f1, f2, -, f4⟩ := foldl_set_if rk.get lk.setBits (valid_reset ho)
  refine ⟨f1, ?_, ?_⟩
  · intro i
    rw [f2, get_reset ho]
    by_cases h : lk.get i = true
    · simp [(mem_setBits hl i).2 h, h]
    · have : ¬ i ∈ lk.setBits := fun hm => h ((mem_setBits hl i).1 hm)
      simp [this, h]
  · intro n h1 h2
    refine f4 n h1 (fun b hb => ?_)
    have := lk.lt_size_of_mem_setBits hb
    omega

theorem setUnion_spec {lk out : DynamicBitmask} (rk : DynamicBitmask) (hl : lk.Valid)
    (ho : out.Valid) :
    (lk.setUnion out rk).Valid ∧
    (∀ i, (lk.setUnion out rk).get i =
      ((if i < rk.size then rk.get i else out.get i) || lk.get i)) ∧
    rk.size ≤ (lk.setUnion out rk).size ∧
    (∀ n, out.size ≤ n → lk.size ≤ n → rk.size ≤ n → (lk.setUnion out rk).size ≤ n) := by
  rw [setUnion_eq]
  obtain ⟨f1, f2, f3, f4⟩ := foldl_set lk.setBits (valid_copy rk ho)
  refine ⟨f1, ?_, ?_, ?_⟩
  · intro i
    rw [f2, get_copy ho]
    by_cases h : lk.get i = true
    · simp [(mem_setBits hl i).2 h, h]
    · have : ¬ i ∈ lk.setBits := fun hm => h ((mem_setBits hl i).1 hm)
      simp [this, h]
  · have := size_copy rk ho
    omega
  · intro n h1 h2 h3
    refine f4 n ?_ (fun b hb => ?_)
    · have := size_copy rk ho
      omega
    · have := lk.lt_size_of_mem_setBits hb
      omega

end DynamicBitmask

/-- The two loops of the exclusive-or and of its complement: the first sets
the bits below `lk.size()` picked by `p`, the second the bits from
`lk.size()` up to `rk.size()` picked by `q`. -/
theorem two_loops_spec (p q : Nat → Bool) (a b : Nat) {out : DynamicBitmask}
    (ho : out.Valid) :
    (forLoop (fun _ bit => decide (bit < b)) (fun _ bit => bit + 1)
      (fun (o : DynamicBitmask) bit => if q bit then o.set bit else o) (b - a)
      (forLoop (fun _ bit => decide (bit < a)) (fun _ bit => bit + 1)
        (fun (o : DynamicBitmask) bit => if p bit then o.set bit else o) a out 0) a).Valid ∧
    (∀ i, (forLoop (fun _ bit => decide (bit < b)) (fun _ bit => bit + 1)
      (fun (o : DynamicBitmask) bit => if q bit then o.set bit else o) (b - a)
      (forLoop (fun _ bit => decide (bit < a)) (fun _ bit => bit + 1)
        (fun (o : DynamicBitmask) bit => if p bit then o.set bit else o) a out 0) a).get i
      = (out.get i || (decide (i < a) && p i) || (decide (a ≤ i ∧ i < b) && q i))) ∧
    (∀ n, out.size ≤ n → a ≤ n → b ≤ n →
      (forLoop (fun _ bit => decide (bit < b)) (fun _ bit => bit + 1)
      (fun (o : DynamicBitmask) bit => if q bit then o.set bit else o) (b - a)
      (forLoop (fun _ bit => decide (bit < a)) (fun _ bit => bit + 1)
        (fun (o : DynamicBitmask) bit => if p bit then o.set bit else o) a out 0) a).size
          ≤ n) := by
  rw [forLoop_range a _ a out 0 (by omega), forLoop_range b _ (b - a) _ a (by omega)]
  obtain ⟨f1, f2, -, f4⟩ := DynamicBitmask.foldl_set_if p (List.range' 0 (a - 0)) ho
  obtain ⟨g1, g2, -, g4⟩ := DynamicBitmask.foldl_set_if q (List.range' a (b - a)) f1
  refine ⟨g1, ?_, ?_⟩
  · intro i
    rw [g2, f2]
    simp only [List.mem_range'_1, Nat.sub_zero, Nat.zero_le, true_and, Nat.zero_add]
    by_cases h1 : a ≤ i ∧ i < b
    · have : a ≤ i ∧ i < a + (b - a) := by omega
      simp [h1, this]
    · have : ¬ (a ≤ i ∧ i < a + (b - a)) := by omega
      simp [h1, this]
  · intro n h1 h2 h3
    refine g4 n (f4 n h1 (fun x hx => ?_)) (fun x hx => ?_)
    · rw [List.mem_range'_1] at hx; omega
    · rw [List.mem_range'_1] at hx; omega

end Prism

namespace Prism

/-! ## Resolving expressions -/

theorem IdentifierExpression.identifier_resolve_valid (group : MappedBitGroup)
    (inp : AbstractBufferBitmask) {out : DynamicBitmask} (ho : out.Valid) :
    (IdentifierExpression.resolve group inp out).Valid := by
  unfold IdentifierExpression.resolve
  rw [forLoop_range _ _ _ _ _ (by omega)]
  exact (DynamicBitmask.foldl_write_range (fun b => inp.get (group.map b)) _ 0 ho).1

theorem BitwiseNotExpression.invert_valid (val : DynamicBitmask) {out : DynamicBitmask}
    (ho : out.Valid) : (BitwiseNotExpression.invert val out).Valid := by
  unfold BitwiseNotExpression.invert
  rw [forLoop_range _ _ _ _ _ (by omega)]
  exact (DynamicBitmask.foldl_set_if (fun b => !val.get b) _
    (DynamicBitmask.valid_resize ho val.size)).1

theorem BitwiseXorExpression.xor_loops_spec (lk rk : DynamicBitmask) {out : DynamicBitmask}
    (ho : out.Valid) :
    (BitwiseXorExpression.loops lk rk out).Valid ∧
    (∀ i, (BitwiseXorExpression.loops lk rk out).get i =
      (out.get i || (decide (i < lk.size) && (rk.get i != lk.get i))
        || (decide (lk.size ≤ i ∧ i < rk.size) && rk.get i))) ∧
    (∀ n, out.size ≤ n → lk.size ≤ n → rk.size ≤ n →
      (BitwiseXorExpression.loops lk rk out).size ≤ n) :=
  two_loops_spec (fun b => rk.get b != lk.get b) (fun b => rk.get b) lk.size rk.size ho

theorem BitwiseXnorExpression.xnor_loops_spec (lk rk : DynamicBitmask) {out : DynamicBitmask}
    (ho : out.Valid) :
    (BitwiseXnorExpression.loops lk rk out).Valid ∧
    (∀ i, (BitwiseXnorExpression.loops lk rk out).get i =
      (out.get i || (decide (i < lk.size) && (rk.get i == lk.get i))
        || (decide (lk.size ≤ i ∧ i < rk.size) && !rk.get i))) ∧
    (∀ n, out.size ≤ n → lk.size ≤ n → rk.size ≤ n →
      (BitwiseXnorExpression.loops lk rk out).size ≤ n) :=
  two_loops_spec (fun b => rk.get b == lk.get b) (fun b => !rk.get b) lk.size rk.size ho

theorem BitwiseXorExpression.xor_resolveBitwise_valid (lk rk : DynamicBitmask)
    {out : DynamicBitmask} (ho : out.Valid) :
    (BitwiseXorExpression.resolveBitwise lk rk out).Valid := by
  unfold BitwiseXorExpression.resolveBitwise
  split
  · exact (BitwiseXorExpression.xor_loops_spec lk rk ho).1
  · exact (BitwiseXorExpression.xor_loops_spec rk lk ho).1

theorem BitwiseXnorExpression.xnor_resolveBitwise_valid (lk rk : DynamicBitmask)
    {out : DynamicBitmask} (ho : out.Valid) :
    (BitwiseXnorExpression.resolveBitwise lk rk out).Valid := by
  unfold BitwiseXnorExpression.resolveBitwise
  split
  · exact (BitwiseXnorExpression.xnor_loops_spec lk rk ho).1
  · exact (BitwiseXnorExpression.xnor_loops_spec rk lk ho).1

/-- Resolving an expression into a valid bitmask leaves a valid bitmask. -/
theorem Expression.resolve_valid : ∀ (e : Expression) (inp : AbstractBufferBitmask)
    {out : DynamicBitmask}, out.Valid → (e.resolve inp out).Valid
  | .identifier group, inp, out, ho => by
    rw [Expression.resolve]; exact IdentifierExpression.identifier_resolve_valid group inp ho
  | .logic e, inp, out, ho => by
    rw [Expression.resolve]; exact DynamicBitmask.valid_write ho _ _
  | .bitwiseNot child, inp, out, ho => by
    rw [Expression.resolve]; exact BitwiseNotExpression.invert_valid _ ho
  | .bitwiseAnd lhs rhs, inp, out, ho => by
    rw [Expression.resolve]
    exact DynamicBitmask.valid_resize (DynamicBitmask.setIntersection_spec _
      (Expression.resolve_valid lhs inp DynamicBitmask.valid_empty) ho).1 _
  | .bitwiseOr lhs rhs, inp, out, ho => by
    rw [Expression.resolve]
    exact DynamicBitmask.valid_resize (DynamicBitmask.setUnion_spec _
      (Expression.resolve_valid lhs inp DynamicBitmask.valid_empty) ho).1 _
  | .bitwiseXor lhs rhs, inp, out, ho => by
    rw [Expression.resolve]
    exact DynamicBitmask.valid_resize (BitwiseXorExpression.xor_resolveBitwise_valid _ _ ho) _
  | .bitwiseXnor lhs rhs, inp, out, ho => by
    rw [Expression.resolve]
    exact DynamicBitmask.valid_resize (BitwiseXnorExpression.xnor_resolveBitwise_valid _ _ ho) _
  | .constant frm, inp, out, ho => by
    rw [Expression.resolve]; exact DynamicBitmask.valid_copy _ ho

/-- The tail of `BitwiseExpression::resolve` on a result that has no bit at
or above the wider operand's width. -/
theorem BitwiseExpression.widen_spec (lk rk : DynamicBitmask) {x : DynamicBitmask}
    (hx : x.Valid) (hs : x.size ≤ max lk.size rk.size) :
    (BitwiseExpression.widen lk rk x).size = max lk.size rk.size ∧
    ∀ i, (BitwiseExpression.widen lk rk x).get i = x.get i := by
  unfold BitwiseExpression.widen
  refine ⟨?_, fun i => DynamicBitmask.get_resize hx _ i⟩
  rw [DynamicBitmask.size_resize]
  split <;> omega

/-- The three operators on resolved operands `lk` and `rk`. -/
theorem BitwiseExpression.and_or_xor_spec {lk : DynamicBitmask} (rk : DynamicBitmask)
    (hl : lk.Valid) :
    ((BitwiseExpression.widen lk rk (lk.setIntersection DynamicBitmask.empty rk)).size
        = max lk.size rk.size ∧
      ∀ i, (BitwiseExpression.widen lk rk (lk.setIntersection DynamicBitmask.empty rk)).get i
        = (lk.get i && rk.get i)) ∧
    ((BitwiseExpression.widen lk rk (lk.setUnion DynamicBitmask.empty rk)).size
        = max lk.size rk.size ∧
      ∀ i, (BitwiseExpression.widen lk rk (lk.setUnion DynamicBitmask.empty rk)).get i
        = (lk.get i || rk.get i)) ∧
    ((BitwiseExpression.widen lk rk
        (BitwiseXorExpression.resolveBitwise lk rk DynamicBitmask.empty)).size
        = max lk.size rk.size ∧
      ∀ i, (BitwiseExpression.widen lk rk
        (BitwiseXorExpression.resolveBitwise lk rk DynamicBitmask.empty)).get i
        = (lk.get i != rk.get i)) := by
  have he := DynamicBitmask.valid_empty
  have hlz : ∀ i, lk.size ≤ i → lk.get i = false :=
    fun i h => AbstractBufferBitmask.get_false_of_le _ h
  have hrz : ∀ i, rk.size ≤ i → rk.get i = false :=
    fun i h => AbstractBufferBitmask.get_false_of_le _ h
  refine ⟨?_, ?_, ?_⟩
  · obtain ⟨s1, s2, s3⟩ := DynamicBitmask.setIntersection_spec rk hl he
    obtain ⟨w1, w2⟩ := BitwiseExpression.widen_spec lk rk s1
      (s3 _ (by rw [DynamicBitmask.size_empty]; omega) (by omega))
    exact ⟨w1, fun i => by rw [w2, s2]⟩
  · obtain ⟨s1, s2, -, s4⟩ := DynamicBitmask.setUnion_spec rk hl he
    obtain ⟨w1, w2⟩ := BitwiseExpression.widen_spec lk rk s1
      (s4 _ (by rw [DynamicBitmask.size_empty]; omega) (by omega) (by omega))
    refine ⟨w1, fun i => ?_⟩
    rw [w2, s2, DynamicBitmask.get_empty]
    by_cases h : i < rk.size
    · simp only [h, if_true]; exact Bool.or_comm _ _
    · simp only [h, if_false, hrz i (by omega)]; exact Bool.or_comm _ _
  · unfold BitwiseXorExpression.resolveBitwise
    by_cases hle : lk.size ≤ rk.size
    · simp only [hle, if_true]
      obtain ⟨s1, s2, s3⟩ := BitwiseXorExpression.xor_loops_spec lk rk he
      obtain ⟨w1, w2⟩ := BitwiseExpression.widen_spec lk rk s1
        (s3 _ (by rw [DynamicBitmask.size_empty]; omega) (by omega) (by omega))
      refine ⟨w1, fun i => ?_⟩
      rw [w2, s2, DynamicBitmask.get_empty]
      by_cases h1 : i < lk.size
      · have : ¬ (lk.size ≤ i ∧ i < rk.size) := by omega
        simp only [h1, this, decide_True, decide_False, Bool.true_and, Bool.false_and,
          Bool.false_or, Bool.or_false]
        cases lk.get i <;> cases rk.get i <;> rfl
      · rw [hlz i (by omega)]
        by_cases h2 : i < rk.size
        · have : lk.size ≤ i ∧ i < rk.size := by omega
          simp [h1, this]
        · have : ¬ (lk.size ≤ i ∧ i < rk.size) := by omega
          simp [h1, this, hrz i (by omega)]
    · simp only [hle, if_false]
      obtain ⟨s1, s2, s3⟩ := BitwiseXorExpression.xor_loops_spec rk lk he
      obtain ⟨w1, w2⟩ := BitwiseExpression.widen_spec lk rk s1
        (s3 _ (by rw [DynamicBitmask.size_empty]; omega) (by omega) (by omega))
      refine ⟨w1, fun i => ?_⟩
      rw [w2, s2, DynamicBitmask.get_empty]
      by_cases h1 : i < rk.size
      · have : ¬ (rk.size ≤ i ∧ i < lk.size) := by omega
        simp only [h1, this, decide_True, decide_False, Bool.true_and, Bool.false_and,
          Bool.false_or, Bool.or_false]
      · rw [hrz i (by omega)]
        by_cases h2 : i < lk.size
        · have : rk.size ≤ i ∧ i < lk.size := by omega
          simp [h1, this]
        · have : ¬ (rk.size ≤ i ∧ i < lk.size) := by omega
          simp [h1, this, hlz i (by omega)]

/-- C5: for `BitwiseAndExpression`, `BitwiseOrExpression` and
`BitwiseXorExpression`, with `L` and `R` the vectors the operands resolve
to, resolving into an empty output gives a vector of width
`max(|L|, |R|)` whose bit `i` is `L_i && R_i`, `L_i || R_i` and
`L_i != R_i`; a bit that the narrower operand lacks reads as false. -/
theorem bitwise_and_or_xor_broadcast (lhs rhs : Expression) (inp : AbstractBufferBitmask) :
    (((Expression.bitwiseAnd lhs rhs).resolve inp DynamicBitmask.empty).size
        = max (lhs.resolve inp DynamicBitmask.empty).size
            (rhs.resolve inp DynamicBitmask.empty).size ∧
      ∀ i, ((Expression.bitwiseAnd lhs rhs).resolve inp DynamicBitmask.empty).get i
        = ((lhs.resolve inp DynamicBitmask.empty).get i
            && (rhs.resolve inp DynamicBitmask.empty).get i)) ∧
    (((Expression.bitwiseOr lhs rhs).resolve inp DynamicBitmask.empty).size
        = max (lhs.resolve inp DynamicBitmask.empty).size
            (rhs.resolve inp DynamicBitmask.empty).size ∧
      ∀ i, ((Expression.bitwiseOr lhs rhs).resolve inp DynamicBitmask.empty).get i
        = ((lhs.resolve inp DynamicBitmask.empty).get i
            || (rhs.resolve inp DynamicBitmask.empty).get i)) ∧
    (((Expression.bitwiseXor lhs rhs).resolve inp DynamicBitmask.empty).size
        = max (lhs.resolve inp DynamicBitmask.empty).size
            (rhs.resolve inp DynamicBitmask.empty).size ∧
      ∀ i, ((Expression.bitwiseXor lhs rhs).resolve inp DynamicBitmask.empty).get i
        = ((lhs.resolve inp DynamicBitmask.empty).get i
            != (rhs.resolve inp DynamicBitmask.empty).get i)) ∧
    (∀ i, (lhs.resolve inp DynamicBitmask.empty).size ≤ i →
      (lhs.resolve inp DynamicBitmask.empty).get i = false) ∧
    (∀ i, (rhs.resolve inp DynamicBitmask.empty).size ≤ i →
      (rhs.resolve inp DynamicBitmask.empty).get i = false) := by
  have hl := Expression.resolve_valid lhs inp DynamicBitmask.valid_empty
  obtain ⟨h1, h2, h3⟩ :=
    BitwiseExpression.and_or_xor_spec (rhs.resolve inp DynamicBitmask.empty) hl
  refine ⟨?_, ?_, ?_, fun i h => AbstractBufferBitmask.get_false_of_le _ h,
    fun i h => AbstractBufferBitmask.get_false_of_le _ h⟩
  · rw [Expression.resolve]; exact h1
  · rw [Expression.resolve]; exact h2
  · rw [Expression.resolve]; exact h3

/-- C5, an instance: `I0 & {I1, I2}` on an input with no bit set; bit 1 is
at the width of the left operand. -/
theorem bitwise_and_or_xor_broadcast_witness :
    ((Expression.identifier [0]).resolve DynamicBitmask.empty.toAbstractBufferBitmask
        DynamicBitmask.empty).size ≤ 1 ∧
    ((Expression.identifier [0]).resolve DynamicBitmask.empty.toAbstractBufferBitmask
        DynamicBitmask.empty).get 1 = false :=
  ⟨by decide, (bitwise_and_or_xor_broadcast (.identifier [0]) (.identifier [1, 2])
    DynamicBitmask.empty.toAbstractBufferBitmask).2.2.2.1 1 (by decide)⟩

end Prism

namespace Prism

/-- The complement of the exclusive-or on resolved operands `lk` and `rk`. -/
theorem BitwiseXnorExpression.spec (lk rk : DynamicBitmask) :
    (BitwiseExpression.widen lk rk
        (BitwiseXnorExpression.resolveBitwise lk rk DynamicBitmask.empty)).size
        = max lk.size rk.size ∧
      ∀ i, (BitwiseExpression.widen lk rk
        (BitwiseXnorExpression.resolveBitwise lk rk DynamicBitmask.empty)).get i
        = (decide (i < max lk.size rk.size) && (lk.get i == rk.get i)) := by
  have he := DynamicBitmask.valid_empty
  have hlz : ∀ i, lk.size ≤ i → lk.get i = false :=
    fun i h => AbstractBufferBitmask.get_false_of_le _ h
  have hrz : ∀ i, rk.size ≤ i → rk.get i = false :=
    fun i h => AbstractBufferBitmask.get_false_of_le _ h
  unfold BitwiseXnorExpression.resolveBitwise
  by_cases hle : lk.size ≤ rk.size
  · simp only [hle, if_true]
    obtain ⟨s1, s2, s3⟩ := BitwiseXnorExpression.xnor_loops_spec lk rk he
    obtain ⟨w1, w2⟩ := BitwiseExpression.widen_spec lk rk s1
      (s3 _ (by rw [DynamicBitmask.size_empty]; omega) (by omega) (by omega))
    refine ⟨w1, fun i => ?_⟩
    rw [w2, s2, DynamicBitmask.get_empty]
    by_cases h1 : i < lk.size
    · have : ¬ (lk.size ≤ i ∧ i < rk.size) := by omega
      have h3 : i < max lk.size rk.size := by omega
      simp only [h1, this, h3, decide_True, decide_False, Bool.true_and, Bool.false_and,
        Bool.false_or, Bool.or_false]
      cases lk.get i <;> cases rk.get i <;> rfl
    · rw [hlz i (by omega)]
      by_cases h2 : i < rk.size
      · have : lk.size ≤ i ∧ i < rk.size := by omega
        have h3 : i < max lk.size rk.size := by omega
        simp only [h1, this, h3, decide_True, decide_False, Bool.true_and, Bool.false_and,
          Bool.false_or, and_self]
        cases rk.get i <;> rfl
      · have : ¬ (lk.size ≤ i ∧ i < rk.size) := by omega
        have h3 : ¬ i < max lk.size rk.size := by omega
        simp [h1, this, h3]
  · simp only [hle, if_false]
    obtain ⟨s1, s2, s3⟩ := BitwiseXnorExpression.xnor_loops_spec rk lk he
    obtain ⟨w1, w2⟩ := BitwiseExpression.widen_spec lk rk s1
      (s3 _ (by rw [DynamicBitmask.size_empty]; omega) (by omega) (by omega))
    refine ⟨w1, fun i => ?_⟩
    rw [w2, s2, DynamicBitmask.get_empty]
    by_cases h1 : i < rk.size
    · have : ¬ (rk.size ≤ i ∧ i < lk.size) := by omega
      have h3 : i < max lk.size rk.size := by omega
      simp only [h1, this, h3, decide_True, decide_False, Bool.true_and, Bool.false_and,
        Bool.false_or, Bool.or_false]
    · rw [hrz i (by omega)]
      by_cases h2 : i < lk.size
      · have : rk.size ≤ i ∧ i < lk.size := by omega
        have h3 : i < max lk.size rk.size := by omega
        simp only [h1, this, h3, decide_True, decide_False, Bool.true_and, Bool.false_and,
          Bool.false_or, and_self]
        cases lk.get i <;> rfl
      · have : ¬ (rk.size ≤ i ∧ i < lk.size) := by omega
        have h3 : ¬ i < max lk.size rk.size := by omega
        simp [h1, this, h3]

/-- C6, as the code has it: for `BitwiseXnorExpression`, with `L` and `R`
the vectors the operands resolve to, the result has width `max(|L|, |R|)`
and its bit `i` below that width is `L_i == R_i`, a bit that the narrower
operand lacks read as false: below the narrower width the bit is
`L_i == R_i`, from the narrower width up to the wider one it is the
negation of the wider operand's bit, and at or above the wider width it is
false. -/
theorem bitwise_xnor_zero_extends (lhs rhs : Expression) (inp : AbstractBufferBitmask) :
    ((Expression.bitwiseXnor lhs rhs).resolve inp DynamicBitmask.empty).size
      = max (lhs.resolve inp DynamicBitmask.empty).size
          (rhs.resolve inp DynamicBitmask.empty).size ∧
    (∀ i, ((Expression.bitwiseXnor lhs rhs).resolve inp DynamicBitmask.empty).get i
      = (decide (i < max (lhs.resolve inp DynamicBitmask.empty).size
            (rhs.resolve inp DynamicBitmask.empty).size)
          && ((lhs.resolve inp DynamicBitmask.empty).get i
            == (rhs.resolve inp DynamicBitmask.empty).get i))) ∧
    (∀ i, (lhs.resolve inp DynamicBitmask.empty).size ≤ i →
      i < (rhs.resolve inp DynamicBitmask.empty).size →
      ((Expression.bitwiseXnor lhs rhs).resolve inp DynamicBitmask.empty).get i
        = !(rhs.resolve inp DynamicBitmask.empty).get i) ∧
    (∀ i, (rhs.resolve inp DynamicBitmask.empty).size ≤ i →
      i < (lhs.resolve inp DynamicBitmask.empty).size →
      ((Expression.bitwiseXnor lhs rhs).resolve inp DynamicBitmask.empty).get i
        = !(lhs.resolve inp DynamicBitmask.empty).get i) := by
  obtain ⟨h1, h2⟩ := BitwiseXnorExpression.spec (lhs.resolve inp DynamicBitmask.empty)
    (rhs.resolve inp DynamicBitmask.empty)
  rw [Expression.resolve]
  refine ⟨h1, h2, ?_, ?_⟩
  · intro i hi1 hi2
    rw [h2, AbstractBufferBitmask.get_false_of_le _ hi1]
    have : i < max (lhs.resolve inp DynamicBitmask.empty).size
        (rhs.resolve inp DynamicBitmask.empty).size := by omega
    simp only [this, decide_True, Bool.true_and]
    cases (rhs.resolve inp DynamicBitmask.empty).get i <;> rfl
  · intro i hi1 hi2
    rw [h2, AbstractBufferBitmask.get_false_of_le _ hi1]
    have : i < max (lhs.resolve inp DynamicBitmask.empty).size
        (rhs.resolve inp DynamicBitmask.empty).size := by omega
    simp only [this, decide_True, Bool.true_and]
    cases (lhs.resolve inp DynamicBitmask.empty).get i <;> rfl

/-- C6, an instance: `I0 ~^ {I1, I2}` on an input with no bit set; bit 1 lies
from the width of the left operand up to the width of the right one. -/
theorem bitwise_xnor_zero_extends_witness :
    ((Expression.identifier [0]).resolve DynamicBitmask.empty.toAbstractBufferBitmask
        DynamicBitmask.empty).size ≤ 1 ∧
    1 < ((Expression.identifier [1, 2]).resolve DynamicBitmask.empty.toAbstractBufferBitmask
        DynamicBitmask.empty).size ∧
    ((Expression.bitwiseXnor (.identifier [0]) (.identifier [1, 2])).resolve
        DynamicBitmask.empty.toAbstractBufferBitmask DynamicBitmask.empty).get 1
      = !((Expression.identifier [1, 2]).resolve
          DynamicBitmask.empty.toAbstractBufferBitmask DynamicBitmask.empty).get 1 :=
  ⟨by decide, by decide, (bitwise_xnor_zero_extends (.identifier [0]) (.identifier [1, 2])
    DynamicBitmask.empty.toAbstractBufferBitmask).2.2.1 1 (by decide) (by decide)⟩

/-- C6, as stated, fails: with a one-bit left operand and a two-bit right
operand that both read clear inputs, bit 1 of the result is set although
bit 1 of the wider operand is clear. -/
theorem bitwise_xnor_high_bits_counterexample :
    ¬ (∀ i, ((Expression.identifier [0]).resolve DynamicBitmask.empty.toAbstractBufferBitmask
          DynamicBitmask.empty).size ≤ i →
        ((Expression.bitwiseXnor (.identifier [0]) (.identifier [1, 2])).resolve
          DynamicBitmask.empty.toAbstractBufferBitmask DynamicBitmask.empty).get i
        = ((Expression.identifier [1, 2]).resolve
            DynamicBitmask.empty.toAbstractBufferBitmask DynamicBitmask.empty).get i) := by
  intro h
  have h1 := h 1 (by decide)
  revert h1
  decide

/-! ## Aliased operands of `setUnion` and `setIntersection` -/

/-- C1, the failing input: `a` holds bit 0, `b` is one clear bit, and
`a.setUnion(a, b)` leaves bit 0 of `a` clear, although `a.get(0) ||
b.get(0)` held before the call. -/
theorem setUnion_out_is_this_loses_bit :
    ((Bitmask.setUnion [DynamicBitmask.empty.set 0, DynamicBitmask.empty.clear 0] 0 0 1).obj
        0).get 0 = false ∧
    ((DynamicBitmask.empty.set 0).get 0 || (DynamicBitmask.empty.clear 0).get 0) = true := by
  decide

/-- C2, the failing input: `a` holds bit 0 only, `out` holds bit 2, and
`a.setIntersection(out, a)` leaves bit 2 of `out` set, although
`a.get(2) && a.get(2)` is false. -/
theorem setIntersection_this_is_other_keeps_bit :
    ((Bitmask.setIntersection [DynamicBitmask.empty.set 0, DynamicBitmask.empty.set 2]
        0 1 0).obj 1).get 2 = true ∧
    ((DynamicBitmask.empty.set 0).get 2 && (DynamicBitmask.empty.set 0).get 2) = false := by
  decide

end Prism

namespace Prism

/-! ## Constant folding -/

theorem Expression.asLogic_eq_some {e : Expression} {l : LogicExpression}
    (h : e.asLogic = some l) : e = .logic l := by
  cases e <;> simp [Expression.asLogic] at h
  subst h; rfl

theorem LogicExpression.notChild_eq_some {e c : LogicExpression}
    (h : e.notChild = some c) : e = .logicNot c := by
  cases e <;> simp [LogicExpression.notChild] at h
  subst h; rfl

/-- The flag that `constantSolve` returns does not depend on the value of
`res` on entry, and neither does `res` on return when the flag is true. -/
theorem LogicExpression.constantSolve_indep : ∀ (e : LogicExpression) (r s : Bool),
    (e.constantSolve r).1 = (e.constantSolve s).1 ∧
      ((e.constantSolve r).1 = true → (e.constantSolve r).2 = (e.constantSolve s).2)
  | .logicTrue, r, s => by simp [LogicExpression.constantSolve]
  | .logicFalse, r, s => by simp [LogicExpression.constantSolve]
  | .reduceOr (.logic lexpr), r, s => by
    simp only [LogicExpression.constantSolve]
    exact LogicExpression.constantSolve_indep lexpr r s
  | .reduceOr (.identifier _), r, s => by simp [LogicExpression.constantSolve]
  | .reduceOr (.bitwiseNot _), r, s => by simp [LogicExpression.constantSolve]
  | .reduceOr (.bitwiseAnd _ _), r, s => by simp [LogicExpression.constantSolve]
  | .reduceOr (.bitwiseOr _ _), r, s => by simp [LogicExpression.constantSolve]
  | .reduceOr (.bitwiseXor _ _), r, s => by simp [LogicExpression.constantSolve]
  | .reduceOr (.bitwiseXnor _ _), r, s => by simp [LogicExpression.constantSolve]
  | .reduceOr (.constant _), r, s => by simp [LogicExpression.constantSolve]
  | .reduceAnd _, r, s => by simp [LogicExpression.constantSolve]
  | .reduceXor _, r, s => by simp [LogicExpression.constantSolve]
  | .logicNot child, r, s => by
    obtain ⟨h1, h2⟩ := LogicExpression.constantSolve_indep child r s
    simp only [LogicExpression.constantSolve]
    rw [← h1]
    cases h : (child.constantSolve r).1
    · simp
    · simp [h2 h]
  | .equality _ _, r, s => by simp [LogicExpression.constantSolve]
  | .logicOr lhs rhs, r, s => by
    obtain ⟨h1, h2⟩ := LogicExpression.constantSolve_indep lhs r s
    obtain ⟨h3, h4⟩ := LogicExpression.constantSolve_indep rhs (lhs.constantSolve r).2
      (lhs.constantSolve s).2
    simp only [LogicExpression.constantSolve]
    rw [← h1, ← h3]
    cases ha : (lhs.constantSolve r).1
    · simp only [Bool.false_and, Bool.false_eq_true, if_false]
      cases hb : (rhs.constantSolve (lhs.constantSolve r).2).1
      · simp
      · rw [← h4 hb]; simp
    · rw [← h2 ha]
      cases hc : (lhs.constantSolve r).2
      · simp only [Bool.and_false, Bool.false_eq_true, if_false]
        cases hb : (rhs.constantSolve false).1
        · simp
        · simp
      · simp
  | .logicAnd lhs rhs, r, s => by
    obtain ⟨h1, h2⟩ := LogicExpression.constantSolve_indep lhs r s
    obtain ⟨h3, h4⟩ := LogicExpression.constantSolve_indep rhs (lhs.constantSolve r).2
      (lhs.constantSolve s).2
    simp only [LogicExpression.constantSolve]
    rw [← h1, ← h3]
    cases ha : (lhs.constantSolve r).1
    · simp only [Bool.false_and, Bool.false_eq_true, if_false]
      cases hb : (rhs.constantSolve (lhs.constantSolve r).2).1
      · simp
      · rw [← h4 hb]; simp
    · rw [← h2 ha]
      cases hc : (lhs.constantSolve r).2
      · simp
      · simp only [Bool.not_true, Bool.and_false, Bool.false_eq_true, if_false]
        cases hb : (rhs.constantSolve true).1
        · simp
        · simp
  | .state _, r, s => by simp [LogicExpression.constantSolve]

/-- C8: for every boolean expression `X`, and whatever `res` holds on
entry, `constantSolve` returns true with `res = false` on
`LogicAnd(false, X)` and on `LogicAnd(X, false)`, and returns true with
`res = true` on `LogicOr(true, X)` and on `LogicOr(X, true)`. -/
theorem constantSolve_absorbing_literal (X : LogicExpression) (res : Bool) :
    (LogicExpression.logicAnd .logicFalse X).constantSolve res = (true, false) ∧
    (LogicExpression.logicAnd X .logicFalse).constantSolve res = (true, false) ∧
    (LogicExpression.logicOr .logicTrue X).constantSolve res = (true, true) ∧
    (LogicExpression.logicOr X .logicTrue).constantSolve res = (true, true) := by
  refine ⟨?_, ?_, ?_, ?_⟩
  · simp [LogicExpression.constantSolve]
  · simp only [LogicExpression.constantSolve]
    cases (X.constantSolve res).1 <;> cases (X.constantSolve res).2 <;> simp
  · simp [LogicExpression.constantSolve]
  · simp only [LogicExpression.constantSolve]
    cases (X.constantSolve res).1 <;> cases (X.constantSolve res).2 <;> simp

end Prism

namespace Prism

/-! ## Cloning: the fuel -/

theorem opt_map_mono {α β : Type} {a b : Option α} (h : ∀ x, a = some x → b = some x)
    (f : α → β) (c : β) (hc : a.map f = some c) : b.map f = some c := by
  cases a with
  | none => simp at hc
  | some x => rw [h x rfl]; exact hc

theorem opt_bind_mono {α β : Type} {a b : Option α} (h : ∀ x, a = some x → b = some x)
    {f g : α → Option β} (hf : ∀ x c, f x = some c → g x = some c) (c : β)
    (hc : a.bind f = some c) : b.bind g = some c := by
  cases a with
  | none => simp at hc
  | some x => rw [h x rfl]; exact hf x c hc

/-- One more unit of fuel does not change a clone that was completed. -/
theorem cloneFuel_succ : ∀ n : Nat,
    (∀ (e : Expression) c, e.cloneFuel n = some c → e.cloneFuel (n + 1) = some c) ∧
    (∀ (e : LogicExpression) c, e.cloneLogicFuel n = some c →
      e.cloneLogicFuel (n + 1) = some c) ∧
    (∀ (e : LogicExpression) b c, e.cloneNotFuel n b = some c →
      e.cloneNotFuel (n + 1) b = some c) := by
  intro n
  induction n with
  | zero =>
    refine ⟨?_, ?_, ?_⟩
    · intro e c h; simp [Expression.cloneFuel] at h
    · intro e c h; simp [LogicExpression.cloneLogicFuel] at h
    · intro e b c h; simp [LogicExpression.cloneNotFuel] at h
  | succ n ih =>
    obtain ⟨ih1, ih2, ih3⟩ := ih
    refine ⟨?_, ?_, ?_⟩
    · intro e c h
      cases e with
      | identifier g => simpa [Expression.cloneFuel] using h
      | logic l =>
        rw [Expression.cloneFuel] at h ⊢
        exact opt_map_mono (ih2 l) _ c h
      | bitwiseNot ch =>
        rw [Expression.cloneFuel] at h ⊢
        exact opt_map_mono (ih1 ch) _ c h
      | bitwiseAnd l r =>
        rw [Expression.cloneFuel] at h ⊢
        exact opt_bind_mono (ih1 l) (fun x => opt_map_mono (ih1 r) _) c h
      | bitwiseOr l r =>
        rw [Expression.cloneFuel] at h ⊢
        exact opt_bind_mono (ih1 l) (fun x => opt_map_mono (ih1 r) _) c h
      | bitwiseXor l r =>
        rw [Expression.cloneFuel] at h ⊢
        exact opt_bind_mono (ih1 l) (fun x => opt_map_mono (ih1 r) _) c h
      | bitwiseXnor l r =>
        rw [Expression.cloneFuel] at h ⊢
        exact opt_bind_mono (ih1 l) (fun x => opt_map_mono (ih1 r) _) c h
      | constant frm => simpa [Expression.cloneFuel] using h
    · intro e c h
      cases e with
      | logicTrue => simpa [LogicExpression.cloneLogicFuel] using h
      | logicFalse => simpa [LogicExpression.cloneLogicFuel] using h
      | reduceOr ch =>
        rw [LogicExpression.cloneLogicFuel] at h ⊢
        cases ha : ch.asLogic with
        | none =>
          simp only [ha] at h ⊢
          exact opt_map_mono (ih1 ch) _ c h
        | some l =>
          simp only [ha] at h ⊢
          exact ih2 l c h
      | reduceAnd ch =>
        rw [LogicExpression.cloneLogicFuel] at h ⊢
        exact opt_map_mono (ih1 ch) _ c h
      | reduceXor ch =>
        rw [LogicExpression.cloneLogicFuel] at h ⊢
        exact opt_map_mono (ih1 ch) _ c h
      | logicNot ch =>
        rw [LogicExpression.cloneLogicFuel] at h ⊢
        exact ih3 ch true c h
      | equality l r =>
        rw [LogicExpression.cloneLogicFuel] at h ⊢
        have hfall : ∀ c, ((l.cloneFuel n).bind fun x => (r.cloneFuel n).map
            fun y => LogicExpression.equality x y) = some c →
            ((l.cloneFuel (n + 1)).bind fun x => (r.cloneFuel (n + 1)).map
            fun y => LogicExpression.equality x y) = some c :=
          fun c h => opt_bind_mono (ih1 l) (fun x => opt_map_mono (ih1 r) _) c h
        have hfold : ∀ (res : Bool) (a : LogicExpression) c,
            ((a.cloneLogicFuel n).bind fun out =>
              if (!res) = true then (LogicExpression.logicNot out).cloneLogicFuel n
              else some out) = some c →
            ((a.cloneLogicFuel (n + 1)).bind fun out =>
              if (!res) = true then (LogicExpression.logicNot out).cloneLogicFuel (n + 1)
              else some out) = some c := by
          intro res a c h
          refine opt_bind_mono (ih2 a) (fun x c hx => ?_) c h
          split at hx
          · next hr => rw [if_pos hr]; exact ih2 _ c hx
          · next hr => rw [if_neg hr]; exact hx
        cases ha : l.asLogic with
        | none => simp only [ha] at h ⊢; exact hfall c h
        | some ll =>
          cases hb : r.asLogic with
          | none => simp only [ha, hb] at h ⊢; exact hfall c h
          | some lr =>
            simp only [ha, hb] at h ⊢
            by_cases h1 : (ll.constantSolve false).1 = true
            · rw [if_pos h1] at h ⊢
              exact hfold _ _ c h
            · rw [if_neg h1] at h ⊢
              by_cases h2 : (lr.constantSolve (ll.constantSolve false).2).1 = true
              · rw [if_pos h2] at h ⊢
                exact hfold _ _ c h
              · rw [if_neg h2] at h ⊢
                exact hfall c h
      | logicOr l r =>
        rw [LogicExpression.cloneLogicFuel] at h ⊢
        simp only at h ⊢
        by_cases h1 : ((l.constantSolve false).1 && !(l.constantSolve false).2) = true
        · rw [if_pos h1] at h ⊢
          exact ih2 r c h
        · rw [if_neg h1] at h ⊢
          by_cases h2 : ((r.constantSolve (l.constantSolve false).2).1
              && !(r.constantSolve (l.constantSolve false).2).2) = true
          · rw [if_pos h2] at h ⊢
            exact ih2 l c h
          · rw [if_neg h2] at h ⊢
            exact opt_bind_mono (ih2 l) (fun x => opt_map_mono (ih2 r) _) c h
      | logicAnd l r =>
        rw [LogicExpression.cloneLogicFuel] at h ⊢
        simp only at h ⊢
        by_cases h1 : ((l.constantSolve false).1 && (l.constantSolve false).2) = true
        · rw [if_pos h1] at h ⊢
          exact ih2 r c h
        · rw [if_neg h1] at h ⊢
          by_cases h2 : ((r.constantSolve (l.constantSolve false).2).1
              && (r.constantSolve (l.constantSolve false).2).2) = true
          · rw [if_pos h2] at h ⊢
            exact ih2 l c h
          · rw [if_neg h2] at h ⊢
            exact opt_bind_mono (ih2 l) (fun x => opt_map_mono (ih2 r) _) c h
      | state s => simpa [LogicExpression.cloneLogicFuel] using h
    · intro e b c h
      rw [LogicExpression.cloneNotFuel] at h ⊢
      cases ha : e.notChild with
      | some nx =>
        simp only [ha] at h ⊢
        exact ih3 nx _ c h
      | none =>
        simp only [ha] at h ⊢
        cases b with
        | true =>
          simp only [if_true] at h ⊢
          exact opt_map_mono (ih2 e) _ c h
        | false =>
          simp only [Bool.false_eq_true, if_false] at h ⊢
          exact ih2 e c h

end Prism

namespace Prism

/-- With fuel at or above twice the number of nodes a clone is completed,
and it has no more nodes than the original. -/
theorem cloneFuel_total : ∀ n : Nat,
    (∀ (e : Expression), 2 * e.nodes ≤ n →
      ∃ c, e.cloneFuel n = some c ∧ c.nodes ≤ e.nodes) ∧
    (∀ (e : LogicExpression), 2 * e.nodes ≤ n →
      ∃ c, e.cloneLogicFuel n = some c ∧ c.nodes ≤ e.nodes) ∧
    (∀ (e : LogicExpression) b, 2 * e.nodes + 1 ≤ n →
      ∃ c, e.cloneNotFuel n b = some c ∧ c.nodes ≤ e.nodes + 1) := by
  intro n
  induction n with
  | zero =>
    refine ⟨?_, ?_, ?_⟩
    · intro e h; cases e <;> simp only [Expression.nodes] at h <;> omega
    · intro e h; cases e <;> simp only [LogicExpression.nodes] at h <;> omega
    · intro e b h; omega
  | succ n ih =>
    obtain ⟨ih1, ih2, ih3⟩ := ih
    have hbin : ∀ (l r : Expression) (f : Expression → Expression → Expression) (k : Nat),
        2 * l.nodes ≤ n → 2 * r.nodes ≤ n → (∀ x y, (f x y).nodes = 1 + x.nodes + y.nodes) →
        1 + l.nodes + r.nodes ≤ k →
        ∃ c, ((l.cloneFuel n).bind fun x => (r.cloneFuel n).map fun y => f x y) = some c ∧
          c.nodes ≤ k := by
      intro l r f k hl hr hf hk
      obtain ⟨c1, e1, s1⟩ := ih1 l hl
      obtain ⟨c2, e2, s2⟩ := ih1 r hr
      refine ⟨f c1 c2, by simp [e1, e2], ?_⟩
      rw [hf]; omega
    have hbinL : ∀ (l r : Expression) (k : Nat), 2 * l.nodes ≤ n → 2 * r.nodes ≤ n →
        1 + l.nodes + r.nodes ≤ k →
        ∃ c, ((l.cloneFuel n).bind fun x => (r.cloneFuel n).map
          fun y => LogicExpression.equality x y) = some c ∧ c.nodes ≤ k := by
      intro l r k hl hr hk
      obtain ⟨c1, e1, s1⟩ := ih1 l hl
      obtain ⟨c2, e2, s2⟩ := ih1 r hr
      refine ⟨.equality c1 c2, by simp [e1, e2], ?_⟩
      simp only [LogicExpression.nodes]; omega
    have hfold : ∀ (res : Bool) (a : LogicExpression) (k : Nat), 2 * a.nodes + 2 ≤ n →
        a.nodes + 1 ≤ k →
        ∃ c, ((a.cloneLogicFuel n).bind fun out =>
          if (!res) = true then (LogicExpression.logicNot out).cloneLogicFuel n
          else some out) = some c ∧ c.nodes ≤ k := by
      intro res a k ha hk
      obtain ⟨c1, e1, s1⟩ := ih2 a (by omega)
      cases res with
      | true => exact ⟨c1, by simp [e1], by omega⟩
      | false =>
        obtain ⟨c2, e2, s2⟩ := ih2 (.logicNot c1) (by simp only [LogicExpression.nodes]; omega)
        refine ⟨c2, by simp [e1, e2], ?_⟩
        simp only [LogicExpression.nodes] at s2; omega
    refine ⟨?_, ?_, ?_⟩
    · intro e h
      cases e with
      | identifier g => exact ⟨_, by rw [Expression.cloneFuel], Nat.le_refl _⟩
      | logic l =>
        simp only [Expression.nodes] at h
        obtain ⟨c1, e1, s1⟩ := ih2 l (by omega)
        refine ⟨.logic c1, by rw [Expression.cloneFuel, e1]; rfl, ?_⟩
        simp only [Expression.nodes]; omega
      | bitwiseNot ch =>
        simp only [Expression.nodes] at h
        obtain ⟨c1, e1, s1⟩ := ih1 ch (by omega)
        refine ⟨.bitwiseNot c1, by rw [Expression.cloneFuel, e1]; rfl, ?_⟩
        simp only [Expression.nodes]; omega
      | bitwiseAnd l r =>
        simp only [Expression.nodes] at h ⊢
        rw [Expression.cloneFuel]
        exact hbin l r .bitwiseAnd _ (by omega) (by omega) (fun x y => rfl) (Nat.le_refl _)
      | bitwiseOr l r =>
        simp only [Expression.nodes] at h ⊢
        rw [Expression.cloneFuel]
        exact hbin l r .bitwiseOr _ (by omega) (by omega) (fun x y => rfl) (Nat.le_refl _)
      | bitwiseXor l r =>
        simp only [Expression.nodes] at h ⊢
        rw [Expression.cloneFuel]
        exact hbin l r .bitwiseXor _ (by omega) (by omega) (fun x y => rfl) (Nat.le_refl _)
      | bitwiseXnor l r =>
        simp only [Expression.nodes] at h ⊢
        rw [Expression.cloneFuel]
        exact hbin l r .bitwiseXnor _ (by omega) (by omega) (fun x y => rfl) (Nat.le_refl _)
      | constant frm =>
        exact ⟨.constant (ConstantExpression.mask frm).toAbstractBufferBitmask,
          by rw [Expression.cloneFuel], Nat.le_refl _⟩
    · intro e h
      cases e with
      | logicTrue => exact ⟨_, by rw [LogicExpression.cloneLogicFuel], Nat.le_refl _⟩
      | logicFalse => exact ⟨_, by rw [LogicExpression.cloneLogicFuel], Nat.le_refl _⟩
      | reduceOr ch =>
        simp only [LogicExpression.nodes] at h ⊢
        rw [LogicExpression.cloneLogicFuel]
        cases ha : ch.asLogic with
        | none =>
          obtain ⟨c1, e1, s1⟩ := ih1 ch (by omega)
          refine ⟨.reduceOr c1, by simp [e1], ?_⟩
          simp only [LogicExpression.nodes]; omega
        | some l =>
          have := Expression.asLogic_eq_some ha
          subst this
          simp only [Expression.nodes] at h ⊢
          obtain ⟨c1, e1, s1⟩ := ih2 l (by omega)
          exact ⟨c1, e1, by omega⟩
      | reduceAnd ch =>
        simp only [LogicExpression.nodes] at h
        obtain ⟨c1, e1, s1⟩ := ih1 ch (by omega)
        refine ⟨.reduceAnd c1, by rw [LogicExpression.cloneLogicFuel, e1]; rfl, ?_⟩
        simp only [LogicExpression.nodes]; omega
      | reduceXor ch =>
        simp only [LogicExpression.nodes] at h
        obtain ⟨c1, e1, s1⟩ := ih1 ch (by omega)
        refine ⟨.reduceXor c1, by rw [LogicExpression.cloneLogicFuel, e1]; rfl, ?_⟩
        simp only [LogicExpression.nodes]; omega
      | logicNot ch =>
        simp only [LogicExpression.nodes] at h ⊢
        obtain ⟨c1, e1, s1⟩ := ih3 ch true (by omega)
        exact ⟨c1, by rw [LogicExpression.cloneLogicFuel, e1], by omega⟩
      | equality l r =>
        simp only [LogicExpression.nodes] at h ⊢
        rw [LogicExpression.cloneLogicFuel]
        cases ha : l.asLogic with
        | none => exact hbinL l r _ (by omega) (by omega) (Nat.le_refl _)
        | some ll =>
          cases hb : r.asLogic with
          | none => exact hbinL l r _ (by omega) (by omega) (Nat.le_refl _)
          | some lr =>
            have e1 := Expression.asLogic_eq_some ha
            have e2 := Expression.asLogic_eq_some hb
            subst e1 e2
            simp only [Expression.nodes] at h ⊢
            by_cases h1 : (ll.constantSolve false).1 = true
            · rw [if_pos h1]
              exact hfold _ lr _ (by omega) (by omega)
            · rw [if_neg h1]
              by_cases h2 : (lr.constantSolve (ll.constantSolve false).2).1 = true
              · rw [if_pos h2]
                exact hfold _ ll _ (by omega) (by omega)
              · rw [if_neg h2]
                exact hbinL _ _ _ (by simp only [Expression.nodes]; omega)
                  (by simp only [Expression.nodes]; omega)
                  (by simp only [Expression.nodes]; omega)
      | logicOr l r =>
        simp only [LogicExpression.nodes] at h ⊢
        rw [LogicExpression.cloneLogicFuel]
        simp only
        obtain ⟨c1, e1, s1⟩ := ih2 l (by omega)
        obtain ⟨c2, e2, s2⟩ := ih2 r (by omega)
        split
        · exact ⟨c2, e2, by omega⟩
        · split
          · exact ⟨c1, e1, by omega⟩
          · refine ⟨.logicOr c1 c2, by simp [e1, e2], ?_⟩
            simp only [LogicExpression.nodes]; omega
      | logicAnd l r =>
        simp only [LogicExpression.nodes] at h ⊢
        rw [LogicExpression.cloneLogicFuel]
        simp only
        obtain ⟨c1, e1, s1⟩ := ih2 l (by omega)
        obtain ⟨c2, e2, s2⟩ := ih2 r (by omega)
        split
        · exact ⟨c2, e2, by omega⟩
        · split
          · exact ⟨c1, e1, by omega⟩
          · refine ⟨.logicAnd c1 c2, by simp [e1, e2], ?_⟩
            simp only [LogicExpression.nodes]; omega
      | state s => exact ⟨_, by rw [LogicExpression.cloneLogicFuel], Nat.le_refl _⟩
    · intro e b h
      rw [LogicExpression.cloneNotFuel]
      cases ha : e.notChild with
      | some nx =>
        have := LogicExpression.notChild_eq_some ha
        subst this
        simp only [LogicExpression.nodes] at h ⊢
        obtain ⟨c1, e1, s1⟩ := ih3 nx (!b) (by omega)
        exact ⟨c1, e1, by omega⟩
      | none =>
        obtain ⟨c1, e1, s1⟩ := ih2 e (by omega)
        cases b with
        | true =>
          refine ⟨.logicNot c1, by simp [e1], ?_⟩
          simp only [LogicExpression.nodes]; omega
        | false => exact ⟨c1, by simp [e1], by omega⟩

theorem cloneFuel_le {n m : Nat} (h : n ≤ m) :
    (∀ (e : Expression) c, e.cloneFuel n = some c → e.cloneFuel m = some c) ∧
    (∀ (e : LogicExpression) c, e.cloneLogicFuel n = some c →
      e.cloneLogicFuel m = some c) := by
  induction h with
  | refl => exact ⟨fun _ _ h => h, fun _ _ h => h⟩
  | step _ ih =>
    exact ⟨fun e c h => (cloneFuel_succ _).1 e c (ih.1 e c h),
      fun e c h => (cloneFuel_succ _).2.1 e c (ih.2 e c h)⟩

/-- The fuel `2 * e.nodes` is enough: any fuel at or above it gives
`e.clone`. -/
theorem Expression.cloneFuel_enough (e : Expression) (k : Nat) :
    e.cloneFuel (2 * e.nodes + k) = some e.clone := by
  obtain ⟨c, hc, -⟩ := (cloneFuel_total (2 * e.nodes)).1 e (Nat.le_refl _)
  have : e.clone = c := by unfold Expression.clone; rw [hc]; rfl
  rw [this]
  exact (cloneFuel_le (Nat.le_add_right _ k)).1 e c hc

/-- The fuel `2 * e.nodes` is enough: any fuel at or above it gives
`e.cloneLogic`. -/
theorem LogicExpression.cloneLogicFuel_enough (e : LogicExpression) (k : Nat) :
    e.cloneLogicFuel (2 * e.nodes + k) = some e.cloneLogic := by
  obtain ⟨c, hc, -⟩ := (cloneFuel_total (2 * e.nodes)).2.1 e (Nat.le_refl _)
  have : e.cloneLogic = c := by unfold LogicExpression.cloneLogic; rw [hc]; rfl
  rw [this]
  exact (cloneFuel_le (Nat.le_add_right _ k)).2 e c hc

theorem LogicExpression.cloneLogicFuel_of_le (e : LogicExpression) {n : Nat}
    (h : 2 * e.nodes ≤ n) : e.cloneLogicFuel n = some e.cloneLogic := by
  have := e.cloneLogicFuel_enough (n - 2 * e.nodes)
  rwa [Nat.add_sub_cancel' h] at this

theorem Expression.cloneFuel_of_le (e : Expression) {n : Nat}
    (h : 2 * e.nodes ≤ n) : e.cloneFuel n = some e.clone := by
  have := e.cloneFuel_enough (n - 2 * e.nodes)
  rwa [Nat.add_sub_cancel' h] at this

end Prism

namespace Prism

/-! ## Cloning: the rewrites -/

theorem LogicExpression.cloneLogic_eq_of_fuel {e c : LogicExpression} {n : Nat}
    (h : e.cloneLogicFuel n = some c) : e.cloneLogic = c := by
  have h1 := e.cloneLogicFuel_enough n
  have h2 := (cloneFuel_le (Nat.le_add_left n (2 * e.nodes))).2 e c h
  rw [h1] at h2
  exact Option.some.inj h2

theorem Expression.clone_eq_of_fuel {e c : Expression} {n : Nat}
    (h : e.cloneFuel n = some c) : e.clone = c := by
  have h1 := e.cloneFuel_enough n
  have h2 := (cloneFuel_le (Nat.le_add_left n (2 * e.nodes))).1 e c h
  rw [h1] at h2
  exact Option.some.inj h2

theorem LogicExpression.cloneNotFuel_false (X : LogicExpression) {n : Nat}
    (h : 2 * X.nodes ≤ n) : X.cloneNotFuel (n + 1) false = some X.cloneLogic := by
  rw [LogicExpression.cloneNotFuel]
  cases ha : X.notChild with
  | none =>
    simp only [Bool.false_eq_true, if_false]
    exact X.cloneLogicFuel_of_le h
  | some Y =>
    have := LogicExpression.notChild_eq_some ha
    subst this
    simp only [Bool.not_false]
    have h2 := (LogicExpression.logicNot Y).cloneLogicFuel_of_le (n := n + 1) (by omega)
    rw [LogicExpression.cloneLogicFuel] at h2
    exact h2

theorem LogicExpression.cloneLogic_or_left {C : LogicExpression} (X : LogicExpression)
    {res : Bool} (h : C.constantSolve res = (true, false)) :
    (LogicExpression.logicOr C X).cloneLogic = X.cloneLogic := by
  have h1 : (C.constantSolve false).1 = true := by
    rw [(C.constantSolve_indep false res).1, h]
  have h2 : (C.constantSolve false).2 = false := by
    rw [(C.constantSolve_indep false res).2 h1, h]
  apply LogicExpression.cloneLogic_eq_of_fuel (n := 2 * X.nodes + 1)
  rw [LogicExpression.cloneLogicFuel]
  simp only [h1, h2, Bool.not_false, Bool.and_self, if_true]
  exact X.cloneLogicFuel_of_le (Nat.le_refl _)

theorem LogicExpression.cloneLogic_and_left {C : LogicExpression} (X : LogicExpression)
    {res : Bool} (h : C.constantSolve res = (true, true)) :
    (LogicExpression.logicAnd C X).cloneLogic = X.cloneLogic := by
  have h1 : (C.constantSolve false).1 = true := by
    rw [(C.constantSolve_indep false res).1, h]
  have h2 : (C.constantSolve false).2 = true := by
    rw [(C.constantSolve_indep false res).2 h1, h]
  apply LogicExpression.cloneLogic_eq_of_fuel (n := 2 * X.nodes + 1)
  rw [LogicExpression.cloneLogicFuel]
  simp only [h1, h2, Bool.and_self, if_true]
  exact X.cloneLogicFuel_of_le (Nat.le_refl _)

theorem LogicExpression.cloneLogic_not_not (X : LogicExpression) :
    (LogicExpression.logicNot (.logicNot X)).cloneLogic = X.cloneLogic := by
  apply LogicExpression.cloneLogic_eq_of_fuel (n := 2 * X.nodes + 1 + 1 + 1)
  rw [LogicExpression.cloneLogicFuel, LogicExpression.cloneNotFuel]
  simp only [LogicExpression.notChild, Bool.not_true]
  exact X.cloneNotFuel_false (Nat.le_refl _)

theorem LogicExpression.cloneLogic_or_keep {L R : LogicExpression}
    (hl : ∀ res, L.constantSolve res ≠ (true, false))
    (hr : ∀ res, R.constantSolve res ≠ (true, false)) :
    (LogicExpression.logicOr L R).cloneLogic = .logicOr L.cloneLogic R.cloneLogic := by
  apply LogicExpression.cloneLogic_eq_of_fuel (n := 2 * L.nodes + 2 * R.nodes + 1)
  rw [LogicExpression.cloneLogicFuel]
  have h1 : ¬ ((L.constantSolve false).1 && !(L.constantSolve false).2) = true := by
    intro h
    simp only [Bool.and_eq_true, Bool.not_eq_true'] at h
    exact hl false (Prod.ext h.1 h.2)
  have h2 : ¬ ((R.constantSolve (L.constantSolve false).2).1
      && !(R.constantSolve (L.constantSolve false).2).2) = true := by
    intro h
    simp only [Bool.and_eq_true, Bool.not_eq_true'] at h
    exact hr _ (Prod.ext h.1 h.2)
  simp only [h1, h2, if_false]
  rw [L.cloneLogicFuel_of_le (by omega), R.cloneLogicFuel_of_le (by omega)]
  rfl

theorem LogicExpression.cloneLogic_and_keep {L R : LogicExpression}
    (hl : ∀ res, L.constantSolve res ≠ (true, true))
    (hr : ∀ res, R.constantSolve res ≠ (true, true)) :
    (LogicExpression.logicAnd L R).cloneLogic = .logicAnd L.cloneLogic R.cloneLogic := by
  apply LogicExpression.cloneLogic_eq_of_fuel (n := 2 * L.nodes + 2 * R.nodes + 1)
  rw [LogicExpression.cloneLogicFuel]
  have h1 : ¬ ((L.constantSolve false).1 && (L.constantSolve false).2) = true := by
    intro h
    simp only [Bool.and_eq_true] at h
    exact hl false (Prod.ext h.1 h.2)
  have h2 : ¬ ((R.constantSolve (L.constantSolve false).2).1
      && (R.constantSolve (L.constantSolve false).2).2) = true := by
    intro h
    simp only [Bool.and_eq_true] at h
    exact hr _ (Prod.ext h.1 h.2)
  simp only [h1, h2, if_false]
  rw [L.cloneLogicFuel_of_le (by omega), R.cloneLogicFuel_of_le (by omega)]
  rfl

theorem LogicExpression.cloneLogic_not_keep {X : LogicExpression} (h : X.notChild = none) :
    (LogicExpression.logicNot X).cloneLogic = .logicNot X.cloneLogic := by
  apply LogicExpression.cloneLogic_eq_of_fuel (n := 2 * X.nodes + 1 + 1)
  rw [LogicExpression.cloneLogicFuel, LogicExpression.cloneNotFuel]
  simp only [h, if_true]
  rw [X.cloneLogicFuel_of_le (Nat.le_refl _)]
  rfl

/-- C9: for every boolean expression `X`: if `constantSolve` yields false
on `C` then `cloneLogic` of `LogicOr(C, X)` is `cloneLogic` of `X`; if it
yields true on `C` then `cloneLogic` of `LogicAnd(C, X)` is `cloneLogic` of
`X`; `cloneLogic` of `LogicNot(LogicNot(X))` is `cloneLogic` of `X`. The
rewrite reaches every depth: where no operand folds away, the clone of
`LogicOr`, `LogicAnd` and `LogicNot` is built from `cloneLogic` of the
operands, which rewrites them in turn. -/
theorem cloneLogic_folds_constants (X : LogicExpression) :
    (∀ (C : LogicExpression) (res : Bool), C.constantSolve res = (true, false) →
      (LogicExpression.logicOr C X).cloneLogic = X.cloneLogic) ∧
    (∀ (C : LogicExpression) (res : Bool), C.constantSolve res = (true, true) →
      (LogicExpression.logicAnd C X).cloneLogic = X.cloneLogic) ∧
    (LogicExpression.logicNot (.logicNot X)).cloneLogic = X.cloneLogic ∧
    (∀ L : LogicExpression, (∀ res, L.constantSolve res ≠ (true, false)) →
      (∀ res, X.constantSolve res ≠ (true, false)) →
      (LogicExpression.logicOr L X).cloneLogic = .logicOr L.cloneLogic X.cloneLogic) ∧
    (∀ L : LogicExpression, (∀ res, L.constantSolve res ≠ (true, true)) →
      (∀ res, X.constantSolve res ≠ (true, true)) →
      (LogicExpression.logicAnd L X).cloneLogic = .logicAnd L.cloneLogic X.cloneLogic) ∧
    (X.notChild = none →
      (LogicExpression.logicNot X).cloneLogic = .logicNot X.cloneLogic) :=
  ⟨fun _ _ h => LogicExpression.cloneLogic_or_left X h,
    fun _ _ h => LogicExpression.cloneLogic_and_left X h,
    LogicExpression.cloneLogic_not_not X,
    fun _ hl hr => LogicExpression.cloneLogic_or_keep hl hr,
    fun _ hl hr => LogicExpression.cloneLogic_and_keep hl hr,
    LogicExpression.cloneLogic_not_keep⟩

/-- C9, an instance: `C = !true` folds to false, `X = (I1 == I2)`. -/
theorem cloneLogic_folds_constants_witness :
    (LogicExpression.logicNot .logicTrue).constantSolve false = (true, false) ∧
    (LogicExpression.logicOr (.logicNot .logicTrue)
        (.equality (.identifier [1]) (.identifier [2]))).cloneLogic
      = (LogicExpression.equality (.identifier [1]) (.identifier [2])).cloneLogic :=
  ⟨rfl, (cloneLogic_folds_constants (.equality (.identifier [1]) (.identifier [2]))).1
    (.logicNot .logicTrue) false rfl⟩

end Prism

namespace Prism

/-! ## Cloning: the value of the clone -/

theorem count_write_zero (b : Bool) :
    ((DynamicBitmask.empty.write 0 b).count != 0) = b := by
  cases b <;> decide

theorem compare_write_zero (a b : Bool) :
    EqualityExpression.compare (DynamicBitmask.empty.write 0 a)
      (DynamicBitmask.empty.write 0 b) = (a == b) := by
  cases a <;> cases b <;> decide

theorem LogicExpression.resolveLogic_reduceOr_logic (l : LogicExpression)
    (inp : AbstractBufferBitmask) :
    (LogicExpression.reduceOr (.logic l)).resolveLogic inp = l.resolveLogic inp := by
  rw [LogicExpression.resolveLogic, Expression.resolve]
  exact count_write_zero _

theorem LogicExpression.resolveLogic_equality_logic (l r : LogicExpression)
    (inp : AbstractBufferBitmask) :
    (LogicExpression.equality (.logic l) (.logic r)).resolveLogic inp
      = (l.resolveLogic inp == r.resolveLogic inp) := by
  rw [LogicExpression.resolveLogic, Expression.resolve, Expression.resolve]
  exact compare_write_zero _ _

/-- When `constantSolve` returns true, `res` is the value of the expression
on every input. -/
theorem LogicExpression.constantSolve_sound : ∀ (e : LogicExpression) (r : Bool)
    (inp : AbstractBufferBitmask), (e.constantSolve r).1 = true →
    e.resolveLogic inp = (e.constantSolve r).2
  | .logicTrue, r, inp, _ => by simp [LogicExpression.constantSolve, LogicExpression.resolveLogic]
  | .logicFalse, r, inp, _ => by
    simp [LogicExpression.constantSolve, LogicExpression.resolveLogic]
  | .reduceOr (.logic lexpr), r, inp, h => by
    rw [LogicExpression.resolveLogic_reduceOr_logic]
    simp only [LogicExpression.constantSolve] at h ⊢
    exact LogicExpression.constantSolve_sound lexpr r inp h
  | .reduceOr (.identifier _), r, inp, h => by simp [LogicExpression.constantSolve] at h
  | .reduceOr (.bitwiseNot _), r, inp, h => by simp [LogicExpression.constantSolve] at h
  | .reduceOr (.bitwiseAnd _ _), r, inp, h => by simp [LogicExpression.constantSolve] at h
  | .reduceOr (.bitwiseOr _ _), r, inp, h => by simp [LogicExpression.constantSolve] at h
  | .reduceOr (.bitwiseXor _ _), r, inp, h => by simp [LogicExpression.constantSolve] at h
  | .reduceOr (.bitwiseXnor _ _), r, inp, h => by simp [LogicExpression.constantSolve] at h
  | .reduceOr (.constant _), r, inp, h => by simp [LogicExpression.constantSolve] at h
  | .reduceAnd _, r, inp, h => by simp [LogicExpression.constantSolve] at h
  | .reduceXor _, r, inp, h => by simp [LogicExpression.constantSolve] at h
  | .logicNot child, r, inp, h => by
    have ih := LogicExpression.constantSolve_sound child r inp
    simp only [LogicExpression.constantSolve, LogicExpression.resolveLogic] at h ⊢
    cases hc : (child.constantSolve r).1
    · simp [hc] at h
    · simp [ih hc]
  | .equality _ _, r, inp, h => by simp [LogicExpression.constantSolve] at h
  | .logicOr lhs rhs, r, inp, h => by
    have ih1 := LogicExpression.constantSolve_sound lhs r inp
    have ih2 := LogicExpression.constantSolve_sound rhs (lhs.constantSolve r).2 inp
    simp only [LogicExpression.constantSolve, LogicExpression.resolveLogic] at h ⊢
    by_cases h1 : ((lhs.constantSolve r).1 && (lhs.constantSolve r).2) = true
    · simp only [h1, if_true] at h ⊢
      simp only [Bool.and_eq_true] at h1
      rw [ih1 h1.1, h1.2]; rfl
    · simp only [h1, if_false] at h ⊢
      by_cases h2 : ((rhs.constantSolve (lhs.constantSolve r).2).1
          && (rhs.constantSolve (lhs.constantSolve r).2).2) = true
      · simp only [h2, if_true]
        simp only [Bool.and_eq_true] at h2
        rw [ih2 h2.1, h2.2]; simp
      · simp [h2] at h
  | .logicAnd lhs rhs, r, inp, h => by
    have ih1 := LogicExpression.constantSolve_sound lhs r inp
    have ih2 := LogicExpression.constantSolve_sound rhs (lhs.constantSolve r).2 inp
    simp only [LogicExpression.constantSolve, LogicExpression.resolveLogic] at h ⊢
    by_cases h1 : ((lhs.constantSolve r).1 && !(lhs.constantSolve r).2) = true
    · simp only [h1, if_true] at h ⊢
      simp only [Bool.and_eq_true, Bool.not_eq_true'] at h1
      rw [ih1 h1.1, h1.2]; rfl
    · simp only [h1, if_false] at h ⊢
      by_cases h2 : ((rhs.constantSolve (lhs.constantSolve r).2).1
          && !(rhs.constantSolve (lhs.constantSolve r).2).2) = true
      · simp only [h2, if_true]
        simp only [Bool.and_eq_true, Bool.not_eq_true'] at h2
        rw [ih2 h2.1, h2.2]; simp
      · simp [h2] at h
  | .state _, r, inp, h => by simp [LogicExpression.constantSolve] at h

/-- A strictly ascending list below `n` is the list of its members in
`0 .. n - 1`. -/
theorem filter_mem_range (s : List Nat) (n : Nat) (hs : s.Sorted (· < ·))
    (hb : ∀ x ∈ s, x < n) : (List.range n).filter (fun i => decide (i ∈ s)) = s := by
  apply List.eq_of_perm_of_sorted (r := (· < ·)) _ ((List.sorted_lt_range n).filter _) hs
  rw [List.perm_ext_iff_of_nodup ((List.nodup_range n).filter _) hs.nodup]
  intro a
  simp only [List.mem_filter, List.mem_range, decide_eq_true_eq]
  exact ⟨fun h => h.2, fun h => ⟨hb a h, h⟩⟩

/-- `copyOnes` into the empty mask sets the visited bits. -/
theorem DynamicBitmask.ofBitmask_eq (frm : AbstractBufferBitmask) :
    DynamicBitmask.ofBitmask frm =
      frm.setBits.foldl (fun (o : DynamicBitmask) b => o.set b) DynamicBitmask.empty := by
  unfold DynamicBitmask.ofBitmask DynamicBitmask.copyOnes
  rw [forLoop_eq_foldl (fun bit => decide (bit < frm.size)) frm.fns]
  rfl

theorem DynamicBitmask.valid_ofBitmask (frm : AbstractBufferBitmask) :
    (DynamicBitmask.ofBitmask frm).Valid := by
  rw [DynamicBitmask.ofBitmask_eq]
  exact (DynamicBitmask.foldl_set _ DynamicBitmask.valid_empty).1

/-- The mask built from a mask built by `copyOnes` has the same set bits in
the same order. -/
theorem DynamicBitmask.setBits_ofBitmask (frm : AbstractBufferBitmask) :
    (DynamicBitmask.ofBitmask frm).setBits = frm.setBits := by
  have hv := DynamicBitmask.valid_ofBitmask frm
  rw [hv.1.setBits_eq]
  have hget : ∀ i, (DynamicBitmask.ofBitmask frm).get i = decide (i ∈ frm.setBits) := by
    intro i
    rw [DynamicBitmask.ofBitmask_eq,
      (DynamicBitmask.foldl_set _ DynamicBitmask.valid_empty).2.1, DynamicBitmask.get_empty]
    simp
  have hfun : (DynamicBitmask.ofBitmask frm).get = fun i => decide (i ∈ frm.setBits) :=
    funext hget
  show (List.range (DynamicBitmask.ofBitmask frm).size).filter
    (DynamicBitmask.ofBitmask frm).toAbstractBufferBitmask.get = _
  rw [hfun]
  apply filter_mem_range _ _ frm.setBits_sorted
  intro x hx
  apply DynamicBitmask.get_lt_size
  rw [hget]; simpa using hx

/-- The member `mask` of a clone of a `ConstantExpression` is the member
`mask` of the original. -/
theorem ConstantExpression.mask_mask (frm : AbstractBufferBitmask) :
    ConstantExpression.mask (ConstantExpression.mask frm).toAbstractBufferBitmask
      = ConstantExpression.mask frm := by
  unfold ConstantExpression.mask
  rw [DynamicBitmask.ofBitmask_eq (DynamicBitmask.ofBitmask frm).toAbstractBufferBitmask]
  have := DynamicBitmask.setBits_ofBitmask frm
  rw [show (DynamicBitmask.ofBitmask frm).toAbstractBufferBitmask.setBits = frm.setBits from this]
  exact (DynamicBitmask.ofBitmask_eq frm).symm

end Prism

namespace Prism

/-- A completed clone resolves to what the original resolves to, into any
output and on any input. -/
theorem cloneFuel_resolve : ∀ n : Nat,
    (∀ (e : Expression) c, e.cloneFuel n = some c →
      ∀ inp out, c.resolve inp out = e.resolve inp out) ∧
    (∀ (e : LogicExpression) c, e.cloneLogicFuel n = some c →
      ∀ inp, c.resolveLogic inp = e.resolveLogic inp) ∧
    (∀ (e : LogicExpression) b c, e.cloneNotFuel n b = some c →
      ∀ inp, c.resolveLogic inp = (if b then !e.resolveLogic inp else e.resolveLogic inp)) := by
  intro n
  induction n with
  | zero =>
    refine ⟨?_, ?_, ?_⟩
    · intro e c h; simp [Expression.cloneFuel] at h
    · intro e c h; simp [LogicExpression.cloneLogicFuel] at h
    · intro e b c h; simp [LogicExpression.cloneNotFuel] at h
  | succ n ih =>
    obtain ⟨ih1, ih2, ih3⟩ := ih
    have hfold : ∀ (res : Bool) (a : LogicExpression) c,
        ((a.cloneLogicFuel n).bind fun out =>
          if (!res) = true then (LogicExpression.logicNot out).cloneLogicFuel n
          else some out) = some c →
        ∀ inp, c.resolveLogic inp = (res == a.resolveLogic inp) := by
      intro res a c h inp
      simp only [Option.bind_eq_some] at h
      obtain ⟨out, ho, hc⟩ := h
      have e1 := ih2 a out ho inp
      cases res with
      | true =>
        simp only [Bool.not_true, Bool.false_eq_true, if_false, Option.some.injEq] at hc
        subst hc
        rw [e1]; simp
      | false =>
        simp only [Bool.not_false, if_true] at hc
        rw [ih2 _ c hc inp, LogicExpression.resolveLogic, e1]
        cases a.resolveLogic inp <;> rfl
    refine ⟨?_, ?_, ?_⟩
    · intro e c h inp out
      cases e with
      | identifier g =>
        simp only [Expression.cloneFuel, Option.some.injEq] at h
        subst h; rfl
      | logic l =>
        simp only [Expression.cloneFuel, Option.map_eq_some'] at h
        obtain ⟨x, hx, rfl⟩ := h
        simp only [Expression.resolve, ih2 l x hx]
      | bitwiseNot ch =>
        simp only [Expression.cloneFuel, Option.map_eq_some'] at h
        obtain ⟨x, hx, rfl⟩ := h
        simp only [Expression.resolve, ih1 ch x hx]
      | bitwiseAnd l r =>
        simp only [Expression.cloneFuel, Option.bind_eq_some, Option.map_eq_some'] at h
        obtain ⟨x, hx, y, hy, rfl⟩ := h
        simp only [Expression.resolve, ih1 l x hx, ih1 r y hy]
      | bitwiseOr l r =>
        simp only [Expression.cloneFuel, Option.bind_eq_some, Option.map_eq_some'] at h
        obtain ⟨x, hx, y, hy, rfl⟩ := h
        simp only [Expression.resolve, ih1 l x hx, ih1 r y hy]
      | bitwiseXor l r =>
        simp only [Expression.cloneFuel, Option.bind_eq_some, Option.map_eq_some'] at h
        obtain ⟨x, hx, y, hy, rfl⟩ := h
        simp only [Expression.resolve, ih1 l x hx, ih1 r y hy]
      | bitwiseXnor l r =>
        simp only [Expression.cloneFuel, Option.bind_eq_some, Option.map_eq_some'] at h
        obtain ⟨x, hx, y, hy, rfl⟩ := h
        simp only [Expression.resolve, ih1 l x hx, ih1 r y hy]
      | constant frm =>
        simp only [Expression.cloneFuel, Option.some.injEq] at h
        subst h
        simp only [Expression.resolve, ConstantExpression.mask_mask]
    · intro e c h inp
      cases e with
      | logicTrue =>
        simp only [LogicExpression.cloneLogicFuel, Option.some.injEq] at h
        subst h; rfl
      | logicFalse =>
        simp only [LogicExpression.cloneLogicFuel, Option.some.injEq] at h
        subst h; rfl
      | reduceOr ch =>
        rw [LogicExpression.cloneLogicFuel] at h
        cases ha : ch.asLogic with
        | none =>
          simp only [ha, Option.map_eq_some'] at h
          obtain ⟨x, hx, rfl⟩ := h
          simp only [LogicExpression.resolveLogic, ih1 ch x hx]
        | some l =>
          simp only [ha] at h
          have := Expression.asLogic_eq_some ha
          subst this
          rw [LogicExpression.resolveLogic_reduceOr_logic]
          exact ih2 l c h inp
      | reduceAnd ch =>
        simp only [LogicExpression.cloneLogicFuel, Option.map_eq_some'] at h
        obtain ⟨x, hx, rfl⟩ := h
        simp only [LogicExpression.resolveLogic, ih1 ch x hx]
      | reduceXor ch =>
        simp only [LogicExpression.cloneLogicFuel, Option.map_eq_some'] at h
        obtain ⟨x, hx, rfl⟩ := h
        simp only [LogicExpression.resolveLogic, ih1 ch x hx]
      | logicNot ch =>
        rw [LogicExpression.cloneLogicFuel] at h
        rw [ih3 ch true c h inp, LogicExpression.resolveLogic]
        rfl
      | equality l r =>
        rw [LogicExpression.cloneLogicFuel] at h
        have hfall : ∀ c, ((l.cloneFuel n).bind fun x => (r.cloneFuel n).map
            fun y => LogicExpression.equality x y) = some c →
            c.resolveLogic inp = (LogicExpression.equality l r).resolveLogic inp := by
          intro c h
          simp only [Option.bind_eq_some, Option.map_eq_some'] at h
          obtain ⟨x, hx, y, hy, rfl⟩ := h
          simp only [LogicExpression.resolveLogic, ih1 l x hx, ih1 r y hy]
        cases ha : l.asLogic with
        | none => simp only [ha] at h; exact hfall c h
        | some ll =>
          cases hb : r.asLogic with
          | none => simp only [ha, hb] at h; exact hfall c h
          | some lr =>
            simp only [ha, hb] at h
            have e1 := Expression.asLogic_eq_some ha
            have e2 := Expression.asLogic_eq_some hb
            subst e1 e2
            rw [LogicExpression.resolveLogic_equality_logic]
            by_cases h1 : (ll.constantSolve false).1 = true
            · rw [if_pos h1] at h
              rw [hfold _ lr c h inp, ll.constantSolve_sound false inp h1]
            · rw [if_neg h1] at h
              by_cases h2 : (lr.constantSolve (ll.constantSolve false).2).1 = true
              · rw [if_pos h2] at h
                rw [hfold _ ll c h inp, lr.constantSolve_sound _ inp h2]
                exact Bool.beq_comm
              · rw [if_neg h2] at h
                rw [hfall c h, LogicExpression.resolveLogic_equality_logic]
      | logicOr l r =>
        rw [LogicExpression.cloneLogicFuel] at h
        simp only at h
        rw [LogicExpression.resolveLogic]
        by_cases h1 : ((l.constantSolve false).1 && !(l.constantSolve false).2) = true
        · rw [if_pos h1] at h
          simp only [Bool.and_eq_true, Bool.not_eq_true'] at h1
          rw [ih2 r c h inp, l.constantSolve_sound false inp h1.1, h1.2]; rfl
        · rw [if_neg h1] at h
          by_cases h2 : ((r.constantSolve (l.constantSolve false).2).1
              && !(r.constantSolve (l.constantSolve false).2).2) = true
          · rw [if_pos h2] at h
            simp only [Bool.and_eq_true, Bool.not_eq_true'] at h2
            rw [ih2 l c h inp, r.constantSolve_sound _ inp h2.1, h2.2]; simp
          · rw [if_neg h2] at h
            simp only [Option.bind_eq_some, Option.map_eq_some'] at h
            obtain ⟨x, hx, y, hy, rfl⟩ := h
            simp only [LogicExpression.resolveLogic, ih2 l x hx, ih2 r y hy]
      | logicAnd l r =>
        rw [LogicExpression.cloneLogicFuel] at h
        simp only at h
        rw [LogicExpression.resolveLogic]
        by_cases h1 : ((l.constantSolve false).1 && (l.constantSolve false).2) = true
        · rw [if_pos h1] at h
          simp only [Bool.and_eq_true] at h1
          rw [ih2 r c h inp, l.constantSolve_sound false inp h1.1, h1.2]; rfl
        · rw [if_neg h1] at h
          by_cases h2 : ((r.constantSolve (l.constantSolve false).2).1
              && (r.constantSolve (l.constantSolve false).2).2) = true
          · rw [if_pos h2] at h
            simp only [Bool.and_eq_true] at h2
            rw [ih2 l c h inp, r.constantSolve_sound _ inp h2.1, h2.2]; simp
          · rw [if_neg h2] at h
            simp only [Option.bind_eq_some, Option.map_eq_some'] at h
            obtain ⟨x, hx, y, hy, rfl⟩ := h
            simp only [LogicExpression.resolveLogic, ih2 l x hx, ih2 r y hy]
      | state s =>
        simp only [LogicExpression.cloneLogicFuel, Option.some.injEq] at h
        subst h; rfl
    · intro e b c h inp
      rw [LogicExpression.cloneNotFuel] at h
      cases ha : e.notChild with
      | some nx =>
        simp only [ha] at h
        have := LogicExpression.notChild_eq_some ha
        subst this
        rw [ih3 nx (!b) c h inp, LogicExpression.resolveLogic]
        cases b <;> simp
      | none =>
        simp only [ha] at h
        cases b with
        | true =>
          simp only [if_true, Option.map_eq_some'] at h
          obtain ⟨x, hx, rfl⟩ := h
          simp only [LogicExpression.resolveLogic, ih2 e x hx, if_true]
        | false =>
          simp only [Bool.false_eq_true, if_false] at h ⊢
          exact ih2 e c h inp

/-- C7: for every expression `e`, boolean expression `l` and input `inp`,
`e.clone()` resolves into an empty output to the very vector `e` resolves
to (the same width and the same bits), and `l.cloneLogic()` evaluates to
what `l` evaluates to, folded or not. The clones are completed: any fuel at
or above twice the number of nodes gives them. -/
theorem clone_preserves_value (e : Expression) (l : LogicExpression)
    (inp : AbstractBufferBitmask) :
    e.clone.resolve inp DynamicBitmask.empty = e.resolve inp DynamicBitmask.empty ∧
    (e.clone.resolve inp DynamicBitmask.empty).size
      = (e.resolve inp DynamicBitmask.empty).size ∧
    (∀ i, (e.clone.resolve inp DynamicBitmask.empty).get i
      = (e.resolve inp DynamicBitmask.empty).get i) ∧
    l.cloneLogic.resolveLogic inp = l.resolveLogic inp ∧
    (Expression.logic l).clone.resolve inp DynamicBitmask.empty
      = (Expression.logic l).resolve inp DynamicBitmask.empty ∧
    (∀ k, e.cloneFuel (2 * e.nodes + k) = some e.clone) ∧
    (∀ k, l.cloneLogicFuel (2 * l.nodes + k) = some l.cloneLogic) := by
  have h1 : e.clone.resolve inp DynamicBitmask.empty = e.resolve inp DynamicBitmask.empty :=
    (cloneFuel_resolve _).1 e _ (e.cloneFuel_enough 0) inp _
  refine ⟨h1, by rw [h1], fun i => by rw [h1], ?_, ?_, e.cloneFuel_enough,
    l.cloneLogicFuel_enough⟩
  · exact (cloneFuel_resolve _).2.1 l _ (l.cloneLogicFuel_enough 0) inp
  · exact (cloneFuel_resolve _).1 _ _ ((Expression.logic l).cloneFuel_enough 0) inp _

end Prism

namespace Prism

/-! ## Equality of two vectors -/

/-- What the two cursors say when the loop of `resolveLogic` stops. Below
`c` the two masks agree, from `c` up to its cursor neither has a set bit,
and each cursor is on a set bit or on the size. -/
theorem EqualityExpression.exit_spec {lk rk : AbstractBufferBitmask} (hl : lk.Valid)
    (hr : rk.Valid) {l r c : Nat} (hcl : c ≤ l) (hcr : c ≤ r) (hls : l ≤ lk.nbits)
    (hrs : r ≤ rk.nbits) (hlb : l < lk.nbits → lk.bitAt l = true)
    (hrb : r < rk.nbits → rk.bitAt r = true) (hagree : ∀ j, j < c → lk.bitAt j = rk.bitAt j)
    (hlz : ∀ j, c ≤ j → j < l → lk.bitAt j = false)
    (hrz : ∀ j, c ≤ j → j < r → rk.bitAt j = false)
    (hstop : ¬ (l < lk.nbits ∧ r < rk.nbits ∧ l = r)) :
    (lk.nbits ≤ l ∧ rk.nbits ≤ r) ↔ ∀ i, lk.bitAt i = rk.bitAt i := by
  have hl0 : ∀ j, c ≤ j → (j < l ∨ lk.nbits ≤ j) → lk.bitAt j = false := by
    intro j h1 h2
    rcases h2 with h2 | h2
    · exact hlz j h1 h2
    · exact hl.high j h2
  have hr0 : ∀ j, c ≤ j → (j < r ∨ rk.nbits ≤ j) → rk.bitAt j = false := by
    intro j h1 h2
    rcases h2 with h2 | h2
    · exact hrz j h1 h2
    · exact hr.high j h2
  constructor
  · rintro ⟨h1, h2⟩ i
    by_cases hi : i < c
    · exact hagree i hi
    · rw [hl0 i (by omega) (by omega), hr0 i (by omega) (by omega)]
  · intro hall
    by_contra hcon
    by_cases h1 : l < lk.nbits
    · have t1 := hlb h1
      by_cases h2 : l < r ∨ rk.nbits ≤ l
      · rw [hall l, hr0 l hcl h2] at t1
        exact Bool.noConfusion t1
      · have h3 : r < rk.nbits := by omega
        have h4 : r < l := by omega
        have t2 := hrb h3
        rw [← hall r, hl0 r hcr (Or.inl h4)] at t2
        exact Bool.noConfusion t2
    · have h3 : r < rk.nbits := by omega
      have t2 := hrb h3
      rw [← hall r, hl0 r hcr (by omega)] at t2
      exact Bool.noConfusion t2

theorem EqualityExpression.scan_spec {lk rk : DynamicBitmask} (hl : lk.Valid) (hr : rk.Valid) :
    ∀ (fuel l r c : Nat), c ≤ l → c ≤ r → l ≤ lk.nbits → r ≤ rk.nbits →
    (l < lk.nbits → lk.bitAt l = true) → (r < rk.nbits → rk.bitAt r = true) →
    (∀ j, j < c → lk.bitAt j = rk.bitAt j) → (∀ j, c ≤ j → j < l → lk.bitAt j = false) →
    (∀ j, c ≤ j → j < r → rk.bitAt j = false) → lk.nbits - l ≤ fuel →
    ((lk.nbits ≤ (EqualityExpression.scan lk rk fuel l r).1 ∧
        rk.nbits ≤ (EqualityExpression.scan lk rk fuel l r).2) ↔
      ∀ i, lk.bitAt i = rk.bitAt i) := by
  intro fuel
  induction fuel with
  | zero =>
    intro l r c hcl hcr hls hrs hlb hrb hagree hlz hrz hf
    unfold EqualityExpression.scan
    exact EqualityExpression.exit_spec hl.1 hr.1 hcl hcr hls hrs hlb hrb hagree hlz hrz
      (by omega)
  | succ fuel ih =>
    intro l r c hcl hcr hls hrs hlb hrb hagree hlz hrz hf
    unfold EqualityExpression.scan
    by_cases hcond : l < lk.size ∧ r < rk.size ∧ l = r
    · rw [if_pos hcond]
      obtain ⟨h1, h2, h3⟩ := hcond
      subst h3
      have h1n : l < lk.nbits := h1
      have h2n : l < rk.nbits := h2
      obtain ⟨f1, f2, f3⟩ := hl.1.fns_spec l
      obtain ⟨g1, g2, g3⟩ := hr.1.fns_spec l
      have fl := lk.lt_fns h1n
      have gl := rk.lt_fns h2n
      refine ih _ _ (l + 1) fl gl f1 g1 f2 g2 ?_ ?_ ?_ (by omega)
      · intro j hj
        by_cases hjc : j < c
        · exact hagree j hjc
        · by_cases hjl : j < l
          · rw [hlz j (by omega) hjl, hrz j (by omega) hjl]
          · have : j = l := by omega
            subst this
            rw [hlb h1n, hrb h2n]
      · intro j hj1 hj2; exact f3 j (by omega) hj2
      · intro j hj1 hj2; exact g3 j (by omega) hj2
    · rw [if_neg hcond]
      exact EqualityExpression.exit_spec hl.1 hr.1 hcl hcr hls hrs hlb hrb hagree hlz hrz hcond

/-- `EqualityExpression::resolveLogic` on two resolved vectors. -/
theorem EqualityExpression.compare_iff {lk rk : DynamicBitmask} (hl : lk.Valid)
    (hr : rk.Valid) :
    EqualityExpression.compare lk rk = true ↔ ∀ i, lk.get i = rk.get i := by
  obtain ⟨f1, f2, f3⟩ := hl.1.ffs_spec
  obtain ⟨g1, g2, g3⟩ := hr.1.ffs_spec
  have h := EqualityExpression.scan_spec hl hr lk.size lk.ffs rk.ffs 0 (Nat.zero_le _)
    (Nat.zero_le _) f1 g1 f2 g2 (fun j hj => absurd hj (Nat.not_lt_zero j))
    (fun j _ hj => f3 j hj) (fun j _ hj => g3 j hj)
    (by show lk.nbits - lk.ffs ≤ lk.nbits; omega)
  unfold EqualityExpression.compare
  simp only [Bool.and_eq_true, decide_eq_true_eq, ge_iff_le]
  rw [show (lk.size ≤ (EqualityExpression.scan lk rk lk.size lk.ffs rk.ffs).1 ∧
      rk.size ≤ (EqualityExpression.scan lk rk lk.size lk.ffs rk.ffs).2) ↔
      ∀ i, lk.bitAt i = rk.bitAt i from h]
  constructor
  · intro h i; rw [hl.1.get_eq_bitAt, hr.1.get_eq_bitAt]; exact h i
  · intro h i; rw [← hl.1.get_eq_bitAt, ← hr.1.get_eq_bitAt]; exact h i

/-- C4: `EqualityExpression(l, r).resolveLogic(inp)` is true if and only if
the vectors that `l` and `r` resolve to on `inp` are equal when
zero-extended: `L.get(i) = R.get(i)` for every index `i`, where `get` reads
false at or above the width; the widths themselves need not agree. -/
theorem equality_compares_zero_extended (l r : Expression) (inp : AbstractBufferBitmask) :
    ((LogicExpression.equality l r).resolveLogic inp = true ↔
      ∀ i, (l.resolve inp DynamicBitmask.empty).get i
        = (r.resolve inp DynamicBitmask.empty).get i) ∧
    (∀ i, (l.resolve inp DynamicBitmask.empty).size ≤ i →
      (l.resolve inp DynamicBitmask.empty).get i = false) ∧
    (∀ i, (r.resolve inp DynamicBitmask.empty).size ≤ i →
      (r.resolve inp DynamicBitmask.empty).get i = false) := by
  refine ⟨?_, fun i h => AbstractBufferBitmask.get_false_of_le _ h,
    fun i h => AbstractBufferBitmask.get_false_of_le _ h⟩
  rw [LogicExpression.resolveLogic]
  exact EqualityExpression.compare_iff (Expression.resolve_valid l inp DynamicBitmask.valid_empty)
    (Expression.resolve_valid r inp DynamicBitmask.valid_empty)

/-- C4, an instance: `I0 == {I1, I2}` on an input with no bit set; bit 1 is
at the width of the left operand. -/
theorem equality_compares_zero_extended_witness :
    ((Expression.identifier [0]).resolve DynamicBitmask.empty.toAbstractBufferBitmask
        DynamicBitmask.empty).size ≤ 1 ∧
    ((Expression.identifier [0]).resolve DynamicBitmask.empty.toAbstractBufferBitmask
        DynamicBitmask.empty).get 1 = false :=
  ⟨by decide, (equality_compares_zero_extended (.identifier [0]) (.identifier [1, 2])
    DynamicBitmask.empty.toAbstractBufferBitmask).2.1 1 (by decide)⟩

end Prism

namespace Prism

/-! ## Collecting the transitions of a state -/

/-- `collectStateRecurse` appends to `out`. -/
theorem collectStateRecurse_append (node : Node) : ∀ (out : List StateTransition)
    (p : Option LogicExpression) (s : Nat),
    collectStateRecurse out node p s = out ++ collectStateRecurse [] node p s := by
  induction node with
  | leaf output target =>
    intro out p s
    simp only [collectStateRecurse, List.nil_append]
  | branch c t f iht ihf =>
    intro out p s
    rw [collectStateRecurse, collectStateRecurse]
    cases c.asState with
    | some k =>
      simp only
      split
      · exact ihf out p s
      · exact iht out p s
    | none =>
      simp only
      rw [ihf (collectStateRecurse out t _ s), iht out, ihf (collectStateRecurse [] t _ s),
        List.append_assoc]

theorem collectStateRecurse_length (node : Node) : ∀ (out : List StateTransition)
    (p : Option LogicExpression) (s : Nat),
    (collectStateRecurse out node p s).length = out.length + reachedLeaves node s := by
  induction node with
  | leaf output target =>
    intro out p s
    simp [collectStateRecurse, reachedLeaves]
  | branch c t f iht ihf =>
    intro out p s
    rw [collectStateRecurse, reachedLeaves]
    cases c.asState with
    | some k =>
      simp only
      split
      · exact ihf out p s
      · exact iht out p s
    | none =>
      simp only
      rw [ihf, iht, Nat.add_assoc]

theorem collectStateRecurse_last (node : Node) : ∀ (out : List StateTransition)
    (p : Option LogicExpression) (s : Nat),
    ((collectStateRecurse out node p s).getLast?).map (fun t => t.expr)
      = some (p.getD .logicTrue) := by
  induction node with
  | leaf output target =>
    intro out p s
    simp [collectStateRecurse, StateTransition.create]
  | branch c t f iht ihf =>
    intro out p s
    rw [collectStateRecurse]
    cases c.asState with
    | some k =>
      simp only
      split
      · exact ihf out p s
      · exact iht out p s
    | none => exact ihf _ p s

/-- The guard of the true edge is the conjunction of the inherited guard
and the condition of the branch. -/
theorem branchGuard_resolveLogic (p : Option LogicExpression) (c : LogicExpression)
    (inp : AbstractBufferBitmask) :
    (branchGuard p c).resolveLogic inp
      = ((p.getD .logicTrue).resolveLogic inp && c.resolveLogic inp) := by
  have hc : c.cloneLogic.resolveLogic inp = c.resolveLogic inp :=
    (cloneFuel_resolve _).2.1 c _ (c.cloneLogicFuel_enough 0) inp
  cases p with
  | none =>
    simp only [branchGuard, Option.getD_none, LogicExpression.resolveLogic, Bool.true_and]
    exact hc
  | some q =>
    have hq : q.cloneLogic.resolveLogic inp = q.resolveLogic inp :=
      (cloneFuel_resolve _).2.1 q _ (q.cloneLogicFuel_enough 0) inp
    simp only [branchGuard, Option.getD_some, LogicExpression.resolveLogic, hc, hq]

/-- C10: at a branch whose condition `c` is not a state test, with the
subtrees `T` (true edge) and `F` (false edge) and the inherited guard `p`,
`collectStateRecurse` appends to `out` the transitions of `T` collected
under the guard `p AND c` (the clone of `c` when `p` is null, else the
conjunction of the clones; it evaluates to `p && c`), followed by the
transitions of `F` collected under `p` alone, so that the true-edge
transitions come first; on any diagram it produces one transition per
reached leaf, and the last transition of a list collected from the root,
where the guard is null, carries the always-true guard. -/
theorem collectStateRecurse_true_edge_first (out : List StateTransition)
    (c : LogicExpression) (T F : Node) (p : Option LogicExpression) (s : Nat)
    (h : c.asState = none) :
    collectStateRecurse out (.branch c T F) p s
      = out ++ collectStateRecurse [] T (some (branchGuard p c)) s
          ++ collectStateRecurse [] F p s ∧
    (∀ inp, (branchGuard p c).resolveLogic inp
      = ((p.getD .logicTrue).resolveLogic inp && c.resolveLogic inp)) ∧
    (∀ (node : Node) (q : Option LogicExpression),
      (collectStateRecurse out node q s).length = out.length + reachedLeaves node s) ∧
    (∀ node : Node, ((collectStateRecurse [] node none s).getLast?).map (fun t => t.expr)
      = some .logicTrue) := by
  refine ⟨?_, branchGuard_resolveLogic p c, fun node q => collectStateRecurse_length node out q s,
    fun node => collectStateRecurse_last node [] none s⟩
  rw [collectStateRecurse]
  simp only [h]
  rw [collectStateRecurse_append F, collectStateRecurse_append T]

/-- C10, an instance: a branch on `|I1` over two leaves, collected for
state 5 from the root. -/
theorem collectStateRecurse_true_edge_first_witness :
    (LogicExpression.reduceOr (.identifier [1])).asState = none ∧
    collectStateRecurse [] (.branch (.reduceOr (.identifier [1]))
        (.leaf DynamicBitmask.empty 2) (.leaf DynamicBitmask.empty UINT_MAX)) none 5
      = [] ++ collectStateRecurse [] (.leaf DynamicBitmask.empty 2)
            (some (branchGuard none (.reduceOr (.identifier [1])))) 5
          ++ collectStateRecurse [] (.leaf DynamicBitmask.empty UINT_MAX) none 5 :=
  ⟨rfl, (collectStateRecurse_true_edge_first [] (.reduceOr (.identifier [1]))
    (.leaf DynamicBitmask.empty 2) (.leaf DynamicBitmask.empty UINT_MAX) none 5 rfl).1⟩

end Prism

namespace Prism

/-- The recursive call of `setIntersection` is made once at most: a depth
of two is enough, and more changes nothing. -/
theorem Bitmask.setIntersectionDepth_enough (k : Nat) (h : Heap) (this out other : Nat) :
    Bitmask.setIntersectionDepth (2 + k) h this out other
      = Bitmask.setIntersection h this out other := by
  show Bitmask.setIntersectionDepth (2 + k) h this out other
    = Bitmask.setIntersectionDepth (0 + 1 + 1) h this out other
  rw [show 2 + k = (k + 1) + 1 by omega]
  conv_lhs => rw [Bitmask.setIntersectionDepth]
  conv_rhs => rw [Bitmask.setIntersectionDepth]
  by_cases h1 : other = this
  · simp only [h1, if_true]
  · simp only [h1, if_false]
    by_cases h2 : out = other
    · have h3 : ¬ this = other := fun e => h1 e.symm
      subst h2
      simp only [if_true]
      conv_lhs => rw [Bitmask.setIntersectionDepth]
      conv_rhs => rw [Bitmask.setIntersectionDepth]
      simp only [h3, h1, if_false, if_true]
    · simp only [h2, if_false]

end Prism

namespace Prism

/-- A completed clone of an expression without state tests has no state
test. -/
theorem cloneFuel_stateFree : ∀ n : Nat,
    (∀ (e : Expression) c, e.cloneFuel n = some c → e.stateFree = true →
      c.stateFree = true) ∧
    (∀ (e : LogicExpression) c, e.cloneLogicFuel n = some c → e.stateFree = true →
      c.stateFree = true) ∧
    (∀ (e : LogicExpression) b c, e.cloneNotFuel n b = some c → e.stateFree = true →
      c.stateFree = true) := by
  intro n
  induction n with
  | zero =>
    refine ⟨?_, ?_, ?_⟩
    · intro e c h; simp [Expression.cloneFuel] at h
    · intro e c h; simp [LogicExpression.cloneLogicFuel] at h
    · intro e b c h; simp [LogicExpression.cloneNotFuel] at h
  | succ n ih =>
    obtain ⟨ih1, ih2, ih3⟩ := ih
    have hfold : ∀ (res : Bool) (a : LogicExpression) c,
        ((a.cloneLogicFuel n).bind fun out =>
          if (!res) = true then (LogicExpression.logicNot out).cloneLogicFuel n
          else some out) = some c → a.stateFree = true → c.stateFree = true := by
      intro res a c h hs
      simp only [Option.bind_eq_some] at h
      obtain ⟨out, ho, hc⟩ := h
      have e1 := ih2 a out ho hs
      cases res with
      | true =>
        simp only [Bool.not_true, Bool.false_eq_true, if_false, Option.some.injEq] at hc
        subst hc
        exact e1
      | false =>
        simp only [Bool.not_false, if_true] at hc
        exact ih2 _ c hc (by simpa [LogicExpression.stateFree] using e1)
    have hbin : ∀ (mk : Expression → Expression → Expression) (l r : Expression) c,
        (∀ x y, (mk x y).stateFree = (x.stateFree && y.stateFree)) →
        ((l.cloneFuel n).bind fun x => (r.cloneFuel n).map fun y => mk x y) = some c →
        (l.stateFree && r.stateFree) = true → c.stateFree = true := by
      intro mk l r c hmk h hs
      simp only [Option.bind_eq_some, Option.map_eq_some'] at h
      obtain ⟨x, hx, y, hy, rfl⟩ := h
      simp only [Bool.and_eq_true] at hs
      rw [hmk, ih1 l x hx hs.1, ih1 r y hy hs.2]; rfl
    have hlbin : ∀ (mk : LogicExpression → LogicExpression → LogicExpression)
        (l r : LogicExpression) c,
        (∀ x y, (mk x y).stateFree = (x.stateFree && y.stateFree)) →
        ((l.cloneLogicFuel n).bind fun x => (r.cloneLogicFuel n).map fun y => mk x y)
          = some c →
        (l.stateFree && r.stateFree) = true → c.stateFree = true := by
      intro mk l r c hmk h hs
      simp only [Option.bind_eq_some, Option.map_eq_some'] at h
      obtain ⟨x, hx, y, hy, rfl⟩ := h
      simp only [Bool.and_eq_true] at hs
      rw [hmk, ih2 l x hx hs.1, ih2 r y hy hs.2]; rfl
    have heq : ∀ (l r : Expression) c,
        ((l.cloneFuel n).bind fun x => (r.cloneFuel n).map
          fun y => LogicExpression.equality x y) = some c →
        (l.stateFree && r.stateFree) = true → c.stateFree = true := by
      intro l r c h hs
      simp only [Option.bind_eq_some, Option.map_eq_some'] at h
      obtain ⟨x, hx, y, hy, rfl⟩ := h
      simp only [Bool.and_eq_true] at hs
      rw [LogicExpression.stateFree, ih1 l x hx hs.1, ih1 r y hy hs.2]; rfl
    refine ⟨?_, ?_, ?_⟩
    · intro e c h hs
      cases e with
      | identifier g =>
        simp only [Expression.cloneFuel, Option.some.injEq] at h
        subst h; rfl
      | logic l =>
        simp only [Expression.cloneFuel, Option.map_eq_some'] at h
        obtain ⟨x, hx, rfl⟩ := h
        exact ih2 l x hx hs
      | bitwiseNot ch =>
        simp only [Expression.cloneFuel, Option.map_eq_some'] at h
        obtain ⟨x, hx, rfl⟩ := h
        exact ih1 ch x hx hs
      | bitwiseAnd l r =>
        exact hbin .bitwiseAnd l r c (fun _ _ => rfl) (by simpa [Expression.cloneFuel] using h) hs
      | bitwiseOr l r =>
        exact hbin .bitwiseOr l r c (fun _ _ => rfl) (by simpa [Expression.cloneFuel] using h) hs
      | bitwiseXor l r =>
        exact hbin .bitwiseXor l r c (fun _ _ => rfl) (by simpa [Expression.cloneFuel] using h) hs
      | bitwiseXnor l r =>
        exact hbin .bitwiseXnor l r c (fun _ _ => rfl) (by simpa [Expression.cloneFuel] using h) hs
      | constant frm =>
        simp only [Expression.cloneFuel, Option.some.injEq] at h
        subst h; rfl
    · intro e c h hs
      cases e with
      | logicTrue =>
        simp only [LogicExpression.cloneLogicFuel, Option.some.injEq] at h
        subst h; rfl
      | logicFalse =>
        simp only [LogicExpression.cloneLogicFuel, Option.some.injEq] at h
        subst h; rfl
      | reduceOr ch =>
        rw [LogicExpression.cloneLogicFuel] at h
        cases ha : ch.asLogic with
        | none =>
          simp only [ha, Option.map_eq_some'] at h
          obtain ⟨x, hx, rfl⟩ := h
          exact ih1 ch x hx hs
        | some l =>
          simp only [ha] at h
          have := Expression.asLogic_eq_some ha
          subst this
          exact ih2 l c h hs
      | reduceAnd ch =>
        simp only [LogicExpression.cloneLogicFuel, Option.map_eq_some'] at h
        obtain ⟨x, hx, rfl⟩ := h
        exact ih1 ch x hx hs
      | reduceXor ch =>
        simp only [LogicExpression.cloneLogicFuel, Option.map_eq_some'] at h
        obtain ⟨x, hx, rfl⟩ := h
        exact ih1 ch x hx hs
      | logicNot ch =>
        rw [LogicExpression.cloneLogicFuel] at h
        exact ih3 ch true c h hs
      | equality l r =>
        rw [LogicExpression.cloneLogicFuel] at h
        rw [LogicExpression.stateFree] at hs
        cases ha : l.asLogic with
        | none => simp only [ha] at h; exact heq l r c h hs
        | some ll =>
          cases hb : r.asLogic with
          | none => simp only [ha, hb] at h; exact heq l r c h hs
          | some lr =>
            simp only [ha, hb] at h
            have e1 := Expression.asLogic_eq_some ha
            have e2 := Expression.asLogic_eq_some hb
            subst e1 e2
            simp only [Expression.stateFree, Bool.and_eq_true] at hs
            by_cases h1 : (ll.constantSolve false).1 = true
            · rw [if_pos h1] at h
              exact hfold _ lr c h hs.2
            · rw [if_neg h1] at h
              by_cases h2 : (lr.constantSolve (ll.constantSolve false).2).1 = true
              · rw [if_pos h2] at h
                exact hfold _ ll c h hs.1
              · rw [if_neg h2] at h
                exact heq _ _ c h (by simp [Expression.stateFree, hs.1, hs.2])
      | logicOr l r =>
        rw [LogicExpression.cloneLogicFuel] at h
        simp only at h
        rw [LogicExpression.stateFree] at hs
        have hs2 := hs
        simp only [Bool.and_eq_true] at hs2
        by_cases h1 : ((l.constantSolve false).1 && !(l.constantSolve false).2) = true
        · rw [if_pos h1] at h
          exact ih2 r c h hs2.2
        · rw [if_neg h1] at h
          by_cases h2 : ((r.constantSolve (l.constantSolve false).2).1
              && !(r.constantSolve (l.constantSolve false).2).2) = true
          · rw [if_pos h2] at h
            exact ih2 l c h hs2.1
          · rw [if_neg h2] at h
            exact hlbin .logicOr l r c (fun _ _ => rfl) h hs
      | logicAnd l r =>
        rw [LogicExpression.cloneLogicFuel] at h
        simp only at h
        rw [LogicExpression.stateFree] at hs
        have hs2 := hs
        simp only [Bool.and_eq_true] at hs2
        by_cases h1 : ((l.constantSolve false).1 && (l.constantSolve false).2) = true
        · rw [if_pos h1] at h
          exact ih2 r c h hs2.2
        · rw [if_neg h1] at h
          by_cases h2 : ((r.constantSolve (l.constantSolve false).2).1
              && (r.constantSolve (l.constantSolve false).2).2) = true
          · rw [if_pos h2] at h
            exact ih2 l c h hs2.1
          · rw [if_neg h2] at h
            exact hlbin .logicAnd l r c (fun _ _ => rfl) h hs
      | state s =>
        simp [LogicExpression.stateFree] at hs
    · intro e b c h hs
      rw [LogicExpression.cloneNotFuel] at h
      cases ha : e.notChild with
      | some nx =>
        simp only [ha] at h
        have := LogicExpression.notChild_eq_some ha
        subst this
        exact ih3 nx (!b) c h hs
      | none =>
        simp only [ha] at h
        cases b with
        | true =>
          simp only [if_true, Option.map_eq_some'] at h
          obtain ⟨x, hx, rfl⟩ := h
          exact ih2 e x hx hs
        | false =>
          simp only [Bool.false_eq_true, if_false] at h
          exact ih2 e c h hs

/-- The clone of a condition without state tests has no state test. -/
theorem LogicExpression.cloneLogic_stateFree (e : LogicExpression)
    (h : e.stateFree = true) : e.cloneLogic.stateFree = true :=
  (cloneFuel_stateFree _).2.1 e _ (e.cloneLogicFuel_enough 0) h

end Prism

namespace Prism

/-- What `collectStateRecurse` appends is the raw list of the diagram with
the targets filled in. -/
theorem collectStateRecurse_eq_raw (node : Node) :
    ∀ (out : List StateTransition) (p : Option LogicExpression) (s : Nat),
      collectStateRecurse out node p s
        = out ++ (collectRaw node p s).map (StateTransition.ofRaw s) := by
  induction node with
  | leaf output target =>
    intro out p s
    rfl
  | branch bexpr t f iht ihf =>
    intro out p s
    rw [collectStateRecurse, collectRaw]
    cases ha : bexpr.asState with
    | some k =>
      simp only
      by_cases hk : k ≠ s
      · rw [if_pos hk, if_pos hk]; exact ihf out p s
      · rw [if_neg hk, if_neg hk]; exact iht out p s
    | none =>
      simp only
      rw [iht, ihf, List.map_append, List.append_assoc]

/-- Two states without a case arm give the same raw list. -/
theorem collectRaw_of_no_arm (node : Node) (s1 s2 : Nat) :
    ∀ (p : Option LogicExpression), node.hasArm s1 = false → node.hasArm s2 = false →
      collectRaw node p s1 = collectRaw node p s2 := by
  induction node with
  | leaf output target => intro p _ _; rfl
  | branch bexpr t f iht ihf =>
    intro p h1 h2
    simp only [Node.hasArm, Bool.or_eq_false_iff, beq_eq_false_iff_ne, ne_eq] at h1 h2
    rw [collectRaw, collectRaw]
    cases ha : bexpr.asState with
    | some k =>
      simp only
      have k1 : k ≠ s1 := fun e => h1.1.1 (by rw [ha, e])
      have k2 : k ≠ s2 := fun e => h2.1.1 (by rw [ha, e])
      rw [if_pos k1, if_pos k2]
      exact ihf p h1.2 h2.2
    | none =>
      simp only
      rw [iht _ h1.1.2 h2.1.2, ihf _ h1.2 h2.2]

/-- The guards of the raw list have no state test when the conditions of
the diagram have none below their top. -/
theorem collectRaw_stateFree (node : Node) (s : Nat) :
    ∀ (p : Option LogicExpression), node.stateTestsOnTop = true →
      (∀ q, p = some q → q.stateFree = true) →
      ∀ r ∈ collectRaw node p s, r.1.stateFree = true := by
  induction node with
  | leaf output target =>
    intro p _ hp r hr
    simp only [collectRaw, List.mem_singleton] at hr
    subst hr
    cases p with
    | none => rfl
    | some q => exact hp q rfl
  | branch bexpr t f iht ihf =>
    intro p hw hp r hr
    simp only [Node.stateTestsOnTop, Bool.and_eq_true, Bool.or_eq_true] at hw
    rw [collectRaw] at hr
    cases ha : bexpr.asState with
    | some k =>
      simp only [ha] at hr
      by_cases hk : k ≠ s
      · rw [if_pos hk] at hr; exact ihf p hw.2 hp r hr
      · rw [if_neg hk] at hr; exact iht p hw.1.2 hp r hr
    | none =>
      simp only [ha, List.mem_append] at hr
      have hb : bexpr.stateFree = true := by
        rcases hw.1.1 with h | h
        · rw [ha] at h; simp at h
        · exact h
      rcases hr with hr | hr
      · refine iht _ hw.1.2 ?_ r hr
        intro q hq
        simp only [Option.some.injEq] at hq
        subst hq
        cases p with
        | none => exact bexpr.cloneLogic_stateFree hb
        | some p0 =>
          simp only [branchGuard, LogicExpression.stateFree, Bool.and_eq_true]
          exact ⟨p0.cloneLogic_stateFree (hp p0 rfl), bexpr.cloneLogic_stateFree hb⟩
      · exact ihf p hw.2 hp r hr

/-- C11: for every diagram and target state `s`, `collectStateRecurse` at a
branch on the state test for the id `k` collects exactly what it collects
from the true child when `k = s` and from the false child when `k != s`,
under the unchanged guard. Hence, in a diagram whose conditions hold no
state test below their top (the diagrams of `ParseContextTree`), no
collected guard contains a state test; and for two state ids without a
case arm the collected lists are the same list of guards, outputs and leaf
targets, in which the leaves without a target override point to the
respective id. -/
theorem collectStateRecurse_prunes_state_tests (node t f : Node)
    (out : List StateTransition) (p : Option LogicExpression) (k s s1 s2 : Nat) :
    (collectStateRecurse out (.branch (.state k) t f) p s
      = if k = s then collectStateRecurse out t p s else collectStateRecurse out f p s) ∧
    (node.stateTestsOnTop = true → (∀ q, p = some q → q.stateFree = true) →
      ∃ added, collectStateRecurse out node p s = out ++ added ∧
        ∀ x ∈ added, x.expr.stateFree = true) ∧
    (node.hasArm s1 = false → node.hasArm s2 = false →
      ∃ raw : List (LogicExpression × DynamicBitmask × Nat),
        collectStateRecurse out node p s1 = out ++ raw.map (StateTransition.ofRaw s1) ∧
        collectStateRecurse out node p s2 = out ++ raw.map (StateTransition.ofRaw s2)) := by
  refine ⟨?_, ?_, ?_⟩
  · rw [collectStateRecurse]
    simp only [LogicExpression.asState]
    by_cases hk : k = s
    · rw [if_pos hk, if_neg (not_not.mpr hk)]
    · rw [if_neg hk, if_pos hk]
  · intro hw hp
    refine ⟨_, collectStateRecurse_eq_raw node out p s, ?_⟩
    intro x hx
    simp only [List.mem_map] at hx
    obtain ⟨r, hr, rfl⟩ := hx
    exact collectRaw_stateFree node s p hw hp r hr
  · intro h1 h2
    refine ⟨collectRaw node p s1, collectStateRecurse_eq_raw node out p s1, ?_⟩
    rw [collectRaw_of_no_arm node s1 s2 p h1 h2]
    exact collectStateRecurse_eq_raw node out p s2

/-- C11 at a diagram with a case arm for state 1 and one condition: the
states 2 and 3 have no arm and collect the same raw list. -/
theorem collectStateRecurse_prunes_state_tests_witness :
    ∃ raw : List (LogicExpression × DynamicBitmask × Nat),
      collectStateRecurse []
          (.branch (.state 1) (.leaf DynamicBitmask.empty UINT_MAX)
            (.branch (.reduceOr (.identifier [0])) (.leaf DynamicBitmask.empty 5)
              (.leaf DynamicBitmask.empty UINT_MAX))) none 2
        = [] ++ raw.map (StateTransition.ofRaw 2) ∧
      collectStateRecurse []
          (.branch (.state 1) (.leaf DynamicBitmask.empty UINT_MAX)
            (.branch (.reduceOr (.identifier [0])) (.leaf DynamicBitmask.empty 5)
              (.leaf DynamicBitmask.empty UINT_MAX))) none 3
        = [] ++ raw.map (StateTransition.ofRaw 3) :=
  (collectStateRecurse_prunes_state_tests
    (.branch (.state 1) (.leaf DynamicBitmask.empty UINT_MAX)
      (.branch (.reduceOr (.identifier [0])) (.leaf DynamicBitmask.empty 5)
        (.leaf DynamicBitmask.empty UINT_MAX)))
    (.leaf DynamicBitmask.empty 0) (.leaf DynamicBitmask.empty 0) [] none 1 1 2 3).2.2
    (by decide) (by decide)

end Prism

namespace Prism

/-- The signed difference of two values below `2 ^ 31` compares them. -/
theorem toInt32_u32sub_pos {a b : Nat} (ha : a < 2 ^ 31) (hb : b < 2 ^ 31) :
    (toInt32 (u32sub a b) > 0 ↔ b < a) ∧ (toInt32 (u32sub a b) < 0 ↔ a < b) := by
  unfold toInt32 u32sub
  have hb2 : b % 2 ^ 32 = b := Nat.mod_eq_of_lt (by omega)
  rw [hb2]
  by_cases h : b ≤ a
  · have e : (a + 2 ^ 32 - b) % 2 ^ 32 = a - b := by
      have : a + 2 ^ 32 - b = (a - b) + 2 ^ 32 := by omega
      rw [this, Nat.add_mod_right, Nat.mod_eq_of_lt (by omega)]
    rw [e, if_pos (by omega)]
    constructor <;> constructor <;> intro h1 <;> omega
  · have e : (a + 2 ^ 32 - b) % 2 ^ 32 = a + 2 ^ 32 - b := Nat.mod_eq_of_lt (by omega)
    rw [e, if_neg (by omega)]
    constructor <;> constructor <;> intro h1 <;> omega

/-- The unsigned difference does not wrap when the second value is not the
larger one. -/
theorem u32sub_of_le {a b : Nat} (ha : a < 2 ^ 32) (h : b ≤ a) : u32sub a b = a - b := by
  unfold u32sub
  rw [Nat.mod_eq_of_lt (by omega : b < 2 ^ 32)]
  have : a + 2 ^ 32 - b = (a - b) + 2 ^ 32 := by omega
  rw [this, Nat.add_mod_right, Nat.mod_eq_of_lt (by omega)]

/-- The binary search of `lookup` ends within the fuel `h - l + 1`, whatever
the array holds. -/
theorem WireMap.lookupFuel_total (map : List Nat) (id : Nat) : ∀ (fuel l h : Nat),
    h - l < fuel → ∃ r, WireMap.lookupFuel map id fuel l h = some r := by
  intro fuel
  induction fuel with
  | zero => intro l h hf; omega
  | succ n ih =>
    intro l h hf
    rw [WireMap.lookupFuel]
    by_cases hlh : l < h
    · rw [if_pos hlh]
      simp only
      have hm1 : l ≤ (l + h) >>> 1 := by rw [Nat.shiftRight_eq_div_pow]; omega
      have hm2 : (l + h) >>> 1 < h := by rw [Nat.shiftRight_eq_div_pow]; omega
      split
      · exact ih _ _ (by omega)
      · split
        · exact ih _ _ (by omega)
        · exact ⟨_, rfl⟩
    · rw [if_neg hlh]; exact ⟨_, rfl⟩

/-- The binary search of `lookup` on keys below `2 ^ 31` in strictly
increasing order: from bounds `l` and `h` that enclose the place of `id`, it
returns the value at an index whose key is `id`, or `id - p` for the index
`p` that splits the keys below `id` from the keys above it. -/
theorem WireMap.lookupFuel_spec (map : List Nat) (n id : Nat) (hid : id < 2 ^ 31)
    (hk : ∀ i, i < n → map.getD (2 * i) 0 < 2 ^ 31)
    (hs : ∀ i j, i < j → j < n → map.getD (2 * i) 0 < map.getD (2 * j) 0) :
    ∀ (fuel l h : Nat), h - l < fuel → l ≤ h → h ≤ n →
      (∀ i, i < l → map.getD (2 * i) 0 < id) →
      (∀ i, h ≤ i → i < n → id < map.getD (2 * i) 0) →
      (∃ m, m < n ∧ map.getD (2 * m) 0 = id ∧
        WireMap.lookupFuel map id fuel l h = some (map.getD (2 * m + 1) 0)) ∨
      (∃ p, p ≤ n ∧ (∀ i, i < p → map.getD (2 * i) 0 < id) ∧
        (∀ i, p ≤ i → i < n → id < map.getD (2 * i) 0) ∧
        WireMap.lookupFuel map id fuel l h = some (u32sub id p)) := by
  intro fuel
  induction fuel with
  | zero => intro l h hf; omega
  | succ f ih =>
    intro l h hf hlh hn hlo hhi
    rw [WireMap.lookupFuel]
    by_cases hlt : l < h
    · rw [if_pos hlt]
      simp only
      have hm1 : l ≤ (l + h) >>> 1 := by rw [Nat.shiftRight_eq_div_pow]; omega
      have hm2 : (l + h) >>> 1 < h := by rw [Nat.shiftRight_eq_div_pow]; omega
      generalize (l + h) >>> 1 = m at hm1 hm2 ⊢
      have e0 : (m <<< 1) + 0 = 2 * m := by rw [Nat.shiftLeft_eq]; omega
      have e1 : (m <<< 1) + 1 = 2 * m + 1 := by rw [Nat.shiftLeft_eq]; omega
      rw [e0, e1]
      have hcmp := toInt32_u32sub_pos hid (hk m (by omega))
      by_cases hgt : toInt32 (u32sub id (map.getD (2 * m) 0)) > 0
      · rw [if_pos hgt]
        have hlt2 := hcmp.1.1 hgt
        refine ih (m + 1) h (by omega) (by omega) hn ?_ hhi
        intro i hi
        rcases Nat.lt_or_ge i m with h1 | h1
        · exact lt_trans (hs i m h1 (by omega)) hlt2
        · have : i = m := by omega
          rw [this]; exact hlt2
      · rw [if_neg hgt]
        by_cases hneg : toInt32 (u32sub id (map.getD (2 * m) 0)) < 0
        · rw [if_pos hneg]
          have hlt2 := hcmp.2.1 hneg
          refine ih l m (by omega) hm1 (by omega) hlo ?_
          intro i hi hin
          rcases Nat.lt_or_ge m i with h1 | h1
          · exact lt_trans hlt2 (hs m i h1 hin)
          · have : i = m := by omega
            rw [this]; exact hlt2
        · rw [if_neg hneg]
          left
          refine ⟨m, by omega, ?_, rfl⟩
          have h1 : ¬ map.getD (2 * m) 0 < id := fun h => hgt (hcmp.1.2 h)
          have h2 : ¬ id < map.getD (2 * m) 0 := fun h => hneg (hcmp.2.2 h)
          omega
    · rw [if_neg hlt]
      right
      have : l = h := by omega
      subst this
      exact ⟨l, hn, hlo, hhi, rfl⟩

end Prism

namespace Prism

/-- The array `map` that the constructor fills is the list of the pairs,
laid out key first. -/
theorem WireMap.create_map (cfg : WireMap.Config) :
    (WireMap.create cfg).map = cfg.mappings.flatMap (fun p => [p.1, p.2]) := by
  have h : ∀ (ms : List (Nat × Nat)) (acc cnt : List Nat),
      (ms.foldl (fun (mc : List Nat × List Nat) item =>
        (mc.1 ++ [item.1, item.2], mc.2.set item.2 (mc.2.getD item.2 0 + 1)))
        (acc, cnt)).1 = acc ++ ms.flatMap (fun p => [p.1, p.2]) := by
    intro ms
    induction ms with
    | nil => intro acc cnt; simp
    | cons x xs ih =>
      intro acc cnt
      rw [List.foldl_cons, ih]
      simp [List.flatMap_cons]
  unfold WireMap.create
  simp only [h]
  rfl

/-- The entries of the laid-out pairs: the key of pair `i` is at `2 * i`,
its value at `2 * i + 1`. -/
theorem flatMap_pair_getD (ms : List (Nat × Nat)) : ∀ (i : Nat) (hi : i < ms.length),
    (ms.flatMap (fun p => [p.1, p.2])).getD (2 * i) 0 = (ms.get ⟨i, hi⟩).1 ∧
    (ms.flatMap (fun p => [p.1, p.2])).getD (2 * i + 1) 0 = (ms.get ⟨i, hi⟩).2 := by
  induction ms with
  | nil => intro i hi; simp at hi
  | cons x xs ih =>
    intro i hi
    cases i with
    | zero => simp [List.flatMap_cons]
    | succ j =>
      have hj : j < xs.length := by simpa using hi
      have e1 : 2 * (j + 1) = (2 * j) + 1 + 1 := by omega
      rw [e1]
      simp only [List.flatMap_cons, List.cons_append, List.nil_append, List.getD_cons_succ,
        List.get_eq_getElem, List.getElem_cons_succ]
      have := ih j hj
      simpa using this

/-- The number of elements with a property that holds below the index `p`
and fails from `p` on is `p`. -/
theorem filter_length_of_split {α : Type} (P : α → Bool) : ∀ (l : List α) (p : Nat),
    p ≤ l.length → (∀ i (hi : i < l.length), i < p → P (l.get ⟨i, hi⟩) = true) →
    (∀ i (hi : i < l.length), p ≤ i → P (l.get ⟨i, hi⟩) = false) →
    (l.filter P).length = p := by
  intro l
  induction l with
  | nil => intro p hp _ _; simp at hp; simp [hp]
  | cons x xs ih =>
    intro p hp h1 h2
    cases p with
    | zero =>
      have : (x :: xs).filter P = [] := by
        rw [List.filter_eq_nil_iff]
        intro a ha
        obtain ⟨n, hn, rfl⟩ := List.mem_iff_getElem.1 ha
        have := h2 n hn (Nat.zero_le _)
        simpa using this
      rw [this]; rfl
    | succ q =>
      have hx : P x = true := h1 0 (by simp) (by omega)
      rw [List.filter_cons_of_pos hx, List.length_cons]
      congr 1
      refine ih q (by simpa using hp) ?_ ?_
      · intro i hi hiq
        exact h1 (i + 1) (by simpa using hi) (by omega)
      · intro i hi hiq
        exact h2 (i + 1) (by simpa using hi) (by omega)

/-- `WireMap::lookup` on a table of pairs in strictly increasing order of
the virtual id, for ids below `2 ^ 31` (where the signed difference of the
comparison does not wrap): the physical input paired with `v` when `v` is
a key, and otherwise `v` minus the number of keys smaller than `v`. -/
theorem WireMap.lookup_sorted (cfg : WireMap.Config) (v : Nat) (hv : v < 2 ^ 31)
    (hk : ∀ q ∈ cfg.mappings, q.1 < 2 ^ 31)
    (hs : (cfg.mappings.map Prod.fst).Sorted (· < ·)) :
    (∀ p, (v, p) ∈ cfg.mappings → (WireMap.create cfg).lookup v = p) ∧
    ((∀ p, (v, p) ∉ cfg.mappings) → (WireMap.create cfg).lookup v
      = v - (cfg.mappings.filter (fun q => decide (q.1 < v))).length) := by
  have hmap := WireMap.create_map cfg
  have hn : (WireMap.create cfg).nMappings = cfg.mappings.length := rfl
  generalize hms : cfg.mappings = ms at hk hs hmap hn ⊢
  have hkey : ∀ i (hi : i < ms.length),
      (WireMap.create cfg).map.getD (2 * i) 0 = (ms.get ⟨i, hi⟩).1 := fun i hi => by
    rw [hmap]; exact (flatMap_pair_getD ms i hi).1
  have hval : ∀ i (hi : i < ms.length),
      (WireMap.create cfg).map.getD (2 * i + 1) 0 = (ms.get ⟨i, hi⟩).2 := fun i hi => by
    rw [hmap]; exact (flatMap_pair_getD ms i hi).2
  have hsort : ∀ i j (hi : i < ms.length) (hj : j < ms.length), i < j →
      (ms.get ⟨i, hi⟩).1 < (ms.get ⟨j, hj⟩).1 := by
    intro i j hi hj hij
    have := List.pairwise_iff_getElem.1 hs i j (by simpa using hi) (by simpa using hj) hij
    simpa using this
  have hspec := WireMap.lookupFuel_spec (WireMap.create cfg).map ms.length v hv
    (fun i hi => by rw [hkey i hi]; exact hk _ (List.get_mem _ _ _))
    (fun i j hij hj => by
      rw [hkey i (by omega), hkey j hj]; exact hsort i j (by omega) hj hij)
    (ms.length + 1) 0 ms.length (by omega) (Nat.zero_le _) (le_refl _)
    (fun i hi => by omega) (fun i h1 h2 => by omega)
  have hlook : (WireMap.create cfg).lookup v
      = ((WireMap.lookupFuel (WireMap.create cfg).map v (ms.length + 1) 0 ms.length).getD 0) := by
    unfold WireMap.lookup WireMap.lookupIn
    rw [hn]
  constructor
  · intro p hp
    obtain ⟨n, hnl, hget⟩ := List.mem_iff_getElem.1 hp
    rcases hspec with ⟨m, hm, hkm, hres⟩ | ⟨q, hq, hlo, hhi, hres⟩
    · rw [hlook, hres, Option.getD_some, hval m hm]
      have hmn : m = n := by
        rw [hkey m hm] at hkm
        have hkn : (ms.get ⟨n, hnl⟩).1 = v := by
          rw [List.get_eq_getElem, hget]
        rcases Nat.lt_trichotomy m n with h | h | h
        · have := hsort m n hm hnl h; omega
        · exact h
        · have := hsort n m hnl hm h; omega
      subst hmn
      rw [List.get_eq_getElem, hget]
    · exfalso
      have hkn : (WireMap.create cfg).map.getD (2 * n) 0 = v := by
        rw [hkey n hnl, List.get_eq_getElem, hget]
      rcases Nat.lt_or_ge n q with h | h
      · have := hlo n h; omega
      · have := hhi n h hnl; omega
  · intro hno
    rcases hspec with ⟨m, hm, hkm, hres⟩ | ⟨q, hq, hlo, hhi, hres⟩
    · exfalso
      refine hno (ms.get ⟨m, hm⟩).2 ?_
      have : (v, (ms.get ⟨m, hm⟩).2) = ms.get ⟨m, hm⟩ := by
        rw [← hkm, hkey m hm]
      rw [this]
      exact List.get_mem _ _ _
    · rw [hlook, hres, Option.getD_some]
      have hcount : (ms.filter (fun q => decide (q.1 < v))).length = q := by
        refine filter_length_of_split _ ms q hq ?_ ?_
        · intro i hi hiq
          have := hlo i hiq
          rw [hkey i hi] at this
          simpa using this
        · intro i hi hiq
          have := hhi i hiq hi
          rw [hkey i hi] at this
          simp only [decide_eq_false_iff_not]
          omega
      rw [hcount]
      have hqv : q ≤ v := by
        have hmono : ∀ i (hi : i < ms.length), i ≤ (ms.get ⟨i, hi⟩).1 := by
          intro i
          induction i with
          | zero => intro _; exact Nat.zero_le _
          | succ j ihj =>
            intro hi
            have := hsort j (j + 1) (by omega) hi (by omega)
            have := ihj (by omega)
            omega
        cases q with
        | zero => exact Nat.zero_le _
        | succ r =>
          have h1 := hlo r (by omega)
          rw [hkey r (by omega)] at h1
          have := hmono r (by omega)
          omega
      exact u32sub_of_le (by omega) hqv

/-- C20: on the configuration of one 4-bit mux and one virtual input
whose table is the single pair (3000000000, 0), which is in
strictly increasing order, and the virtual id 0, which is not a key and has
no key below it, `WireMap::lookup` returns 4294967295 and not 0: the signed
difference `id - key` of the comparison wraps to a positive value, the
search moves past the key and the result `id - 1` wraps as well. The
constructor stores this value in `fullMap[0]`. (For ids and keys below
`2 ^ 31` the claim holds: `WireMap.lookup_sorted`.) -/
theorem lookup_wraps_on_large_key :
    (WireMap.create ⟨⟨4, 1⟩, 1, [(3000000000, 0)]⟩).lookup 0 = 4294967295 ∧
    0 - ([((3000000000 : Nat), (0 : Nat))].filter (fun q => decide (q.1 < 0))).length = 0 ∧
    (WireMap.create ⟨⟨4, 1⟩, 1, [(3000000000, 0)]⟩).fullMap = [4294967295] := by
  refine ⟨by decide, by decide, by decide⟩

end Prism

namespace Prism

/-- Counting into an array: entry `i` grows by the number of list elements
that `fm` sends to `i`, and the length stays. -/
theorem foldl_tally (fm : Nat → Nat) : ∀ (l : List Nat) (table : List Nat),
    (l.foldl (fun (t : List Nat) r => t.set (fm r) (t.getD (fm r) 0 + 1)) table).length
      = table.length ∧
    ∀ i, i < table.length →
      (l.foldl (fun (t : List Nat) r => t.set (fm r) (t.getD (fm r) 0 + 1)) table).getD i 0
        = table.getD i 0 + (l.filter (fun r => decide (fm r = i))).length := by
  intro l
  induction l with
  | nil => intro table; simp
  | cons x xs ih =>
    intro table
    rw [List.foldl_cons]
    obtain ⟨h1, h2⟩ := ih (table.set (fm x) (table.getD (fm x) 0 + 1))
    refine ⟨by rw [h1, List.length_set], ?_⟩
    intro i hi
    rw [h2 i (by rw [List.length_set]; exact hi)]
    by_cases hx : fm x = i
    · subst hx
      rw [List.filter_cons_of_pos (by simp), List.length_cons]
      rw [List.getD_eq_getElem _ _ (by rw [List.length_set]; exact hi), List.getElem_set_self]
      omega
    · rw [List.filter_cons_of_neg (by simpa using hx)]
      rw [List.getD_eq_getElem _ _ (by rw [List.length_set]; exact hi),
        List.getElem_set_ne hx, ← List.getD_eq_getElem _ 0 hi]

/-- The array `table` of `bestFit`: one entry for every physical input, the
number of set bits of `outputs` that `fullMap` sends to it. -/
theorem WireMap.bestFitTable_spec (wm : WireMap) (outputs : AbstractBufferBitmask)
    (hv : outputs.Valid) :
    (wm.bestFitTable outputs).length = wm.nInput ∧
    ∀ i, i < wm.nInput → (wm.bestFitTable outputs).getD i 0 = wm.demand outputs i := by
  unfold WireMap.bestFitTable
  rw [forLoop_eq_foldl (fun r => decide (r < outputs.size)) outputs.fns]
  have hsb : forLoopVisits (fun r => decide (r < outputs.size)) outputs.fns outputs.size
      outputs.ffs = (List.range outputs.size).filter outputs.get := hv.setBits_eq
  rw [hsb]
  obtain ⟨h1, h2⟩ := foldl_tally (fun r => wm.fullMap.getD r 0)
    ((List.range outputs.size).filter outputs.get) (List.replicate wm.nInput 0)
  refine ⟨by rw [h1, List.length_replicate], ?_⟩
  intro i hi
  rw [h2 i (by rw [List.length_replicate]; exact hi)]
  rw [List.getD_eq_getElem _ _ (by rw [List.length_replicate]; exact hi),
    List.getElem_replicate, Nat.zero_add, List.filter_filter]
  unfold WireMap.demand
  congr 2
  funext r
  exact Bool.and_comm _ _

/-- A positive demand for the physical input `i` comes from a set bit of
`outputs` that `fullMap` sends to `i`. -/
theorem WireMap.demand_pos_iff (wm : WireMap) (outputs : AbstractBufferBitmask) (i : Nat) :
    0 < wm.demand outputs i ↔
      ∃ r, r < outputs.size ∧ outputs.get r = true ∧ wm.fullMap.getD r 0 = i := by
  unfold WireMap.demand
  rw [List.length_pos_iff_exists_mem]
  constructor
  · rintro ⟨r, hr⟩
    simp only [List.mem_filter, List.mem_range, Bool.and_eq_true, decide_eq_true_eq] at hr
    exact ⟨r, hr.1, hr.2.1, hr.2.2⟩
  · rintro ⟨r, h1, h2, h3⟩
    refine ⟨r, ?_⟩
    simp only [List.mem_filter, List.mem_range, Bool.and_eq_true, decide_eq_true_eq]
    exact ⟨h1, h2, h3⟩

/-- Every score is at least 1. -/
theorem WireMap.one_le_score (wm : WireMap) (nparty i t : Nat) : 1 ≤ wm.score nparty i t := by
  unfold WireMap.score; omega

end Prism

namespace Prism

/-- The third loop of `bestFit` from the index `i`, on any array `table`:
it stops at the first index from `i` on with a nonzero entry equal to both
`counts` and `nparty`; without such an index it keeps `best` when no
candidate scores above it, and otherwise ends at the first candidate of the
highest score. -/
theorem WireMap.bestFitScan_spec (wm : WireMap) (table : List Nat) (nparty : Nat) :
    ∀ (fuel i : Nat) (best : Nat × Nat), i + fuel = wm.nInput →
      (∃ e, i ≤ e ∧ e < wm.nInput ∧ table.getD e 0 ≠ 0 ∧
        (wm.counts.getD e 0 = table.getD e 0 ∧ table.getD e 0 = nparty) ∧
        (∀ j, i ≤ j → j < e → table.getD j 0 ≠ 0 →
          ¬ (wm.counts.getD j 0 = table.getD j 0 ∧ table.getD j 0 = nparty)) ∧
        wm.bestFitScan table nparty fuel i best = (0xff, e)) ∨
      ((∀ j, i ≤ j → j < wm.nInput → table.getD j 0 ≠ 0 →
          ¬ (wm.counts.getD j 0 = table.getD j 0 ∧ table.getD j 0 = nparty)) ∧
        ((wm.bestFitScan table nparty fuel i best = best ∧
            ∀ j, i ≤ j → j < wm.nInput → table.getD j 0 ≠ 0 →
              wm.score nparty j (table.getD j 0) ≤ best.1) ∨
          (∃ s, i ≤ s ∧ s < wm.nInput ∧ table.getD s 0 ≠ 0 ∧
            wm.bestFitScan table nparty fuel i best
              = (wm.score nparty s (table.getD s 0), s) ∧
            best.1 < wm.score nparty s (table.getD s 0) ∧
            (∀ j, i ≤ j → j < wm.nInput → table.getD j 0 ≠ 0 →
              wm.score nparty j (table.getD j 0) ≤ wm.score nparty s (table.getD s 0)) ∧
            (∀ j, i ≤ j → j < s → table.getD j 0 ≠ 0 →
              wm.score nparty j (table.getD j 0) < wm.score nparty s (table.getD s 0))))) := by
  intro fuel
  induction fuel with
  | zero =>
    intro i best hi
    right
    refine ⟨fun j h1 h2 => by omega, Or.inl ⟨rfl, fun j h1 h2 => by omega⟩⟩
  | succ f ih =>
    intro i best hi
    have hin : i < wm.nInput := by omega
    rw [WireMap.bestFitScan, if_pos hin]
    by_cases ht : table.getD i 0 = 0
    · rw [if_pos ht]
      rcases ih (i + 1) best (by omega) with ⟨e, h1, h2, h3, h4, h5, h6⟩ | ⟨hne, hr⟩
      · left
        refine ⟨e, by omega, h2, h3, h4, ?_, h6⟩
        intro j hj1 hj2 hj3
        rcases Nat.eq_or_lt_of_le hj1 with h | h
        · subst h; exact absurd ht hj3
        · exact h5 j h hj2 hj3
      · right
        have hne2 : ∀ j, i ≤ j → j < wm.nInput → table.getD j 0 ≠ 0 →
            ¬ (wm.counts.getD j 0 = table.getD j 0 ∧ table.getD j 0 = nparty) := by
          intro j hj1 hj2 hj3
          rcases Nat.eq_or_lt_of_le hj1 with h | h
          · subst h; exact absurd ht hj3
          · exact hne j h hj2 hj3
        refine ⟨hne2, ?_⟩
        rcases hr with ⟨h1, h2⟩ | ⟨s, h1, h2, h3, h4, h5, h6, h7⟩
        · left
          refine ⟨h1, ?_⟩
          intro j hj1 hj2 hj3
          rcases Nat.eq_or_lt_of_le hj1 with h | h
          · subst h; exact absurd ht hj3
          · exact h2 j h hj2 hj3
        · right
          refine ⟨s, by omega, h2, h3, h4, h5, ?_, ?_⟩
          · intro j hj1 hj2 hj3
            rcases Nat.eq_or_lt_of_le hj1 with h | h
            · subst h; exact absurd ht hj3
            · exact h6 j h hj2 hj3
          · intro j hj1 hj2 hj3
            rcases Nat.eq_or_lt_of_le hj1 with h | h
            · subst h; exact absurd ht hj3
            · exact h7 j h hj2 hj3
    · rw [if_neg ht]
      by_cases hex : wm.counts.getD i 0 = table.getD i 0 ∧ table.getD i 0 = nparty
      · rw [if_pos hex]
        left
        exact ⟨i, le_refl _, hin, ht, hex, fun j h1 h2 => by omega, rfl⟩
      · rw [if_neg hex]
        have hscore : (if nparty ≠ 1 ∧ table.getD i 0 ≠ 1 then
            (if table.getD i 0 = nparty then
              (if wm.counts.getD i 0 = table.getD i 0 then 1 + 1 else 1) + 1
              else (if wm.counts.getD i 0 = table.getD i 0 then 1 + 1 else 1)) + 1
            else (if table.getD i 0 = nparty then
              (if wm.counts.getD i 0 = table.getD i 0 then 1 + 1 else 1) + 1
              else (if wm.counts.getD i 0 = table.getD i 0 then 1 + 1 else 1)))
            = wm.score nparty i (table.getD i 0) := by
          unfold WireMap.score
          split_ifs <;> omega
        simp only [hscore]
        have hstep : ∀ j, i ≤ j → j = i ∨ i + 1 ≤ j := fun j h => by omega
        by_cases hgt : wm.score nparty i (table.getD i 0) > best.1
        · rw [if_pos hgt]
          rcases ih (i + 1) (wm.score nparty i (table.getD i 0), i) (by omega) with
            ⟨e, h1, h2, h3, h4, h5, h6⟩ | ⟨hne, hr⟩
          · left
            refine ⟨e, by omega, h2, h3, h4, ?_, h6⟩
            intro j hj1 hj2 hj3
            rcases hstep j hj1 with h | h
            · subst h; exact hex
            · exact h5 j h hj2 hj3
          · right
            refine ⟨?_, ?_⟩
            · intro j hj1 hj2 hj3
              rcases hstep j hj1 with h | h
              · subst h; exact hex
              · exact hne j h hj2 hj3
            · right
              rcases hr with ⟨h1, h2⟩ | ⟨s, h1, h2, h3, h4, h5, h6, h7⟩
              · refine ⟨i, le_refl _, hin, ht, h1, hgt, ?_, fun j h1 h2 => by omega⟩
                intro j hj1 hj2 hj3
                rcases hstep j hj1 with h | h
                · subst h; exact le_refl _
                · exact h2 j h hj2 hj3
              · simp only at h5
                refine ⟨s, by omega, h2, h3, h4, by omega, ?_, ?_⟩
                · intro j hj1 hj2 hj3
                  rcases hstep j hj1 with h | h
                  · subst h; omega
                  · exact h6 j h hj2 hj3
                · intro j hj1 hj2 hj3
                  rcases hstep j hj1 with h | h
                  · subst h; exact h5
                  · exact h7 j h hj2 hj3
        · rw [if_neg hgt]
          rcases ih (i + 1) best (by omega) with ⟨e, h1, h2, h3, h4, h5, h6⟩ | ⟨hne, hr⟩
          · left
            refine ⟨e, by omega, h2, h3, h4, ?_, h6⟩
            intro j hj1 hj2 hj3
            rcases hstep j hj1 with h | h
            · subst h; exact hex
            · exact h5 j h hj2 hj3
          · right
            refine ⟨?_, ?_⟩
            · intro j hj1 hj2 hj3
              rcases hstep j hj1 with h | h
              · subst h; exact hex
              · exact hne j h hj2 hj3
            · rcases hr with ⟨h1, h2⟩ | ⟨s, h1, h2, h3, h4, h5, h6, h7⟩
              · left
                refine ⟨h1, ?_⟩
                intro j hj1 hj2 hj3
                rcases hstep j hj1 with h | h
                · subst h; omega
                · exact h2 j h hj2 hj3
              · right
                refine ⟨s, by omega, h2, h3, h4, h5, ?_, ?_⟩
                · intro j hj1 hj2 hj3
                  rcases hstep j hj1 with h | h
                  · subst h; omega
                  · exact h6 j h hj2 hj3
                · intro j hj1 hj2 hj3
                  rcases hstep j hj1 with h | h
                  · subst h; omega
                  · exact h7 j h hj2 hj3

end Prism

namespace Prism

/-- The two outcomes of `bestFit`: without demand on any physical input it
fails; otherwise it appends the virtual inputs of one physical input `sel`
with demand, which is the first input whose demand equals both its fan-out
and `nparty`, or, when there is none, the first input of the highest
score. -/
theorem WireMap.bestFit_cases (wm : WireMap) (outputs : AbstractBufferBitmask)
    (hv : outputs.Valid) (nparty : Nat) (out : List Nat) :
    ((∀ i, i < wm.nInput → wm.demand outputs i = 0) ∧
      wm.bestFit outputs nparty out = .error .noSuitableWire) ∨
    (∃ sel, sel < wm.nInput ∧ 0 < wm.demand outputs sel ∧
      wm.bestFit outputs nparty out = .ok (out ++ (List.range wm.nVirtualOutput).filter
        (fun i => decide (wm.fullMap.getD i 0 = sel))) ∧
      (((wm.counts.getD sel 0 = wm.demand outputs sel ∧ wm.demand outputs sel = nparty) ∧
          ∀ j, j < sel → 0 < wm.demand outputs j →
            ¬ (wm.counts.getD j 0 = wm.demand outputs j ∧ wm.demand outputs j = nparty)) ∨
        ((∀ j, j < wm.nInput → 0 < wm.demand outputs j →
            ¬ (wm.counts.getD j 0 = wm.demand outputs j ∧ wm.demand outputs j = nparty)) ∧
          (∀ j, j < wm.nInput → 0 < wm.demand outputs j →
            wm.score nparty j (wm.demand outputs j)
              ≤ wm.score nparty sel (wm.demand outputs sel)) ∧
          (∀ j, j < sel → 0 < wm.demand outputs j →
            wm.score nparty j (wm.demand outputs j)
              < wm.score nparty sel (wm.demand outputs sel))))) := by
  obtain ⟨_, hT⟩ := wm.bestFitTable_spec outputs hv
  have hne : ∀ j, j < wm.nInput → (0 < wm.demand outputs j ↔
      (wm.bestFitTable outputs).getD j 0 ≠ 0) := by
    intro j hj; rw [hT j hj]; omega
  unfold WireMap.bestFit
  simp only
  rcases wm.bestFitScan_spec (wm.bestFitTable outputs) nparty wm.nInput 0 (0, UINT_MAX)
    (by omega) with ⟨e, _, h2, h3, h4, h5, h6⟩ | ⟨hnex, hr⟩
  · right
    refine ⟨e, h2, (hne e h2).2 h3, ?_, Or.inl ⟨?_, ?_⟩⟩
    · rw [h6, if_neg (by simp)]
    · rw [← hT e h2]; exact h4
    · intro j hj hd
      rw [← hT j (by omega)]
      exact h5 j (Nat.zero_le _) hj ((hne j (by omega)).1 hd)
  · rcases hr with ⟨h1, h2⟩ | ⟨s, _, h2, h3, h4, h5, h6, h7⟩
    · left
      refine ⟨?_, by rw [h1, if_pos rfl]⟩
      intro i hi
      by_contra hcon
      have := h2 i (Nat.zero_le _) hi (by rw [hT i hi]; exact hcon)
      have := wm.one_le_score nparty i ((wm.bestFitTable outputs).getD i 0)
      simp only at *
      omega
    · right
      refine ⟨s, h2, (hne s h2).2 h3, ?_, Or.inr ⟨?_, ?_, ?_⟩⟩
      · rw [h4]
        have := wm.one_le_score nparty s ((wm.bestFitTable outputs).getD s 0)
        rw [if_neg (by simp only; omega)]
      · intro j hj hd
        rw [← hT j hj]
        exact hnex j (Nat.zero_le _) hj ((hne j hj).1 hd)
      · intro j hj hd
        rw [← hT j hj, ← hT s h2]
        exact h6 j (Nat.zero_le _) hj ((hne j hj).1 hd)
      · intro j hj hd
        rw [← hT j (by omega), ← hT s h2]
        exact h7 j (Nat.zero_le _) hj ((hne j (by omega)).1 hd)

/-- C18: on a wire map whose arrays `bestFit` stays inside, and a demand
mask `outputs` over its virtual inputs, `bestFit(outputs, nparty, out)`
fails with the no-suitable-wire assertion if and only if `outputs` has no
set bit; otherwise it returns `out` with a non-empty list appended that
contains a virtual input set in `outputs`. -/
theorem bestFit_fails_iff_no_demand (wm : WireMap) (hw : wm.WellFormed)
    (outputs : AbstractBufferBitmask) (hv : outputs.Valid)
    (hsz : outputs.size ≤ wm.nVirtualOutput) (nparty : Nat) (out : List Nat) :
    (wm.bestFit outputs nparty out = .error .noSuitableWire ↔
      ∀ r, outputs.get r = false) ∧
    ((∃ r, outputs.get r = true) →
      ∃ added, wm.bestFit outputs nparty out = .ok (out ++ added) ∧ added ≠ [] ∧
        ∃ v ∈ added, outputs.get v = true) := by
  have hlt : ∀ r, outputs.get r = true → r < outputs.size := by
    intro r hr
    by_contra hcon
    rw [AbstractBufferBitmask.get_false_of_le _ (Nat.le_of_not_lt hcon)] at hr
    exact Bool.noConfusion hr
  have hdem : ∀ r, outputs.get r = true →
      wm.fullMap.getD r 0 < wm.nInput ∧ 0 < wm.demand outputs (wm.fullMap.getD r 0) := by
    intro r hr
    exact ⟨hw.fullMap_lt r (by have := hlt r hr; omega),
      (wm.demand_pos_iff outputs _).2 ⟨r, hlt r hr, hr, rfl⟩⟩
  rcases wm.bestFit_cases outputs hv nparty out with ⟨hz, herr⟩ | ⟨sel, hs1, hs2, hok, _⟩
  · have hnone : ∀ r, outputs.get r = false := by
      intro r
      by_contra hcon
      have hr : outputs.get r = true := by simpa using hcon
      have := hdem r hr
      have := hz _ this.1
      omega
    refine ⟨⟨fun _ => hnone, fun _ => herr⟩, ?_⟩
    rintro ⟨r, hr⟩
    rw [hnone r] at hr
    exact Bool.noConfusion hr
  · obtain ⟨r, hr1, hr2, hr3⟩ := (wm.demand_pos_iff outputs sel).1 hs2
    have hmem : r ∈ (List.range wm.nVirtualOutput).filter
        (fun i => decide (wm.fullMap.getD i 0 = sel)) := by
      simp only [List.mem_filter, List.mem_range, decide_eq_true_eq]
      exact ⟨by omega, hr3⟩
    refine ⟨⟨?_, ?_⟩, ?_⟩
    · intro herr
      rw [hok] at herr
      exact Except.noConfusion herr
    · intro hnone
      rw [hnone r] at hr2
      exact Bool.noConfusion hr2
    · intro _
      exact ⟨_, hok, List.ne_nil_of_mem hmem, r, hmem, hr2⟩

/-- The wire map of the built-in configuration keeps `bestFit` inside its
arrays. -/
theorem WireMap.wellFormed_fallback : WireMap.fallback.WellFormed :=
  ⟨by decide, by decide, by decide, by decide⟩

/-- C18 on the built-in wire map, for the demand on the virtual inputs 4
and 11 (both on the physical input 3). -/
theorem bestFit_fails_iff_no_demand_witness :
    WireMap.fallback.WellFormed ∧
    (((DynamicBitmask.empty.set 4).set 11).toAbstractBufferBitmask).size
      ≤ WireMap.fallback.nVirtualOutput ∧
    ((WireMap.fallback.bestFit ((DynamicBitmask.empty.set 4).set 11).toAbstractBufferBitmask
        2 [] = .error .noSuitableWire ↔
      ∀ r, (((DynamicBitmask.empty.set 4).set 11).toAbstractBufferBitmask).get r = false)) :=
  ⟨WireMap.wellFormed_fallback, by decide,
    (bestFit_fails_iff_no_demand WireMap.fallback WireMap.wellFormed_fallback
      ((DynamicBitmask.empty.set 4).set 11).toAbstractBufferBitmask
      (DynamicBitmask.valid_set (DynamicBitmask.valid_set DynamicBitmask.valid_empty 4) 11).1
      (by decide) 2 []).1⟩

/-- C19: in `WireMap::bestFit`, on a wire map whose arrays it stays inside,
with `demand i` (the array `table`) the number of virtual inputs set in
`outputs` that are mapped to the physical input `i`: the lowest-indexed
physical input `sel` whose demand equals both `counts[sel]` and `nparty` is
selected, whatever the other inputs score; when there is no such input, the
lowest-indexed input with demand that maximises
`1 + [counts = demand] + [demand = nparty] + [nparty != 1 and demand != 1]`
is selected. The list appended to `out` is the list of the virtual inputs
`v` with `fullMap[v] = sel`, in ascending order. -/
theorem bestFit_selects_first_best (wm : WireMap) (hw : wm.WellFormed)
    (outputs : AbstractBufferBitmask) (hv : outputs.Valid) (nparty : Nat) (out : List Nat)
    (sel : Nat) (hsel : sel < wm.nInput) :
    ((wm.counts.getD sel 0 = wm.demand outputs sel ∧ wm.demand outputs sel = nparty) →
      (∀ j, j < sel →
        ¬ (wm.counts.getD j 0 = wm.demand outputs j ∧ wm.demand outputs j = nparty)) →
      wm.bestFit outputs nparty out = .ok (out ++ (List.range wm.nVirtualOutput).filter
        (fun v => decide (wm.fullMap.getD v 0 = sel)))) ∧
    ((∀ j, j < wm.nInput →
        ¬ (wm.counts.getD j 0 = wm.demand outputs j ∧ wm.demand outputs j = nparty)) →
      0 < wm.demand outputs sel →
      (∀ j, j < wm.nInput → 0 < wm.demand outputs j →
        wm.score nparty j (wm.demand outputs j)
          ≤ wm.score nparty sel (wm.demand outputs sel)) →
      (∀ j, j < sel → 0 < wm.demand outputs j →
        wm.score nparty j (wm.demand outputs j)
          < wm.score nparty sel (wm.demand outputs sel)) →
      wm.bestFit outputs nparty out = .ok (out ++ (List.range wm.nVirtualOutput).filter
        (fun v => decide (wm.fullMap.getD v 0 = sel)))) := by
  constructor
  · intro hex hfirst
    have hpos : 0 < wm.demand outputs sel := by
      have := hw.counts_pos sel hsel
      omega
    rcases wm.bestFit_cases outputs hv nparty out with ⟨hz, _⟩ | ⟨s, hs1, hs2, hok, hprop⟩
    · have := hz sel hsel; omega
    · have hss : s = sel := by
        rcases hprop with ⟨h1, h2⟩ | ⟨h1, _, _⟩
        · rcases Nat.lt_trichotomy s sel with h | h | h
          · exact absurd h1 (hfirst s h)
          · exact h
          · exact absurd hex (h2 sel h hpos)
        · exact absurd hex (h1 sel hsel hpos)
      rw [hok, hss]
  · intro hnone hpos hmax hlow
    rcases wm.bestFit_cases outputs hv nparty out with ⟨hz, _⟩ | ⟨s, hs1, hs2, hok, hprop⟩
    · have := hz sel hsel; omega
    · have hss : s = sel := by
        rcases hprop with ⟨h1, _⟩ | ⟨_, h2, h3⟩
        · exact absurd h1 (hnone s hs1)
        · rcases Nat.lt_trichotomy s sel with h | h | h
          · have := hlow s h hs2
            have := h2 sel hsel hpos
            omega
          · exact h
          · have := h3 sel h hpos
            have := hmax s hs1 hs2
            omega
      rw [hok, hss]

/-- C19 on the built-in wire map: the demand on the virtual inputs 3, 4 and
11 is the whole fan-out of the physical input 3, which is selected for
`nparty = 3`. -/
theorem bestFit_selects_first_best_witness :
    WireMap.fallback.bestFit
        (((DynamicBitmask.empty.set 3).set 4).set 11).toAbstractBufferBitmask 3 []
      = .ok ([] ++ (List.range WireMap.fallback.nVirtualOutput).filter
        (fun v => decide (WireMap.fallback.fullMap.getD v 0 = 3))) :=
  (bestFit_selects_first_best WireMap.fallback WireMap.wellFormed_fallback
    (((DynamicBitmask.empty.set 3).set 4).set 11).toAbstractBufferBitmask
    (DynamicBitmask.valid_set (DynamicBitmask.valid_set
      (DynamicBitmask.valid_set DynamicBitmask.valid_empty 3) 4) 11).1
    3 [] 3 (by decide)).1 (by decide) (by decide)

end Prism

namespace Prism

namespace DynamicBitmask

/-- The loop of the branch `&out == this` of `setIntersection`, on the
object itself: started at a set bit of `a` (or at the size) with the bits
below the cursor already intersected, it leaves the intersection of `a`
and `other`. -/
theorem intersect_loop (a other : DynamicBitmask) : ∀ (fuel : Nat) (cur : DynamicBitmask)
    (bit : Nat), cur.Valid → cur.size = a.size →
    (∀ i, i < bit → cur.get i = (a.get i && other.get i)) →
    (∀ i, bit ≤ i → cur.get i = a.get i) →
    (bit < a.size → a.get bit = true) → a.size - bit ≤ fuel →
    (forLoop (fun (c : DynamicBitmask) b => decide (b < c.size))
        (fun (c : DynamicBitmask) b => c.fns b)
        (fun (c : DynamicBitmask) b => if !other.get b then c.clear b else c)
        fuel cur bit).Valid ∧
    (forLoop (fun (c : DynamicBitmask) b => decide (b < c.size))
        (fun (c : DynamicBitmask) b => c.fns b)
        (fun (c : DynamicBitmask) b => if !other.get b then c.clear b else c)
        fuel cur bit).size = a.size ∧
    ∀ i, (forLoop (fun (c : DynamicBitmask) b => decide (b < c.size))
        (fun (c : DynamicBitmask) b => c.fns b)
        (fun (c : DynamicBitmask) b => if !other.get b then c.clear b else c)
        fuel cur bit).get i = (a.get i && other.get i) := by
  intro fuel
  induction fuel with
  | zero =>
    intro cur bit hv hsz hlo hhi _ hf
    refine ⟨hv, hsz, ?_⟩
    intro i
    rw [forLoop]
    by_cases hi : i < bit
    · exact hlo i hi
    · rw [hhi i (by omega), AbstractBufferBitmask.get_false_of_le _
        (show a.nbits ≤ i by have : a.size = a.nbits := rfl; omega)]
      rfl
  | succ f ih =>
    intro cur bit hv hsz hlo hhi hset hf
    rw [forLoop]
    by_cases hb : bit < cur.size
    · simp only [hb, decide_True, if_true]
      have hcv : (if (!other.get bit) = true then cur.clear bit else cur).Valid := by
        split
        · exact valid_clear hv bit
        · exact hv
      have hcs : (if (!other.get bit) = true then cur.clear bit else cur).size = a.size := by
        split
        · rw [size_clear, hsz]; rw [hsz] at hb; omega
        · exact hsz
      have hcg : ∀ i, (if (!other.get bit) = true then cur.clear bit else cur).get i
          = if i = bit then (a.get i && other.get i) else cur.get i := by
        intro i
        by_cases hib : i = bit
        · subst hib
          rw [if_pos rfl]
          cases ho : other.get i
          · simp only [Bool.not_false, if_true, get_clear hv, Bool.and_false]
            simp
          · simp only [Bool.not_true, Bool.false_eq_true, if_false, Bool.and_true]
            exact hhi i (le_refl _)
        · rw [if_neg hib]
          split
          · rw [get_clear hv]; simp [hib]
          · rfl
      generalize (if (!other.get bit) = true then cur.clear bit else cur) = c2 at hcv hcs hcg
      have hsp := hcv.1.fns_spec bit
      have hlt : bit < c2.fns bit :=
        AbstractBufferBitmask.lt_fns _ (show bit < c2.nbits by
          have : c2.size = c2.nbits := rfl
          omega)
      have hn2 : c2.nbits = a.size := hcs
      refine ih c2 (c2.fns bit) hcv hcs ?_ ?_ ?_ (by omega)
      · intro i hi
        rw [hcg i]
        by_cases hib : i = bit
        · rw [if_pos hib]
        · rw [if_neg hib]
          by_cases hlow : i < bit
          · exact hlo i hlow
          · have h1 : c2.bitAt i = false := hsp.2.2 i (by omega) hi
            rw [← hcv.1.get_eq_bitAt, hcg i, if_neg hib] at h1
            rw [h1, ← hhi i (by omega), h1]; rfl
      · intro i hi
        rw [hcg i, if_neg (by omega)]
        exact hhi i (by omega)
      · intro hlt2
        have h1 := hsp.2.1 (by omega)
        rw [← hcv.1.get_eq_bitAt, hcg, if_neg (by omega)] at h1
        rw [← hhi _ (by omega)]
        exact h1
    · simp only [hb, decide_False, Bool.false_eq_true, if_false]
      refine ⟨hv, hsz, ?_⟩
      intro i
      by_cases hi : i < bit
      · exact hlo i hi
      · rw [hhi i (by omega), AbstractBufferBitmask.get_false_of_le _
          (show a.nbits ≤ i by have : a.size = a.nbits := rfl; omega)]
        rfl

/-- `out.setIntersection(out, other)` is the loop on `out` itself. -/
theorem intersectWith_eq (out other : DynamicBitmask) :
    out.intersectWith other =
      forLoop (fun (c : DynamicBitmask) b => decide (b < c.size))
        (fun (c : DynamicBitmask) b => c.fns b)
        (fun (c : DynamicBitmask) b => if !other.get b then c.clear b else c)
        out.size out out.ffs := by
  unfold intersectWith Bitmask.setIntersection Bitmask.setIntersectionDepth
  have h := forLoop_embed (fun o : DynamicBitmask => ([o, other] : Heap))
    (fun (h : Heap) bit => decide (bit < (h.obj 0).size)) (fun (h : Heap) bit => (h.obj 0).fns bit)
    (fun (h : Heap) bit => if !(h.obj 1).get bit then Bitmask.clear h 0 bit else h)
    (fun (c : DynamicBitmask) b => decide (b < c.size))
    (fun (c : DynamicBitmask) b => c.fns b)
    (fun (c : DynamicBitmask) b => if !other.get b then c.clear b else c)
    (fun t b => rfl) (fun t b => rfl)
    (fun t b => by
      show (if (!other.get b) = true then Bitmask.clear [t, other] 0 b else [t, other])
        = [if (!other.get b) = true then t.clear b else t, other]
      cases other.get b <;> rfl)
    out.size out out.ffs
  simp only [show (1 : Nat) = 0 ↔ False from by decide, show (0 : Nat) = 1 ↔ False from by decide,
    if_false, if_true]
  exact congrArg (fun (h : Heap) => h.obj 0) h

/-- `out.setIntersection(out, other)` leaves in `out` the bits that were set
in `out` and are set in `other`, at the same size. -/
theorem intersectWith_spec {out : DynamicBitmask} (other : DynamicBitmask) (hv : out.Valid) :
    (out.intersectWith other).Valid ∧ (out.intersectWith other).size = out.size ∧
    ∀ i, (out.intersectWith other).get i = (out.get i && other.get i) := by
  rw [intersectWith_eq]
  have hf := hv.1.ffs_spec
  refine intersect_loop out other out.size out out.ffs hv rfl ?_ (fun i _ => rfl) ?_ (by omega)
  · intro i hi
    have := hf.2.2 i hi
    rw [← hv.1.get_eq_bitAt] at this
    rw [this]; rfl
  · intro hlt
    have := hf.2.1 hlt
    rw [← hv.1.get_eq_bitAt] at this
    exact this

end DynamicBitmask

end Prism

namespace Prism

/-- The number of words for `n` transitions on `S` static components:
one word when they fit; otherwise `n / S` rounded up, less one word when the
list ends in a fallthrough (`ft`) that is left alone after whole words. -/
theorem splitStateLoop_count (dt : DecisionTree) (hS : 1 ≤ dt.nStaticComponents) :
    ∀ (fuel : Nat) (out : List VirtualState) (vs : VirtualState),
      vs.transitions.length < fuel →
      ∃ added, dt.splitStateLoop fuel out vs = some (out ++ added) ∧
        added.length =
          if vs.transitions.length ≤ dt.nStaticComponents then 1
          else if (vs.transitions.getLast?.map fun x => x.isFallthrough vs.index) = some true
              ∧ (vs.transitions.length - 1) % dt.nStaticComponents = 0 then
            (vs.transitions.length - 1) / dt.nStaticComponents
          else (vs.transitions.length + dt.nStaticComponents - 1) / dt.nStaticComponents := by
  intro fuel
  induction fuel with
  | zero => intro out vs h; omega
  | succ f ih =>
    intro out vs hf
    rw [DecisionTree.splitStateLoop]
    generalize hS' : dt.nStaticComponents = S at hS ih ⊢
    generalize hn : vs.transitions.length = n at hf ⊢
    by_cases hle : n ≤ S
    · rw [if_neg (by omega)]
      exact ⟨[vs], rfl, by rw [if_pos hle]; rfl⟩
    · rw [if_pos (by omega)]
      simp only
      by_cases hbr : n = S + 1 ∧
          (vs.transitions.getLast?.map fun x => x.isFallthrough vs.index) = some true
      · rw [if_pos hbr]
        refine ⟨_, rfl, ?_⟩
        have hc : (vs.transitions.getLast?.map fun x => x.isFallthrough vs.index) = some true
            ∧ (n - 1) % S = 0 := ⟨hbr.2, by rw [hbr.1]; simp⟩
        rw [if_neg hle, if_pos hc, hbr.1]
        simp only [Nat.add_sub_cancel]
        exact (Nat.div_self (show 0 < S by omega)).symm
      · rw [if_neg hbr]
        have hlen : (vs.transitions.drop S).length = n - S := by
          rw [List.length_drop, hn]
        have hlast : (vs.transitions.drop S).getLast? = vs.transitions.getLast? := by
          rw [List.getLast?_drop, if_neg (by omega)]
        obtain ⟨added, h1, h2⟩ := ih
          (out ++ [{ vs with transitions := vs.transitions.take S,
                             partialOutput := VirtualState.collectSteadyState
                               (vs.transitions.drop S) vs.partialOutput,
                             isPartial := true }])
          { VirtualState.create vs.index with
            transitions := vs.transitions.drop S
            conditionalOutputs := vs.conditionalOutputs }
          (by simp only [hlen]; omega)
        refine ⟨{ vs with transitions := vs.transitions.take S,
                          partialOutput := VirtualState.collectSteadyState
                            (vs.transitions.drop S) vs.partialOutput,
                          isPartial := true } :: added, ?_, ?_⟩
        · rw [h1, List.append_assoc]; rfl
        · rw [List.length_cons, h2]
          simp only [hlen, hlast, VirtualState.create]
          rw [if_neg hle]
          have e1 : n - 1 = (n - S - 1) + S := by omega
          have e2 : n + S - 1 = (n - S + S - 1) + S := by omega
          by_cases hle2 : n - S ≤ S
          · rw [if_pos hle2]
            have hnot : ¬ ((vs.transitions.getLast?.map fun x => x.isFallthrough vs.index)
                = some true ∧ (n - 1) % S = 0) := by
              rintro ⟨hft, hmod⟩
              rw [e1, Nat.add_mod_right, Nat.mod_eq_of_lt (by omega)] at hmod
              exact hbr ⟨by omega, hft⟩
            rw [if_neg hnot, e2, Nat.add_div_right _ (by omega)]
            have : n - S + S - 1 = (n - S - 1) + S := by omega
            rw [this, Nat.add_div_right _ (by omega), Nat.div_eq_of_lt (by omega)]
          · rw [if_neg hle2]
            rw [e1, Nat.add_mod_right, Nat.add_div_right _ (by omega), e2,
              Nat.add_div_right _ (by omega)]
            split <;> rfl

/-- C12 (amended): for `S >= 1` static components and a virtual state with
`n > S` transitions, `splitState` returns, and appends `n / S` rounded up
physical state words, except when the last transition is a fallthrough (an
unconditional jump to the index of the state itself) and `n - 1` is a
multiple of `S`: the fallthrough then stays in the last word as its
transition `S + 1`, and `(n - 1) / S` words are appended, one less. -/
theorem splitState_word_count (dt : DecisionTree) (out : List VirtualState)
    (vs : VirtualState) (stateMap : StateMap) (hS : 1 ≤ dt.nStaticComponents)
    (hn : dt.nStaticComponents < vs.transitions.length) :
    ∃ added, dt.splitState out vs stateMap
        = some (out ++ added, stateMap.assign vs.index out.length) ∧
      added.length =
        if (vs.transitions.getLast?.map fun x => x.isFallthrough vs.index) = some true
            ∧ (vs.transitions.length - 1) % dt.nStaticComponents = 0 then
          (vs.transitions.length + dt.nStaticComponents - 1) / dt.nStaticComponents - 1
        else (vs.transitions.length + dt.nStaticComponents - 1) / dt.nStaticComponents := by
  obtain ⟨added, h1, h2⟩ := splitStateLoop_count dt hS (vs.transitions.length + 1) out vs
    (by omega)
  refine ⟨added, ?_, ?_⟩
  · unfold DecisionTree.splitState
    simp only [h1, Option.map_some']
  · rw [h2, if_neg (by omega)]
    by_cases hc : (vs.transitions.getLast?.map fun x => x.isFallthrough vs.index) = some true
        ∧ (vs.transitions.length - 1) % dt.nStaticComponents = 0
    · rw [if_pos hc, if_pos hc]
      have e : vs.transitions.length + dt.nStaticComponents - 1
          = (vs.transitions.length - 1) + dt.nStaticComponents := by omega
      rw [e, Nat.add_div_right _ (show 0 < dt.nStaticComponents by omega), Nat.add_sub_cancel]
    · rw [if_neg hc, if_neg hc]

end Prism

namespace Prism

/-- The rounds of `collectSteadyState` after the first one intersect `out`
with every output. -/
theorem collectSteadyState_tail : ∀ (xs : List StateTransition) (cur : DynamicBitmask)
    (idx : Nat), idx ≠ 0 → cur.Valid →
    ((xs.foldl
      (fun (s : DynamicBitmask × Nat) x =>
        if s.2 = 0 then (s.1.copy x.output, s.2 + 1)
        else (s.1.intersectWith x.output, s.2 + 1)) (cur, idx)).1).Valid ∧
    ∀ i, ((xs.foldl
      (fun (s : DynamicBitmask × Nat) x =>
        if s.2 = 0 then (s.1.copy x.output, s.2 + 1)
        else (s.1.intersectWith x.output, s.2 + 1)) (cur, idx)).1).get i
      = (cur.get i && xs.all (fun x => x.output.get i)) := by
  intro xs
  induction xs with
  | nil => intro cur idx _ hv; exact ⟨hv, fun i => by simp⟩
  | cons x xs ih =>
    intro cur idx hidx hv
    rw [List.foldl_cons]
    simp only [if_neg hidx]
    obtain ⟨h1, _, h3⟩ := DynamicBitmask.intersectWith_spec x.output hv
    obtain ⟨h4, h5⟩ := ih (cur.intersectWith x.output) (idx + 1) (by omega) h1
    refine ⟨h4, ?_⟩
    intro i
    rw [h5 i, h3 i, List.all_cons, Bool.and_assoc]

/-- `collectSteadyState` on a list that is not empty, into an empty `out`:
bit `i` is set exactly when every output of the list has bit `i` set. -/
theorem collectSteadyState_spec (xs : List StateTransition) (hne : xs ≠ [])
    (hval : ∀ x ∈ xs, x.output.Valid) :
    (VirtualState.collectSteadyState xs DynamicBitmask.empty).Valid ∧
    ∀ i, (VirtualState.collectSteadyState xs DynamicBitmask.empty).get i
      = xs.all (fun x => x.output.get i) := by
  cases xs with
  | nil => exact absurd rfl hne
  | cons x xs =>
    unfold VirtualState.collectSteadyState
    rw [List.foldl_cons]
    simp only [if_pos, Nat.zero_add]
    have hv : (DynamicBitmask.empty.copy x.output).Valid :=
      DynamicBitmask.valid_copy _ DynamicBitmask.valid_empty
    obtain ⟨h1, h2⟩ := collectSteadyState_tail xs _ 1 (by omega) hv
    refine ⟨h1, ?_⟩
    intro i
    rw [h2 i, List.all_cons, DynamicBitmask.get_copy DynamicBitmask.valid_empty]
    congr 1
    split
    · rfl
    · next h =>
      rw [DynamicBitmask.get_empty]
      exact (AbstractBufferBitmask.get_false_of_le _ (Nat.le_of_not_lt h)).symm

/-- A fallthrough to `index` does not jump to `index + 1`. -/
theorem not_next_of_isFallthrough (x : StateTransition) (index : Nat)
    (h : x.isFallthrough index = true) : ¬ (index + 1) % 2 ^ 32 = x.state := by
  unfold StateTransition.isFallthrough at h
  by_cases hs : x.state ≠ index
  · rw [if_pos hs] at h; exact Bool.noConfusion h
  · have : x.state = index := not_not.mp hs
    rw [this]
    intro hcon
    have h1 : (index + 1) % 2 ^ 32 < 2 ^ 32 := Nat.mod_lt _ (by decide)
    by_cases h2 : index + 1 < 2 ^ 32
    · rw [Nat.mod_eq_of_lt h2] at hcon; omega
    · have h3 : index + 1 = 2 ^ 32 := by omega
      rw [h3, Nat.mod_self] at hcon
      omega

/-- The words that `splitState` marks partial, when it starts from a state
as its constructor leaves it: word `k` of the appended list holds the
transitions `k * S` to `(k + 1) * S - 1`, there are transitions after them,
and its `partialOutput` is the intersection of the outputs of all the
transitions after them. -/
theorem splitStateLoop_partial (dt : DecisionTree) (hS : 1 ≤ dt.nStaticComponents) :
    ∀ (fuel : Nat) (out : List VirtualState) (vs : VirtualState),
      vs.transitions.length < fuel → vs.isPartial = false →
      vs.partialOutput = DynamicBitmask.empty → (∀ x ∈ vs.transitions, x.output.Valid) →
      ∃ added, dt.splitStateLoop fuel out vs = some (out ++ added) ∧
        ∀ k (hk : k < added.length), (added.get ⟨k, hk⟩).isPartial = true →
          (k + 1) * dt.nStaticComponents < vs.transitions.length ∧
          (added.get ⟨k, hk⟩).transitions
            = (vs.transitions.drop (k * dt.nStaticComponents)).take dt.nStaticComponents ∧
          ∀ i, (added.get ⟨k, hk⟩).partialOutput.get i
            = (vs.transitions.drop ((k + 1) * dt.nStaticComponents)).all
                (fun x => x.output.get i) := by
  intro fuel
  induction fuel with
  | zero => intro out vs h; omega
  | succ f ih =>
    intro out vs hf hfresh hpo hval
    rw [DecisionTree.splitStateLoop]
    generalize hS' : dt.nStaticComponents = S at hS ih ⊢
    by_cases hle : vs.transitions.length ≤ S
    · rw [if_neg (by omega)]
      refine ⟨[vs], rfl, ?_⟩
      intro k hk hp
      have hk0 : k = 0 := by simpa using hk
      subst hk0
      simp only [List.get_eq_getElem, List.getElem_cons_zero] at hp
      rw [hfresh] at hp
      exact Bool.noConfusion hp
    · rw [if_pos (by omega)]
      simp only
      by_cases hbr : vs.transitions.length = S + 1 ∧
          (vs.transitions.getLast?.map fun x => x.isFallthrough vs.index) = some true
      · rw [if_pos hbr]
        have hno : ¬ ((vs.transitions.getLast?.map fun x =>
            decide ((vs.index + 1) % 2 ^ 32 = x.state)) = some true) := by
          intro hcon
          cases hl : vs.transitions.getLast? with
          | none => rw [hl] at hcon; exact Option.noConfusion hcon
          | some x =>
            rw [hl] at hcon
            have h2 := hbr.2
            rw [hl] at h2
            simp only [Option.map_some', Option.some.injEq, decide_eq_true_eq] at hcon h2
            exact not_next_of_isFallthrough x vs.index h2 hcon
        rw [if_neg hno]
        refine ⟨[vs], rfl, ?_⟩
        intro k hk hp
        have hk0 : k = 0 := by simpa using hk
        subst hk0
        simp only [List.get_eq_getElem, List.getElem_cons_zero] at hp
        rw [hfresh] at hp
        exact Bool.noConfusion hp
      · rw [if_neg hbr]
        have hlen : (vs.transitions.drop S).length = vs.transitions.length - S :=
          List.length_drop _ _
        obtain ⟨added, h1, h2⟩ := ih
          (out ++ [{ vs with transitions := vs.transitions.take S,
                             partialOutput := VirtualState.collectSteadyState
                               (vs.transitions.drop S) vs.partialOutput,
                             isPartial := true }])
          { VirtualState.create vs.index with
            transitions := vs.transitions.drop S
            conditionalOutputs := vs.conditionalOutputs }
          (by simp only [hlen]; omega) rfl rfl
          (fun x hx => hval x (List.mem_of_mem_drop hx))
        refine ⟨{ vs with transitions := vs.transitions.take S,
                          partialOutput := VirtualState.collectSteadyState
                            (vs.transitions.drop S) vs.partialOutput,
                          isPartial := true } :: added, ?_, ?_⟩
        · rw [h1, List.append_assoc]; rfl
        · intro k hk hp
          cases k with
          | zero =>
            simp only [List.get_eq_getElem, List.getElem_cons_zero, Nat.zero_add, Nat.one_mul,
              Nat.zero_mul, List.drop_zero]
            refine ⟨by omega, trivial, ?_⟩
            intro i
            rw [hpo]
            refine (collectSteadyState_spec _ ?_ ?_).2 i
            · intro hnil
              rw [List.drop_eq_nil_iff] at hnil
              omega
            · exact fun x hx => hval x (List.mem_of_mem_drop hx)
          | succ j =>
            have hj : j < added.length := by simpa using hk
            have hp2 : (added.get ⟨j, hj⟩).isPartial = true := by
              simpa using hp
            obtain ⟨g1, g2, g3⟩ := h2 j hj hp2
            simp only [hlen, List.drop_drop] at g1 g2 g3
            have e1 : S + j * S = (j + 1) * S := by rw [Nat.add_mul, Nat.one_mul, Nat.add_comm]
            have e2 : S + (j + 1) * S = (j + 1 + 1) * S := by
              rw [Nat.add_mul (j + 1) 1 S, Nat.one_mul, Nat.add_comm]
            rw [e1] at g2
            rw [e2] at g3
            simp only [List.get_eq_getElem, List.getElem_cons_succ]
            simp only [List.get_eq_getElem] at g2 g3
            refine ⟨?_, g2, g3⟩
            rw [← e2]
            omega

/-- C12 as stated fails on the state with two guarded transitions and a
final fallthrough, on two static components: three transitions give one
word, where `3 / 2` rounded up is 2. -/
theorem splitState_fallthrough_counterexample :
    Example.tree.nStaticComponents = 2 ∧ Example.shortState.transitions.length = 3 ∧
    (Example.tree.splitState [] Example.shortState []).map (fun r => r.1.length) = some 1 ∧
    (3 + 2 - 1) / 2 = 2 := by
  refine ⟨by decide, by decide, by decide, by decide⟩

/-- C12 (amended) on the state of the example, whose four transitions give
two words. -/
theorem splitState_word_count_witness :
    ∃ added, Example.tree.splitState [] Example.state []
        = some ([] ++ added, StateMap.assign [] Example.state.index ([] : List VirtualState).length) ∧
      added.length =
        if (Example.state.transitions.getLast?.map fun x =>
              x.isFallthrough Example.state.index) = some true
            ∧ (Example.state.transitions.length - 1) % Example.tree.nStaticComponents = 0 then
          (Example.state.transitions.length + Example.tree.nStaticComponents - 1)
            / Example.tree.nStaticComponents - 1
        else (Example.state.transitions.length + Example.tree.nStaticComponents - 1)
          / Example.tree.nStaticComponents :=
  splitState_word_count Example.tree [] Example.state [] (by decide) (by decide)

/-- C13 (amended): when `splitState` starts from a state as its constructor
leaves it (not partial, `partialOutput` empty), on at least one static
component, every word it marks partial has transitions after its own in
the list of the state, and its `partialOutput` is the bitwise intersection
of the outputs of all those later transitions, the ones moved to the
continuation: bit `i` is set exactly when every one of them has bit `i`
set. The word itself keeps the `S` transitions before them. -/
theorem splitState_partialOutput_of_remainder (dt : DecisionTree) (out : List VirtualState)
    (vs : VirtualState) (stateMap : StateMap) (hS : 1 ≤ dt.nStaticComponents)
    (hfresh : vs.isPartial = false) (hpo : vs.partialOutput = DynamicBitmask.empty)
    (hval : ∀ x ∈ vs.transitions, x.output.Valid) :
    ∃ added, dt.splitState out vs stateMap
        = some (out ++ added, stateMap.assign vs.index out.length) ∧
      ∀ k (hk : k < added.length), (added.get ⟨k, hk⟩).isPartial = true →
        (k + 1) * dt.nStaticComponents < vs.transitions.length ∧
        (added.get ⟨k, hk⟩).transitions
          = (vs.transitions.drop (k * dt.nStaticComponents)).take dt.nStaticComponents ∧
        ∀ i, (added.get ⟨k, hk⟩).partialOutput.get i
          = (vs.transitions.drop ((k + 1) * dt.nStaticComponents)).all
              (fun x => x.output.get i) := by
  obtain ⟨added, h1, h2⟩ := splitStateLoop_partial dt hS (vs.transitions.length + 1) out vs
    (by omega) hfresh hpo hval
  refine ⟨added, ?_, h2⟩
  unfold DecisionTree.splitState
  simp only [h1, Option.map_some']

/-- The outputs of the transitions of the example are valid buffers. -/
theorem Example.state_outputs_valid : ∀ x ∈ Example.state.transitions, x.output.Valid := by
  intro x hx
  simp only [Example.state, List.mem_cons, List.mem_singleton, List.not_mem_nil, or_false] at hx
  rcases hx with rfl | rfl | rfl | rfl <;> exact DynamicBitmask.valid_ofBitmask _

/-- C13 (amended) on the state of the example. -/
theorem splitState_partialOutput_of_remainder_witness :
    ∃ added, Example.tree.splitState [] Example.state []
        = some ([] ++ added, StateMap.assign [] Example.state.index ([] : List VirtualState).length) ∧
      ∀ k (hk : k < added.length), (added.get ⟨k, hk⟩).isPartial = true →
        (k + 1) * Example.tree.nStaticComponents < Example.state.transitions.length ∧
        (added.get ⟨k, hk⟩).transitions
          = (Example.state.transitions.drop (k * Example.tree.nStaticComponents)).take
              Example.tree.nStaticComponents ∧
        ∀ i, (added.get ⟨k, hk⟩).partialOutput.get i
          = (Example.state.transitions.drop ((k + 1) * Example.tree.nStaticComponents)).all
              (fun x => x.output.get i) :=
  splitState_partialOutput_of_remainder Example.tree [] Example.state [] (by decide) rfl rfl
    Example.state_outputs_valid

/-- C13 as stated fails on the state of the example: the first word is
marked partial and keeps the transitions with the outputs {0} and {0, 1},
which both have bit 0 set and do not both have bit 1 set, while its
`partialOutput` has bit 0 clear and bit 1 set (the intersection of {1, 2}
and {1}, the outputs of the transitions moved to the continuation). -/
theorem splitState_partialOutput_counterexample :
    (Example.tree.splitState [] Example.state []).map (fun r => r.1.map fun w =>
        (w.isPartial, w.transitions.map (fun x => (x.output.get 0, x.output.get 1)),
          w.partialOutput.get 0, w.partialOutput.get 1))
      = some [(true, [(true, false), (true, true)], false, true),
              (false, [(false, true), (false, true)], false, false)] := by
  decide

end Prism

namespace Prism

namespace BufferBitmask

/-- `set` on a buffer succeeds exactly inside the buffer. -/
theorem set_eq_some_iff (v : BufferBitmask) (bit : Nat) :
    (∃ w, v.set bit = some w) ↔ bit < v.nbits := by
  unfold set resize
  by_cases h : bit + 1 ≤ v.nbits
  · simp [h]; omega
  · simp [h]; omega

/-- `clear` on a buffer succeeds exactly inside the buffer. -/
theorem clear_eq_some_iff (v : BufferBitmask) (bit : Nat) :
    (∃ w, v.clear bit = some w) ↔ bit < v.nbits := by
  unfold clear resize
  by_cases h : bit + 1 ≤ v.nbits
  · simp [h]; omega
  · simp [h]; omega

/-- A successful `set` on a valid buffer. -/
theorem set_spec {v w : BufferBitmask} (hv : v.toAbstractBufferBitmask.Valid) {bit : Nat}
    (h : v.set bit = some w) :
    bit < v.nbits ∧ w.toAbstractBufferBitmask.Valid ∧ w.size = v.size ∧
    ∀ i, w.get i = (decide (i = bit) || v.get i) := by
  have hb : bit < v.nbits := (set_eq_some_iff v bit).1 ⟨w, h⟩
  unfold set resize at h
  rw [if_pos (by omega)] at h
  simp only [Option.map_some', Option.some.injEq] at h
  subst h
  have hlen : bit / 64 < v.bits.length :=
    Nat.lt_of_lt_of_le (div_lt_NLONGS hb) hv.len
  refine ⟨hb, hv.orBit hb, rfl, ?_⟩
  intro i
  show (v.toAbstractBufferBitmask.orBit bit).get i = _
  rw [(hv.orBit hb).get_eq_bitAt, AbstractBufferBitmask.bitAt_orBit _ hlen, ← hv.get_eq_bitAt]

/-- A successful `clear` on a valid buffer. -/
theorem clear_spec {v w : BufferBitmask} (hv : v.toAbstractBufferBitmask.Valid) {bit : Nat}
    (h : v.clear bit = some w) :
    bit < v.nbits ∧ w.toAbstractBufferBitmask.Valid ∧ w.size = v.size ∧
    ∀ i, w.get i = (!decide (i = bit) && v.get i) := by
  have hb : bit < v.nbits := (clear_eq_some_iff v bit).1 ⟨w, h⟩
  unfold clear resize at h
  rw [if_pos (by omega)] at h
  simp only [Option.map_some', Option.some.injEq] at h
  subst h
  have hlen : bit / 64 < v.bits.length :=
    Nat.lt_of_lt_of_le (div_lt_NLONGS hb) hv.len
  refine ⟨hb, hv.andNotBit hb, rfl, ?_⟩
  intro i
  show (v.toAbstractBufferBitmask.andNotBit bit).get i = _
  rw [(hv.andNotBit hb).get_eq_bitAt, AbstractBufferBitmask.bitAt_andNotBit _ hlen,
    ← hv.get_eq_bitAt]

end BufferBitmask

namespace BitmaskRef

/-- A bit that reads true is inside the object. -/
theorem ref_get_lt_size : ∀ (m : BitmaskRef) {i : Nat}, m.get i = true → i < m.size := by
  intro m
  cases m with
  | dynamic d => intro i h; exact DynamicBitmask.get_lt_size d h
  | buffer b =>
    intro i h
    by_contra hcon
    have : b.get i = false := AbstractBufferBitmask.get_false_of_le _ (Nat.le_of_not_lt hcon)
    rw [show (BitmaskRef.buffer b).get i = b.get i from rfl, this] at h
    exact Bool.noConfusion h
  | slice s off n =>
    intro i h
    simp only [get] at h
    by_contra hcon
    have hcon2 : i ≥ n := Nat.le_of_not_lt hcon
    rw [if_pos hcon2] at h
    exact Bool.noConfusion h

/-- A successful `set`: the object stays valid, does not shrink, keeps its
size when the bit is inside it, and reads true at the bit. -/
theorem set_ok : ∀ (m : BitmaskRef) (bit : Nat) (m2 : BitmaskRef), m.Valid →
    m.set bit = .ok m2 →
    m2.Valid ∧ m.size ≤ m2.size ∧ (bit < m.size → m2.size = m.size) ∧
    ∀ i, m2.get i = (decide (i = bit) || m.get i) := by
  intro m
  induction m with
  | dynamic d =>
    intro bit m2 hv h
    simp only [set, Except.ok.injEq] at h
    subst h
    refine ⟨DynamicBitmask.valid_set hv bit, ?_, ?_, fun i => DynamicBitmask.get_set hv bit i⟩
    · show d.size ≤ (d.set bit).size
      rw [DynamicBitmask.size_set]; omega
    · intro hb
      show (d.set bit).size = d.size
      rw [DynamicBitmask.size_set]
      have : bit < d.size := hb
      omega
  | buffer b =>
    intro bit m2 hv h
    simp only [set] at h
    cases hb : b.set bit with
    | none => rw [hb] at h; exact Except.noConfusion h
    | some w =>
      rw [hb] at h
      simp only [Except.ok.injEq] at h
      subst h
      obtain ⟨_, h2, h3, h4⟩ := BufferBitmask.set_spec hv hb
      exact ⟨h2, le_of_eq h3.symm, fun _ => h3, h4⟩
  | slice s off n ih =>
    intro bit m2 hv h
    simp only [set] at h
    by_cases hb : bit < n
    · rw [if_pos hb] at h
      cases hs : s.set (bit + off) with
      | error e => rw [hs] at h; exact Except.noConfusion h
      | ok s2 =>
        rw [hs] at h
        simp only [Except.ok.injEq] at h
        subst h
        obtain ⟨h1, h2, _, h4⟩ := ih (bit + off) s2 hv.1 hs
        refine ⟨⟨h1, le_trans hv.2 h2⟩, le_refl _, fun _ => rfl, ?_⟩
        intro i
        simp only [get]
        by_cases hi : i ≥ n
        · rw [if_pos hi, if_pos hi]
          have : i ≠ bit := by omega
          simp [this]
        · rw [if_neg hi, if_neg hi, h4]
          congr 1
          simp
    · rw [if_neg hb] at h; exact Except.noConfusion h

/-- A successful `clear`. -/
theorem clear_ok : ∀ (m : BitmaskRef) (bit : Nat) (m2 : BitmaskRef), m.Valid →
    m.clear bit = .ok m2 →
    m2.Valid ∧ m.size ≤ m2.size ∧ (bit < m.size → m2.size = m.size) ∧
    ∀ i, m2.get i = (!decide (i = bit) && m.get i) := by
  intro m
  induction m with
  | dynamic d =>
    intro bit m2 hv h
    simp only [clear, Except.ok.injEq] at h
    subst h
    refine ⟨DynamicBitmask.valid_clear hv bit, ?_, ?_,
      fun i => DynamicBitmask.get_clear hv bit i⟩
    · show d.size ≤ (d.clear bit).size
      rw [DynamicBitmask.size_clear]; omega
    · intro hb
      show (d.clear bit).size = d.size
      rw [DynamicBitmask.size_clear]
      have : bit < d.size := hb
      omega
  | buffer b =>
    intro bit m2 hv h
    simp only [clear] at h
    cases hb : b.clear bit with
    | none => rw [hb] at h; exact Except.noConfusion h
    | some w =>
      rw [hb] at h
      simp only [Except.ok.injEq] at h
      subst h
      obtain ⟨_, h2, h3, h4⟩ := BufferBitmask.clear_spec hv hb
      exact ⟨h2, le_of_eq h3.symm, fun _ => h3, h4⟩
  | slice s off n ih =>
    intro bit m2 hv h
    simp only [clear] at h
    by_cases hb : bit < n
    · rw [if_pos hb] at h
      cases hs : s.clear (bit + off) with
      | error e => rw [hs] at h; exact Except.noConfusion h
      | ok s2 =>
        rw [hs] at h
        simp only [Except.ok.injEq] at h
        subst h
        obtain ⟨h1, h2, _, h4⟩ := ih (bit + off) s2 hv.1 hs
        refine ⟨⟨h1, le_trans hv.2 h2⟩, le_refl _, fun _ => rfl, ?_⟩
        intro i
        simp only [get]
        by_cases hi : i ≥ n
        · rw [if_pos hi, if_pos hi]
          simp
        · rw [if_neg hi, if_neg hi, h4]
          congr 2
          simp
    · rw [if_neg hb] at h; exact Except.noConfusion h

/-- `set` succeeds inside a valid object. -/
theorem set_total : ∀ (m : BitmaskRef) (bit : Nat), m.Valid → bit < m.size →
    ∃ m2, m.set bit = .ok m2 := by
  intro m
  induction m with
  | dynamic d => intro bit _ _; exact ⟨_, rfl⟩
  | buffer b =>
    intro bit _ hb
    obtain ⟨w, hw⟩ := (BufferBitmask.set_eq_some_iff b bit).2 hb
    exact ⟨.buffer w, by simp only [set, hw]⟩
  | slice s off n ih =>
    intro bit hv hb
    have hb2 : bit < n := hb
    obtain ⟨s2, hs⟩ := ih (bit + off) hv.1 (by have := hv.2; omega)
    exact ⟨.slice s2 off n, by simp only [set, if_pos hb2, hs]⟩

/-- `clear` succeeds inside a valid object. -/
theorem clear_total : ∀ (m : BitmaskRef) (bit : Nat), m.Valid → bit < m.size →
    ∃ m2, m.clear bit = .ok m2 := by
  intro m
  induction m with
  | dynamic d => intro bit _ _; exact ⟨_, rfl⟩
  | buffer b =>
    intro bit _ hb
    obtain ⟨w, hw⟩ := (BufferBitmask.clear_eq_some_iff b bit).2 hb
    exact ⟨.buffer w, by simp only [clear, hw]⟩
  | slice s off n ih =>
    intro bit hv hb
    have hb2 : bit < n := hb
    obtain ⟨s2, hs⟩ := ih (bit + off) hv.1 (by have := hv.2; omega)
    exact ⟨.slice s2 off n, by simp only [clear, if_pos hb2, hs]⟩

/-- A successful `write`. -/
theorem write_ok (m : BitmaskRef) (bit : Nat) (value : Bool) (m2 : BitmaskRef)
    (hv : m.Valid) (h : m.write bit value = .ok m2) :
    m2.Valid ∧ m.size ≤ m2.size ∧ (bit < m.size → m2.size = m.size) ∧
    ∀ i, m2.get i = if i = bit then value else m.get i := by
  unfold write at h
  cases value with
  | true =>
    simp only [if_true] at h
    obtain ⟨h1, h2, h3, h4⟩ := set_ok m bit m2 hv h
    refine ⟨h1, h2, h3, fun i => ?_⟩
    rw [h4]; by_cases hi : i = bit <;> simp [hi]
  | false =>
    simp only [Bool.false_eq_true, if_false] at h
    obtain ⟨h1, h2, h3, h4⟩ := clear_ok m bit m2 hv h
    refine ⟨h1, h2, h3, fun i => ?_⟩
    rw [h4]; by_cases hi : i = bit <;> simp [hi]

/-- `write` succeeds inside a valid object. -/
theorem write_total (m : BitmaskRef) (bit : Nat) (value : Bool) (hv : m.Valid)
    (hb : bit < m.size) : ∃ m2, m.write bit value = .ok m2 := by
  unfold write
  cases value with
  | true => simpa using set_total m bit hv hb
  | false => simpa using clear_total m bit hv hb

/-- A successful `write` through a slice is a write inside the slice, and
leaves a slice of the same place on the written source. -/
theorem slice_write_ok (s : BitmaskRef) (off n bit : Nat) (value : Bool) (m2 : BitmaskRef)
    (h : (BitmaskRef.slice s off n).write bit value = .ok m2) :
    bit < n ∧ ∃ s2, m2 = .slice s2 off n ∧ s.write (bit + off) value = .ok s2 := by
  unfold write at h ⊢
  cases value with
  | true =>
    simp only [if_true, set] at h ⊢
    by_cases hb : bit < n
    · rw [if_pos hb] at h
      cases hs : s.set (bit + off) with
      | error e => rw [hs] at h; exact Except.noConfusion h
      | ok s2 =>
        rw [hs] at h
        simp only [Except.ok.injEq] at h
        exact ⟨hb, s2, h.symm, rfl⟩
    · rw [if_neg hb] at h; exact Except.noConfusion h
  | false =>
    simp only [Bool.false_eq_true, if_false, clear] at h ⊢
    by_cases hb : bit < n
    · rw [if_pos hb] at h
      cases hs : s.clear (bit + off) with
      | error e => rw [hs] at h; exact Except.noConfusion h
      | ok s2 =>
        rw [hs] at h
        simp only [Except.ok.injEq] at h
        exact ⟨hb, s2, h.symm, rfl⟩
    · rw [if_neg hb] at h; exact Except.noConfusion h

end BitmaskRef

/-- The slice that the constructor makes lies within its source. -/
theorem BitmaskSlice.create_le (src : BitmaskRef) (off sz : Nat) :
    (BitmaskSlice.create src off sz).offset + (BitmaskSlice.create src off sz).nbits
      ≤ src.size ∧
    (BitmaskSlice.create src off sz).nbits ≤ sz ∧
    (off + sz ≤ src.size → BitmaskSlice.create src off sz = ⟨off, sz⟩) := by
  unfold BitmaskSlice.create
  simp only
  refine ⟨?_, ?_, ?_⟩
  · split <;> split <;> omega
  · split <;> split <;> omega
  · intro h
    rw [if_neg (by omega), if_neg (by omega)]

end Prism

namespace Prism

/-- What every successful round of a failing loop preserves holds on its
result. -/
theorem forLoopE_inv {σ : Type} (P : σ → Prop) (cond : σ → Nat → Bool)
    (next : σ → Nat → Nat) (body : σ → Nat → Except AssertFailure σ)
    (hstep : ∀ s bit t, P s → cond s bit = true → body s bit = .ok t → P t) :
    ∀ (fuel : Nat) (s : σ) (bit : Nat) (r : σ), P s →
      forLoopE cond next body fuel s bit = .ok r → P r := by
  intro fuel
  induction fuel with
  | zero =>
    intro s bit r hp h
    simp only [forLoopE, Except.ok.injEq] at h
    subst h; exact hp
  | succ f ih =>
    intro s bit r hp h
    rw [forLoopE] at h
    by_cases hc : cond s bit = true
    · rw [if_pos hc] at h
      cases hb : body s bit with
      | error e => rw [hb] at h; exact Except.noConfusion h
      | ok t =>
        rw [hb] at h
        exact ih t _ r (hstep s bit t hp hc hb) h
    · rw [if_neg hc] at h
      simp only [Except.ok.injEq] at h
      subst h; exact hp

/-- What every successful round of a loop over a list preserves holds on its
result. -/
theorem forEachE_inv {σ α : Type} (P : σ → Prop) (body : σ → α → Except AssertFailure σ)
    (l : List α) (hstep : ∀ s x t, x ∈ l → P s → body s x = .ok t → P t) :
    ∀ (s r : σ), P s → forEachE body l s = .ok r → P r := by
  induction l with
  | nil =>
    intro s r hp h
    simp only [forEachE, Except.ok.injEq] at h
    subst h; exact hp
  | cons x xs ih =>
    intro s r hp h
    rw [forEachE] at h
    cases hb : body s x with
    | error e => rw [hb] at h; exact Except.noConfusion h
    | ok t =>
      rw [hb] at h
      exact ih (fun s y t hy => hstep s y t (List.mem_cons_of_mem _ hy)) t r
        (hstep s x t (List.mem_cons_self _ _) hp hb) h

/-- What every successful write preserves holds after `writeInteger`. -/
theorem writeIntegerLoop_inv {σ : Type} (P : σ → Prop)
    (write : σ → Nat → Bool → Except AssertFailure σ)
    (hstep : ∀ s bit v t, P s → write s bit v = .ok t → P t) :
    ∀ (fuel : Nat) (s : σ) (bit value : Nat) (r : σ), P s →
      Bitmask.writeIntegerLoop write fuel s bit value = .ok r → P r := by
  intro fuel
  induction fuel with
  | zero =>
    intro s bit value r hp h
    simp only [Bitmask.writeIntegerLoop, Except.ok.injEq] at h
    subst h; exact hp
  | succ f ih =>
    intro s bit value r hp h
    rw [Bitmask.writeIntegerLoop] at h
    by_cases hc : value ≠ 0
    · rw [if_pos hc] at h
      cases hb : write s bit (value &&& 1 != 0) with
      | error e => rw [hb] at h; exact Except.noConfusion h
      | ok t =>
        rw [hb] at h
        exact ih t _ _ r (hstep s bit _ t hp hb) h
    · rw [if_neg hc] at h
      simp only [Except.ok.injEq] at h
      subst h; exact hp

/-- The lowest bit of a value, as `writeInteger` reads it. -/
theorem and_one_ne_zero (value : Nat) : (value &&& 1 != 0) = value.testBit 0 := by
  rw [Nat.testBit, Nat.shiftRight_zero, Nat.land_comm]

/-- A loop of writes `write(bit, g bit)` over the indices from `lo` to `N`
within a valid object: it succeeds, and leaves `g` at these indices. -/
theorem forLoopE_write (g : Nat → Bool) (N : Nat)
    (body : BitmaskRef → Nat → Except AssertFailure BitmaskRef)
    (hbody : ∀ s bit, bit < N → body s bit = s.write bit (g bit)) :
    ∀ (fuel : Nat) (m : BitmaskRef) (lo : Nat), m.Valid → N ≤ m.size → N - lo ≤ fuel →
      ∃ m2, forLoopE (fun _ b => decide (b < N)) (fun _ b => b + 1) body fuel m lo = .ok m2 ∧
        m2.Valid ∧ m2.size = m.size ∧
        ∀ i, m2.get i = if lo ≤ i ∧ i < N then g i else m.get i := by
  intro fuel
  induction fuel with
  | zero =>
    intro m lo hv _ hf
    refine ⟨m, rfl, hv, rfl, fun i => ?_⟩
    rw [if_neg (by omega)]
  | succ f ih =>
    intro m lo hv hN hf
    rw [forLoopE]
    by_cases hlo : lo < N
    · simp only [hlo, decide_True, if_true]
      rw [hbody m lo hlo]
      obtain ⟨m1, h1⟩ := BitmaskRef.write_total m lo (g lo) hv (by omega)
      obtain ⟨w1, _, w3, w4⟩ := BitmaskRef.write_ok m lo (g lo) m1 hv h1
      rw [h1]
      simp only
      obtain ⟨m2, g1, g2, g3, g4⟩ := ih m1 (lo + 1) w1 (by rw [w3 (by omega)]; exact hN)
        (by omega)
      refine ⟨m2, g1, g2, by rw [g3, w3 (by omega)], fun i => ?_⟩
      rw [g4 i, w4 i]
      by_cases hi : i = lo
      · subst hi
        rw [if_neg (by omega), if_pos rfl, if_pos ⟨le_refl _, hlo⟩]
      · rw [if_neg hi]
        by_cases h2 : lo + 1 ≤ i ∧ i < N
        · rw [if_pos h2, if_pos ⟨by omega, h2.2⟩]
        · rw [if_neg h2, if_neg (by omega)]
    · simp only [hlo, decide_False, Bool.false_eq_true, if_false]
      refine ⟨m, rfl, hv, rfl, fun i => ?_⟩
      rw [if_neg (by omega)]

end Prism

namespace Prism

/-- The loop of `writeInteger` on a mapped mask: the pins `j < n` are
mapped to the bits `f j`, the remaining `value` holds the bits of the
address from `j` on, and the bits of the address agree with a vector `x`
read through `f`. After the loop the mask holds `x` on the image of `f`,
and nothing else. -/
theorem inputMask_loop (grp : BitGroup) (f : Nat → Nat) (n : Nat) (x : Nat → Bool)
    (hmap : ∀ j, j < n → grp.map j = .ok (f j)) :
    ∀ (fuel j : Nat) (mask : DynamicBitmask) (value : Nat), j ≤ n → n - j ≤ fuel →
      value < 2 ^ (n - j) → (∀ i, j + i < n → value.testBit i = x (f (j + i))) →
      mask.Valid → (∀ p, mask.get p = (x p && decide (∃ i, i < j ∧ f i = p))) →
      ∃ mask2, Bitmask.writeIntegerLoop (MappedBitmask.write grp) fuel mask j value
          = .ok mask2 ∧ mask2.Valid ∧
        ∀ p, mask2.get p = (x p && decide (∃ i, i < n ∧ f i = p)) := by
  intro fuel
  induction fuel with
  | zero =>
    intro j mask value hj hf hval _ hv hget
    refine ⟨mask, rfl, hv, fun p => ?_⟩
    have : j = n := by omega
    subst this
    exact hget p
  | succ k ih =>
    intro j mask value hj hf hval hx hv hget
    rw [Bitmask.writeIntegerLoop]
    by_cases hz : value ≠ 0
    · rw [if_pos hz]
      have hjn : j < n := by
        by_contra hcon
        have : n - j = 0 := by omega
        rw [this] at hval
        simp only [pow_zero, Nat.lt_one_iff] at hval
        exact hz hval
      have hb : (value &&& 1 != 0) = x (f j) := by
        rw [and_one_ne_zero, hx 0 (by omega)]; rfl
      rw [hb]
      simp only [MappedBitmask.write, hmap j hjn]
      have hv2 : (if x (f j) = true then mask.set (f j) else mask.clear (f j)).Valid := by
        split
        · exact DynamicBitmask.valid_set hv _
        · exact DynamicBitmask.valid_clear hv _
      have hg2 : ∀ p, (if x (f j) = true then mask.set (f j) else mask.clear (f j)).get p
          = (x p && decide (∃ i, i < j + 1 ∧ f i = p)) := by
        intro p
        have hw := DynamicBitmask.get_write hv (f j) (x (f j)) p
        unfold DynamicBitmask.write at hw
        rw [hw]
        by_cases hp : p = f j
        · subst hp
          rw [if_pos rfl]
          have : (∃ i, i < j + 1 ∧ f i = f j) := ⟨j, by omega, rfl⟩
          simp [this]
        · rw [if_neg hp, hget p]
          congr 1
          apply decide_eq_decide.2
          constructor
          · rintro ⟨i, h1, h2⟩; exact ⟨i, by omega, h2⟩
          · rintro ⟨i, h1, h2⟩
            refine ⟨i, ?_, h2⟩
            rcases Nat.lt_or_ge i j with h | h
            · exact h
            · have : i = j := by omega
              subst this
              exact absurd h2.symm hp
      refine ih (j + 1) _ (value >>> 1) hjn (by omega) ?_ ?_ hv2 hg2
      · rw [Nat.shiftRight_eq_div_pow, pow_one]
        have e : n - j = (n - (j + 1)) + 1 := by omega
        rw [e, pow_succ] at hval
        omega
      · intro i hi
        rw [Nat.testBit_shiftRight, hx (1 + i) (by omega)]
        congr 2
        omega
    · rw [if_neg hz]
      have hz0 : value = 0 := not_not.mp hz
      refine ⟨mask, rfl, hv, fun p => ?_⟩
      rw [hget p]
      cases hxp : x p
      · rfl
      · simp only [Bool.true_and]
        apply decide_eq_decide.2
        constructor
        · rintro ⟨i, h1, h2⟩; exact ⟨i, by omega, h2⟩
        · rintro ⟨i, h1, h2⟩
          refine ⟨i, ?_, h2⟩
          by_contra hcon
          have h3 := hx (i - j) (by omega)
          rw [hz0, Nat.zero_testBit, show j + (i - j) = i by omega, h2, hxp] at h3
          exact Bool.noConfusion h3

/-- The mask of the row `r` of a lookup table with `n <= 64` pins mapped to
the bits `f j`, when the bits of `r` agree with a vector `x` read through
`f`: the mask holds `x` on the image of `f`, and nothing else. -/
theorem LUT.inputMask_of_consistent (grp : BitGroup) (f : Nat → Nat) (n : Nat) (x : Nat → Bool)
    (hmap : ∀ j, j < n → grp.map j = .ok (f j)) (hn : n ≤ 64) (r : Nat)
    (hr : r < 2 ^ n) (hx : ∀ j, j < n → r.testBit j = x (f j)) :
    ∃ mask, LUT.inputMask grp r = .ok mask ∧ mask.Valid ∧
      ∀ p, mask.get p = (x p && decide (∃ i, i < n ∧ f i = p)) := by
  unfold LUT.inputMask Bitmask.writeInteger
  have h64 : r % 2 ^ 64 = r :=
    Nat.mod_eq_of_lt (lt_of_lt_of_le hr (Nat.pow_le_pow_right (by decide) hn))
  rw [h64]
  refine inputMask_loop grp f n x hmap 64 0 DynamicBitmask.empty r (Nat.zero_le _)
    (by omega) (by simpa using hr) (fun i hi => by simpa using hx i (by omega))
    DynamicBitmask.valid_empty (fun p => ?_)
  rw [DynamicBitmask.get_empty]
  simp

/-- The mask of the row `r` of a lookup table whose `n <= 64` pins are
mapped to distinct bits `f j`: bit `f j` is set exactly when bit `j` of `r`
is set, and no other bit is set. -/
theorem LUT.inputMask_of_injective (grp : BitGroup) (f : Nat → Nat) (n : Nat)
    (hmap : ∀ j, j < n → grp.map j = .ok (f j))
    (hinj : ∀ i j, i < n → j < n → f i = f j → i = j) (hn : n ≤ 64) (r : Nat)
    (hr : r < 2 ^ n) :
    ∃ mask, LUT.inputMask grp r = .ok mask ∧ mask.Valid ∧
      ∀ p, mask.get p = decide (∃ j, j < n ∧ f j = p ∧ r.testBit j = true) := by
  obtain ⟨mask, h1, h2, h3⟩ := LUT.inputMask_of_consistent grp f n
    (fun p => decide (∃ j, j < n ∧ f j = p ∧ r.testBit j = true)) hmap hn r hr
    (fun j hj => by
      cases hb : r.testBit j
      · symm
        apply decide_eq_false
        rintro ⟨i, h1, h2, h3⟩
        have := hinj i j h1 hj h2
        subst this
        rw [hb] at h3
        exact Bool.noConfusion h3
      · symm
        exact decide_eq_true ⟨j, hj, rfl, hb⟩)
  refine ⟨mask, h1, h2, fun p => ?_⟩
  rw [h3 p]
  by_cases hp : ∃ j, j < n ∧ f j = p ∧ r.testBit j = true
  · obtain ⟨j, a, b, c⟩ := hp
    have h4 : ∃ i, i < n ∧ f i = p := ⟨j, a, b⟩
    have h5 : ∃ j, j < n ∧ f j = p ∧ r.testBit j = true := ⟨j, a, b, c⟩
    simp [h4, h5]
  · simp [hp]

end Prism

namespace Prism

/-- Two loop bodies that agree on the elements of a list give the same
fold. -/
theorem foldl_congr_mem {σ α : Type} (f g : σ → α → σ) : ∀ (l : List α) (s : σ),
    (∀ t x, x ∈ l → f t x = g t x) → l.foldl f s = l.foldl g s := by
  intro l
  induction l with
  | nil => intro s _; rfl
  | cons x xs ih =>
    intro s h
    rw [List.foldl_cons, List.foldl_cons, h s x (List.mem_cons_self _ _)]
    exact ih _ (fun t y hy => h t y (List.mem_cons_of_mem _ hy))

/-- `IdentifierExpression::collectInputs` adds the bits of the group. -/
theorem IdentifierExpression.identifier_collectInputs_spec (group : MappedBitGroup)
    {nodes : DynamicBitmask} (hv : nodes.Valid) :
    ((Expression.identifier group).collectInputs nodes).Valid ∧
    ∀ p, ((Expression.identifier group).collectInputs nodes).get p
      = (nodes.get p || (Expression.identifier group).readsInput p) := by
  rw [Expression.collectInputs, forLoop_range _ _ _ _ _ (by omega)]
  simp only [Nat.sub_zero]
  have h : (List.range' 0 group.size).foldl
      (fun (nodes : DynamicBitmask) bit => nodes.set (group.map bit)) nodes
      = ((List.range' 0 group.size).map group.map).foldl
          (fun (o : DynamicBitmask) b => o.set b) nodes := by
    rw [List.foldl_map]
  rw [h]
  obtain ⟨h1, h2, -, -⟩ := DynamicBitmask.foldl_set
    ((List.range' 0 group.size).map group.map) hv
  refine ⟨h1, fun p => ?_⟩
  rw [h2 p, Expression.readsInput]
  congr 1
  rw [Bool.eq_iff_iff]
  simp only [decide_eq_true_eq, List.mem_map, List.mem_range'_1, List.any_eq_true,
    List.mem_range, beq_iff_eq, Nat.zero_add, Nat.zero_le, true_and]

mutual
/-- `collectInputs` adds to `nodes` the input bits that the expression
reads. -/
theorem Expression.collectInputs_spec : ∀ (e : Expression) {nodes : DynamicBitmask},
    nodes.Valid → (e.collectInputs nodes).Valid ∧
      ∀ p, (e.collectInputs nodes).get p = (nodes.get p || e.readsInput p)
  | .identifier group, nodes, hv => IdentifierExpression.identifier_collectInputs_spec group hv
  | .logic e, nodes, hv => by
    rw [Expression.collectInputs]
    simp only [Expression.readsInput]
    exact LogicExpression.collectInputsLogic_spec e hv
  | .bitwiseNot child, nodes, hv => by
    rw [Expression.collectInputs]
    simp only [Expression.readsInput]
    exact Expression.collectInputs_spec child hv
  | .bitwiseAnd lhs rhs, nodes, hv => by
    rw [Expression.collectInputs]
    obtain ⟨l1, l2⟩ := Expression.collectInputs_spec lhs hv
    obtain ⟨r1, r2⟩ := Expression.collectInputs_spec rhs l1
    refine ⟨r1, fun p => ?_⟩
    rw [r2, l2, Expression.readsInput, Bool.or_assoc]
  | .bitwiseOr lhs rhs, nodes, hv => by
    rw [Expression.collectInputs]
    obtain ⟨l1, l2⟩ := Expression.collectInputs_spec lhs hv
    obtain ⟨r1, r2⟩ := Expression.collectInputs_spec rhs l1
    refine ⟨r1, fun p => ?_⟩
    rw [r2, l2, Expression.readsInput, Bool.or_assoc]
  | .bitwiseXor lhs rhs, nodes, hv => by
    rw [Expression.collectInputs]
    obtain ⟨l1, l2⟩ := Expression.collectInputs_spec lhs hv
    obtain ⟨r1, r2⟩ := Expression.collectInputs_spec rhs l1
    refine ⟨r1, fun p => ?_⟩
    rw [r2, l2, Expression.readsInput, Bool.or_assoc]
  | .bitwiseXnor lhs rhs, nodes, hv => by
    rw [Expression.collectInputs]
    obtain ⟨l1, l2⟩ := Expression.collectInputs_spec lhs hv
    obtain ⟨r1, r2⟩ := Expression.collectInputs_spec rhs l1
    refine ⟨r1, fun p => ?_⟩
    rw [r2, l2, Expression.readsInput, Bool.or_assoc]
  | .constant frm, nodes, hv => by
    rw [Expression.collectInputs]
    exact ⟨hv, fun p => by simp [Expression.readsInput]⟩

/-- `collectInputs` adds to `nodes` the input bits that the logic expression
reads. -/
theorem LogicExpression.collectInputsLogic_spec : ∀ (e : LogicExpression)
    {nodes : DynamicBitmask}, nodes.Valid → (e.collectInputs nodes).Valid ∧
      ∀ p, (e.collectInputs nodes).get p = (nodes.get p || e.readsInput p)
  | .logicTrue, nodes, hv => by
    rw [LogicExpression.collectInputs]
    exact ⟨hv, fun p => by simp [LogicExpression.readsInput]⟩
  | .logicFalse, nodes, hv => by
    rw [LogicExpression.collectInputs]
    exact ⟨hv, fun p => by simp [LogicExpression.readsInput]⟩
  | .reduceOr child, nodes, hv => by
    rw [LogicExpression.collectInputs]
    simp only [LogicExpression.readsInput]
    exact Expression.collectInputs_spec child hv
  | .reduceAnd child, nodes, hv => by
    rw [LogicExpression.collectInputs]
    simp only [LogicExpression.readsInput]
    exact Expression.collectInputs_spec child hv
  | .reduceXor child, nodes, hv => by
    rw [LogicExpression.collectInputs]
    simp only [LogicExpression.readsInput]
    exact Expression.collectInputs_spec child hv
  | .logicNot child, nodes, hv => by
    rw [LogicExpression.collectInputs]
    simp only [LogicExpression.readsInput]
    exact LogicExpression.collectInputsLogic_spec child hv
  | .equality lhs rhs, nodes, hv => by
    rw [LogicExpression.collectInputs]
    obtain ⟨l1, l2⟩ := Expression.collectInputs_spec lhs hv
    obtain ⟨r1, r2⟩ := Expression.collectInputs_spec rhs l1
    refine ⟨r1, fun p => ?_⟩
    rw [r2, l2, LogicExpression.readsInput, Bool.or_assoc]
  | .logicOr lhs rhs, nodes, hv => by
    rw [LogicExpression.collectInputs]
    obtain ⟨l1, l2⟩ := LogicExpression.collectInputsLogic_spec lhs hv
    obtain ⟨r1, r2⟩ := LogicExpression.collectInputsLogic_spec rhs l1
    refine ⟨r1, fun p => ?_⟩
    rw [r2, l2, LogicExpression.readsInput, Bool.or_assoc]
  | .logicAnd lhs rhs, nodes, hv => by
    rw [LogicExpression.collectInputs]
    obtain ⟨l1, l2⟩ := LogicExpression.collectInputsLogic_spec lhs hv
    obtain ⟨r1, r2⟩ := LogicExpression.collectInputsLogic_spec rhs l1
    refine ⟨r1, fun p => ?_⟩
    rw [r2, l2, LogicExpression.readsInput, Bool.or_assoc]
  | .state st, nodes, hv => by
    rw [LogicExpression.collectInputs]
    exact ⟨hv, fun p => by simp [LogicExpression.readsInput]⟩
end

/-- An identifier resolves to the same vector on two inputs that agree on
the bits of its group. -/
theorem IdentifierExpression.identifier_resolve_congr (group : MappedBitGroup)
    (inp1 inp2 : AbstractBufferBitmask) (out : DynamicBitmask)
    (h : ∀ p, (Expression.identifier group).readsInput p = true → inp1.get p = inp2.get p) :
    IdentifierExpression.resolve group inp1 out = IdentifierExpression.resolve group inp2 out := by
  unfold IdentifierExpression.resolve
  rw [forLoop_range _ _ _ _ _ (by omega), forLoop_range _ _ _ _ _ (by omega)]
  apply foldl_congr_mem
  intro t b hb
  simp only [List.mem_range'_1, Nat.zero_add, Nat.zero_le, true_and, Nat.sub_zero] at hb
  rw [h (group.map b)]
  rw [Expression.readsInput, List.any_eq_true]
  exact ⟨b, List.mem_range.2 hb, by simp⟩

mutual
/-- An expression resolves to the same vector on two inputs that agree on
the bits it reads. -/
theorem Expression.resolve_congr : ∀ (e : Expression) (inp1 inp2 : AbstractBufferBitmask)
    (out : DynamicBitmask), (∀ p, e.readsInput p = true → inp1.get p = inp2.get p) →
    e.resolve inp1 out = e.resolve inp2 out
  | .identifier group, inp1, inp2, out, h => by
    rw [Expression.resolve, Expression.resolve]
    exact IdentifierExpression.identifier_resolve_congr group inp1 inp2 out h
  | .logic e, inp1, inp2, out, h => by
    rw [Expression.resolve, Expression.resolve,
      LogicExpression.resolveLogic_congr e inp1 inp2 (fun p hp => h p (by
        rw [Expression.readsInput]; exact hp))]
  | .bitwiseNot child, inp1, inp2, out, h => by
    rw [Expression.resolve, Expression.resolve,
      Expression.resolve_congr child inp1 inp2 _ (fun p hp => h p (by
        rw [Expression.readsInput]; exact hp))]
  | .bitwiseAnd lhs rhs, inp1, inp2, out, h => by
    rw [Expression.resolve, Expression.resolve,
      Expression.resolve_congr lhs inp1 inp2 _ (fun p hp => h p (by
        rw [Expression.readsInput, hp]; rfl)),
      Expression.resolve_congr rhs inp1 inp2 _ (fun p hp => h p (by
        rw [Expression.readsInput, hp]; exact Bool.or_true _))]
  | .bitwiseOr lhs rhs, inp1, inp2, out, h => by
    rw [Expression.resolve, Expression.resolve,
      Expression.resolve_congr lhs inp1 inp2 _ (fun p hp => h p (by
        rw [Expression.readsInput, hp]; rfl)),
      Expression.resolve_congr rhs inp1 inp2 _ (fun p hp => h p (by
        rw [Expression.readsInput, hp]; exact Bool.or_true _))]
  | .bitwiseXor lhs rhs, inp1, inp2, out, h => by
    rw [Expression.resolve, Expression.resolve,
      Expression.resolve_congr lhs inp1 inp2 _ (fun p hp => h p (by
        rw [Expression.readsInput, hp]; rfl)),
      Expression.resolve_congr rhs inp1 inp2 _ (fun p hp => h p (by
        rw [Expression.readsInput, hp]; exact Bool.or_true _))]
  | .bitwiseXnor lhs rhs, inp1, inp2, out, h => by
    rw [Expression.resolve, Expression.resolve,
      Expression.resolve_congr lhs inp1 inp2 _ (fun p hp => h p (by
        rw [Expression.readsInput, hp]; rfl)),
      Expression.resolve_congr rhs inp1 inp2 _ (fun p hp => h p (by
        rw [Expression.readsInput, hp]; exact Bool.or_true _))]
  | .constant frm, inp1, inp2, out, h => by
    rw [Expression.resolve, Expression.resolve]

/-- A logic expression evaluates to the same value on two inputs that agree
on the bits it reads. -/
theorem LogicExpression.resolveLogic_congr : ∀ (e : LogicExpression)
    (inp1 inp2 : AbstractBufferBitmask),
    (∀ p, e.readsInput p = true → inp1.get p = inp2.get p) →
    e.resolveLogic inp1 = e.resolveLogic inp2
  | .logicTrue, inp1, inp2, h => by rw [LogicExpression.resolveLogic, LogicExpression.resolveLogic]
  | .logicFalse, inp1, inp2, h => by rw [LogicExpression.resolveLogic, LogicExpression.resolveLogic]
  | .reduceOr child, inp1, inp2, h => by
    rw [LogicExpression.resolveLogic, LogicExpression.resolveLogic,
      Expression.resolve_congr child inp1 inp2 _ (fun p hp => h p (by
        rw [LogicExpression.readsInput]; exact hp))]
  | .reduceAnd child, inp1, inp2, h => by
    rw [LogicExpression.resolveLogic, LogicExpression.resolveLogic,
      Expression.resolve_congr child inp1 inp2 _ (fun p hp => h p (by
        rw [LogicExpression.readsInput]; exact hp))]
  | .reduceXor child, inp1, inp2, h => by
    rw [LogicExpression.resolveLogic, LogicExpression.resolveLogic,
      Expression.resolve_congr child inp1 inp2 _ (fun p hp => h p (by
        rw [LogicExpression.readsInput]; exact hp))]
  | .logicNot child, inp1, inp2, h => by
    rw [LogicExpression.resolveLogic, LogicExpression.resolveLogic,
      LogicExpression.resolveLogic_congr child inp1 inp2 (fun p hp => h p (by
        rw [LogicExpression.readsInput]; exact hp))]
  | .equality lhs rhs, inp1, inp2, h => by
    rw [LogicExpression.resolveLogic, LogicExpression.resolveLogic,
      Expression.resolve_congr lhs inp1 inp2 _ (fun p hp => h p (by
        rw [LogicExpression.readsInput, hp]; rfl)),
      Expression.resolve_congr rhs inp1 inp2 _ (fun p hp => h p (by
        rw [LogicExpression.readsInput, hp]; exact Bool.or_true _))]
  | .logicOr lhs rhs, inp1, inp2, h => by
    rw [LogicExpression.resolveLogic, LogicExpression.resolveLogic,
      LogicExpression.resolveLogic_congr lhs inp1 inp2 (fun p hp => h p (by
        rw [LogicExpression.readsInput, hp]; rfl)),
      LogicExpression.resolveLogic_congr rhs inp1 inp2 (fun p hp => h p (by
        rw [LogicExpression.readsInput, hp]; exact Bool.or_true _))]
  | .logicAnd lhs rhs, inp1, inp2, h => by
    rw [LogicExpression.resolveLogic, LogicExpression.resolveLogic,
      LogicExpression.resolveLogic_congr lhs inp1 inp2 (fun p hp => h p (by
        rw [LogicExpression.readsInput, hp]; rfl)),
      LogicExpression.resolveLogic_congr rhs inp1 inp2 (fun p hp => h p (by
        rw [LogicExpression.readsInput, hp]; exact Bool.or_true _))]
  | .state st, inp1, inp2, h => by rw [LogicExpression.resolveLogic, LogicExpression.resolveLogic]
end

end Prism

namespace Prism

/-- `LUT::write` into a valid object of at least `2 ^ inputSize` bits, when
every row has its mask: it succeeds and leaves at bit `r` the value of the
expression on the mask of row `r`, for every row, and the other bits as
they were. -/
theorem LUT.write_spec (c : LUT) (grp : BitGroup) (e : LogicExpression) (out : BitmaskRef)
    (g : Nat → Bool)
    (hmask : ∀ r, r < 2 ^ c.inputSize → ∃ mask, LUT.inputMask grp r = .ok mask ∧
      e.resolveLogic mask.toAbstractBufferBitmask = g r)
    (hv : out.Valid) (hsz : 2 ^ c.inputSize ≤ out.size) :
    ∃ out2, c.write out grp e = .ok out2 ∧ out2.Valid ∧ out2.size = out.size ∧
      ∀ i, out2.get i = if i < 2 ^ c.inputSize then g i else out.get i := by
  unfold LUT.write
  rw [Nat.one_shiftLeft]
  obtain ⟨m2, h1, h2, h3, h4⟩ := forLoopE_write g (2 ^ c.inputSize)
    (fun (out : BitmaskRef) bit =>
      match LUT.inputMask grp bit with
      | .ok mask => out.write bit (e.resolveLogic mask.toAbstractBufferBitmask)
      | .error e => .error e)
    (fun s bit hb => by
      obtain ⟨mask, hm, hg⟩ := hmask bit hb
      simp only [hm, hg])
    (2 ^ c.inputSize) out 0 hv hsz (Nat.sub_le _ _)
  refine ⟨m2, h1, h2, h3, fun i => ?_⟩
  rw [h4 i]
  simp

/-- C15: for every LUT of `inputSize` n whose pins `j < n` the group `grp`
maps to distinct input bits `f j`, every boolean expression `e` and every
output field of at least `2 ^ n` bits (a size is an `unsigned int`, below
`2 ^ 32`), `LUT::write` succeeds, and afterwards bit `r` of the field, for
every `r < 2 ^ n`, equals `e.resolveLogic` on the input vector in which bit
`f j` is set exactly when bit `j` of `r` is set and all other bits are
clear. -/
theorem LUT_write_truth_table (c : LUT) (grp : BitGroup) (f : Nat → Nat)
    (e : LogicExpression) (out : BitmaskRef)
    (hmap : ∀ j, j < c.inputSize → grp.map j = .ok (f j))
    (hinj : ∀ i, i < c.inputSize → ∀ j, j < c.inputSize → f i = f j → i = j)
    (hv : out.Valid) (hsz : 2 ^ c.inputSize ≤ out.size) (h32 : out.size < 2 ^ 32) :
    ∃ out2, c.write out grp e = .ok out2 ∧ out2.size = out.size ∧
      ∀ r, r < 2 ^ c.inputSize → ∀ inp : AbstractBufferBitmask,
        (∀ p, inp.get p = decide (∃ j, j < c.inputSize ∧ f j = p ∧ r.testBit j = true)) →
        out2.get r = e.resolveLogic inp := by
  have hn : c.inputSize ≤ 64 := by
    by_contra hcon
    have h1 : 2 ^ 32 ≤ 2 ^ c.inputSize := Nat.pow_le_pow_right (by decide) (by omega)
    omega
  have hm : ∀ r, r < 2 ^ c.inputSize → ∃ mask, LUT.inputMask grp r = .ok mask ∧ mask.Valid ∧
      ∀ p, mask.get p = decide (∃ j, j < c.inputSize ∧ f j = p ∧ r.testBit j = true) :=
    fun r hr => LUT.inputMask_of_injective grp f c.inputSize hmap
      (fun i j hi hj h => hinj i hi j hj h) hn r hr
  obtain ⟨out2, h1, _, h3, h4⟩ := LUT.write_spec c grp e out
    (fun r => e.resolveLogic
      (match LUT.inputMask grp r with
        | .ok mask => mask.toAbstractBufferBitmask
        | .error _ => DynamicBitmask.empty.toAbstractBufferBitmask))
    (fun r hr => by
      obtain ⟨mask, hmk, _, _⟩ := hm r hr
      exact ⟨mask, hmk, by simp only [hmk]⟩)
    hv hsz
  refine ⟨out2, h1, h3, ?_⟩
  intro r hr inp hinp
  obtain ⟨mask, hmk, _, hget⟩ := hm r hr
  rw [h4 r, if_pos hr]
  simp only [hmk]
  apply LogicExpression.resolveLogic_congr
  intro p _
  rw [hinp p]
  exact hget p

/-- C15 on a 2-input table whose pins read the input bits 3 and 5, for the
guard `I3 && I5` into a buffer of 4 bits. -/
theorem LUT_write_truth_table_witness :
    ∃ out2, (LUT.mk 2 0).write (.buffer (BufferBitmask.ofSize 4))
        (.slice (.mapped [3, 5, 1, 0]) 0 2)
        (.logicAnd (.reduceOr (.identifier [3])) (.reduceOr (.identifier [5]))) = .ok out2 ∧
      out2.size = (BitmaskRef.buffer (BufferBitmask.ofSize 4)).size ∧
      ∀ r, r < 2 ^ (LUT.mk 2 0).inputSize → ∀ inp : AbstractBufferBitmask,
        (∀ p, inp.get p = decide (∃ j, j < (LUT.mk 2 0).inputSize ∧
          [3, 5].getD j 0 = p ∧ r.testBit j = true)) →
        out2.get r = (LogicExpression.logicAnd (.reduceOr (.identifier [3]))
          (.reduceOr (.identifier [5]))).resolveLogic inp :=
  LUT_write_truth_table (LUT.mk 2 0) (.slice (.mapped [3, 5, 1, 0]) 0 2)
    (fun j => [3, 5].getD j 0) _ (.buffer (BufferBitmask.ofSize 4))
    (by decide) (by decide) (BufferBitmask.buffer_valid_ofSize 4) (by decide) (by decide)

end Prism

namespace Prism

/-- The rule of a counting loop whose body can fail: what holds at the
start and passes from one index to the next through a successful round
holds at the end of a loop that succeeds. The condition of the loop may
read the state, as long as it is `b < N` where the invariant holds. -/
theorem forLoopE_range_inv {σ : Type} (P : σ → Nat → Prop) (N : Nat)
    (cond : σ → Nat → Bool) (body : σ → Nat → Except AssertFailure σ)
    (hcond : ∀ s b, P s b → cond s b = decide (b < N))
    (hstep : ∀ s b t, b < N → P s b → body s b = .ok t → P t (b + 1)) :
    ∀ (fuel : Nat) (s : σ) (lo : Nat) (r : σ), N - lo ≤ fuel → lo ≤ N → P s lo →
      forLoopE cond (fun _ b => b + 1) body fuel s lo = .ok r → P r N := by
  intro fuel
  induction fuel with
  | zero =>
    intro s lo r hf hlo hp h
    simp only [forLoopE, Except.ok.injEq] at h
    subst h
    have : lo = N := by omega
    rw [← this]; exact hp
  | succ f ih =>
    intro s lo r hf hlo hp h
    rw [forLoopE, hcond s lo hp] at h
    by_cases hc : lo < N
    · simp only [hc, decide_True, if_true] at h
      cases hb : body s lo with
      | error e => rw [hb] at h; exact Except.noConfusion h
      | ok t =>
        rw [hb] at h
        exact ih t (lo + 1) r (by omega) (by omega) (hstep s lo t hc hp hb) h
    · simp only [hc, decide_False, Bool.false_eq_true, if_false, Except.ok.injEq] at h
      subst h
      have : lo = N := by omega
      rw [← this]; exact hp

/-- A counting loop whose body succeeds wherever an invariant holds
succeeds. -/
theorem forLoopE_range_total {σ : Type} (P : σ → Nat → Prop) (N : Nat)
    (cond : σ → Nat → Bool) (body : σ → Nat → Except AssertFailure σ)
    (hcond : ∀ s b, P s b → cond s b = decide (b < N))
    (hstep : ∀ s b, b < N → P s b → ∃ t, body s b = .ok t ∧ P t (b + 1)) :
    ∀ (fuel : Nat) (s : σ) (lo : Nat), N - lo ≤ fuel → lo ≤ N → P s lo →
      ∃ r, forLoopE cond (fun _ b => b + 1) body fuel s lo = .ok r ∧ P r N := by
  intro fuel
  induction fuel with
  | zero =>
    intro s lo hf hlo hp
    have : lo = N := by omega
    exact ⟨s, rfl, by rw [← this]; exact hp⟩
  | succ f ih =>
    intro s lo hf hlo hp
    rw [forLoopE, hcond s lo hp]
    by_cases hc : lo < N
    · simp only [hc, decide_True, if_true]
      obtain ⟨t, hb, hpt⟩ := hstep s lo hc hp
      rw [hb]
      exact ih t (lo + 1) (by omega) (by omega) hpt
    · simp only [hc, decide_False, Bool.false_eq_true, if_false]
      have : lo = N := by omega
      exact ⟨s, rfl, by rw [← this]; exact hp⟩

namespace BitmaskRef

/-- A slice that `BitmaskSlice` makes on a valid object is a slice of this
object. -/
theorem isSliceOf_on (src : BitmaskRef) (hv : src.Valid) (v : BitmaskSlice) :
    (v.on src).IsSliceOf src v.offset v.nbits :=
  ⟨src, rfl, hv, rfl, fun _ _ => rfl⟩

/-- A slice within its source is a valid object. -/
theorem IsSliceOf.valid {m src : BitmaskRef} {off n : Nat} (h : m.IsSliceOf src off n)
    (hle : off + n ≤ src.size) : m.Valid := by
  obtain ⟨s, rfl, h1, h2, _⟩ := h
  exact ⟨h1, by rw [h2]; exact hle⟩

/-- The source behind a slice of `src`. -/
theorem IsSliceOf.source_spec {m src : BitmaskRef} {off n : Nat} (h : m.IsSliceOf src off n) :
    m.source.Valid ∧ m.source.size = src.size ∧ m.size = n ∧
    (∀ j, (j < off ∨ off + n ≤ j) → m.source.get j = src.get j) ∧
    ∀ i, i < n → m.source.get (i + off) = m.get i := by
  obtain ⟨s, rfl, h1, h2, h3⟩ := h
  refine ⟨h1, h2, rfl, h3, fun i hi => ?_⟩
  simp only [source, get]
  rw [if_neg (by omega)]

/-- A successful write through a slice of `src` is inside the slice and
leaves a slice of `src`. -/
theorem IsSliceOf.through_write_ok {m src : BitmaskRef} {off n : Nat} (h : m.IsSliceOf src off n)
    (hle : off + n ≤ src.size) {bit : Nat} {value : Bool} {m2 : BitmaskRef}
    (hw : m.write bit value = .ok m2) :
    bit < n ∧ m2.IsSliceOf src off n ∧ ∀ i, m2.get i = if i = bit then value else m.get i := by
  have hmv := h.valid hle
  obtain ⟨s, rfl, h1, h2, h3⟩ := h
  obtain ⟨hb, s2, rfl, hs⟩ := slice_write_ok s off n bit value m2 hw
  obtain ⟨w1, _, w3, w4⟩ := BitmaskRef.write_ok s (bit + off) value s2 h1 hs
  refine ⟨hb, ⟨s2, rfl, w1, ?_, ?_⟩, ?_⟩
  · rw [w3 (by omega), h2]
  · intro j hj
    rw [w4 j, if_neg (by omega)]
    exact h3 j hj
  · exact (BitmaskRef.write_ok _ bit value _ hmv hw).2.2.2

/-- A write inside a slice of `src` succeeds. -/
theorem IsSliceOf.through_write_total {m src : BitmaskRef} {off n : Nat} (h : m.IsSliceOf src off n)
    (hle : off + n ≤ src.size) {bit : Nat} (value : Bool) (hb : bit < n) :
    ∃ m2, m.write bit value = .ok m2 := by
  have hmv := h.valid hle
  obtain ⟨s, rfl, _, _, _⟩ := h
  exact BitmaskRef.write_total _ bit value hmv hb

end BitmaskRef

end Prism

namespace Prism

/-- A loop of writes `write(b, g b)` over the indices below `N` through a
slice of `src`, when it succeeds: `N` is within the slice, the result is a
slice of `src`, and it holds `g` below `N` and what the slice held from `N`
on. -/
theorem forLoopE_slice_write (g : Nat → Bool) (N : Nat) (cond : BitmaskRef → Nat → Bool)
    (body : BitmaskRef → Nat → Except AssertFailure BitmaskRef)
    (src : BitmaskRef) (off n : Nat) (hle : off + n ≤ src.size)
    (hcond : ∀ s b, s.IsSliceOf src off n → cond s b = decide (b < N))
    (hbody : ∀ s bit, bit < N → body s bit = s.write bit (g bit))
    (m r : BitmaskRef) (hm : m.IsSliceOf src off n)
    (h : forLoopE cond (fun _ b => b + 1) body N m 0 = .ok r) :
    N ≤ n ∧ r.IsSliceOf src off n ∧ ∀ i, r.get i = if i < N then g i else m.get i := by
  have key := forLoopE_range_inv
    (fun (s : BitmaskRef) b => b ≤ n ∧ s.IsSliceOf src off n ∧
      ∀ i, s.get i = if i < b then g i else m.get i)
    N cond body (fun s b hp => hcond s b hp.2.1)
    (fun s b t hb hp ht => by
      rw [hbody s b hb] at ht
      obtain ⟨w1, w2, w3⟩ := hp.2.1.through_write_ok hle ht
      refine ⟨by omega, w2, fun i => ?_⟩
      rw [w3 i]
      by_cases hi : i = b
      · subst hi
        rw [if_pos rfl, if_pos (by omega)]
      · rw [if_neg hi, hp.2.2 i]
        by_cases h2 : i < b
        · rw [if_pos h2, if_pos (by omega)]
        · rw [if_neg h2, if_neg (by omega)])
    N m 0 r (by omega) (Nat.zero_le _) ⟨Nat.zero_le _, hm, fun i => by simp⟩ h
  exact key

/-- `writeOutput` through a slice of `src`, when it succeeds: the result is
a slice of `src` that holds the output of the transition. -/
theorem StateTransition.writeOutput_ok (x : StateTransition) (src : BitmaskRef)
    (off n : Nat) (hle : off + n ≤ src.size) (m r : BitmaskRef) (hm : m.IsSliceOf src off n)
    (h : x.writeOutput m = .ok r) :
    r.IsSliceOf src off n ∧ ∀ i, i < n → r.get i = x.output.get i := by
  unfold StateTransition.writeOutput at h
  have hsz : m.size = n := hm.source_spec.2.2.1
  rw [hsz] at h
  obtain ⟨_, h2, h3⟩ := forLoopE_slice_write (fun i => x.output.get i) n
    (fun (out : BitmaskRef) i => decide (i < out.size))
    (fun (out : BitmaskRef) i => out.write i (x.output.get i)) src off n hle
    (fun s b hs => by simp only [hs.source_spec.2.2.1])
    (fun s bit _ => rfl) m r hm h
  exact ⟨h2, fun i hi => by rw [h3 i, if_pos hi]⟩

/-- `writeOutput` through a slice of `src` succeeds. -/
theorem StateTransition.writeOutput_total (x : StateTransition) (src : BitmaskRef)
    (off n : Nat) (hle : off + n ≤ src.size) (m : BitmaskRef) (hm : m.IsSliceOf src off n) :
    ∃ r, x.writeOutput m = .ok r := by
  unfold StateTransition.writeOutput
  have hsz : m.size = n := hm.source_spec.2.2.1
  rw [hsz]
  obtain ⟨r, hr, _⟩ := forLoopE_range_total
    (fun (s : BitmaskRef) (_ : Nat) => s.IsSliceOf src off n) n
    (fun (out : BitmaskRef) i => decide (i < out.size))
    (fun (out : BitmaskRef) i => out.write i (x.output.get i))
    (fun s b hs => by simp only [hs.source_spec.2.2.1])
    (fun s b hb hs => by
      obtain ⟨t, ht⟩ := hs.through_write_total hle (x.output.get b) hb
      exact ⟨t, ht, (hs.through_write_ok hle ht).2.1⟩)
    n m 0 (by omega) (Nat.zero_le _) hm
  exact ⟨r, hr⟩

/-- `copy` through a slice of `src`, when it succeeds, leaves a slice of
`src`. -/
theorem BitmaskRef.copy_ok (frm : AbstractBufferBitmask) (src : BitmaskRef)
    (off n : Nat) (hle : off + n ≤ src.size) (m r : BitmaskRef) (hm : m.IsSliceOf src off n)
    (h : m.copy frm = .ok r) : r.IsSliceOf src off n := by
  unfold BitmaskRef.copy at h
  exact (forLoopE_slice_write (fun i => frm.get i) frm.size
    (fun _ bit => decide (bit < frm.size))
    (fun (m : BitmaskRef) bit => m.write bit (frm.get bit)) src off n hle
    (fun s b _ => rfl) (fun s bit _ => rfl) m r hm h).2.1

/-- The loop of `writeInteger` through a slice of `src`, when it succeeds:
the result is a slice of `src`, the bits of the value are inside the slice
and written from `bit` on, up to the last set bit, and the other bits of
the slice are as they were. -/
theorem writeIntegerLoop_slice (src : BitmaskRef) (off n : Nat) (hle : off + n ≤ src.size) :
    ∀ (fuel : Nat) (m : BitmaskRef) (bit value : Nat) (r : BitmaskRef),
      m.IsSliceOf src off n → value < 2 ^ fuel →
      Bitmask.writeIntegerLoop BitmaskRef.write fuel m bit value = .ok r →
      r.IsSliceOf src off n ∧
      (∀ k, value >>> k ≠ 0 → bit + k < n ∧ r.get (bit + k) = value.testBit k) ∧
      ∀ i, (i < bit ∨ value >>> (i - bit) = 0) → r.get i = m.get i := by
  intro fuel
  induction fuel with
  | zero =>
    intro m bit value r hm hval h
    simp only [Bitmask.writeIntegerLoop, Except.ok.injEq] at h
    subst h
    have hz : value = 0 := by simpa using hval
    refine ⟨hm, fun k hk => ?_, fun _ _ => rfl⟩
    rw [hz, Nat.zero_shiftRight] at hk
    exact absurd rfl hk
  | succ f ih =>
    intro m bit value r hm hval h
    rw [Bitmask.writeIntegerLoop] at h
    by_cases hz : value ≠ 0
    · rw [if_pos hz] at h
      cases hw : m.write bit (value &&& 1 != 0) with
      | error e => rw [hw] at h; exact Except.noConfusion h
      | ok t =>
        rw [hw] at h
        obtain ⟨w1, w2, w3⟩ := hm.through_write_ok hle hw
        have hval2 : value >>> 1 < 2 ^ f := by
          rw [Nat.shiftRight_eq_div_pow, pow_one]
          rw [pow_succ] at hval
          omega
        obtain ⟨g1, g2, g3⟩ := ih t (bit + 1) (value >>> 1) r w2 hval2 h
        refine ⟨g1, ?_, ?_⟩
        · intro k hk
          cases k with
          | zero =>
            refine ⟨by omega, ?_⟩
            rw [g3 (bit + 0) (Or.inl (by omega)), w3, if_pos (Nat.add_zero bit), and_one_ne_zero]
          | succ j =>
            have hk2 : (value >>> 1) >>> j ≠ 0 := by
              rw [← Nat.shiftRight_add, Nat.add_comm]; exact hk
            obtain ⟨a1, a2⟩ := g2 j hk2
            rw [Nat.testBit_shiftRight, Nat.add_comm 1 j] at a2
            have e : bit + (j + 1) = bit + 1 + j := by omega
            rw [e]
            exact ⟨a1, a2⟩
        · intro i hi
          rcases hi with hi | hi
          · rw [g3 i (Or.inl (by omega)), w3, if_neg (by omega)]
          · have hib : i ≠ bit := by
              intro hcon
              subst hcon
              rw [Nat.sub_self, Nat.shiftRight_zero] at hi
              exact hz hi
            rcases Nat.lt_or_ge i bit with hlt | hge
            · rw [g3 i (Or.inl (by omega)), w3, if_neg hib]
            · have e : i - bit = 1 + (i - (bit + 1)) := by omega
              rw [e, Nat.shiftRight_add] at hi
              rw [g3 i (Or.inr hi), w3, if_neg hib]
    · rw [if_neg hz] at h
      simp only [Except.ok.injEq] at h
      subst h
      have hz0 : value = 0 := not_not.mp hz
      refine ⟨hm, fun k hk => ?_, fun _ _ => rfl⟩
      rw [hz0, Nat.zero_shiftRight] at hk
      exact absurd rfl hk

/-- `writeInteger` of a value below `2 ^ 64` through a slice of `src`, when
it succeeds: the result is a slice of `src`, every bit of the value up to
its last set bit is inside the slice and written, and the bits of the slice
above are as they were. -/
theorem writeInteger_slice (src : BitmaskRef) (off n : Nat) (hle : off + n ≤ src.size)
    (m r : BitmaskRef) (value : Nat) (hm : m.IsSliceOf src off n) (hval : value < 2 ^ 64)
    (h : Bitmask.writeInteger BitmaskRef.write m value = .ok r) :
    r.IsSliceOf src off n ∧
    (∀ k, value >>> k ≠ 0 → k < n ∧ r.get k = value.testBit k) ∧
    ∀ i, value >>> i = 0 → r.get i = m.get i := by
  unfold Bitmask.writeInteger at h
  rw [Nat.mod_eq_of_lt hval] at h
  obtain ⟨h1, h2, h3⟩ := writeIntegerLoop_slice src off n hle 64 m 0 value r hm hval h
  refine ⟨h1, fun k hk => ?_, fun i hi => h3 i (Or.inr (by simpa using hi))⟩
  have := h2 k hk
  simpa using this

/-- `writeInteger` through a slice of `src`, when it succeeds, leaves a slice
of `src`. -/
theorem writeInteger_slice_frame (src : BitmaskRef) (off n : Nat) (hle : off + n ≤ src.size)
    (m r : BitmaskRef) (value : Nat) (hm : m.IsSliceOf src off n)
    (h : Bitmask.writeInteger BitmaskRef.write m value = .ok r) : r.IsSliceOf src off n := by
  unfold Bitmask.writeInteger at h
  exact writeIntegerLoop_inv (fun s => s.IsSliceOf src off n) BitmaskRef.write
    (fun s bit v t hs ht => (hs.through_write_ok hle ht).2.1) 64 m 0 _ r hm h

end Prism

namespace Prism

/-- The rule of a loop over a list whose body can fail, with the position in
the list: what holds before the first element and passes through every
successful round holds after the last one. -/
theorem forEachE_inv_idx {σ α : Type} (P : σ → Nat → Prop)
    (body : σ → α → Except AssertFailure σ) (l : List α)
    (hstep : ∀ s k x t, l[k]? = some x → P s k → body s x = .ok t → P t (k + 1)) :
    ∀ (suf pre : List α) (s r : σ), l = pre ++ suf → P s pre.length →
      forEachE body suf s = .ok r → P r l.length := by
  intro suf
  induction suf with
  | nil =>
    intro pre s r hl hp h
    simp only [forEachE, Except.ok.injEq] at h
    subst h
    rw [hl, List.append_nil]; exact hp
  | cons x xs ih =>
    intro pre s r hl hp h
    rw [forEachE] at h
    cases hb : body s x with
    | error e => rw [hb] at h; exact Except.noConfusion h
    | ok t =>
      rw [hb] at h
      have hx : l[pre.length]? = some x := by
        rw [hl, List.getElem?_append_right (le_refl _)]
        simp
      refine ih (pre ++ [x]) t r (by rw [hl]; simp) ?_ h
      rw [List.length_append]
      exact hstep s pre.length x t hx hp hb

/-- `writeOutput` through the slice for a field inside `src`, made on an
object of the size of `src`, when it succeeds: the source stays valid and
of its size, is as it was outside the field, and holds the output in the
field. -/
theorem StateTransition.writeOutput_field (x : StateTransition) (src0 src : BitmaskRef)
    (o : STEW.Item) (hv : src.Valid) (hs0 : src0.size = src.size)
    (hfit : o.offset + o.size ≤ src.size) (sl : BitmaskRef)
    (h : x.writeOutput ((BitmaskSlice.create src0 o.offset o.size).on src) = .ok sl) :
    sl.source.Valid ∧ sl.source.size = src.size ∧
    (∀ p, ¬ o.covers p → sl.source.get p = src.get p) ∧
    ∀ i, i < o.size → sl.source.get (o.offset + i) = x.output.get i := by
  rw [(BitmaskSlice.create_le src0 o.offset o.size).2.2 (by rw [hs0]; exact hfit)] at h
  have hm : (BitmaskSlice.on ⟨o.offset, o.size⟩ src).IsSliceOf src o.offset o.size :=
    BitmaskRef.isSliceOf_on src hv ⟨o.offset, o.size⟩
  obtain ⟨h1, h2⟩ := x.writeOutput_ok src o.offset o.size hfit _ sl hm h
  obtain ⟨s1, s2, _, s4, s5⟩ := h1.source_spec
  refine ⟨s1, s2, fun p hp => s4 p ?_, fun i hi => ?_⟩
  · unfold STEW.Item.covers at hp
    omega
  · rw [Nat.add_comm, s5 i hi, h2 i hi]

/-- `writeOutput` through the slice for a field inside a valid `src`
succeeds. -/
theorem StateTransition.writeOutput_field_total (x : StateTransition) (src0 src : BitmaskRef)
    (o : STEW.Item) (hv : src.Valid) (hs0 : src0.size = src.size)
    (hfit : o.offset + o.size ≤ src.size) :
    ∃ sl, x.writeOutput ((BitmaskSlice.create src0 o.offset o.size).on src) = .ok sl := by
  rw [(BitmaskSlice.create_le src0 o.offset o.size).2.2 (by rw [hs0]; exact hfit)]
  exact x.writeOutput_total src o.offset o.size hfit _
    (BitmaskRef.isSliceOf_on src hv ⟨o.offset, o.size⟩)

/-- `writeInteger` through the slice for a field inside `src`, when it
succeeds: the source stays valid and of its size, is as it was outside the
field, and holds the low 64 bits of the value in the field, up to the last
set bit. -/
theorem writeInteger_field (src : BitmaskRef) (j : STEW.Item) (hv : src.Valid)
    (hfit : j.offset + j.size ≤ src.size) (value : Nat) (sl : BitmaskRef)
    (h : Bitmask.writeInteger BitmaskRef.write
      ((BitmaskSlice.create src j.offset j.size).on src) value = .ok sl) :
    sl.source.Valid ∧ sl.source.size = src.size ∧
    (∀ p, ¬ j.covers p → sl.source.get p = src.get p) ∧
    ∀ i, (value % 2 ^ 64) >>> i ≠ 0 →
      i < j.size ∧ sl.source.get (j.offset + i) = (value % 2 ^ 64).testBit i := by
  rw [(BitmaskSlice.create_le src j.offset j.size).2.2 hfit] at h
  have hm : (BitmaskSlice.on ⟨j.offset, j.size⟩ src).IsSliceOf src j.offset j.size :=
    BitmaskRef.isSliceOf_on src hv ⟨j.offset, j.size⟩
  have h2 : Bitmask.writeInteger BitmaskRef.write
      (BitmaskSlice.on ⟨j.offset, j.size⟩ src) (value % 2 ^ 64) = .ok sl := by
    unfold Bitmask.writeInteger at h ⊢
    rw [Nat.mod_mod]; exact h
  obtain ⟨g1, g2, _⟩ := writeInteger_slice src j.offset j.size hfit _ sl (value % 2 ^ 64) hm
    (Nat.mod_lt _ (by decide)) h2
  obtain ⟨s1, s2, _, s4, s5⟩ := g1.source_spec
  refine ⟨s1, s2, fun p hp => s4 p ?_, fun i hi => ?_⟩
  · unfold STEW.Item.covers at hp
    omega
  · obtain ⟨a1, a2⟩ := g2 i hi
    exact ⟨a1, by rw [Nat.add_comm, s5 i a1, a2]⟩

end Prism

namespace Prism

/-- The value at a key after `stateMap[k] = v`. -/
theorem StateMap.find_assign (m : StateMap) (k v key : Nat) :
    (m.assign k v).find key = if key = k then some v else m.find key := by
  unfold StateMap.find StateMap.assign
  rw [List.lookup_cons]
  by_cases h : key = k
  · subst h; simp
  · have : (key == k) = false := by simpa using h
    rw [this, if_neg h]

/-- `stateMap[k]` on a key that the map holds. -/
theorem StateMap.index_of_find {m : StateMap} {k v : Nat} (h : m.find k = some v) :
    m.index k = (v, m) := by
  unfold StateMap.index
  unfold StateMap.find at h
  rw [h]

/-- `writeInteger` through the slice for a field inside `src`, when it
succeeds, leaves the bits of the field above the last set bit of the value
as they were. -/
theorem writeInteger_field_rest (src : BitmaskRef) (j : STEW.Item) (hv : src.Valid)
    (hfit : j.offset + j.size ≤ src.size) (value : Nat) (sl : BitmaskRef)
    (h : Bitmask.writeInteger BitmaskRef.write
      ((BitmaskSlice.create src j.offset j.size).on src) value = .ok sl) :
    ∀ i, i < j.size → (value % 2 ^ 64) >>> i = 0 →
      sl.source.get (j.offset + i) = src.get (j.offset + i) := by
  rw [(BitmaskSlice.create_le src j.offset j.size).2.2 hfit] at h
  have hm : (BitmaskSlice.on ⟨j.offset, j.size⟩ src).IsSliceOf src j.offset j.size :=
    BitmaskRef.isSliceOf_on src hv ⟨j.offset, j.size⟩
  have h2 : Bitmask.writeInteger BitmaskRef.write
      (BitmaskSlice.on ⟨j.offset, j.size⟩ src) (value % 2 ^ 64) = .ok sl := by
    unfold Bitmask.writeInteger at h ⊢
    rw [Nat.mod_mod]; exact h
  obtain ⟨g1, _, g3⟩ := writeInteger_slice src j.offset j.size hfit _ sl (value % 2 ^ 64) hm
    (Nat.mod_lt _ (by decide)) h2
  obtain ⟨_, _, _, _, s5⟩ := g1.source_spec
  intro i hi h0
  rw [Nat.add_comm, s5 i hi, g3 i h0]
  simp only [BitmaskSlice.on, BitmaskRef.get]
  rw [if_neg (by omega)]

/-- The block of the jump in the first loop of `writeState`, when it
succeeds on a JMP field inside the word: the field is there, the word is
changed inside the field only, where it holds the low 64 bits of the target
that `stateMap` maps the state of the transition to, the guard is stored at
`exprs[comp]`, and `stateMap` keeps what it held. -/
theorem DecisionTree.writeJump_ok (stew : STEW) (vs : VirtualState)
    (s t : DecisionTree.Breakdown) (x : StateTransition) (hv : s.out.Valid)
    (hfit : (stew.slice .JMP s.comp).offset + (stew.slice .JMP s.comp).size ≤ s.out.size)
    (h : DecisionTree.writeJump stew vs s x = .ok t) :
    (stew.slice .JMP s.comp).type ≠ .NIL ∧ t.comp = s.comp ∧ t.out.Valid ∧
    t.out.size = s.out.size ∧
    (∀ p, ¬ (stew.slice .JMP s.comp).covers p → t.out.get p = s.out.get p) ∧
    (∃ target, t.stateMap.find x.state = some target ∧
      (∀ i, (target % 2 ^ 64) >>> i ≠ 0 → i < (stew.slice .JMP s.comp).size ∧
        t.out.get ((stew.slice .JMP s.comp).offset + i) = (target % 2 ^ 64).testBit i) ∧
      ∀ i, i < (stew.slice .JMP s.comp).size → (target % 2 ^ 64) >>> i = 0 →
        t.out.get ((stew.slice .JMP s.comp).offset + i) =
          s.out.get ((stew.slice .JMP s.comp).offset + i)) ∧
    t.exprs = s.exprs.set s.comp (some x.expr) ∧
    (∀ key v, s.stateMap.find key = some v → t.stateMap.find key = some v) := by
  unfold DecisionTree.writeJump at h
  simp only at h
  by_cases hnil : (stew.slice .JMP s.comp).type = .NIL
  · rw [if_pos hnil] at h; exact Except.noConfusion h
  · rw [if_neg hnil] at h
    have hmap : ∃ sm target, (if s.stateMap.find x.state = none then
          if x.state = vs.index then
            (.ok (s.stateMap.assign vs.index x.state) : Except AssertFailure StateMap)
          else .error .undefinedJump
        else .ok s.stateMap) = .ok sm ∧ sm.find x.state = some target ∧
        ∀ key v, s.stateMap.find key = some v → sm.find key = some v := by
      by_cases hf : s.stateMap.find x.state = none
      · rw [if_pos hf] at h ⊢
        by_cases hx : x.state = vs.index
        · rw [if_pos hx]
          refine ⟨_, x.state, rfl, ?_, ?_⟩
          · rw [StateMap.find_assign, if_pos hx]
          · intro key v hkv
            rw [StateMap.find_assign]
            by_cases hk : key = vs.index
            · rw [hk, ← hx, hf] at hkv
              exact Option.noConfusion hkv
            · rw [if_neg hk]; exact hkv
        · rw [if_neg hx] at h
          exact Except.noConfusion h
      · rw [if_neg hf]
        obtain ⟨target, ht⟩ := Option.ne_none_iff_exists'.1 hf
        exact ⟨_, target, rfl, ht, fun _ _ hkv => hkv⟩
    obtain ⟨sm, target, e1, e2, e3⟩ := hmap
    rw [e1] at h
    simp only [StateTransition.writeState, StateMap.index_of_find e2] at h
    cases hw : Bitmask.writeInteger BitmaskRef.write
        ((BitmaskSlice.create s.out (stew.slice .JMP s.comp).offset
          (stew.slice .JMP s.comp).size).on s.out) target with
    | error e => rw [hw] at h; exact Except.noConfusion h
    | ok sl =>
      rw [hw] at h
      simp only [Except.ok.injEq] at h
      subst h
      obtain ⟨w1, w2, w3, w4⟩ := writeInteger_field s.out _ hv hfit target sl hw
      exact ⟨hnil, rfl, w1, w2, w3,
        ⟨target, e2, w4, writeInteger_field_rest s.out _ hv hfit target sl hw⟩, rfl, e3⟩

/-- The body of the first loop of `writeState`, when it succeeds on fields
inside the word that do not overlap: the OUT field of the position holds the
output of the transition; at a position other than `nStaticComponents` the
JMP field holds the target and the guard is stored in `exprs`; at the
position `nStaticComponents` neither `stateMap` nor `exprs` changes; the
word is as it was outside these fields. -/
theorem DecisionTree.writeTransition_ok (dt : DecisionTree) (stew : STEW) (vs : VirtualState)
    (s t : DecisionTree.Breakdown) (x : StateTransition) (hv : s.out.Valid)
    (hfito : (stew.slice .OUT s.comp).offset + (stew.slice .OUT s.comp).size ≤ s.out.size)
    (hfitj : s.comp ≠ dt.nStaticComponents →
      (stew.slice .JMP s.comp).offset + (stew.slice .JMP s.comp).size ≤ s.out.size)
    (hdis : s.comp ≠ dt.nStaticComponents →
      (stew.slice .OUT s.comp).disjoint (stew.slice .JMP s.comp))
    (h : dt.writeTransition stew vs s x = .ok t) :
    (stew.slice .OUT s.comp).type ≠ .NIL ∧ t.comp = s.comp + 1 ∧ t.out.Valid ∧
    t.out.size = s.out.size ∧
    (∀ p, ¬ (stew.slice .OUT s.comp).covers p →
      (s.comp ≠ dt.nStaticComponents → ¬ (stew.slice .JMP s.comp).covers p) →
      t.out.get p = s.out.get p) ∧
    (∀ i, i < (stew.slice .OUT s.comp).size →
      t.out.get ((stew.slice .OUT s.comp).offset + i) = x.output.get i) ∧
    (s.comp ≠ dt.nStaticComponents →
      (stew.slice .JMP s.comp).type ≠ .NIL ∧
      (∃ target, t.stateMap.find x.state = some target ∧
        (∀ i, (target % 2 ^ 64) >>> i ≠ 0 → i < (stew.slice .JMP s.comp).size ∧
          t.out.get ((stew.slice .JMP s.comp).offset + i) = (target % 2 ^ 64).testBit i) ∧
        ∀ i, i < (stew.slice .JMP s.comp).size → (target % 2 ^ 64) >>> i = 0 →
          t.out.get ((stew.slice .JMP s.comp).offset + i) =
            s.out.get ((stew.slice .JMP s.comp).offset + i)) ∧
      t.exprs = s.exprs.set s.comp (some x.expr)) ∧
    (s.comp = dt.nStaticComponents → t.exprs = s.exprs ∧ t.stateMap = s.stateMap) ∧
    (∀ key v, s.stateMap.find key = some v → t.stateMap.find key = some v) := by
  unfold DecisionTree.writeTransition at h
  simp only at h
  by_cases hnil : (stew.slice .OUT s.comp).type = .NIL
  · rw [if_pos hnil] at h; exact Except.noConfusion h
  · rw [if_neg hnil] at h
    by_cases hc : s.comp ≠ dt.nStaticComponents
    · rw [if_pos hc] at h
      cases hj : DecisionTree.writeJump stew vs s x with
      | error e => rw [hj] at h; exact Except.noConfusion h
      | ok u =>
        rw [hj] at h
        simp only at h
        obtain ⟨j1, j2, j3, j4, j5, j6, j7, j8⟩ :=
          DecisionTree.writeJump_ok stew vs s u x hv (hfitj hc) hj
        cases hw : x.writeOutput ((BitmaskSlice.create s.out (stew.slice .OUT s.comp).offset
            (stew.slice .OUT s.comp).size).on u.out) with
        | error e => rw [hw] at h; exact Except.noConfusion h
        | ok sl =>
          rw [hw] at h
          simp only [Except.ok.injEq] at h
          subst h
          obtain ⟨w1, w2, w3, w4⟩ := x.writeOutput_field s.out u.out _ j3 j4.symm
            (by rw [j4]; exact hfito) sl hw
          refine ⟨hnil, by simp only [j2], w1, by simp only [w2, j4], ?_, w4, ?_, ?_, j8⟩
          · intro p hp1 hp2
            simp only
            rw [w3 p hp1, j5 p (hp2 hc)]
          · intro _
            refine ⟨j1, ?_, j7⟩
            obtain ⟨target, t1, t2, t3⟩ := j6
            have hd := hdis hc
            unfold STEW.Item.disjoint at hd
            refine ⟨target, t1, fun i hi => ?_, fun i hi h0 => ?_⟩
            · obtain ⟨a1, a2⟩ := t2 i hi
              refine ⟨a1, ?_⟩
              simp only
              rw [w3 _ ?_, a2]
              unfold STEW.Item.covers
              omega
            · simp only
              rw [w3 _ ?_, t3 i hi h0]
              unfold STEW.Item.covers
              omega
          · intro hcon; exact absurd hcon hc
    · rw [if_neg hc] at h
      simp only at h
      cases hw : x.writeOutput ((BitmaskSlice.create s.out (stew.slice .OUT s.comp).offset
          (stew.slice .OUT s.comp).size).on s.out) with
      | error e => rw [hw] at h; exact Except.noConfusion h
      | ok sl =>
        rw [hw] at h
        simp only [Except.ok.injEq] at h
        subst h
        obtain ⟨w1, w2, w3, w4⟩ := x.writeOutput_field s.out s.out _ hv rfl hfito sl hw
        exact ⟨hnil, rfl, w1, w2, fun p hp1 _ => w3 p hp1, w4, fun hcon => absurd hcon hc,
          fun _ => ⟨rfl, rfl⟩, fun _ _ hkv => hkv⟩

end Prism

namespace Prism

/-- An entry of `exprs` other than the one assigned. -/
theorem getD_set_ne {α : Type} (l : List α) (i j : Nat) (a d : α) (h : i ≠ j) :
    (l.set i a).getD j d = l.getD j d := by
  simp only [List.getD_eq_getElem?_getD, List.getElem?_set_ne h]

/-- The entry of `exprs` that is assigned. -/
theorem getD_set_self {α : Type} (l : List α) (i : Nat) (a d : α) (h : i < l.length) :
    (l.set i a).getD i d = a := by
  simp only [List.getD_eq_getElem?_getD, List.getElem?_set_self h, Option.getD_some]

/-- The first loop of `writeState`, when it succeeds on fields that lie in
the word and do not overlap: the counter is the number of transitions, the
word is valid, of its size, and as it was outside the fields written,
`stateMap` keeps what it held, every transition is written at its position,
and `exprs` is null at the positions not reached and at
`nStaticComponents`. -/
theorem DecisionTree.writeTransitions_spec (dt : DecisionTree) (out : BitmaskRef) (stew : STEW)
    (vs : VirtualState) (stateMap : StateMap) (r : DecisionTree.Breakdown)
    (hv : out.Valid) (hf : dt.FieldsApart stew vs.transitions.length out.size)
    (h : dt.writeTransitions out stew vs stateMap = .ok r) :
    r.comp = vs.transitions.length ∧ r.out.Valid ∧ r.out.size = out.size ∧
    r.exprs.length = dt.nStaticComponents + dt.nConditionalComponents ∧
    (∀ key v, stateMap.find key = some v → r.stateMap.find key = some v) ∧
    (∀ p, (∀ k, k < vs.transitions.length → ¬ (stew.slice .OUT k).covers p ∧
        (k ≠ dt.nStaticComponents → ¬ (stew.slice .JMP k).covers p)) →
      r.out.get p = out.get p) ∧
    (∀ k x, vs.transitions[k]? = some x → dt.TransitionWritten stew out r k x) ∧
    ∀ c, (vs.transitions.length ≤ c ∨ c = dt.nStaticComponents) →
      r.exprs.getD c none = none := by
  have key := forEachE_inv_idx
    (fun (s : DecisionTree.Breakdown) (n : Nat) =>
      s.comp = n ∧ s.out.Valid ∧ s.out.size = out.size ∧
      s.exprs.length = dt.nStaticComponents + dt.nConditionalComponents ∧
      (∀ key v, stateMap.find key = some v → s.stateMap.find key = some v) ∧
      (∀ p, (∀ k, k < n → ¬ (stew.slice .OUT k).covers p ∧
          (k ≠ dt.nStaticComponents → ¬ (stew.slice .JMP k).covers p)) →
        s.out.get p = out.get p) ∧
      (∀ k x, k < n → vs.transitions[k]? = some x → dt.TransitionWritten stew out s k x) ∧
      ∀ c, (n ≤ c ∨ c = dt.nStaticComponents) → s.exprs.getD c none = none)
    (dt.writeTransition stew vs) vs.transitions ?_ vs.transitions [] _ r rfl ?_ h
  · obtain ⟨k1, k2, k3, k4, k5, k6, k7, k8⟩ := key
    refine ⟨k1, k2, k3, k4, k5, k6, fun k x hx => k7 k x ?_ hx, k8⟩
    by_contra hcon
    rw [List.getElem?_eq_none (Nat.le_of_not_lt hcon)] at hx
    exact Option.noConfusion hx
  · -- the step
    intro s n x t hx ⟨i1, i2, i3, i4, i5, i6, i7, i8⟩ hb
    subst i1
    have hn : s.comp < vs.transitions.length := by
      by_contra hcon
      rw [List.getElem?_eq_none (Nat.le_of_not_lt hcon)] at hx
      exact Option.noConfusion hx
    obtain ⟨f1, f2, _⟩ := hf s.comp hn
    have f3 : ∀ a, a < vs.transitions.length → ∀ b, b < vs.transitions.length →
        (a ≠ b → (stew.slice .OUT a).disjoint (stew.slice .OUT b)) ∧
        (b ≠ dt.nStaticComponents → (stew.slice .OUT a).disjoint (stew.slice .JMP b)) ∧
        (a ≠ b → a ≠ dt.nStaticComponents → b ≠ dt.nStaticComponents →
          (stew.slice .JMP a).disjoint (stew.slice .JMP b)) := fun a ha b hb =>
      (hf a ha).2.2 b hb
    obtain ⟨w1, w2, w3, w4, w5, w6, w7, w8, w9⟩ :=
      dt.writeTransition_ok stew vs s t x i2 (by rw [i3]; exact f1)
        (fun hc => by rw [i3]; exact f2 hc) (fun hc => (f3 s.comp hn s.comp hn).2.1 hc) hb
    -- the bits of the fields of the earlier positions are kept
    have keep : ∀ k, k < s.comp → ∀ p,
        ((stew.slice .OUT k).covers p ∨
          (k ≠ dt.nStaticComponents ∧ (stew.slice .JMP k).covers p)) →
        t.out.get p = s.out.get p := by
      intro k hk p hp
      have hkn : k < vs.transitions.length := Nat.lt_trans hk hn
      have a1 := f3 k hkn s.comp hn
      have a2 := f3 s.comp hn k hkn
      have hne : k ≠ s.comp := Nat.ne_of_lt hk
      have b1 := a1.1 hne
      have b2 := a1.2.1
      have b3 := a2.2.1
      have b4 := a1.2.2 hne
      unfold STEW.Item.disjoint at b1 b2 b3 b4
      apply w5
      · unfold STEW.Item.covers at hp ⊢
        rcases hp with hp | ⟨hks, hp⟩
        · omega
        · have := b3 hks; omega
      · intro hc
        unfold STEW.Item.covers at hp ⊢
        rcases hp with hp | ⟨hks, hp⟩
        · have := b2 hc; omega
        · have := b4 hks hc; omega
    refine ⟨w2, w3, by rw [w4, i3], ?_, fun key v hkv => w9 key v (i5 key v hkv), ?_, ?_, ?_⟩
    · by_cases hc : s.comp = dt.nStaticComponents
      · rw [(w8 hc).1]; exact i4
      · rw [(w7 hc).2.2, List.length_set]; exact i4
    · intro p hp
      rw [w5 p (hp s.comp (Nat.lt_succ_self _)).1 (hp s.comp (Nat.lt_succ_self _)).2]
      exact i6 p fun k hk => hp k (Nat.lt_succ_of_lt hk)
    · intro k y hk hy
      rcases Nat.lt_succ_iff_lt_or_eq.1 hk with hlt | heq
      · -- an earlier position
        obtain ⟨q1, q2, q3⟩ := i7 k y hlt hy
        refine ⟨q1, fun i hi => ?_, fun hks => ?_⟩
        · rw [keep k hlt _ (Or.inl ?_)]
          · exact q2 i hi
          · unfold STEW.Item.covers; omega
        · obtain ⟨r1, ⟨target, r2, r3, r4⟩, r5⟩ := q3 hks
          refine ⟨r1, ⟨target, w9 _ _ r2, fun i hi => ?_, fun i hi h0 => ?_⟩, fun hkc => ?_⟩
          · obtain ⟨e1, e2⟩ := r3 i hi
            refine ⟨e1, ?_⟩
            rw [keep k hlt _ (Or.inr ⟨hks, ?_⟩)]
            · exact e2
            · unfold STEW.Item.covers; omega
          · rw [keep k hlt _ (Or.inr ⟨hks, ?_⟩)]
            · exact r4 i hi h0
            · unfold STEW.Item.covers; omega
          · by_cases hc : s.comp = dt.nStaticComponents
            · rw [(w8 hc).1]; exact r5 hkc
            · rw [(w7 hc).2.2, getD_set_ne _ _ _ _ _ (Nat.ne_of_gt hlt)]; exact r5 hkc
      · -- the position of this step
        subst heq
        rw [hx] at hy
        simp only [Option.some.injEq] at hy
        subst hy
        refine ⟨w1, w6, fun hks => ?_⟩
        obtain ⟨r1, ⟨target, r2, r3, r4⟩, r5⟩ := w7 hks
        refine ⟨r1, ⟨target, r2, r3, fun i hi h0 => ?_⟩, fun hkc => ?_⟩
        · rw [r4 i hi h0]
          apply i6
          intro k2 hk2
          have hkn : k2 < vs.transitions.length := Nat.lt_trans hk2 hn
          have a2 := f3 k2 hkn s.comp hn
          have a3 := a2.2.1 hks
          have a4 := a2.2.2 (Nat.ne_of_lt hk2)
          unfold STEW.Item.disjoint at a3 a4
          unfold STEW.Item.covers
          refine ⟨by omega, fun hk2s => ?_⟩
          have := a4 hk2s hks
          omega
        · rw [r5, getD_set_self _ _ _ _ (by rw [i4]; exact hkc)]
    · intro c hc
      by_cases hcs : s.comp = dt.nStaticComponents
      · rw [(w8 hcs).1]
        apply i8
        rcases hc with hc | hc
        · exact Or.inl (by omega)
        · exact Or.inr hc
      · rw [(w7 hcs).2.2, getD_set_ne]
        · apply i8
          rcases hc with hc | hc
          · exact Or.inl (by omega)
          · exact Or.inr hc
        · rcases hc with hc | hc
          · omega
          · rw [hc]; exact hcs
  · -- the start
    refine ⟨rfl, hv, rfl, List.length_replicate _ _, fun _ _ hkv => hkv, fun _ _ => rfl,
      fun k x hk => absurd hk (Nat.not_lt_zero k), fun c _ => ?_⟩
    simp only [List.getD_eq_getElem?_getD, List.getElem?_replicate]
    split <;> rfl

end Prism

namespace Prism

/-- C14 (amended): in the first loop of `writeState` (decision_tree.cc,
lines 83 to 112), when it succeeds on a word whose OUT and JMP fields lie in
the word and do not overlap, what is written for a transition depends on its
position `k`, not on its being the last of the list. Every transition has
its output written to the OUT field of its position. Every transition at a
position other than `nStaticComponents`, the last of the list included when
the word holds fewer transitions than static components plus one (a single
transition, for one), has the target that `stateMap` gives for its state
written to the JMP field of its position (the low 64 bits up to the last set
bit, the field being as before above it) and its guard assigned to the
component of its position. The transition at the position
`nStaticComponents` has no guard assigned, and the word is as it was outside
the OUT fields and the JMP fields of the other positions, so no JMP field is
written for it. The rest of `writeState` writes to other fields of the word
only (`DecisionTree.writeStateFull_frame`). -/
theorem writeState_transition_by_position (dt : DecisionTree) (out : BitmaskRef) (stew : STEW)
    (vs : VirtualState) (stateMap : StateMap) (r : DecisionTree.Breakdown)
    (hv : out.Valid) (hf : dt.FieldsApart stew vs.transitions.length out.size)
    (h : dt.writeTransitions out stew vs stateMap = .ok r) :
    (∀ k x, vs.transitions[k]? = some x →
      (∀ i, i < (stew.slice .OUT k).size →
        r.out.get ((stew.slice .OUT k).offset + i) = x.output.get i) ∧
      (k ≠ dt.nStaticComponents →
        (∃ target, r.stateMap.find x.state = some target ∧
          (∀ i, (target % 2 ^ 64) >>> i ≠ 0 → i < (stew.slice .JMP k).size ∧
            r.out.get ((stew.slice .JMP k).offset + i) = (target % 2 ^ 64).testBit i) ∧
          ∀ i, i < (stew.slice .JMP k).size → (target % 2 ^ 64) >>> i = 0 →
            r.out.get ((stew.slice .JMP k).offset + i) =
              out.get ((stew.slice .JMP k).offset + i)) ∧
        (k < dt.nStaticComponents + dt.nConditionalComponents →
          r.exprs.getD k none = some x.expr)) ∧
      (k = dt.nStaticComponents → r.exprs.getD k none = none)) ∧
    ∀ p, (∀ k, k < vs.transitions.length → ¬ (stew.slice .OUT k).covers p ∧
        (k ≠ dt.nStaticComponents → ¬ (stew.slice .JMP k).covers p)) →
      r.out.get p = out.get p := by
  obtain ⟨_, _, _, _, _, s6, s7, s8⟩ :=
    dt.writeTransitions_spec out stew vs stateMap r hv hf h
  refine ⟨fun k x hx => ?_, s6⟩
  obtain ⟨_, t2, t3⟩ := s7 k x hx
  exact ⟨t2, fun hk => ⟨(t3 hk).2.1, (t3 hk).2.2⟩, fun hk => s8 k (Or.inr hk)⟩

/-- C14 (amended) on the example: the state with two guarded transitions
and the implicit else, in a word of 74 bits with two static components. -/
theorem writeState_transition_by_position_witness :
    ∃ r, Example.tree.writeTransitions (.buffer (BufferBitmask.ofSize 74)) Example.stew
        Example.shortState [(2, 2), (1, 1), (0, 0)] = .ok r ∧
      (∀ k x, Example.shortState.transitions[k]? = some x →
        (∀ i, i < (Example.stew.slice .OUT k).size →
          r.out.get ((Example.stew.slice .OUT k).offset + i) = x.output.get i) ∧
        (k ≠ Example.tree.nStaticComponents →
          (∃ target, StateMap.find r.stateMap x.state = some target ∧
            (∀ i, (target % 2 ^ 64) >>> i ≠ 0 → i < (Example.stew.slice .JMP k).size ∧
              r.out.get ((Example.stew.slice .JMP k).offset + i)
                = (target % 2 ^ 64).testBit i) ∧
            ∀ i, i < (Example.stew.slice .JMP k).size → (target % 2 ^ 64) >>> i = 0 →
              r.out.get ((Example.stew.slice .JMP k).offset + i) =
                (BitmaskRef.buffer (BufferBitmask.ofSize 74)).get
                  ((Example.stew.slice .JMP k).offset + i)) ∧
          (k < Example.tree.nStaticComponents + Example.tree.nConditionalComponents →
            r.exprs.getD k none = some x.expr)) ∧
        (k = Example.tree.nStaticComponents → r.exprs.getD k none = none)) ∧
      ∀ p, (∀ k, k < Example.shortState.transitions.length →
          ¬ (Example.stew.slice .OUT k).covers p ∧
          (k ≠ Example.tree.nStaticComponents → ¬ (Example.stew.slice .JMP k).covers p)) →
        r.out.get p = (BitmaskRef.buffer (BufferBitmask.ofSize 74)).get p := by
  cases h : Example.tree.writeTransitions (.buffer (BufferBitmask.ofSize 74)) Example.stew
      Example.shortState [(2, 2), (1, 1), (0, 0)] with
  | error e =>
    have ht : (Example.tree.writeTransitions (.buffer (BufferBitmask.ofSize 74)) Example.stew
        Example.shortState [(2, 2), (1, 1), (0, 0)]).toBool = true := by decide
    rw [h] at ht
    exact Bool.noConfusion ht
  | ok r =>
    exact ⟨r, rfl, writeState_transition_by_position Example.tree _ Example.stew
      Example.shortState _ r (BufferBitmask.buffer_valid_ofSize 74) (by decide) h⟩

/-- C14 as stated fails on a word of a single transition: for the state
whose only transition is the implicit else going to state 1, on two static
components, the loop ends at `comp = 1`, with the guard of this last
transition assigned to the component 0 (`exprs` holds an expression at 0 and
none at 1) and with its target 1 written to the JMP field of the position 0
(the bit 25 of the word), next to its output (the bit 33). -/
theorem writeState_single_transition_counterexample :
    (Example.tree.writeTransitions (.buffer (BufferBitmask.ofSize 74)) Example.stew
        Example.single [(1, 1), (0, 0)]).map (fun s =>
          (s.comp, s.exprs.map Option.isSome, (List.range 74).filter s.out.get))
      = .ok (1, [true, false], [25, 33]) := by
  decide

end Prism

namespace Prism

/-- The copy that the constructor `DynamicBitmask(from)` makes of a valid
mask has the bits of the mask. -/
theorem DynamicBitmask.get_ofBitmask {frm : AbstractBufferBitmask} (hv : frm.Valid) (i : Nat) :
    (DynamicBitmask.ofBitmask frm).get i = frm.get i := by
  rw [DynamicBitmask.ofBitmask_eq,
    (DynamicBitmask.foldl_set _ DynamicBitmask.valid_empty).2.1, DynamicBitmask.get_empty,
    hv.setBits_eq]
  simp only [Bool.false_or, List.mem_filter, List.mem_range]
  cases hg : frm.get i
  · simp
  · have : i < frm.size := by
      by_contra hcon
      rw [AbstractBufferBitmask.get_false_of_le _ (Nat.le_of_not_lt hcon)] at hg
      exact Bool.noConfusion hg
    simp [this]

/-- The effect of a run of `clear` calls. -/
theorem DynamicBitmask.foldl_clear (l : List Nat) : ∀ {out : DynamicBitmask}, out.Valid →
    (l.foldl (fun (o : DynamicBitmask) b => o.clear b) out).Valid ∧
    ∀ i, (l.foldl (fun (o : DynamicBitmask) b => o.clear b) out).get i =
      (out.get i && !decide (i ∈ l)) := by
  induction l with
  | nil => intro out hv; exact ⟨hv, fun i => by simp⟩
  | cons b l ih =>
    intro out hv
    obtain ⟨h1, h2⟩ := ih (DynamicBitmask.valid_clear hv b)
    refine ⟨h1, fun i => ?_⟩
    rw [List.foldl_cons, h2 i, DynamicBitmask.get_clear hv]
    by_cases hib : i = b
    · simp [hib]
    · by_cases hil : i ∈ l <;> simp [hib, hil]

/-- The loop that sets the pins of a component in `req`. -/
theorem LUT.setInputs_spec (c : LUT) {req : DynamicBitmask} (hv : req.Valid) :
    (c.setInputs req).Valid ∧
    ∀ p, (c.setInputs req).get p =
      (req.get p || decide (c.inputOffset ≤ p ∧ p < c.inputOffset + c.inputSize)) := by
  unfold LUT.setInputs
  rw [forLoop_range c.inputSize _ c.inputSize req 0 (by omega)]
  have hm : (List.range' 0 (c.inputSize - 0)).foldl
      (fun (req : DynamicBitmask) bit => req.set (bit + c.inputOffset)) req
      = ((List.range' 0 c.inputSize).map (fun bit => bit + c.inputOffset)).foldl
          (fun (o : DynamicBitmask) b => o.set b) req := by
    rw [List.foldl_map]; rfl
  rw [hm]
  obtain ⟨h1, h2, _⟩ := DynamicBitmask.foldl_set
    ((List.range' 0 c.inputSize).map (fun bit => bit + c.inputOffset)) hv
  refine ⟨h1, fun p => ?_⟩
  rw [h2 p]
  congr 1
  rw [decide_eq_decide]
  simp only [List.mem_map, List.mem_range'_1]
  constructor
  · rintro ⟨a, ha, rfl⟩; omega
  · intro h; exact ⟨p - c.inputOffset, by omega, by omega⟩

/-- The loop that clears the pins of a component in `req`. -/
theorem LUT.clearInputs_spec (c : LUT) {req : DynamicBitmask} (hv : req.Valid) :
    (c.clearInputs req).Valid ∧
    ∀ p, (c.clearInputs req).get p =
      (req.get p && !decide (c.inputOffset ≤ p ∧ p < c.inputOffset + c.inputSize)) := by
  unfold LUT.clearInputs
  rw [forLoop_range c.inputSize _ c.inputSize req 0 (by omega)]
  have hm : (List.range' 0 (c.inputSize - 0)).foldl
      (fun (req : DynamicBitmask) ibit => req.clear (c.inputOffset + ibit)) req
      = ((List.range' 0 c.inputSize).map (fun ibit => c.inputOffset + ibit)).foldl
          (fun (o : DynamicBitmask) b => o.clear b) req := by
    rw [List.foldl_map]; rfl
  rw [hm]
  obtain ⟨h1, h2⟩ := DynamicBitmask.foldl_clear
    ((List.range' 0 c.inputSize).map (fun ibit => c.inputOffset + ibit)) hv
  refine ⟨h1, fun p => ?_⟩
  rw [h2 p]
  congr 2
  rw [decide_eq_decide]
  simp only [List.mem_map, List.mem_range'_1]
  constructor
  · rintro ⟨a, ha, rfl⟩; omega
  · intro h; exact ⟨p - c.inputOffset, by omega, by omega⟩

/-- The mask of a round of the allocation: the bits of `req` that are not in
`used`. -/
theorem DecisionTree.demandMask_spec {req used : DynamicBitmask} (hr : req.Valid)
    (hu : used.Valid) :
    (DecisionTree.demandMask req used).Valid ∧
    ∀ p, (DecisionTree.demandMask req used).get p = (req.get p && !used.get p) := by
  unfold DecisionTree.demandMask
  rw [forLoop_eq_foldl (fun bit => decide (bit < used.size)) used.fns]
  have hs : forLoopVisits (fun bit => decide (bit < used.size)) used.fns used.size used.ffs
      = used.setBits := rfl
  rw [hs]
  obtain ⟨h1, h2⟩ := DynamicBitmask.foldl_clear used.setBits
    (DynamicBitmask.valid_ofBitmask req.toAbstractBufferBitmask)
  refine ⟨h1, fun p => ?_⟩
  rw [h2 p, DynamicBitmask.get_ofBitmask hr.1]
  congr 2
  have hm := DynamicBitmask.mem_setBits hu p
  cases hg : used.get p
  · rw [hg] at hm
    exact decide_eq_false (fun hcon => Bool.noConfusion (hm.1 hcon))
  · exact decide_eq_true (hm.2 hg)

end Prism

namespace Prism

/-- An entry of an array after an assignment is the entry before it, or the
value assigned when it is the entry assigned. -/
theorem getD_set_cases {α : Type} (l : List α) (i k : Nat) (a d : α) :
    (l.set i a).getD k d = l.getD k d ∨ (i = k ∧ (l.set i a).getD k d = a) := by
  by_cases h : i = k
  · subst h
    by_cases hl : i < l.length
    · exact Or.inr ⟨rfl, getD_set_self l i a d hl⟩
    · left
      rw [List.set_eq_of_length_le (Nat.le_of_not_lt hl)]
  · exact Or.inl (getD_set_ne l i k a d h)

/-- The loop over the list `which` of a round of the allocation: it marks
the pins of the list used and wires them to the system input `i`, clears
pins of the request of `i`, and leaves the other requests as they were. -/
theorem DecisionTree.allocateBits_spec (dt : DecisionTree) (compMapping : List Nat) (i : Nat) :
    ∀ (l : List Nat) (s : DecisionTree.Allocation), s.used.Valid →
      (∀ k, (s.inputReq.getD k DynamicBitmask.empty).Valid) →
      (l.foldl (dt.allocateBit compMapping i) s).rounds = s.rounds ∧
      (l.foldl (dt.allocateBit compMapping i) s).used.Valid ∧
      (∀ v, (l.foldl (dt.allocateBit compMapping i) s).used.get v
        = (s.used.get v || decide (v ∈ l))) ∧
      (l.foldl (dt.allocateBit compMapping i) s).wireMapping.length = s.wireMapping.length ∧
      (∀ v, (l.foldl (dt.allocateBit compMapping i) s).wireMapping.getD v 0
        = if v ∈ l ∧ v < s.wireMapping.length then i else s.wireMapping.getD v 0) ∧
      ∀ k, ((l.foldl (dt.allocateBit compMapping i) s).inputReq.getD k
          DynamicBitmask.empty).Valid ∧
        ∀ p, ((l.foldl (dt.allocateBit compMapping i) s).inputReq.getD k
          DynamicBitmask.empty).get p = true →
          (s.inputReq.getD k DynamicBitmask.empty).get p = true := by
  intro l
  induction l with
  | nil =>
    intro s hu hr
    refine ⟨rfl, hu, fun v => by simp, rfl, fun v => by simp, fun k => ⟨hr k, fun p hp => hp⟩⟩
  | cons b l ih =>
    intro s hu hr
    have hreq1 : ∀ k, ((dt.allocateBit compMapping i s b).inputReq.getD k
          DynamicBitmask.empty).Valid ∧
        ∀ p, ((dt.allocateBit compMapping i s b).inputReq.getD k
          DynamicBitmask.empty).get p = true →
          (s.inputReq.getD k DynamicBitmask.empty).get p = true := by
      intro k
      simp only [DecisionTree.allocateBit]
      rcases getD_set_cases s.inputReq i k
        ((dt.components.getD (compMapping.getD b 0) ⟨0, 0⟩).clearInputs
          (s.inputReq.getD i DynamicBitmask.empty)) DynamicBitmask.empty with h | ⟨hik, h⟩
      · rw [h]; exact ⟨hr k, fun p hp => hp⟩
      · rw [h]
        obtain ⟨c1, c2⟩ := (dt.components.getD (compMapping.getD b 0) ⟨0, 0⟩).clearInputs_spec
          (hr i)
        refine ⟨c1, fun p hp => ?_⟩
        rw [c2 p] at hp
        rw [← hik]
        simp only [Bool.and_eq_true] at hp
        exact hp.1
    have hu1 : (dt.allocateBit compMapping i s b).used.Valid :=
      DynamicBitmask.valid_set hu b
    obtain ⟨i1, i2, i3, i4, i5, i6⟩ := ih (dt.allocateBit compMapping i s b) hu1
      (fun k => (hreq1 k).1)
    rw [List.foldl_cons]
    refine ⟨i1, i2, fun v => ?_, ?_, fun v => ?_, fun k => ⟨(i6 k).1, fun p hp => ?_⟩⟩
    · rw [i3 v]
      simp only [DecisionTree.allocateBit]
      rw [DynamicBitmask.get_set hu]
      by_cases hvb : v = b
      · simp [hvb]
      · by_cases hvl : v ∈ l <;> simp [hvb, hvl]
    · rw [i4]
      simp only [DecisionTree.allocateBit, List.length_set]
    · rw [i5 v]
      have hlen : (dt.allocateBit compMapping i s b).wireMapping.length
          = s.wireMapping.length := by
        simp only [DecisionTree.allocateBit, List.length_set]
      rw [hlen]
      by_cases hvl : v ∈ l ∧ v < s.wireMapping.length
      · rw [if_pos hvl, if_pos ⟨List.mem_cons_of_mem _ hvl.1, hvl.2⟩]
      · rw [if_neg hvl]
        simp only [DecisionTree.allocateBit]
        by_cases hvb : v = b
        · subst hvb
          by_cases hlt : v < s.wireMapping.length
          · rw [getD_set_self _ _ _ _ hlt, if_pos ⟨List.mem_cons_self _ _, hlt⟩]
          · rw [List.set_eq_of_length_le (Nat.le_of_not_lt hlt), if_neg (fun h => hlt h.2)]
        · rw [getD_set_ne _ _ _ _ _ (Ne.symm hvb)]
          rw [if_neg]
          rintro ⟨hmem, hlt⟩
          rcases List.mem_cons.1 hmem with h | h
          · exact hvb h
          · exact hvl ⟨h, hlt⟩
    · exact (hreq1 k).2 p ((i6 k).2 p hp)

/-- A pin is one of those of the mux `m` when it is below `nVirtualOutput`
and `fullMap` sends it to `m`. -/
theorem WireMap.mem_outputsOf (wm : WireMap) (m v : Nat) :
    v ∈ wm.outputsOf m ↔ v < wm.nVirtualOutput ∧ wm.fullMap.getD v 0 = m := by
  unfold WireMap.outputsOf
  simp only [List.mem_filter, List.mem_range, decide_eq_true_eq]

/-- A round of the allocation that returns selects a mux that no round
before it selected, and keeps what holds between the rounds. -/
theorem DecisionTree.allocateRound_inv (dt : DecisionTree)
    (hn : dt.wires.nVirtualOutput = dt.nVirtualInputs) (compMapping : List Nat) (i : Nat)
    (s t : DecisionTree.Allocation) (muxes : List Nat) (hs : dt.AllocInv s muxes)
    (h : dt.allocateRound compMapping i s = .ok t) :
    ∃ sel, dt.AllocInv t (muxes ++ [sel]) ∧ t.rounds = s.rounds ++ [(i, dt.wires.outputsOf sel)] := by
  obtain ⟨a1, a2, a3, a4, a5, a6, a7, a8, a9, a10⟩ := hs
  unfold DecisionTree.allocateRound at h
  simp only at h
  obtain ⟨m1, m2⟩ := DecisionTree.demandMask_spec (a2 i).1 a1
  rcases dt.wires.bestFit_cases
      (DecisionTree.demandMask (s.inputReq.getD i DynamicBitmask.empty) s.used).toAbstractBufferBitmask
      m1.1 (s.inputReqCount.getD i 0) [] with ⟨_, hf⟩ | ⟨sel, hsel, hdem, hok, _⟩
  · rw [hf] at h; exact Except.noConfusion h
  · rw [hok] at h
    simp only [List.nil_append, Except.ok.injEq] at h
    have hwhich : (List.range dt.wires.nVirtualOutput).filter
        (fun i => decide (dt.wires.fullMap.getD i 0 = sel)) = dt.wires.outputsOf sel := rfl
    rw [hwhich] at h
    obtain ⟨r, _, hr2, hr3⟩ := (dt.wires.demand_pos_iff _ sel).1 hdem
    have hr4 := m2 r
    rw [show (DecisionTree.demandMask (s.inputReq.getD i DynamicBitmask.empty) s.used).get r
      = true from hr2] at hr4
    have hreq : (s.inputReq.getD i DynamicBitmask.empty).get r = true := by
      cases hg : (s.inputReq.getD i DynamicBitmask.empty).get r
      · rw [hg] at hr4; simp at hr4
      · rfl
    have hnu : s.used.get r = false := by
      cases hg : s.used.get r
      · rfl
      · rw [hg] at hr4; simp at hr4
    have hrlt : r < dt.wires.nVirtualOutput := (a2 i).2 r hreq
    have hfresh : sel ∉ muxes := by
      intro hcon
      have := (a8 r).2 ⟨hrlt, by rw [hr3]; exact hcon⟩
      rw [hnu] at this
      exact Bool.noConfusion this
    have hrmem : r ∈ dt.wires.outputsOf sel := (dt.wires.mem_outputsOf sel r).2 ⟨hrlt, hr3⟩
    obtain ⟨f1, f2, f3, f4, f5, f6⟩ := dt.allocateBits_spec compMapping i
      (dt.wires.outputsOf sel) s a1 (fun k => (a2 k).1)
    refine ⟨sel, ?_, by rw [← h]; simp only; rw [f1]⟩
    subst h
    refine ⟨f2, fun k => ⟨(f6 k).1, fun p hp => (a2 k).2 p ((f6 k).2 p hp)⟩, by
      simp only; rw [f4, a3], ?_, ?_, ?_, ?_, ?_, ?_, ?_⟩
    · exact List.nodup_append.2 ⟨a4, List.nodup_singleton _, by
        intro x hx hx2
        rw [List.mem_singleton] at hx2
        subst hx2
        exact hfresh hx⟩
    · intro m hm
      rcases List.mem_append.1 hm with hm | hm
      · exact a5 m hm
      · rw [List.mem_singleton] at hm; rw [hm]; exact hsel
    · simp only [List.map_append, List.map_cons, List.map_nil]
      rw [f1, a6]
    · intro q hq
      simp only at hq
      rw [f1] at hq
      rcases List.mem_append.1 hq with hq | hq
      · exact a7 q hq
      · rw [List.mem_singleton] at hq
        rw [hq]
        exact List.ne_nil_of_mem hrmem
    · intro v
      simp only
      rw [f3 v, Bool.or_eq_true, a8 v, decide_eq_true_eq, dt.wires.mem_outputsOf,
        List.mem_append, List.mem_singleton]
      constructor
      · rintro (⟨h1, h2⟩ | ⟨h1, h2⟩)
        · exact ⟨h1, Or.inl h2⟩
        · exact ⟨h1, Or.inr h2⟩
      · rintro ⟨h1, h2 | h2⟩
        · exact Or.inl ⟨h1, h2⟩
        · exact Or.inr ⟨h1, h2⟩
    · intro q hq v hv
      simp only at hq ⊢
      rw [f1] at hq
      rw [f5 v]
      rcases List.mem_append.1 hq with hq | hq
      · rw [if_neg]
        · exact a9 q hq v hv
        · rintro ⟨hmem, _⟩
          have hq2 : q.2 ∈ muxes.map dt.wires.outputsOf := by
            rw [← a6]; exact List.mem_map_of_mem _ hq
          obtain ⟨m, hm, hmq⟩ := List.mem_map.1 hq2
          rw [← hmq] at hv
          have e1 := ((dt.wires.mem_outputsOf m v).1 hv).2
          have e2 := ((dt.wires.mem_outputsOf sel v).1 hmem).2
          rw [e1] at e2
          rw [e2] at hm
          exact hfresh hm
      · rw [List.mem_singleton] at hq
        subst hq
        simp only at hv ⊢
        rw [if_pos ⟨hv, by rw [a3, ← hn]; exact ((dt.wires.mem_outputsOf sel v).1 hv).1⟩]
    · intro v hv
      simp only at hv ⊢
      rw [f3 v] at hv
      simp only [Bool.or_eq_false_iff, decide_eq_false_iff_not] at hv
      rw [f5 v, if_neg (fun hcon => hv.2 hcon.1)]
      exact a10 v hv.1

end Prism

namespace Prism

/-- The rounds for one system input keep what holds between the rounds,
with any fuel. -/
theorem DecisionTree.allocateInput_inv (dt : DecisionTree)
    (hn : dt.wires.nVirtualOutput = dt.nVirtualInputs) (compMapping : List Nat) (i : Nat) :
    ∀ (fuel : Nat) (s t : DecisionTree.Allocation),
      (∃ muxes, dt.AllocInv s muxes) → (∀ r ∈ s.rounds, r.1 < dt.nInputs) → i < dt.nInputs →
      dt.allocateInput compMapping i fuel s = .ok t →
      (∃ muxes, dt.AllocInv t muxes) ∧ ∀ r ∈ t.rounds, r.1 < dt.nInputs := by
  intro fuel
  induction fuel with
  | zero =>
    intro s t hs hr hi h
    unfold DecisionTree.allocateInput at h
    by_cases hc : s.inputReqCount.getD i 0 > 0
    · rw [if_pos hc] at h; exact Except.noConfusion h
    · rw [if_neg hc] at h
      simp only [Except.ok.injEq] at h
      subst h
      exact ⟨hs, hr⟩
  | succ fuel ih =>
    intro s t hs hr hi h
    unfold DecisionTree.allocateInput at h
    by_cases hc : s.inputReqCount.getD i 0 > 0
    · rw [if_pos hc] at h
      cases hrd : dt.allocateRound compMapping i s with
      | error e => rw [hrd] at h; exact Except.noConfusion h
      | ok u =>
        rw [hrd] at h
        simp only at h
        obtain ⟨muxes, hm⟩ := hs
        obtain ⟨sel, h1, h2⟩ := dt.allocateRound_inv hn compMapping i s u muxes hm hrd
        refine ih u t ⟨_, h1⟩ ?_ hi h
        intro r hr2
        rw [h2] at hr2
        rcases List.mem_append.1 hr2 with hr2 | hr2
        · exact hr r hr2
        · rw [List.mem_singleton] at hr2
          rw [hr2]; exact hi
    · rw [if_neg hc] at h
      simp only [Except.ok.injEq] at h
      subst h
      exact ⟨hs, hr⟩

/-- The allocation, when it returns, leaves what holds between the rounds,
from requests that are valid masks of pins below `nVirtualOutput`. -/
theorem DecisionTree.allocate_inv (dt : DecisionTree)
    (hn : dt.wires.nVirtualOutput = dt.nVirtualInputs) (req : DecisionTree.Requirements)
    (hreq : ∀ k, (req.inputReq.getD k DynamicBitmask.empty).Valid ∧
      ∀ p, (req.inputReq.getD k DynamicBitmask.empty).get p = true →
        p < dt.wires.nVirtualOutput)
    (t : DecisionTree.Allocation) (h : dt.allocate req = .ok t) :
    (∃ muxes, dt.AllocInv t muxes) ∧ ∀ r ∈ t.rounds, r.1 < dt.nInputs := by
  unfold DecisionTree.allocate at h
  refine forLoopE_range_inv
    (fun (s : DecisionTree.Allocation) (_ : Nat) =>
      (∃ muxes, dt.AllocInv s muxes) ∧ ∀ r ∈ s.rounds, r.1 < dt.nInputs)
    dt.nInputs _ _ (fun _ _ _ => rfl) ?_ dt.nInputs _ 0 t (by omega) (Nat.zero_le _) ?_ h
  · intro s b u hb hp hu
    exact dt.allocateInput_inv hn req.compMapping b _ s u hp.1 hp.2 hb hu
  · refine ⟨⟨[], DynamicBitmask.valid_empty, hreq, List.length_replicate _ _, List.nodup_nil,
      fun m hm => absurd hm (List.not_mem_nil m), rfl,
      fun r hr => absurd hr (List.not_mem_nil r), fun v => ?_,
      fun r hr => absurd hr (List.not_mem_nil r), fun v _ => ?_⟩,
      fun r hr => absurd hr (List.not_mem_nil r)⟩
    · simp only [DynamicBitmask.get_empty, List.not_mem_nil, and_false]
      exact ⟨fun h => Bool.noConfusion h, fun h => h.elim⟩
    · simp only [List.getD_eq_getElem?_getD, List.getElem?_replicate]
      split <;> rfl

end Prism

namespace Prism

/-- What holds of a state before a run of steps that keep it holds after
the run. -/
theorem foldl_inv {σ α : Type} (P : σ → Prop) (f : σ → α → σ) (hstep : ∀ s x, P s → P (f s x)) :
    ∀ (l : List α) (s : σ), P s → P (l.foldl f s) := by
  intro l
  induction l with
  | nil => intro s hs; exact hs
  | cons x l ih => intro s hs; exact ih _ (hstep s x hs)

/-- The requests that the loop over the components collects are valid masks
of pins of the components. -/
theorem DecisionTree.collectRequirements_bound (dt : DecisionTree)
    (hc : ∀ comp, comp < dt.nStaticComponents + dt.nConditionalComponents →
      (dt.components.getD comp ⟨0, 0⟩).inputOffset + (dt.components.getD comp ⟨0, 0⟩).inputSize
        ≤ dt.nVirtualInputs)
    (exprs : List (Option LogicExpression)) (req : DecisionTree.Requirements)
    (h : dt.collectRequirements exprs = .ok req) :
    ∀ k, (req.inputReq.getD k DynamicBitmask.empty).Valid ∧
      ∀ p, (req.inputReq.getD k DynamicBitmask.empty).get p = true → p < dt.nVirtualInputs := by
  unfold DecisionTree.collectRequirements at h
  refine forLoopE_range_inv
    (fun (s : DecisionTree.Requirements) (_ : Nat) =>
      ∀ k, (s.inputReq.getD k DynamicBitmask.empty).Valid ∧
        ∀ p, (s.inputReq.getD k DynamicBitmask.empty).get p = true → p < dt.nVirtualInputs)
    (dt.nStaticComponents + dt.nConditionalComponents) _ _ (fun _ _ _ => rfl) ?_
    (dt.nStaticComponents + dt.nConditionalComponents) _ 0 req (by omega) (Nat.zero_le _) ?_ h
  · intro s comp t hcomp hp ht
    unfold DecisionTree.collectRequirement at ht
    simp only at ht
    split at ht
    · simp only [Except.ok.injEq] at ht
      subst ht
      simp only
      rw [forLoop_eq_foldl]
      refine foldl_inv
        (fun (s : DecisionTree.Requirements) =>
          ∀ k, (s.inputReq.getD k DynamicBitmask.empty).Valid ∧
            ∀ p, (s.inputReq.getD k DynamicBitmask.empty).get p = true →
              p < dt.nVirtualInputs) _ ?_ _ s hp
      intro s2 i hs2 k
      simp only
      rcases getD_set_cases s2.inputReq i k
        ((dt.components.getD comp ⟨0, 0⟩).setInputs (s2.inputReq.getD i DynamicBitmask.empty))
        DynamicBitmask.empty with hk | ⟨_, hk⟩
      · rw [hk]; exact hs2 k
      · rw [hk]
        obtain ⟨c1, c2⟩ := (dt.components.getD comp ⟨0, 0⟩).setInputs_spec (hs2 i).1
        refine ⟨c1, fun p hp2 => ?_⟩
        rw [c2 p, Bool.or_eq_true, decide_eq_true_eq] at hp2
        rcases hp2 with hp2 | hp2
        · exact (hs2 i).2 p hp2
        · have := hc comp hcomp
          omega
    · exact Except.noConfusion ht
  · intro k
    simp only [List.getD_eq_getElem?_getD, List.getElem?_replicate]
    split
    · exact ⟨DynamicBitmask.valid_empty, fun p hp => by
        simp only [Option.getD_some, DynamicBitmask.get_empty] at hp
        exact Bool.noConfusion hp⟩
    · exact ⟨DynamicBitmask.valid_empty, fun p hp => by
        simp only [Option.getD_none, DynamicBitmask.get_empty] at hp
        exact Bool.noConfusion hp⟩

/-- What `writeState` returns comes from its steps. -/
theorem DecisionTree.writeStateFull_ok (dt : DecisionTree) (out : BitmaskRef) (stew : STEW)
    (vs : VirtualState) (stateMap : StateMap) (uninit : List Nat) (w : DecisionTree.Written)
    (h : dt.writeStateFull out stew vs stateMap uninit = .ok w) :
    ∃ s out1 req alloc out2,
      dt.writeTransitions out stew vs stateMap = .ok s ∧
      DecisionTree.writePartial stew vs s.out s.comp = .ok out1 ∧
      dt.collectRequirements (dt.assignConditional vs s.exprs) = .ok req ∧
      dt.allocate req = .ok alloc ∧
      dt.writeComponents stew (dt.assignConditional vs s.exprs) alloc.wireMapping out1
        = .ok out2 ∧
      dt.wires.write out2 stew alloc.wireMapping uninit = .ok w.out ∧
      w.stateMap = s.stateMap ∧ w.exprs = dt.assignConditional vs s.exprs ∧
      w.wireMapping = alloc.wireMapping ∧ w.rounds = alloc.rounds := by
  unfold DecisionTree.writeStateFull at h
  cases h1 : dt.writeTransitions out stew vs stateMap with
  | error e => rw [h1] at h; exact Except.noConfusion h
  | ok s =>
    rw [h1] at h
    simp only at h
    cases h2 : DecisionTree.writePartial stew vs s.out s.comp with
    | error e => rw [h2] at h; exact Except.noConfusion h
    | ok out1 =>
      rw [h2] at h
      simp only at h
      cases h3 : dt.collectRequirements (dt.assignConditional vs s.exprs) with
      | error e => rw [h3] at h; exact Except.noConfusion h
      | ok req =>
        rw [h3] at h
        simp only at h
        cases h4 : dt.allocate req with
        | error e => rw [h4] at h; exact Except.noConfusion h
        | ok alloc =>
          rw [h4] at h
          simp only at h
          cases h5 : dt.writeComponents stew (dt.assignConditional vs s.exprs)
              alloc.wireMapping out1 with
          | error e => rw [h5] at h; exact Except.noConfusion h
          | ok out2 =>
            rw [h5] at h
            simp only at h
            cases h6 : dt.wires.write out2 stew alloc.wireMapping uninit with
            | error e => rw [h6] at h; exact Except.noConfusion h
            | ok out3 =>
              rw [h6] at h
              simp only [Except.ok.injEq] at h
              subst h
              exact ⟨s, out1, req, alloc, out2, rfl, h2, h3, h4, h5, h6, rfl, rfl, rfl, rfl⟩

end Prism

namespace Prism

/-- The pins of the selected muxes, round after round, are all different
when no mux is selected twice. -/
theorem WireMap.nodup_flatMap_outputsOf (wm : WireMap) (muxes : List Nat) (h : muxes.Nodup) :
    (muxes.flatMap wm.outputsOf).Nodup := by
  rw [List.nodup_flatMap]
  refine ⟨fun m _ => (List.nodup_range _).filter _, ?_⟩
  refine List.Pairwise.imp ?_ h
  intro a b hab v hva hvb
  exact hab (((wm.mem_outputsOf a v).1 hva).2.symm.trans ((wm.mem_outputsOf b v).1 hvb).2)

/-- C17: when `writeState` returns, on a wire map with as many virtual
outputs as the tree has virtual inputs and on components whose pins are
among them, the rounds of its allocation (the calls of `bestFit` that
returned, with their system input and their list `which`) never double-book.
No pin is in the list of two rounds, nor twice in one, so every pin is
marked used and given a source in at most one round. There is a list of
muxes without repetition, one selected per round, such that the list of
every round is the list of all the pins of its mux: no mux is selected in
two rounds. Every round is for a system input below `nInputs`, takes at
least one pin, and its pins end wired to its system input; a pin that no
round took ends wired to 0. Hence two pins that share a mux end with the
same `wireMapping` value. -/
theorem allocation_never_double_books (dt : DecisionTree) (out : BitmaskRef) (stew : STEW)
    (vs : VirtualState) (stateMap : StateMap) (uninit : List Nat) (w : DecisionTree.Written)
    (hn : dt.wires.nVirtualOutput = dt.nVirtualInputs)
    (hc : ∀ comp, comp < dt.nStaticComponents + dt.nConditionalComponents →
      (dt.components.getD comp ⟨0, 0⟩).inputOffset + (dt.components.getD comp ⟨0, 0⟩).inputSize
        ≤ dt.nVirtualInputs)
    (h : dt.writeStateFull out stew vs stateMap uninit = .ok w) :
    (w.rounds.flatMap Prod.snd).Nodup ∧
    (∃ muxes : List Nat, muxes.Nodup ∧ (∀ m ∈ muxes, m < dt.wires.nInput) ∧
      w.rounds.map Prod.snd = muxes.map dt.wires.outputsOf) ∧
    (∀ r ∈ w.rounds, r.1 < dt.nInputs ∧ r.2 ≠ [] ∧
      ∀ v ∈ r.2, w.wireMapping.getD v 0 = r.1) ∧
    (∀ v, (∀ r ∈ w.rounds, v ∉ r.2) → w.wireMapping.getD v 0 = 0) ∧
    ∀ v v2, v < dt.wires.nVirtualOutput → v2 < dt.wires.nVirtualOutput →
      dt.wires.fullMap.getD v 0 = dt.wires.fullMap.getD v2 0 →
      w.wireMapping.getD v 0 = w.wireMapping.getD v2 0 := by
  obtain ⟨s, out1, req, alloc, out2, _, _, h3, h4, _, _, _, _, h9, h10⟩ :=
    dt.writeStateFull_ok out stew vs stateMap uninit w h
  have hb := dt.collectRequirements_bound hc _ req h3
  obtain ⟨⟨muxes, a1, a2, a3, a4, a5, a6, a7, a8, a9, a10⟩, hin⟩ :=
    dt.allocate_inv hn req (fun k => ⟨(hb k).1, fun p hp => by rw [hn]; exact (hb k).2 p hp⟩)
      alloc h4
  rw [h9, h10]
  have hround : ∀ v, v < dt.wires.nVirtualOutput → dt.wires.fullMap.getD v 0 ∈ muxes →
      ∃ r ∈ alloc.rounds, v ∈ r.2 := by
    intro v hv hm
    have : dt.wires.outputsOf (dt.wires.fullMap.getD v 0) ∈ alloc.rounds.map Prod.snd := by
      rw [a6]; exact List.mem_map_of_mem _ hm
    obtain ⟨r, hr, hr2⟩ := List.mem_map.1 this
    exact ⟨r, hr, by rw [hr2]; exact (dt.wires.mem_outputsOf _ v).2 ⟨hv, rfl⟩⟩
  have hzero : ∀ v, (∀ r ∈ alloc.rounds, v ∉ r.2) → alloc.wireMapping.getD v 0 = 0 := by
    intro v hv
    apply a10
    cases hu : alloc.used.get v
    · rfl
    · obtain ⟨h1, h2⟩ := (a8 v).1 hu
      obtain ⟨r, hr, hr2⟩ := hround v h1 h2
      exact absurd hr2 (hv r hr)
  refine ⟨?_, ⟨muxes, a4, a5, a6⟩, fun r hr => ⟨hin r hr, a7 r hr, a9 r hr⟩, hzero, ?_⟩
  · have e : alloc.rounds.flatMap Prod.snd = muxes.flatMap dt.wires.outputsOf := by
      rw [List.flatMap_def, List.flatMap_def, a6]
    rw [e]
    exact dt.wires.nodup_flatMap_outputsOf muxes a4
  · intro v v2 hv hv2 hf
    by_cases hm : dt.wires.fullMap.getD v 0 ∈ muxes
    · have : dt.wires.outputsOf (dt.wires.fullMap.getD v 0) ∈ alloc.rounds.map Prod.snd := by
        rw [a6]; exact List.mem_map_of_mem _ hm
      obtain ⟨r, hr, hr2⟩ := List.mem_map.1 this
      rw [a9 r hr v (by rw [hr2]; exact (dt.wires.mem_outputsOf _ v).2 ⟨hv, rfl⟩),
        a9 r hr v2 (by rw [hr2]; exact (dt.wires.mem_outputsOf _ v2).2 ⟨hv2, hf.symm⟩)]
    · have n1 : ∀ r ∈ alloc.rounds, v ∉ r.2 := by
        intro r hr hvr
        have hq2 : r.2 ∈ muxes.map dt.wires.outputsOf := by
          rw [← a6]; exact List.mem_map_of_mem _ hr
        obtain ⟨m, hmm, hmq⟩ := List.mem_map.1 hq2
        rw [← hmq] at hvr
        rw [((dt.wires.mem_outputsOf m v).1 hvr).2] at hm
        exact hm hmm
      have n2 : ∀ r ∈ alloc.rounds, v2 ∉ r.2 := by
        intro r hr hvr
        have hq2 : r.2 ∈ muxes.map dt.wires.outputsOf := by
          rw [← a6]; exact List.mem_map_of_mem _ hr
        obtain ⟨m, hmm, hmq⟩ := List.mem_map.1 hq2
        rw [← hmq] at hvr
        rw [hf, ((dt.wires.mem_outputsOf m v2).1 hvr).2] at hm
        exact hm hmm
      rw [hzero v n1, hzero v2 n2]

/-- C17 on the built-in configuration, whose muxes feed two or three pins,
for a state with two guarded transitions and two conditional outputs. -/
theorem allocation_never_double_books_witness :
    ∃ w, DecisionTree.fallback.writeStateFull (.buffer (BufferBitmask.ofSize 168)) STEW.fallback
        Example.sharedState [(2, 2), (1, 1), (0, 0)] (List.replicate 7 0) = .ok w ∧
      w.rounds = [(0, [0, 8]), (3, [6, 12]), (4, [7, 13]), (5, [1, 9])] ∧
      (w.rounds.flatMap Prod.snd).Nodup ∧
      (∃ muxes : List Nat, muxes.Nodup ∧ (∀ m ∈ muxes, m < DecisionTree.fallback.wires.nInput) ∧
        w.rounds.map Prod.snd = muxes.map DecisionTree.fallback.wires.outputsOf) ∧
      (∀ r ∈ w.rounds, r.1 < DecisionTree.fallback.nInputs ∧ r.2 ≠ [] ∧
        ∀ v ∈ r.2, w.wireMapping.getD v 0 = r.1) ∧
      (∀ v, (∀ r ∈ w.rounds, v ∉ r.2) → w.wireMapping.getD v 0 = 0) ∧
      ∀ v v2, v < DecisionTree.fallback.wires.nVirtualOutput →
        v2 < DecisionTree.fallback.wires.nVirtualOutput →
        DecisionTree.fallback.wires.fullMap.getD v 0
          = DecisionTree.fallback.wires.fullMap.getD v2 0 →
        w.wireMapping.getD v 0 = w.wireMapping.getD v2 0 := by
  cases h : DecisionTree.fallback.writeStateFull (.buffer (BufferBitmask.ofSize 168))
      STEW.fallback Example.sharedState [(2, 2), (1, 1), (0, 0)] (List.replicate 7 0) with
  | error e =>
    have ht : (DecisionTree.fallback.writeStateFull (.buffer (BufferBitmask.ofSize 168))
        STEW.fallback Example.sharedState [(2, 2), (1, 1), (0, 0)]
        (List.replicate 7 0)).toBool = true := by decide
    rw [h] at ht
    exact Bool.noConfusion ht
  | ok w =>
    have hr : (DecisionTree.fallback.writeStateFull (.buffer (BufferBitmask.ofSize 168))
        STEW.fallback Example.sharedState [(2, 2), (1, 1), (0, 0)]
        (List.replicate 7 0)).map (fun w => w.rounds)
        = .ok [(0, [0, 8]), (3, [6, 12]), (4, [7, 13]), (5, [1, 9])] := by decide
    rw [h] at hr
    simp only [Except.map, Except.ok.injEq] at hr
    exact ⟨w, rfl, hr, allocation_never_double_books DecisionTree.fallback _ STEW.fallback
      Example.sharedState _ _ w (by decide) (by decide) h⟩

end Prism

namespace Prism

/-- A word with a set bit below `n` has a positive population count over
its low `n` bits. -/
theorem popcountl_pos : ∀ (n x k : Nat), k < n → x.testBit k = true → 0 < popcountl n x := by
  intro n
  induction n with
  | zero => intro x k hk; omega
  | succ n ih =>
    intro x k hk hb
    unfold popcountl
    cases k with
    | zero =>
      rw [Nat.testBit_zero] at hb
      have : x % 2 = 1 := by simpa using hb
      omega
    | succ k =>
      rw [Nat.testBit_succ] at hb
      have := ih (x / 2) k (by omega) hb
      omega

/-- A sum over a list is at least the term of any of its elements. -/
theorem foldl_add_ge (g : Nat → Nat) : ∀ (l : List Nat) (a : Nat),
    a ≤ l.foldl (fun n i => n + g i) a ∧
    ∀ k ∈ l, a + g k ≤ l.foldl (fun n i => n + g i) a := by
  intro l
  induction l with
  | nil => intro a; exact ⟨Nat.le_refl _, fun k hk => absurd hk (List.not_mem_nil k)⟩
  | cons x l ih =>
    intro a
    obtain ⟨h1, h2⟩ := ih (a + g x)
    refine ⟨by rw [List.foldl_cons]; omega, fun k hk => ?_⟩
    rw [List.foldl_cons]
    rcases List.mem_cons.1 hk with rfl | hk
    · exact h1
    · have := h2 k hk; omega

/-- A valid mask with a set bit has a positive `count()`. -/
theorem AbstractBufferBitmask.Valid.count_pos {v : AbstractBufferBitmask} (hv : v.Valid)
    {i : Nat} (h : v.get i = true) : 0 < v.count := by
  have hi : i < v.nbits := by
    by_contra hcon
    rw [AbstractBufferBitmask.get_false_of_le _ (Nat.le_of_not_lt hcon)] at h
    exact Bool.noConfusion h
  rw [hv.get_eq_bitAt] at h
  unfold AbstractBufferBitmask.bitAt at h
  unfold AbstractBufferBitmask.count
  rw [forLoop_range (BITMASK_NLONGS v.nbits) _ (BITMASK_NLONGS v.nbits) 0 0 (by omega)]
  have hmem : i / BITS_PER_LONG ∈ List.range' 0 (BITMASK_NLONGS v.nbits - 0) := by
    rw [List.mem_range'_1]
    refine ⟨Nat.zero_le _, ?_⟩
    have := div_lt_NLONGS hi
    simpa [BITS_PER_LONG] using this
  have h1 := (foldl_add_ge (fun j => bitops_cnt (v.word j)) _ 0).2 _ hmem
  have h2 : 0 < bitops_cnt (v.word (i / BITS_PER_LONG)) :=
    popcountl_pos BITS_PER_LONG _ (i % BITS_PER_LONG) (Nat.mod_lt _ (by decide)) h
  omega

/-- A run of assignments of one value: an entry is the value when its
index is in the list and in the array, and the entry before otherwise. -/
theorem foldl_set_const {α : Type} (a d : α) : ∀ (l : List Nat) (arr : List α),
    (l.foldl (fun (m : List α) i => m.set i a) arr).length = arr.length ∧
    ∀ p, (l.foldl (fun (m : List α) i => m.set i a) arr).getD p d
      = if p ∈ l ∧ p < arr.length then a else arr.getD p d := by
  intro l
  induction l with
  | nil => intro arr; exact ⟨rfl, fun p => by simp⟩
  | cons x l ih =>
    intro arr
    obtain ⟨h1, h2⟩ := ih (arr.set x a)
    rw [List.foldl_cons]
    refine ⟨by rw [h1, List.length_set], fun p => ?_⟩
    rw [h2 p, List.length_set]
    by_cases hpl : p ∈ l ∧ p < arr.length
    · rw [if_pos hpl, if_pos ⟨List.mem_cons_of_mem _ hpl.1, hpl.2⟩]
    · rw [if_neg hpl]
      by_cases hpx : p = x
      · subst hpx
        by_cases hlt : p < arr.length
        · rw [getD_set_self _ _ _ _ hlt, if_pos ⟨List.mem_cons_self _ _, hlt⟩]
        · rw [List.set_eq_of_length_le (Nat.le_of_not_lt hlt), if_neg (fun h => hlt h.2)]
      · rw [getD_set_ne _ _ _ _ _ (Ne.symm hpx), if_neg]
        rintro ⟨hmem, hlt⟩
        rcases List.mem_cons.1 hmem with h | h
        · exact hpx h
        · exact hpl ⟨h, hlt⟩

/-- The mask of the inputs of the expression of a component: it is valid and
holds the system inputs that the expression reads. -/
theorem DecisionTree.compMask_spec (exprs : List (Option LogicExpression)) (c : Nat) :
    (match exprs.getD c none with
      | some e => e.collectInputs DynamicBitmask.empty
      | none => DynamicBitmask.empty).Valid ∧
    ∀ i, (match exprs.getD c none with
      | some e => e.collectInputs DynamicBitmask.empty
      | none => DynamicBitmask.empty).get i = DecisionTree.compReads exprs c i := by
  unfold DecisionTree.compReads
  cases exprs.getD c none with
  | none => exact ⟨DynamicBitmask.valid_empty, fun i => DynamicBitmask.get_empty i⟩
  | some e =>
    obtain ⟨h1, h2⟩ := LogicExpression.collectInputsLogic_spec e DynamicBitmask.valid_empty
    refine ⟨h1, fun i => ?_⟩
    simp only
    rw [h2 i, DynamicBitmask.get_empty, Bool.false_or]

/-- The loop over the inputs of a component in `writeState`: for every
system input of the list, the pins of the component enter its request and
its count grows by one. -/
theorem DecisionTree.collectInputs_fold (c : LUT) : ∀ (l : List Nat)
    (s : DecisionTree.Requirements), l.Nodup → (∀ i ∈ l, i < s.inputReq.length) →
    (∀ i ∈ l, i < s.inputReqCount.length) →
    (l.foldl (fun (s : DecisionTree.Requirements) i =>
        { s with
          inputReq := s.inputReq.set i (c.setInputs (s.inputReq.getD i DynamicBitmask.empty))
          inputReqCount := s.inputReqCount.set i (s.inputReqCount.getD i 0 + 1) }) s).compMapping
      = s.compMapping ∧
    (l.foldl (fun (s : DecisionTree.Requirements) i =>
        { s with
          inputReq := s.inputReq.set i (c.setInputs (s.inputReq.getD i DynamicBitmask.empty))
          inputReqCount := s.inputReqCount.set i (s.inputReqCount.getD i 0 + 1) }) s).inputReq.length
      = s.inputReq.length ∧
    (l.foldl (fun (s : DecisionTree.Requirements) i =>
        { s with
          inputReq := s.inputReq.set i (c.setInputs (s.inputReq.getD i DynamicBitmask.empty))
          inputReqCount := s.inputReqCount.set i (s.inputReqCount.getD i 0 + 1) })
        s).inputReqCount.length
      = s.inputReqCount.length ∧
    (∀ k, (l.foldl (fun (s : DecisionTree.Requirements) i =>
        { s with
          inputReq := s.inputReq.set i (c.setInputs (s.inputReq.getD i DynamicBitmask.empty))
          inputReqCount := s.inputReqCount.set i (s.inputReqCount.getD i 0 + 1) })
        s).inputReq.getD k DynamicBitmask.empty
      = if k ∈ l then c.setInputs (s.inputReq.getD k DynamicBitmask.empty)
        else s.inputReq.getD k DynamicBitmask.empty) ∧
    ∀ k, (l.foldl (fun (s : DecisionTree.Requirements) i =>
        { s with
          inputReq := s.inputReq.set i (c.setInputs (s.inputReq.getD i DynamicBitmask.empty))
          inputReqCount := s.inputReqCount.set i (s.inputReqCount.getD i 0 + 1) })
        s).inputReqCount.getD k 0
      = if k ∈ l then s.inputReqCount.getD k 0 + 1 else s.inputReqCount.getD k 0 := by
  intro l
  induction l with
  | nil => intro s _ _ _; exact ⟨rfl, rfl, rfl, fun k => by simp, fun k => by simp⟩
  | cons x l ih =>
    intro s hnd h1 h2
    have hx : x ∉ l := (List.nodup_cons.1 hnd).1
    obtain ⟨i1, i2, i3, i4, i5⟩ := ih
      { s with
        inputReq := s.inputReq.set x (c.setInputs (s.inputReq.getD x DynamicBitmask.empty))
        inputReqCount := s.inputReqCount.set x (s.inputReqCount.getD x 0 + 1) }
      (List.nodup_cons.1 hnd).2
      (fun i hi => by simp only [List.length_set]; exact h1 i (List.mem_cons_of_mem _ hi))
      (fun i hi => by simp only [List.length_set]; exact h2 i (List.mem_cons_of_mem _ hi))
    rw [List.foldl_cons]
    refine ⟨i1, by rw [i2]; simp only [List.length_set], by rw [i3]; simp only [List.length_set],
      fun k => ?_, fun k => ?_⟩
    · rw [i4 k]
      simp only
      by_cases hkl : k ∈ l
      · have hkx : x ≠ k := fun h => hx (h ▸ hkl)
        rw [if_pos hkl, if_pos (List.mem_cons_of_mem _ hkl), getD_set_ne _ _ _ _ _ hkx]
      · rw [if_neg hkl]
        by_cases hkx : k = x
        · subst hkx
          rw [if_pos (List.mem_cons_self _ _),
            getD_set_self _ _ _ _ (h1 k (List.mem_cons_self _ _))]
        · rw [getD_set_ne _ _ _ _ _ (Ne.symm hkx), if_neg]
          intro hmem
          rcases List.mem_cons.1 hmem with h | h
          · exact hkx h
          · exact hkl h
    · rw [i5 k]
      simp only
      by_cases hkl : k ∈ l
      · have hkx : x ≠ k := fun h => hx (h ▸ hkl)
        rw [if_pos hkl, if_pos (List.mem_cons_of_mem _ hkl), getD_set_ne _ _ _ _ _ hkx]
      · rw [if_neg hkl]
        by_cases hkx : k = x
        · subst hkx
          rw [if_pos (List.mem_cons_self _ _),
            getD_set_self _ _ _ _ (h2 k (List.mem_cons_self _ _))]
        · rw [getD_set_ne _ _ _ _ _ (Ne.symm hkx), if_neg]
          intro hmem
          rcases List.mem_cons.1 hmem with h | h
          · exact hkx h
          · exact hkl h

end Prism

namespace Prism

/-- The loop that fills `compMapping` for the pins of a component. -/
theorem DecisionTree.compMapping_loop (c : LUT) (b : Nat) (arr : List Nat) :
    (forLoop (fun _ bit => decide (bit < c.inputSize)) (fun _ bit => bit + 1)
      (fun (compMapping : List Nat) bit => compMapping.set (bit + c.inputOffset) b)
      c.inputSize arr 0).length = arr.length ∧
    ∀ p, (forLoop (fun _ bit => decide (bit < c.inputSize)) (fun _ bit => bit + 1)
      (fun (compMapping : List Nat) bit => compMapping.set (bit + c.inputOffset) b)
      c.inputSize arr 0).getD p 0
      = if c.hasPin p ∧ p < arr.length then b else arr.getD p 0 := by
  rw [forLoop_range c.inputSize _ c.inputSize arr 0 (by omega)]
  have hm : (List.range' 0 (c.inputSize - 0)).foldl
      (fun (compMapping : List Nat) bit => compMapping.set (bit + c.inputOffset) b) arr
      = ((List.range' 0 c.inputSize).map (fun bit => bit + c.inputOffset)).foldl
          (fun (m : List Nat) i => m.set i b) arr := by
    rw [List.foldl_map]; rfl
  rw [hm]
  obtain ⟨h1, h2⟩ := foldl_set_const b 0
    ((List.range' 0 c.inputSize).map (fun bit => bit + c.inputOffset)) arr
  refine ⟨h1, fun p => ?_⟩
  rw [h2 p]
  have hiff : (p ∈ (List.range' 0 c.inputSize).map (fun bit => bit + c.inputOffset)
      ∧ p < arr.length) ↔ (c.hasPin p ∧ p < arr.length) := by
    unfold LUT.hasPin
    simp only [List.mem_map, List.mem_range'_1]
    constructor
    · rintro ⟨⟨a, ha, rfl⟩, h⟩; exact ⟨by omega, h⟩
    · rintro ⟨h, h2⟩; exact ⟨⟨p - c.inputOffset, by omega, by omega⟩, h2⟩
  by_cases hp : c.hasPin p ∧ p < arr.length
  · rw [if_pos hp, if_pos (hiff.2 hp)]
  · rw [if_neg hp, if_neg (fun h => hp (hiff.1 h))]

/-- The body of the loop of `writeState` over the components, with `B` the
mask of the inputs of the expression of the component, keeps what holds of
the requests. -/
theorem DecisionTree.collectRequirement_core (dt : DecisionTree) (hwf : dt.WellFormed)
    (exprs : List (Option LogicExpression))
    (hin : ∀ c, c < dt.nStaticComponents + dt.nConditionalComponents →
      ∀ i, DecisionTree.compReads exprs c i = true → i < dt.nInputs)
    (s : DecisionTree.Requirements) (b : Nat)
    (hb : b < dt.nStaticComponents + dt.nConditionalComponents)
    (hs : dt.ReqInv exprs s b) (B : DynamicBitmask) (m1 : B.Valid)
    (m2 : ∀ i, B.get i = DecisionTree.compReads exprs b i)
    (hcount : B.count ≤ (dt.comp b).inputSize) :
    dt.ReqInv exprs
      { forLoop (fun _ i => decide (i < B.size)) (fun _ i => B.fns i)
          (fun (s : DecisionTree.Requirements) i =>
            { s with
              inputReq := s.inputReq.set i
                ((dt.comp b).setInputs (s.inputReq.getD i DynamicBitmask.empty))
              inputReqCount := s.inputReqCount.set i (s.inputReqCount.getD i 0 + 1) })
          B.size s B.ffs with
        compMapping :=
          forLoop (fun _ bit => decide (bit < (dt.comp b).inputSize)) (fun _ bit => bit + 1)
            (fun (compMapping : List Nat) bit =>
              compMapping.set (bit + (dt.comp b).inputOffset) b)
            (dt.comp b).inputSize
            (forLoop (fun _ i => decide (i < B.size)) (fun _ i => B.fns i)
              (fun (s : DecisionTree.Requirements) i =>
                { s with
                  inputReq := s.inputReq.set i
                    ((dt.comp b).setInputs (s.inputReq.getD i DynamicBitmask.empty))
                  inputReqCount := s.inputReqCount.set i (s.inputReqCount.getD i 0 + 1) })
              B.size s B.ffs).compMapping 0 }
      (b + 1) := by
  obtain ⟨r1, r2, r3, r4, r5, r6, r7⟩ := hs
  rw [forLoop_eq_foldl (fun i => decide (i < B.size)) B.fns]
  have hvis : forLoopVisits (fun i => decide (i < B.size)) B.fns B.size B.ffs = B.setBits := rfl
  rw [hvis]
  have hmem : ∀ i, i ∈ B.setBits ↔ DecisionTree.compReads exprs b i = true := by
    intro i
    rw [DynamicBitmask.mem_setBits m1 i, m2 i]
  have hlt : ∀ i ∈ B.setBits, i < dt.nInputs := fun i hi => hin b hb i ((hmem i).1 hi)
  obtain ⟨f1, f2, f3, f4, f5⟩ := DecisionTree.collectInputs_fold (dt.comp b) B.setBits s
    (AbstractBufferBitmask.setBits_sorted _).nodup
    (fun i hi => by rw [r1]; exact hlt i hi) (fun i hi => by rw [r2]; exact hlt i hi)
  obtain ⟨g1, g2⟩ := DecisionTree.compMapping_loop (dt.comp b) b
    (B.setBits.foldl (fun (s : DecisionTree.Requirements) i =>
      { s with
        inputReq := s.inputReq.set i
          ((dt.comp b).setInputs (s.inputReq.getD i DynamicBitmask.empty))
        inputReqCount := s.inputReqCount.set i (s.inputReqCount.getD i 0 + 1) })
      s).compMapping
  refine ⟨by simp only; rw [← r1]; exact f2, by simp only; rw [← r2]; exact f3,
    by simp only; rw [← r3, ← f1]; exact g1, fun i => ?_, fun i => ?_, fun c hc p hp => ?_,
    fun c hc i hr => ?_⟩
  · -- the requests
    simp only
    have e := f4 i
    by_cases hi : i ∈ B.setBits
    · rw [if_pos hi] at e
      obtain ⟨c1, c2⟩ := (dt.comp b).setInputs_spec (r4 i).1
      refine ⟨by rw [e]; exact c1, fun p => ?_⟩
      rw [e, c2 p, Bool.or_eq_true, decide_eq_true_eq, (r4 i).2 p]
      constructor
      · rintro (⟨c, hc, h1, h2⟩ | h)
        · exact ⟨c, by omega, h1, h2⟩
        · exact ⟨b, by omega, (hmem i).1 hi, h⟩
      · rintro ⟨c, hc, h1, h2⟩
        by_cases hcb : c = b
        · subst hcb; exact Or.inr h2
        · exact Or.inl ⟨c, by omega, h1, h2⟩
    · rw [if_neg hi] at e
      refine ⟨by rw [e]; exact (r4 i).1, fun p => ?_⟩
      rw [e, (r4 i).2 p]
      constructor
      · rintro ⟨c, hc, h1, h2⟩; exact ⟨c, by omega, h1, h2⟩
      · rintro ⟨c, hc, h1, h2⟩
        by_cases hcb : c = b
        · subst hcb; exact absurd ((hmem i).2 h1) hi
        · exact ⟨c, by omega, h1, h2⟩
  · -- the counts
    simp only
    rw [f5 i, r5 i, List.range_succ, List.filter_append, List.length_append]
    by_cases hi : i ∈ B.setBits
    · rw [if_pos hi]
      simp [(hmem i).1 hi]
    · rw [if_neg hi]
      have : DecisionTree.compReads exprs b i = false := by
        cases hr : DecisionTree.compReads exprs b i
        · rfl
        · exact absurd ((hmem i).2 hr) hi
      simp [this]
  · -- compMapping
    simp only
    rw [g2 p]
    by_cases hcb : c = b
    · subst hcb
      rw [if_pos ⟨hp, by
        rw [f1, r3]
        have := hwf.pins_le c hb
        unfold LUT.hasPin at hp
        omega⟩]
    · rw [if_neg, f1]
      · exact r6 c (by omega) p hp
      · rintro ⟨hp2, _⟩
        have := hwf.pins_apart c (by omega) b hb hcb
        unfold LUT.hasPin at hp hp2
        omega
  · -- a component that reads has a pin
    by_cases hcb : c = b
    · subst hcb
      have hg : B.get i = true := by rw [m2 i]; exact hr
      have := m1.1.count_pos hg
      exact Nat.lt_of_lt_of_le this hcount
    · exact r7 c (by omega) i hr

/-- The body of the loop of `writeState` over the components keeps what
holds of the requests. -/
theorem DecisionTree.collectRequirement_step (dt : DecisionTree) (hwf : dt.WellFormed)
    (exprs : List (Option LogicExpression))
    (hin : ∀ c, c < dt.nStaticComponents + dt.nConditionalComponents →
      ∀ i, DecisionTree.compReads exprs c i = true → i < dt.nInputs)
    (s t : DecisionTree.Requirements) (b : Nat)
    (hb : b < dt.nStaticComponents + dt.nConditionalComponents)
    (hs : dt.ReqInv exprs s b) (ht : dt.collectRequirement exprs s b = .ok t) :
    dt.ReqInv exprs t (b + 1) := by
  have hcore := dt.collectRequirement_core hwf exprs hin s b hb hs
  have hread : ∀ i, DecisionTree.compReads exprs b i
      = match exprs.getD b none with
        | some e => e.readsInput i
        | none => false := fun i => rfl
  unfold DecisionTree.collectRequirement at ht
  simp only at ht
  have hcmp : dt.components.getD b ⟨0, 0⟩ = dt.comp b := rfl
  rw [hcmp] at ht
  cases hE : exprs.getD b none with
  | none =>
    rw [hE] at ht hread
    simp only at ht hread
    split at ht
    · rename_i hcount
      simp only [Except.ok.injEq] at ht
      rw [← ht]
      exact hcore DynamicBitmask.empty DynamicBitmask.valid_empty
        (fun i => by rw [DynamicBitmask.get_empty, hread i]) hcount
    · exact Except.noConfusion ht
  | some e =>
    rw [hE] at ht hread
    simp only at ht hread
    obtain ⟨h1, h2⟩ := LogicExpression.collectInputsLogic_spec e DynamicBitmask.valid_empty
    split at ht
    · rename_i hcount
      simp only [Except.ok.injEq] at ht
      rw [← ht]
      exact hcore (e.collectInputs DynamicBitmask.empty) h1
        (fun i => by rw [h2 i, DynamicBitmask.get_empty, Bool.false_or, hread i]) hcount
    · exact Except.noConfusion ht

/-- The loop of `writeState` over the components, when it returns: the
request of every system input holds the pins of the components whose
expression reads it, and `inputReqCount` counts them. -/
theorem DecisionTree.collectRequirements_spec (dt : DecisionTree) (hwf : dt.WellFormed)
    (exprs : List (Option LogicExpression))
    (hin : ∀ c, c < dt.nStaticComponents + dt.nConditionalComponents →
      ∀ i, DecisionTree.compReads exprs c i = true → i < dt.nInputs)
    (req : DecisionTree.Requirements) (h : dt.collectRequirements exprs = .ok req) :
    dt.ReqInv exprs req (dt.nStaticComponents + dt.nConditionalComponents) := by
  unfold DecisionTree.collectRequirements at h
  refine forLoopE_range_inv (fun (s : DecisionTree.Requirements) (b : Nat) => dt.ReqInv exprs s b)
    (dt.nStaticComponents + dt.nConditionalComponents) _ _ (fun _ _ _ => rfl)
    (fun s b t hb hp ht => dt.collectRequirement_step hwf exprs hin s t b hb hp ht)
    (dt.nStaticComponents + dt.nConditionalComponents) _ 0 req (by omega) (Nat.zero_le _) ?_ h
  refine ⟨List.length_replicate _ _, List.length_replicate _ _, List.length_replicate _ _,
    fun i => ?_, fun i => ?_, fun c hc => absurd hc (Nat.not_lt_zero c),
    fun c hc => absurd hc (Nat.not_lt_zero c)⟩
  · have e : (List.replicate dt.nInputs DynamicBitmask.empty).getD i DynamicBitmask.empty
        = DynamicBitmask.empty := by
      simp only [List.getD_eq_getElem?_getD, List.getElem?_replicate]
      split <;> rfl
    simp only
    rw [e]
    refine ⟨DynamicBitmask.valid_empty, fun p => ?_⟩
    rw [DynamicBitmask.get_empty]
    constructor
    · intro h; exact Bool.noConfusion h
    · rintro ⟨c, hc, _⟩; exact absurd hc (Nat.not_lt_zero c)
  · simp only [List.range_zero, List.filter_nil, List.length_nil]
    simp only [List.getD_eq_getElem?_getD, List.getElem?_replicate]
    split <;> rfl

end Prism

namespace Prism

/-- Taking one element out of a count: when `f2` is `f` on the list but for
`c`, which it excludes, the elements that pass `f2` are those that pass `f`,
less `c` when it is in the list and passes `f`. -/
theorem filter_length_exclude (f f2 : Nat → Bool) (c : Nat) (hc : f2 c = false) :
    ∀ (l : List Nat), l.Nodup → (∀ x ∈ l, x ≠ c → f2 x = f x) →
    (l.filter f2).length + (if f c = true ∧ c ∈ l then 1 else 0) = (l.filter f).length := by
  intro l
  induction l with
  | nil => intro _ _; simp
  | cons x l ih =>
    intro hnd hne
    have hx : x ∉ l := (List.nodup_cons.1 hnd).1
    have h := ih (List.nodup_cons.1 hnd).2 (fun y hy => hne y (List.mem_cons_of_mem _ hy))
    by_cases hxc : x = c
    · subst hxc
      rw [if_neg (fun hcon => hx hcon.2)] at h
      rw [List.filter_cons, hc]
      simp only [Bool.false_eq_true, if_false]
      cases hfx : f x
      · rw [List.filter_cons, hfx]
        simp only [Bool.false_eq_true, if_false, false_and]
        omega
      · rw [List.filter_cons, hfx]
        simp only [if_true, List.length_cons, List.mem_cons, true_or, and_self]
        omega
    · have hmem : (f c = true ∧ c ∈ x :: l) ↔ (f c = true ∧ c ∈ l) := by
        simp only [List.mem_cons]
        constructor
        · rintro ⟨h1, h2 | h2⟩
          · exact absurd h2.symm hxc
          · exact ⟨h1, h2⟩
        · rintro ⟨h1, h2⟩; exact ⟨h1, Or.inr h2⟩
      rw [List.filter_cons, List.filter_cons, hne x (List.mem_cons_self _ _) hxc]
      by_cases hcl : f c = true ∧ c ∈ l
      · rw [if_pos hcl] at h
        rw [if_pos (hmem.2 hcl)]
        cases f x <;> simp <;> omega
      · rw [if_neg hcl] at h
        rw [if_neg (fun hcon => hcl (hmem.1 hcon))]
        cases f x <;> simp <;> omega

/-- `count -= 1` on a positive `unsigned int`. -/
theorem u32sub_one {a : Nat} (h1 : 1 ≤ a) (h2 : a < 2 ^ 32) : u32sub a 1 = a - 1 := by
  unfold u32sub
  have : a + 2 ^ 32 - 1 % 2 ^ 32 = (a - 1) + 2 ^ 32 := by
    have : (1 : Nat) % 2 ^ 32 = 1 := by decide
    rw [this]; omega
  rw [this, Nat.add_mod_right, Nat.mod_eq_of_lt (by omega)]

/-- The components that pass a test are fewer than the components. -/
theorem filter_range_length_le (f : Nat → Bool) (n : Nat) :
    ((List.range n).filter f).length ≤ n := by
  have := List.length_filter_le f (List.range n)
  rw [List.length_range] at this
  exact this

end Prism

namespace Prism

/-- The body of the loop over the list `which` keeps what holds of the
requests, for a pin that is not marked used. -/
theorem DecisionTree.allocateBit_cover (dt : DecisionTree) (hwf : dt.WellFormed)
    (exprs : List (Option LogicExpression)) (compMapping : List Nat)
    (hcm : ∀ c, c < dt.nStaticComponents + dt.nConditionalComponents →
      ∀ p, (dt.comp c).hasPin p → compMapping.getD p 0 = c)
    (hpin : ∀ c, c < dt.nStaticComponents + dt.nConditionalComponents →
      ∀ i, DecisionTree.compReads exprs c i = true → 0 < (dt.comp c).inputSize)
    (i : Nat) (hi : i < dt.nInputs) (s : DecisionTree.Allocation) (bit : Nat)
    (hbit : bit < dt.nVirtualInputs) (hfree : s.used.get bit = false) (hu : s.used.Valid)
    (hr : ∀ k, (s.inputReq.getD k DynamicBitmask.empty).Valid)
    (hwl : s.wireMapping.length = dt.nVirtualInputs) (hs : dt.CoverInv exprs s) :
    dt.CoverInv exprs (dt.allocateBit compMapping i s bit) := by
  obtain ⟨c, hcK, hcp⟩ := hwf.pins_cover bit hbit
  have hcm2 : dt.components.getD (compMapping.getD bit 0) ⟨0, 0⟩ = dt.comp c := by
    rw [hcm c hcK bit hcp]; rfl
  obtain ⟨l1, l2, hall⟩ := hs
  -- the pins of two components are apart
  have hdisj : ∀ c2, c2 < dt.nStaticComponents + dt.nConditionalComponents → c2 ≠ c →
      ∀ p, (dt.comp c2).hasPin p → ¬ (dt.comp c).hasPin p := by
    intro c2 hc2 hne p hp hp2
    have := hwf.pins_apart c2 hc2 c hcK hne
    unfold LUT.hasPin at hp hp2
    omega
  have hcoff : (dt.comp c).hasPin (dt.comp c).inputOffset := by
    unfold LUT.hasPin at hcp ⊢; omega
  -- a pin marked used is not the pin of this step
  have hkeep : ∀ v, s.used.get v = true →
      ∀ k, s.wireMapping.getD v 0 = k →
        (s.wireMapping.set bit i).getD v 0 = k ∧ (s.used.set bit).get v = true := by
    intro v hv k hk
    have hvb : v ≠ bit := fun h => by rw [h, hfree] at hv; exact Bool.noConfusion hv
    refine ⟨by rw [getD_set_ne _ _ _ _ _ (Ne.symm hvb)]; exact hk, ?_⟩
    rw [DynamicBitmask.get_set hu, hv, Bool.or_true]
  obtain ⟨q1, q2⟩ := (dt.comp c).clearInputs_spec (hr i)
  unfold DecisionTree.CoverInv
  unfold DecisionTree.allocateBit
  simp only
  rw [hcm2]
  refine ⟨by rw [List.length_set]; exact l1, by rw [List.length_set]; exact l2, fun k hk => ?_⟩
  obtain ⟨a1, a2, a3, a4⟩ := hall k hk
  by_cases hki : k = i
  · subst hki
    rw [getD_set_self _ _ _ _ (by rw [l1]; exact hk),
      getD_set_self _ _ _ _ (by rw [l2]; exact hk)]
    have hoff : ∀ c2, c2 < dt.nStaticComponents + dt.nConditionalComponents →
        DecisionTree.compReads exprs c2 k = true →
        (dt.comp c2).hasPin (dt.comp c2).inputOffset := by
      intro c2 hc2 hrd
      have := hpin c2 hc2 k hrd
      unfold LUT.hasPin; omega
    have hq : ∀ p, ((dt.comp c).clearInputs (s.inputReq.getD k DynamicBitmask.empty)).get p
        = ((s.inputReq.getD k DynamicBitmask.empty).get p && !decide ((dt.comp c).hasPin p)) :=
      fun p => q2 p
    refine ⟨fun c2 hc2 p hp => ?_, fun p hp => ?_, ?_, fun c2 hc2 hrd hreq => ?_⟩
    · rw [hq p, hq]
      by_cases hcc : c2 = c
      · subst hcc
        rw [decide_eq_true hp, decide_eq_true hcoff]
        simp
      · have hp0 : (dt.comp c2).hasPin (dt.comp c2).inputOffset := by
          unfold LUT.hasPin at hp ⊢; omega
        rw [decide_eq_false (hdisj c2 hc2 hcc p hp), decide_eq_false (hdisj c2 hc2 hcc _ hp0),
          a1 c2 hc2 p hp]
    · rw [hq p, Bool.and_eq_true] at hp
      exact a2 p hp.1
    · -- the count
      have hbo : (s.inputReq.getD k DynamicBitmask.empty).get bit
          = (s.inputReq.getD k DynamicBitmask.empty).get (dt.comp c).inputOffset :=
        a1 c hcK bit hcp
      have hex := filter_length_exclude
        (fun c2 => DecisionTree.compReads exprs c2 k
          && (s.inputReq.getD k DynamicBitmask.empty).get (dt.comp c2).inputOffset)
        (fun c2 => DecisionTree.compReads exprs c2 k
          && ((dt.comp c).clearInputs (s.inputReq.getD k DynamicBitmask.empty)).get
              (dt.comp c2).inputOffset) c
        (by simp only; rw [hq, decide_eq_true hcoff]; simp)
        (List.range (dt.nStaticComponents + dt.nConditionalComponents)) (List.nodup_range _)
        (fun x hx hxc => by
          simp only
          cases hrd : DecisionTree.compReads exprs x k
          · rfl
          · rw [hq, decide_eq_false (hdisj x (List.mem_range.1 hx) hxc _
              (hoff x (List.mem_range.1 hx) hrd))]
            simp)
      simp only at hex
      rw [← a3] at hex
      cases hgb : (s.inputReq.getD k DynamicBitmask.empty).get bit
      · simp only [Bool.false_eq_true, if_false]
        rw [if_neg (fun hcon => by
          have h1 := hcon.1
          rw [← hbo, hgb, Bool.and_false] at h1
          exact Bool.noConfusion h1)] at hex
        exact hex.symm
      · simp only [if_true]
        obtain ⟨c2, hc2, hp2, hrd2⟩ := a2 bit hgb
        have hcc : c2 = c := by
          by_contra hne
          exact hdisj c2 hc2 hne bit hp2 hcp
        subst hcc
        rw [if_pos ⟨by rw [← hbo, hgb, hrd2]; rfl, List.mem_range.2 hc2⟩] at hex
        have hle := filter_range_length_le
          (fun c2 => DecisionTree.compReads exprs c2 k
            && (s.inputReq.getD k DynamicBitmask.empty).get (dt.comp c2).inputOffset)
          (dt.nStaticComponents + dt.nConditionalComponents)
        rw [← a3] at hle
        have hlt := hwf.count_lt
        rw [u32sub_one (by omega) (by omega)]
        omega
    · -- the pin of a component served
      rw [hq, Bool.and_eq_false_iff] at hreq
      by_cases hold : (s.inputReq.getD k DynamicBitmask.empty).get (dt.comp c2).inputOffset = false
      · obtain ⟨j, hj, hw, hus⟩ := a4 c2 hc2 hrd hold
        obtain ⟨k1, k2⟩ := hkeep _ hus _ hw
        exact ⟨j, hj, k1, k2⟩
      · rcases hreq with hreq | hreq
        · exact absurd hreq hold
        · have hp : (dt.comp c).hasPin (dt.comp c2).inputOffset := by
            by_contra hcon
            rw [decide_eq_false hcon] at hreq
            exact Bool.noConfusion hreq
          have hcc : c2 = c := by
            by_contra hne
            exact hdisj c2 hc2 hne _ (hoff c2 hc2 hrd) hp
          subst hcc
          refine ⟨bit - (dt.comp c2).inputOffset, by unfold LUT.hasPin at hcp; omega, ?_, ?_⟩
          · have : (dt.comp c2).inputOffset + (bit - (dt.comp c2).inputOffset) = bit := by
              unfold LUT.hasPin at hcp; omega
            rw [this, getD_set_self _ _ _ _ (by rw [hwl]; exact hbit)]
          · have : (dt.comp c2).inputOffset + (bit - (dt.comp c2).inputOffset) = bit := by
              unfold LUT.hasPin at hcp; omega
            rw [this, DynamicBitmask.get_set hu]
            simp
  · rw [getD_set_ne _ _ _ _ _ (Ne.symm hki), getD_set_ne _ _ _ _ _ (Ne.symm hki)]
    refine ⟨a1, a2, a3, fun c2 hc2 hrd hreq => ?_⟩
    obtain ⟨j, hj, hw, hus⟩ := a4 c2 hc2 hrd hreq
    obtain ⟨k1, k2⟩ := hkeep _ hus _ hw
    exact ⟨j, hj, k1, k2⟩

end Prism

namespace Prism

/-- The loop over the list `which` keeps what holds of the requests, when
the pins of the list are distinct and not marked used, and leaves the
counts of the other system inputs as they were. -/
theorem DecisionTree.allocateBits_cover (dt : DecisionTree) (hwf : dt.WellFormed)
    (exprs : List (Option LogicExpression)) (compMapping : List Nat)
    (hcm : ∀ c, c < dt.nStaticComponents + dt.nConditionalComponents →
      ∀ p, (dt.comp c).hasPin p → compMapping.getD p 0 = c)
    (hpin : ∀ c, c < dt.nStaticComponents + dt.nConditionalComponents →
      ∀ i, DecisionTree.compReads exprs c i = true → 0 < (dt.comp c).inputSize)
    (i : Nat) (hi : i < dt.nInputs) :
    ∀ (l : List Nat) (s : DecisionTree.Allocation), l.Nodup →
      (∀ v ∈ l, v < dt.nVirtualInputs ∧ s.used.get v = false) → s.used.Valid →
      (∀ k, (s.inputReq.getD k DynamicBitmask.empty).Valid) →
      s.wireMapping.length = dt.nVirtualInputs → dt.CoverInv exprs s →
      dt.CoverInv exprs (l.foldl (dt.allocateBit compMapping i) s) ∧
      ∀ k, k ≠ i → (l.foldl (dt.allocateBit compMapping i) s).inputReqCount.getD k 0
        = s.inputReqCount.getD k 0 := by
  intro l
  induction l with
  | nil => intro s _ _ _ _ _ hc; exact ⟨hc, fun _ _ => rfl⟩
  | cons b l ih =>
    intro s hnd hl hu hr hw hc
    obtain ⟨hb1, hb2⟩ := hl b (List.mem_cons_self _ _)
    have h1 := dt.allocateBit_cover hwf exprs compMapping hcm hpin i hi s b hb1 hb2 hu hr hw hc
    obtain ⟨_, f2, f3, f4, _, f6⟩ := dt.allocateBits_spec compMapping i [b] s hu hr
    simp only [List.foldl_cons, List.foldl_nil] at f2 f3 f4 f6
    obtain ⟨g1, g2⟩ := ih (dt.allocateBit compMapping i s b) (List.nodup_cons.1 hnd).2
      (fun v hv => by
        refine ⟨(hl v (List.mem_cons_of_mem _ hv)).1, ?_⟩
        rw [f3 v, (hl v (List.mem_cons_of_mem _ hv)).2]
        have hvb : v ≠ b := fun h => (List.nodup_cons.1 hnd).1 (h ▸ hv)
        simp [hvb])
      f2 (fun k => (f6 k).1) (by rw [f4]; exact hw) h1
    rw [List.foldl_cons]
    refine ⟨g1, fun k hk => ?_⟩
    rw [g2 k hk]
    simp only [DecisionTree.allocateBit]
    exact getD_set_ne _ _ _ _ _ (Ne.symm hk)

/-- A round of the allocation that returns keeps what holds of the requests,
and leaves the counts of the other system inputs as they were. -/
theorem DecisionTree.allocateRound_cover (dt : DecisionTree) (hwf : dt.WellFormed)
    (exprs : List (Option LogicExpression)) (compMapping : List Nat)
    (hcm : ∀ c, c < dt.nStaticComponents + dt.nConditionalComponents →
      ∀ p, (dt.comp c).hasPin p → compMapping.getD p 0 = c)
    (hpin : ∀ c, c < dt.nStaticComponents + dt.nConditionalComponents →
      ∀ i, DecisionTree.compReads exprs c i = true → 0 < (dt.comp c).inputSize)
    (i : Nat) (hi : i < dt.nInputs) (s t : DecisionTree.Allocation) (muxes : List Nat)
    (hs : dt.AllocInv s muxes) (hc : dt.CoverInv exprs s)
    (h : dt.allocateRound compMapping i s = .ok t) :
    (∃ muxes2, dt.AllocInv t muxes2) ∧ dt.CoverInv exprs t ∧
    ∀ k, k ≠ i → t.inputReqCount.getD k 0 = s.inputReqCount.getD k 0 := by
  obtain ⟨sel, h1, h2⟩ := dt.allocateRound_inv hwf.wires_eq compMapping i s t muxes hs h
  have hfresh : sel ∉ muxes := by
    have := h1.2.2.2.1
    rw [List.nodup_append] at this
    exact fun hcon => this.2.2 hcon (List.mem_singleton_self sel)
  obtain ⟨a1, a2, a3, _, _, _, _, a8, _, _⟩ := hs
  unfold DecisionTree.allocateRound at h
  simp only at h
  cases hbf : dt.wires.bestFit
      (DecisionTree.demandMask (s.inputReq.getD i DynamicBitmask.empty)
        s.used).toAbstractBufferBitmask (s.inputReqCount.getD i 0) [] with
  | error e => rw [hbf] at h; exact Except.noConfusion h
  | ok which =>
    rw [hbf] at h
    simp only [Except.ok.injEq] at h
    obtain ⟨f1, _, _, _, _, _⟩ := dt.allocateBits_spec compMapping i which s a1
      (fun k => (a2 k).1)
    have hwhich : which = dt.wires.outputsOf sel := by
      rw [← h] at h2
      simp only at h2
      rw [f1] at h2
      have := List.append_cancel_left h2
      simp only [List.cons.injEq, Prod.mk.injEq, true_and, and_true] at this
      exact this
    subst hwhich
    obtain ⟨g1, g2⟩ := dt.allocateBits_cover hwf exprs compMapping hcm hpin i hi
      (dt.wires.outputsOf sel) s ((List.nodup_range _).filter _)
      (fun v hv => by
        obtain ⟨v1, v2⟩ := (dt.wires.mem_outputsOf sel v).1 hv
        refine ⟨by rw [← hwf.wires_eq]; exact v1, ?_⟩
        cases hu : s.used.get v
        · rfl
        · have := ((a8 v).1 hu).2
          rw [v2] at this
          exact absurd this hfresh)
      a1 (fun k => (a2 k).1) a3 hc
    refine ⟨⟨_, h1⟩, ?_, ?_⟩
    · rw [← h]; exact g1
    · intro k hk; rw [← h]; exact g2 k hk

/-- The rounds for the system input `i`, when they end: they keep what
holds of the requests, `inputReqCount[i]` is 0, and the counts of the other
system inputs are as they were. -/
theorem DecisionTree.allocateInput_cover (dt : DecisionTree) (hwf : dt.WellFormed)
    (exprs : List (Option LogicExpression)) (compMapping : List Nat)
    (hcm : ∀ c, c < dt.nStaticComponents + dt.nConditionalComponents →
      ∀ p, (dt.comp c).hasPin p → compMapping.getD p 0 = c)
    (hpin : ∀ c, c < dt.nStaticComponents + dt.nConditionalComponents →
      ∀ i, DecisionTree.compReads exprs c i = true → 0 < (dt.comp c).inputSize)
    (i : Nat) (hi : i < dt.nInputs) :
    ∀ (fuel : Nat) (s t : DecisionTree.Allocation),
      (∃ muxes, dt.AllocInv s muxes) → dt.CoverInv exprs s →
      dt.allocateInput compMapping i fuel s = .ok t →
      (∃ muxes, dt.AllocInv t muxes) ∧ dt.CoverInv exprs t ∧ t.inputReqCount.getD i 0 = 0 ∧
      ∀ k, k ≠ i → t.inputReqCount.getD k 0 = s.inputReqCount.getD k 0 := by
  intro fuel
  induction fuel with
  | zero =>
    intro s t hs hc h
    unfold DecisionTree.allocateInput at h
    by_cases hcnt : s.inputReqCount.getD i 0 > 0
    · rw [if_pos hcnt] at h; exact Except.noConfusion h
    · rw [if_neg hcnt] at h
      simp only [Except.ok.injEq] at h
      subst h
      exact ⟨hs, hc, by omega, fun _ _ => rfl⟩
  | succ fuel ih =>
    intro s t hs hc h
    unfold DecisionTree.allocateInput at h
    by_cases hcnt : s.inputReqCount.getD i 0 > 0
    · rw [if_pos hcnt] at h
      cases hrd : dt.allocateRound compMapping i s with
      | error e => rw [hrd] at h; exact Except.noConfusion h
      | ok u =>
        rw [hrd] at h
        simp only at h
        obtain ⟨muxes, hm⟩ := hs
        obtain ⟨r1, r2, r3⟩ := dt.allocateRound_cover hwf exprs compMapping hcm hpin i hi s u
          muxes hm hc hrd
        obtain ⟨q1, q2, q3, q4⟩ := ih u t r1 r2 h
        exact ⟨q1, q2, q3, fun k hk => by rw [q4 k hk, r3 k hk]⟩
    · rw [if_neg hcnt] at h
      simp only [Except.ok.injEq] at h
      subst h
      exact ⟨hs, hc, by omega, fun _ _ => rfl⟩

end Prism

namespace Prism

/-- The requests that the loop over the components leaves satisfy what
holds of the requests in the allocation, before its first step. -/
theorem DecisionTree.coverInv_init (dt : DecisionTree) (hwf : dt.WellFormed)
    (exprs : List (Option LogicExpression)) (req : DecisionTree.Requirements)
    (hr : dt.ReqInv exprs req (dt.nStaticComponents + dt.nConditionalComponents)) :
    dt.CoverInv exprs
      { inputReqCount := req.inputReqCount
        inputReq := req.inputReq
        wireMapping := List.replicate dt.nVirtualInputs 0
        used := DynamicBitmask.empty
        rounds := [] } := by
  obtain ⟨r1, r2, _, r4, r5, _, r7⟩ := hr
  refine ⟨r1, r2, fun i _ => ?_⟩
  simp only
  have hdisj : ∀ c, c < dt.nStaticComponents + dt.nConditionalComponents →
      ∀ c2, c2 < dt.nStaticComponents + dt.nConditionalComponents →
      ∀ p, (dt.comp c).hasPin p → (dt.comp c2).hasPin p → c2 = c := by
    intro c hc c2 hc2 p hp hp2
    by_contra hne
    have := hwf.pins_apart c2 hc2 c hc hne
    unfold LUT.hasPin at hp hp2
    omega
  have hset : ∀ c, c < dt.nStaticComponents + dt.nConditionalComponents →
      DecisionTree.compReads exprs c i = true →
      (req.inputReq.getD i DynamicBitmask.empty).get (dt.comp c).inputOffset = true := by
    intro c hc hrd
    rw [(r4 i).2]
    refine ⟨c, hc, hrd, ?_⟩
    have := r7 c hc i hrd
    unfold LUT.hasPin; omega
  refine ⟨fun c hc p hp => ?_, fun p hp => ?_, ?_, fun c hc hrd hreq => ?_⟩
  · have hp0 : (dt.comp c).hasPin (dt.comp c).inputOffset := by
      unfold LUT.hasPin at hp ⊢; omega
    rw [Bool.eq_iff_iff, (r4 i).2, (r4 i).2]
    constructor
    · rintro ⟨c2, hc2, h1, h2⟩
      have := hdisj c hc c2 hc2 p hp h2
      subst this
      exact ⟨c2, hc2, h1, hp0⟩
    · rintro ⟨c2, hc2, h1, h2⟩
      have := hdisj c hc c2 hc2 _ hp0 h2
      subst this
      exact ⟨c2, hc2, h1, hp⟩
  · obtain ⟨c, hc, h1, h2⟩ := ((r4 i).2 p).1 hp
    exact ⟨c, hc, h2, h1⟩
  · rw [r5 i]
    congr 1
    apply List.filter_congr
    intro c hc
    cases hrd : DecisionTree.compReads exprs c i
    · rfl
    · rw [hset c (List.mem_range.1 hc) hrd]; rfl
  · rw [hset c hc hrd] at hreq
    exact Bool.noConfusion hreq

/-- The allocation, when it returns: every component whose expression reads
a system input has a pin that is wired to this input. -/
theorem DecisionTree.allocate_covers (dt : DecisionTree) (hwf : dt.WellFormed)
    (exprs : List (Option LogicExpression))
    (hin : ∀ c, c < dt.nStaticComponents + dt.nConditionalComponents →
      ∀ i, DecisionTree.compReads exprs c i = true → i < dt.nInputs)
    (req : DecisionTree.Requirements) (hreq : dt.collectRequirements exprs = .ok req)
    (alloc : DecisionTree.Allocation) (h : dt.allocate req = .ok alloc) :
    alloc.wireMapping.length = dt.nVirtualInputs ∧
    ∀ c, c < dt.nStaticComponents + dt.nConditionalComponents →
      ∀ i, DecisionTree.compReads exprs c i = true →
      ∃ j, j < (dt.comp c).inputSize ∧
        alloc.wireMapping.getD ((dt.comp c).inputOffset + j) 0 = i := by
  have hr := dt.collectRequirements_spec hwf exprs hin req hreq
  have hinit := dt.coverInv_init hwf exprs req hr
  obtain ⟨_, _, _, r4, _, r6, r7⟩ := hr
  have hbound : ∀ k, (req.inputReq.getD k DynamicBitmask.empty).Valid ∧
      ∀ p, (req.inputReq.getD k DynamicBitmask.empty).get p = true →
        p < dt.wires.nVirtualOutput := by
    intro k
    refine ⟨(r4 k).1, fun p hp => ?_⟩
    obtain ⟨c, hc, _, h2⟩ := ((r4 k).2 p).1 hp
    have := hwf.pins_le c hc
    rw [hwf.wires_eq]
    unfold LUT.hasPin at h2
    omega
  unfold DecisionTree.allocate at h
  have key : (∃ muxes, dt.AllocInv alloc muxes) ∧ dt.CoverInv exprs alloc ∧
      ∀ k, k < dt.nInputs → alloc.inputReqCount.getD k 0 = 0 := by
    refine forLoopE_range_inv
      (fun (s : DecisionTree.Allocation) (b : Nat) =>
        (∃ muxes, dt.AllocInv s muxes) ∧ dt.CoverInv exprs s ∧
          ∀ k, k < b → s.inputReqCount.getD k 0 = 0)
      dt.nInputs _ _ (fun _ _ _ => rfl)
      (fun s b t hb hp ht => by
        obtain ⟨q1, q2, q3, q4⟩ := dt.allocateInput_cover hwf exprs req.compMapping r6 r7 b hb _
          s t hp.1 hp.2.1 ht
        refine ⟨q1, q2, fun k hk => ?_⟩
        by_cases hkb : k = b
        · rw [hkb]; exact q3
        · rw [q4 k hkb]; exact hp.2.2 k (by omega))
      dt.nInputs _ 0 alloc (by omega) (Nat.zero_le _) ?_ h
    exact ⟨⟨[], DynamicBitmask.valid_empty, hbound, List.length_replicate _ _, List.nodup_nil,
      fun m hm => absurd hm (List.not_mem_nil m), rfl,
      fun r hr => absurd hr (List.not_mem_nil r), fun v => by
        simp only [DynamicBitmask.get_empty, List.not_mem_nil, and_false]
        exact ⟨fun h => Bool.noConfusion h, fun h => h.elim⟩,
      fun r hr => absurd hr (List.not_mem_nil r), fun v _ => by
        simp only [List.getD_eq_getElem?_getD, List.getElem?_replicate]
        split <;> rfl⟩, hinit, fun k hk => absurd hk (Nat.not_lt_zero k)⟩
  obtain ⟨⟨muxes, hm⟩, ⟨_, _, hall⟩, hzero⟩ := key
  refine ⟨hm.2.2.1, fun c hc i hrd => ?_⟩
  have hi := hin c hc i hrd
  obtain ⟨_, _, a3, a4⟩ := hall i hi
  rw [hzero i hi] at a3
  have hoff : (alloc.inputReq.getD i DynamicBitmask.empty).get (dt.comp c).inputOffset
      = false := by
    cases hg : (alloc.inputReq.getD i DynamicBitmask.empty).get (dt.comp c).inputOffset
    · rfl
    · have hmem : c ∈ (List.range (dt.nStaticComponents + dt.nConditionalComponents)).filter
          (fun c => DecisionTree.compReads exprs c i
            && (alloc.inputReq.getD i DynamicBitmask.empty).get (dt.comp c).inputOffset) := by
        rw [List.mem_filter]
        exact ⟨List.mem_range.2 hc, by rw [hrd, hg]; rfl⟩
      have := List.length_pos_of_mem hmem
      omega
  obtain ⟨j, hj, hw, _⟩ := a4 c hc hrd hoff
  exact ⟨j, hj, hw⟩

end Prism

namespace Prism

/-- A slice that `init()` leaves with bits starts where it was asked to. -/
theorem BitmaskSlice.create_offset (src : BitmaskRef) (off sz : Nat)
    (h : 0 < (BitmaskSlice.create src off sz).nbits) :
    (BitmaskSlice.create src off sz).offset = off := by
  revert h
  unfold BitmaskSlice.create
  simp only
  split <;> split <;> omega

/-- The slice that `BitmaskSlice` makes for a field, on a valid object of
the size of the object it was made on: it lies in the object and in the
field, and starts where the field starts when it is not empty. -/
theorem BitmaskSlice.on_create (src0 src : BitmaskRef) (hv : src.Valid)
    (hs : src0.size = src.size) (off sz : Nat) :
    ((BitmaskSlice.create src0 off sz).on src).IsSliceOf src
      (BitmaskSlice.create src0 off sz).offset (BitmaskSlice.create src0 off sz).nbits ∧
    (BitmaskSlice.create src0 off sz).offset + (BitmaskSlice.create src0 off sz).nbits
      ≤ src.size ∧
    (BitmaskSlice.create src0 off sz).nbits ≤ sz ∧
    (0 < (BitmaskSlice.create src0 off sz).nbits →
      (BitmaskSlice.create src0 off sz).offset = off) := by
  refine ⟨BitmaskRef.isSliceOf_on src hv _, ?_, ?_, ?_⟩
  · rw [← hs]; exact (BitmaskSlice.create_le src0 off sz).1
  · exact (BitmaskSlice.create_le src0 off sz).2.1
  · exact BitmaskSlice.create_offset src0 off sz

/-- The object behind a slice made for a field, after writes through the
slice: it is valid, of the size it had, and as it was outside the field. -/
theorem BitmaskSlice.source_of_create (src0 src : BitmaskRef)
    (off sz : Nat) (r : BitmaskRef)
    (hr : r.IsSliceOf src (BitmaskSlice.create src0 off sz).offset
      (BitmaskSlice.create src0 off sz).nbits) :
    r.source.Valid ∧ r.source.size = src.size ∧
    ∀ p, ¬ (off ≤ p ∧ p < off + sz) → r.source.get p = src.get p := by
  obtain ⟨s1, s2, _, s4, _⟩ := hr.source_spec
  refine ⟨s1, s2, fun p hp => s4 p ?_⟩
  have h1 := (BitmaskSlice.create_le src0 off sz).2.1
  by_cases hpos : 0 < (BitmaskSlice.create src0 off sz).nbits
  · have h2 := BitmaskSlice.create_offset src0 off sz hpos
    omega
  · omega

/-- The block of the jump in the first loop of `writeState`, when it
succeeds: the word stays valid and of its size, and the guard of the
transition is stored at `exprs[comp]`. -/
theorem DecisionTree.writeJump_weak (stew : STEW) (vs : VirtualState)
    (s t : DecisionTree.Breakdown) (x : StateTransition) (hv : s.out.Valid)
    (h : DecisionTree.writeJump stew vs s x = .ok t) :
    t.out.Valid ∧ t.out.size = s.out.size ∧ t.exprs = s.exprs.set s.comp (some x.expr) ∧
    t.comp = s.comp := by
  unfold DecisionTree.writeJump at h
  simp only at h
  split at h
  · exact Except.noConfusion h
  · split at h
    · exact Except.noConfusion h
    · rename_i sm _
      simp only [StateTransition.writeState] at h
      split at h
      · exact Except.noConfusion h
      · rename_i r hr
        simp only [Except.ok.injEq] at h
        subst h
        split at hr
        · rename_i sl hw
          simp only [Except.ok.injEq] at hr
          subst hr
          obtain ⟨o1, o2, _, _⟩ := BitmaskSlice.on_create s.out s.out hv rfl
            (stew.slice .JMP s.comp).offset (stew.slice .JMP s.comp).size
          have hsl := writeInteger_slice_frame s.out _ _ o2 _ sl _ o1 hw
          obtain ⟨q1, q2, _⟩ := BitmaskSlice.source_of_create s.out s.out _ _ sl hsl
          exact ⟨q1, q2, rfl, rfl⟩
        · exact Except.noConfusion hr

/-- The body of the first loop of `writeState`, when it succeeds: the word
stays valid and of its size, and `exprs` is as it was or holds the guard of
the transition at one more place. -/
theorem DecisionTree.writeTransition_weak (dt : DecisionTree) (stew : STEW) (vs : VirtualState)
    (s t : DecisionTree.Breakdown) (x : StateTransition) (hv : s.out.Valid)
    (h : dt.writeTransition stew vs s x = .ok t) :
    t.out.Valid ∧ t.out.size = s.out.size ∧
    (t.exprs = s.exprs ∨ t.exprs = s.exprs.set s.comp (some x.expr)) ∧
    t.comp = s.comp + 1 := by
  unfold DecisionTree.writeTransition at h
  simp only at h
  split at h
  · exact Except.noConfusion h
  · split at h
    · exact Except.noConfusion h
    · rename_i u hu
      split at h
      · exact Except.noConfusion h
      · rename_i sl hw
        simp only [Except.ok.injEq] at h
        subst h
        have hu2 : u.out.Valid ∧ u.out.size = s.out.size ∧
            (u.exprs = s.exprs ∨ u.exprs = s.exprs.set s.comp (some x.expr)) ∧
            u.comp = s.comp := by
          split at hu
          · obtain ⟨j1, j2, j3, j4⟩ := DecisionTree.writeJump_weak stew vs s u x hv hu
            exact ⟨j1, j2, Or.inr j3, j4⟩
          · simp only [Except.ok.injEq] at hu
            subst hu
            exact ⟨hv, rfl, Or.inl rfl, rfl⟩
        obtain ⟨u1, u2, u3, u4⟩ := hu2
        obtain ⟨o1, o2, _, _⟩ := BitmaskSlice.on_create s.out u.out u1 u2.symm
          (stew.slice .OUT s.comp).offset (stew.slice .OUT s.comp).size
        have hsl := (x.writeOutput_ok u.out _ _ o2 _ sl o1 hw).1
        obtain ⟨q1, q2, _⟩ := BitmaskSlice.source_of_create s.out u.out _ _ sl hsl
        exact ⟨q1, by rw [q2, u2], u3, by simp only [u4]⟩

/-- The first loop of `writeState`, when it succeeds: the word stays valid,
and every expression in `exprs` is the guard of a transition of the
state. -/
theorem DecisionTree.writeTransitions_weak (dt : DecisionTree) (out : BitmaskRef) (stew : STEW)
    (vs : VirtualState) (stateMap : StateMap) (r : DecisionTree.Breakdown) (hv : out.Valid)
    (h : dt.writeTransitions out stew vs stateMap = .ok r) :
    r.out.Valid ∧ r.out.size = out.size ∧
    ∀ c e, r.exprs.getD c none = some e → ∃ x ∈ vs.transitions, x.expr = e := by
  unfold DecisionTree.writeTransitions at h
  refine forEachE_inv
    (fun (s : DecisionTree.Breakdown) => s.out.Valid ∧ s.out.size = out.size ∧
      ∀ c e, s.exprs.getD c none = some e → ∃ x ∈ vs.transitions, x.expr = e)
    (dt.writeTransition stew vs) vs.transitions ?_ _ r ?_ h
  · intro s x t hx hp ht
    obtain ⟨w1, w2, w3, _⟩ := dt.writeTransition_weak stew vs s t x hp.1 ht
    refine ⟨w1, by rw [w2]; exact hp.2.1, fun c e hce => ?_⟩
    rcases w3 with w3 | w3
    · rw [w3] at hce; exact hp.2.2 c e hce
    · rw [w3] at hce
      rcases getD_set_cases s.exprs s.comp c (some x.expr) none with hk | ⟨_, hk⟩
      · rw [hk] at hce; exact hp.2.2 c e hce
      · rw [hk] at hce
        simp only [Option.some.injEq] at hce
        exact ⟨x, hx, hce⟩
  · refine ⟨hv, rfl, fun c e hce => ?_⟩
    simp only [List.getD_eq_getElem?_getD, List.getElem?_replicate] at hce
    split at hce <;> exact Option.noConfusion hce

/-- The block `if (vs.partial)` of `writeState`, when it succeeds, leaves a
valid word. -/
theorem DecisionTree.writePartial_weak (stew : STEW) (vs : VirtualState) (out out1 : BitmaskRef)
    (comp : Nat) (hv : out.Valid)
    (h : DecisionTree.writePartial stew vs out comp = .ok out1) : out1.Valid := by
  unfold DecisionTree.writePartial at h
  split at h
  · simp only at h
    split at h
    · exact Except.noConfusion h
    · rename_i sl hc
      obtain ⟨o1, o2, _, _⟩ := BitmaskSlice.on_create out out hv rfl
        (stew.slice .OUT comp).offset (stew.slice .OUT comp).size
      have hsl := BitmaskRef.copy_ok _ out _ _ o2 _ sl o1 hc
      obtain ⟨q1, _, _⟩ := BitmaskSlice.source_of_create out out _ _ sl hsl
      exact (BitmaskRef.set_ok sl.source _ out1 q1 h).1
  · simp only [Except.ok.injEq] at h
    subst h
    exact hv

/-- Every expression that the loop over the conditional outputs leaves in
`exprs` was there or is the expression of a conditional output. -/
theorem DecisionTree.assignConditional_origin (dt : DecisionTree) (vs : VirtualState)
    (exprs : List (Option LogicExpression)) (c : Nat) (e : LogicExpression)
    (h : (dt.assignConditional vs exprs).getD c none = some e) :
    exprs.getD c none = some e ∨ ∃ o ∈ vs.conditionalOutputs, o.expr = e := by
  unfold DecisionTree.assignConditional at h
  have key : ∀ (l : List ConditionalOutput) (ex : List (Option LogicExpression)),
      (l.foldl (fun exprs outp =>
          exprs.set (dt.nStaticComponents + outp.output) (some outp.expr)) ex).getD c none
        = some e →
      ex.getD c none = some e ∨ ∃ o ∈ l, o.expr = e := by
    intro l
    induction l with
    | nil => intro ex hex; exact Or.inl hex
    | cons o l ih =>
      intro ex hex
      rw [List.foldl_cons] at hex
      rcases ih _ hex with h1 | ⟨o2, ho2, h2⟩
      · rcases getD_set_cases ex (dt.nStaticComponents + o.output) c (some o.expr) none
          with hk | ⟨_, hk⟩
        · rw [hk] at h1; exact Or.inl h1
        · rw [hk] at h1
          simp only [Option.some.injEq] at h1
          exact Or.inr ⟨o, List.mem_cons_self _ _, h1⟩
      · exact Or.inr ⟨o2, List.mem_cons_of_mem _ ho2, h2⟩
  exact key _ _ h

/-- The first loop of `writeState`, when it succeeds, leaves in `comp` the
number of the transitions. -/
theorem DecisionTree.writeTransitions_comp (dt : DecisionTree) (out : BitmaskRef) (stew : STEW)
    (vs : VirtualState) (stateMap : StateMap) (r : DecisionTree.Breakdown) (hv : out.Valid)
    (h : dt.writeTransitions out stew vs stateMap = .ok r) :
    r.comp = vs.transitions.length := by
  unfold DecisionTree.writeTransitions at h
  exact (forEachE_inv_idx (fun (s : DecisionTree.Breakdown) k => s.out.Valid ∧ s.comp = k)
    (dt.writeTransition stew vs) vs.transitions
    (fun a k x b _ ha hb => by
      obtain ⟨w1, _, _, w4⟩ := dt.writeTransition_weak stew vs a b x ha.1 hb
      exact ⟨w1, by rw [w4, ha.2]⟩)
    vs.transitions [] _ r rfl ⟨hv, rfl⟩ h).2

end Prism

namespace Prism

/-- `LUT::write` through a slice of `src`, when it succeeds: the table fits
the slice, the result is a slice of `src`, and every row holds the value of
the expression on the mask of the row. -/
theorem LUT.write_slice_ok (c : LUT) (grp : BitGroup) (e : LogicExpression)
    (src : BitmaskRef) (off n : Nat) (hle : off + n ≤ src.size) (m r : BitmaskRef)
    (hm : m.IsSliceOf src off n) (h : c.write m grp e = .ok r) :
    2 ^ c.inputSize ≤ n ∧ r.IsSliceOf src off n ∧
    ∀ i, i < 2 ^ c.inputSize → ∃ mask, LUT.inputMask grp i = .ok mask ∧
      r.get i = e.resolveLogic mask.toAbstractBufferBitmask := by
  unfold LUT.write at h
  rw [Nat.one_shiftLeft] at h
  exact forLoopE_range_inv
    (fun (s : BitmaskRef) b => b ≤ n ∧ s.IsSliceOf src off n ∧
      ∀ i, i < b → ∃ mask, LUT.inputMask grp i = .ok mask ∧
        s.get i = e.resolveLogic mask.toAbstractBufferBitmask)
    (2 ^ c.inputSize) _ _ (fun _ _ _ => rfl)
    (fun s b t _ hp ht => by
      cases hmask : LUT.inputMask grp b with
      | error err => rw [hmask] at ht; exact Except.noConfusion ht
      | ok mask =>
        rw [hmask] at ht
        simp only at ht
        obtain ⟨w1, w2, w3⟩ := hp.2.1.through_write_ok hle ht
        refine ⟨by omega, w2, fun i hi => ?_⟩
        by_cases hib : i = b
        · subst hib
          exact ⟨mask, hmask, by rw [w3 i, if_pos rfl]⟩
        · obtain ⟨mk, h1, h2⟩ := hp.2.2 i (by omega)
          exact ⟨mk, h1, by rw [w3 i, if_neg hib]; exact h2⟩)
    (2 ^ c.inputSize) m 0 r (Nat.sub_le _ _) (Nat.zero_le _)
    ⟨Nat.zero_le _, hm, fun i hi => absurd hi (Nat.not_lt_zero i)⟩ h

/-- The body of the loop of `writeState` over the tables, when it succeeds:
the word stays valid and is as it was outside the CFG field of the
component, the table fits the field, and every row of the table holds the
value of the expression of the component on the mask of the row. -/
theorem DecisionTree.writeComponent_ok (dt : DecisionTree) (stew : STEW)
    (exprs : List (Option LogicExpression)) (wireMapping : List Nat) (out t : BitmaskRef)
    (comp : Nat) (hv : out.Valid)
    (h : dt.writeComponent stew exprs wireMapping out comp = .ok t) :
    t.Valid ∧ (∀ p, ¬ (stew.slice .CFG comp).covers p → t.get p = out.get p) ∧
    2 ^ (dt.comp comp).inputSize ≤ (stew.slice .CFG comp).size ∧
    ∀ i, i < 2 ^ (dt.comp comp).inputSize →
      ∃ mask, LUT.inputMask (.slice (.mapped wireMapping) (dt.comp comp).inputOffset
          (dt.comp comp).inputSize) i = .ok mask ∧
        t.get ((stew.slice .CFG comp).offset + i)
          = (dt.componentExpr exprs comp).resolveLogic mask.toAbstractBufferBitmask := by
  unfold DecisionTree.writeComponent at h
  simp only at h
  have hcmp : dt.components.getD comp ⟨0, 0⟩ = dt.comp comp := rfl
  rw [hcmp] at h
  split at h
  · rename_i sl hw
    simp only [Except.ok.injEq] at h
    subst h
    obtain ⟨o1, o2, o3, o4⟩ := BitmaskSlice.on_create out out hv rfl
      (stew.slice .CFG comp).offset (stew.slice .CFG comp).size
    obtain ⟨l1, l2, l3⟩ := (dt.comp comp).write_slice_ok _ _ out _ _ o2 _ sl o1 hw
    obtain ⟨q1, _, q3⟩ := BitmaskSlice.source_of_create out out _ _ sl l2
    have hpos : 0 < (BitmaskSlice.create out (stew.slice .CFG comp).offset
        (stew.slice .CFG comp).size).nbits := by
      have : 0 < 2 ^ (dt.comp comp).inputSize := Nat.two_pow_pos _
      omega
    have hoff := o4 hpos
    refine ⟨q1, fun p hp => q3 p hp, by omega, fun i hi => ?_⟩
    obtain ⟨mask, h1, h2⟩ := l3 i hi
    refine ⟨mask, h1, ?_⟩
    rw [← h2, ← l2.source_spec.2.2.2.2 i (by omega), hoff, Nat.add_comm]
  · exact Except.noConfusion h

/-- The loop of `writeState` over the tables, when it succeeds on CFG fields
that do not overlap: the word stays valid, every table fits its field, and
every row of every table holds the value of the expression of its component
on the mask of the row. -/
theorem DecisionTree.writeComponents_ok (dt : DecisionTree) (stew : STEW)
    (hst : dt.TablesApart stew)
    (exprs : List (Option LogicExpression)) (wireMapping : List Nat) (out t : BitmaskRef)
    (hv : out.Valid) (h : dt.writeComponents stew exprs wireMapping out = .ok t) :
    t.Valid ∧ ∀ comp, comp < dt.nStaticComponents + dt.nConditionalComponents →
      2 ^ (dt.comp comp).inputSize ≤ (stew.slice .CFG comp).size ∧
      ∀ i, i < 2 ^ (dt.comp comp).inputSize →
        ∃ mask, LUT.inputMask (.slice (.mapped wireMapping) (dt.comp comp).inputOffset
            (dt.comp comp).inputSize) i = .ok mask ∧
          t.get ((stew.slice .CFG comp).offset + i)
            = (dt.componentExpr exprs comp).resolveLogic mask.toAbstractBufferBitmask := by
  unfold DecisionTree.writeComponents at h
  have key := forLoopE_range_inv
    (fun (s : BitmaskRef) b => s.Valid ∧ ∀ comp, comp < b →
      2 ^ (dt.comp comp).inputSize ≤ (stew.slice .CFG comp).size ∧
      ∀ i, i < 2 ^ (dt.comp comp).inputSize →
        ∃ mask, LUT.inputMask (.slice (.mapped wireMapping) (dt.comp comp).inputOffset
            (dt.comp comp).inputSize) i = .ok mask ∧
          s.get ((stew.slice .CFG comp).offset + i)
            = (dt.componentExpr exprs comp).resolveLogic mask.toAbstractBufferBitmask)
    (dt.nStaticComponents + dt.nConditionalComponents) _ _ (fun _ _ _ => rfl)
    (fun s b u hb hp hu => by
      obtain ⟨w1, w2, w3, w4⟩ := dt.writeComponent_ok stew exprs wireMapping s u b hp.1 hu
      refine ⟨w1, fun comp hc => ?_⟩
      by_cases hcb : comp = b
      · subst hcb; exact ⟨w3, w4⟩
      · obtain ⟨p1, p2⟩ := hp.2 comp (by omega)
        refine ⟨p1, fun i hi => ?_⟩
        obtain ⟨mask, m1, m2⟩ := p2 i hi
        refine ⟨mask, m1, ?_⟩
        rw [w2 _ ?_]
        · exact m2
        · have hd := (hst comp (by omega)).2 b hb hcb
          unfold STEW.Item.disjoint at hd
          unfold STEW.Item.covers
          omega)
    (dt.nStaticComponents + dt.nConditionalComponents) out 0 t (by omega) (Nat.zero_le _)
    ⟨hv, fun comp hc => absurd hc (Nat.not_lt_zero comp)⟩ h
  exact key

/-- `InputMux::write`, when it succeeds, leaves the word as it was outside
the `nMux` fields of `nBits` bits from the offset of the MUX item on. -/
theorem InputMux.write_frame (muxes : InputMux) (mask t : BitmaskRef) (stew : STEW)
    (mapping : List Nat) (hv : mask.Valid) (h : muxes.write mask stew mapping = .ok t) :
    t.Valid ∧ ∀ p, ¬ ((stew.slice .MUX 0).offset ≤ p ∧
      p < (stew.slice .MUX 0).offset + muxes.nMux * muxes.nBits) → t.get p = mask.get p := by
  unfold InputMux.write at h
  simp only at h
  exact forLoopE_range_inv
    (fun (s : BitmaskRef) (_ : Nat) => s.Valid ∧ ∀ p, ¬ ((stew.slice .MUX 0).offset ≤ p ∧
      p < (stew.slice .MUX 0).offset + muxes.nMux * muxes.nBits) → s.get p = mask.get p)
    muxes.nMux _ _ (fun _ _ _ => rfl)
    (fun s b u hb hp hu => by
      split at hu
      · rename_i sl hw
        simp only [Except.ok.injEq] at hu
        subst hu
        obtain ⟨o1, o2, _, _⟩ := BitmaskSlice.on_create s s hp.1 rfl
          (b * muxes.nBits + (stew.slice .MUX 0).offset) muxes.nBits
        have hsl := writeInteger_slice_frame s _ _ o2 _ sl _ o1 hw
        obtain ⟨q1, _, q3⟩ := BitmaskSlice.source_of_create s s _ _ sl hsl
        refine ⟨q1, fun p hpp => ?_⟩
        rw [q3 p ?_]
        · exact hp.2 p hpp
        · have : (b + 1) * muxes.nBits ≤ muxes.nMux * muxes.nBits :=
            Nat.mul_le_mul_right _ hb
          rw [Nat.add_mul, Nat.one_mul] at this
          omega
      · exact Except.noConfusion hu)
    muxes.nMux mask 0 t (by omega) (Nat.zero_le _) ⟨hv, fun _ _ => rfl⟩ h

end Prism

namespace Prism

/-- An expression reads system inputs below the size of the mask that
`collectInputs` makes of them. -/
theorem LogicExpression.readsInput_lt (e : LogicExpression) (p : Nat)
    (h : e.readsInput p = true) : p < (e.collectInputs DynamicBitmask.empty).size := by
  obtain ⟨_, h2⟩ := LogicExpression.collectInputsLogic_spec e DynamicBitmask.valid_empty
  apply DynamicBitmask.get_lt_size
  rw [h2 p, DynamicBitmask.get_empty, Bool.false_or]
  exact h

/-- The pins of a component through the group that `writeState` passes to
its table. -/
theorem DecisionTree.pinGroup_map (wireMapping : List Nat) (off n j : Nat) (hj : j < n)
    (hle : off + n ≤ wireMapping.length) :
    (BitGroup.slice (.mapped wireMapping) off n).map j = .ok (wireMapping.getD (off + j) 0) := by
  rw [BitGroup.map, if_pos hj, BitGroup.map,
    if_pos (show j + off < MappedBitGroup.size wireMapping by
      unfold MappedBitGroup.size; omega)]
  unfold MappedBitGroup.map
  rw [Nat.add_comm]

/-- C16: whenever `writeState` succeeds on a state word, decoding the word
reproduces the expression of every component that carries one. The word is
a valid object; the decision tree is well formed (one virtual output of the
wire map for every pin, pins of the components disjoint and covering,
fewer than 32 pins in a table); the CFG fields overlap neither one another
nor the field of the muxes; the guards and the expressions of the
conditional outputs of the state read system inputs below `nInputs`. Then
for every component `comp` whose entry of `exprs` is an expression `e`
(a transition guard or a conditional-output expression), for every
system-input vector `x` and every address `addr` of its table whose bit `j`
is `x[wireMapping[inputOffset + j]]`, the bit `addr` of the CFG field of
the component in the word on return is the value of `e` on `x`. -/
theorem writeState_round_trip (dt : DecisionTree) (out : BitmaskRef) (stew : STEW)
    (vs : VirtualState) (stateMap : StateMap) (uninit : List Nat) (w : DecisionTree.Written)
    (hv : out.Valid) (hwf : dt.WellFormed) (hst : dt.TablesApart stew)
    (hin : ∀ x ∈ vs.transitions,
      (x.expr.collectInputs DynamicBitmask.empty).size ≤ dt.nInputs)
    (hco : ∀ o ∈ vs.conditionalOutputs,
      (o.expr.collectInputs DynamicBitmask.empty).size ≤ dt.nInputs)
    (h : dt.writeStateFull out stew vs stateMap uninit = .ok w) :
    ∀ comp e, comp < dt.nStaticComponents + dt.nConditionalComponents →
      w.exprs.getD comp none = some e →
      ∀ (x : AbstractBufferBitmask) (addr : Nat), addr < 2 ^ (dt.comp comp).inputSize →
        (∀ j, j < (dt.comp comp).inputSize →
          addr.testBit j = x.get (w.wireMapping.getD ((dt.comp comp).inputOffset + j) 0)) →
        w.out.get ((stew.slice .CFG comp).offset + addr) = e.resolveLogic x := by
  obtain ⟨s, out1, req, alloc, out2, h1, h2, h3, h4, h5, h6, _, h8, h9, _⟩ :=
    dt.writeStateFull_ok out stew vs stateMap uninit w h
  obtain ⟨t1, _, t3⟩ := dt.writeTransitions_weak out stew vs stateMap s hv h1
  have hv1 := DecisionTree.writePartial_weak stew vs s.out out1 s.comp t1 h2
  -- the expressions read system inputs below `nInputs`
  have hsize : ∀ c e, (dt.assignConditional vs s.exprs).getD c none = some e →
      (e.collectInputs DynamicBitmask.empty).size ≤ dt.nInputs := by
    intro c e hce
    rcases dt.assignConditional_origin vs s.exprs c e hce with ho | ⟨o, ho, rfl⟩
    · obtain ⟨x, hx, rfl⟩ := t3 c e ho
      exact hin x hx
    · exact hco o ho
  have hread : ∀ c, c < dt.nStaticComponents + dt.nConditionalComponents →
      ∀ i, DecisionTree.compReads (dt.assignConditional vs s.exprs) c i = true →
        i < dt.nInputs := by
    intro c _ i hrd
    unfold DecisionTree.compReads at hrd
    cases hce : (dt.assignConditional vs s.exprs).getD c none with
    | none => rw [hce] at hrd; exact Bool.noConfusion hrd
    | some e =>
      rw [hce] at hrd
      exact Nat.lt_of_lt_of_le (e.readsInput_lt i hrd) (hsize c e hce)
  obtain ⟨hlen, hcover⟩ := dt.allocate_covers hwf _ hread req h3 alloc h4
  obtain ⟨hv2, htab⟩ := dt.writeComponents_ok stew hst _ alloc.wireMapping out1 out2 hv1 h5
  unfold WireMap.write at h6
  simp only at h6
  obtain ⟨_, hframe⟩ := InputMux.write_frame _ out2 w.out stew _ hv2 h6
  intro comp e hcomp hce x addr haddr hbits
  rw [h8] at hce
  rw [h9] at hbits
  obtain ⟨hfit, hrows⟩ := htab comp hcomp
  obtain ⟨mask, hm1, hm2⟩ := hrows addr haddr
  have hexpr : dt.componentExpr (dt.assignConditional vs s.exprs) comp = e := by
    unfold DecisionTree.componentExpr
    rw [hce]
  rw [hexpr] at hm2
  -- the writes of the muxes leave the table as it is
  have hfr : w.out.get ((stew.slice .CFG comp).offset + addr)
      = out2.get ((stew.slice .CFG comp).offset + addr) := by
    apply hframe
    have hd := (hst comp hcomp).1
    unfold STEW.Item.disjoint DecisionTree.muxField at hd
    simp only at hd
    omega
  rw [hfr, hm2]
  -- the mask of the row is `x` on the inputs wired to the pins
  obtain ⟨mask2, k1, _, k3⟩ := LUT.inputMask_of_consistent
    (.slice (.mapped alloc.wireMapping) (dt.comp comp).inputOffset (dt.comp comp).inputSize)
    (fun j => alloc.wireMapping.getD ((dt.comp comp).inputOffset + j) 0)
    (dt.comp comp).inputSize (fun p => x.get p)
    (fun j hj => DecisionTree.pinGroup_map alloc.wireMapping _ _ j hj (by
      rw [hlen]; exact hwf.pins_le comp hcomp))
    (by have := hwf.pins_small comp hcomp; omega) addr haddr hbits
  rw [hm1] at k1
  simp only [Except.ok.injEq] at k1
  subst k1
  apply LogicExpression.resolveLogic_congr
  intro p hp
  have hrd : DecisionTree.compReads (dt.assignConditional vs s.exprs) comp p = true := by
    unfold DecisionTree.compReads
    rw [hce]
    exact hp
  obtain ⟨j, hj, hw⟩ := hcover comp hcomp p hrd
  have := k3 p
  rw [decide_eq_true ⟨j, hj, hw⟩, Bool.and_true] at this
  exact this

end Prism

namespace Prism

/-- The decision tree of the example is well formed. -/
theorem Example.tree_wellFormed : Example.tree.WellFormed :=
  ⟨by decide, by decide, by decide, by decide, by decide, by decide⟩

/-- The words of the table of the example are valid objects. -/
theorem Example.word_valid (index : Nat) : (Example.word index).Valid :=
  ⟨BufferBitmask.buffer_valid_ofSize _, (BitmaskSlice.create_le _ _ _).1⟩

/-- Every choice of the bits of the pins is the address of a row of the
table. -/
theorem LUT.address_exists (f : Nat → Bool) : ∀ n,
    ∃ addr, addr < 2 ^ n ∧ ∀ j, j < n → addr.testBit j = f j := by
  intro n
  induction n with
  | zero => exact ⟨0, by decide, fun j hj => absurd hj (Nat.not_lt_zero j)⟩
  | succ n ih =>
    obtain ⟨a, ha, hb⟩ := ih
    cases hf : f n
    · refine ⟨a, by rw [Nat.pow_succ]; omega, fun j hj => ?_⟩
      by_cases hjn : j = n
      · rw [hjn, hf]
        exact Nat.testBit_lt_two_pow ha
      · exact hb j (by omega)
    · refine ⟨2 ^ n + a, by rw [Nat.pow_succ]; omega, fun j hj => ?_⟩
      by_cases hjn : j = n
      · rw [hjn, hf, Nat.testBit_two_pow_add_eq, Nat.testBit_lt_two_pow ha]
        rfl
      · have hj2 : j < n := by omega
        rw [← hb j hj2]
        have h1 := Nat.testBit_mod_two_pow (2 ^ n + a) n j
        rw [Nat.add_mod_left, Nat.mod_eq_of_lt ha, decide_eq_true hj2, Bool.true_and] at h1
        exact h1.symm

/-- C16 on the example: two static tables of 4 pins over an 8-bit input, and
the state with three guarded transitions and the implicit else, which
`splitState` makes into two words. `writeState` succeeds on both words, and
for every component that carries an expression, every input vector and the
address that the vector gives among the 16 of the table, the bit of the
table at the address is the value of the expression on the vector. -/
theorem writeState_round_trip_witness :
    Example.words.length = 2 ∧
    (∃ w, Example.tree.writeStateFull (Example.word 0) Example.stew
        (Example.words.getD 0 (VirtualState.create 0)) Example.stateMap
        (List.replicate 8 0) = .ok w ∧
      w.exprs.map Option.isSome = [true, true] ∧
      ∀ comp e, comp < Example.tree.nStaticComponents + Example.tree.nConditionalComponents →
        w.exprs.getD comp none = some e →
        ∀ (x : AbstractBufferBitmask) (addr : Nat),
          addr < 2 ^ (Example.tree.comp comp).inputSize →
          (∀ j, j < (Example.tree.comp comp).inputSize →
            addr.testBit j
              = x.get (w.wireMapping.getD ((Example.tree.comp comp).inputOffset + j) 0)) →
          w.out.get ((Example.stew.slice .CFG comp).offset + addr) = e.resolveLogic x) ∧
    (∃ w, Example.tree.writeStateFull (Example.word 1) Example.stew
        (Example.words.getD 1 (VirtualState.create 0)) Example.stateMap
        (List.replicate 8 0) = .ok w ∧
      w.exprs.map Option.isSome = [true, true] ∧
      ∀ comp e, comp < Example.tree.nStaticComponents + Example.tree.nConditionalComponents →
        w.exprs.getD comp none = some e →
        ∀ (x : AbstractBufferBitmask) (addr : Nat),
          addr < 2 ^ (Example.tree.comp comp).inputSize →
          (∀ j, j < (Example.tree.comp comp).inputSize →
            addr.testBit j
              = x.get (w.wireMapping.getD ((Example.tree.comp comp).inputOffset + j) 0)) →
          w.out.get ((Example.stew.slice .CFG comp).offset + addr) = e.resolveLogic x) := by
  refine ⟨by decide, ?_, ?_⟩
  · cases h : Example.tree.writeStateFull (Example.word 0) Example.stew
        (Example.words.getD 0 (VirtualState.create 0)) Example.stateMap
        (List.replicate 8 0) with
    | error e =>
      have ht : (Example.tree.writeStateFull (Example.word 0) Example.stew
          (Example.words.getD 0 (VirtualState.create 0)) Example.stateMap
          (List.replicate 8 0)).toBool = true := by decide
      rw [h] at ht
      exact Bool.noConfusion ht
    | ok w =>
      have he : (Example.tree.writeStateFull (Example.word 0) Example.stew
          (Example.words.getD 0 (VirtualState.create 0)) Example.stateMap
          (List.replicate 8 0)).map (fun w => w.exprs.map Option.isSome)
          = .ok [true, true] := by decide
      rw [h] at he
      simp only [Except.map, Except.ok.injEq] at he
      exact ⟨w, rfl, he, writeState_round_trip Example.tree (Example.word 0) Example.stew
        (Example.words.getD 0 (VirtualState.create 0)) Example.stateMap
        (List.replicate 8 0) w (Example.word_valid 0) Example.tree_wellFormed (by decide)
        (by decide) (by decide) h⟩
  · cases h : Example.tree.writeStateFull (Example.word 1) Example.stew
        (Example.words.getD 1 (VirtualState.create 0)) Example.stateMap
        (List.replicate 8 0) with
    | error e =>
      have ht : (Example.tree.writeStateFull (Example.word 1) Example.stew
          (Example.words.getD 1 (VirtualState.create 0)) Example.stateMap
          (List.replicate 8 0)).toBool = true := by decide
      rw [h] at ht
      exact Bool.noConfusion ht
    | ok w =>
      have he : (Example.tree.writeStateFull (Example.word 1) Example.stew
          (Example.words.getD 1 (VirtualState.create 0)) Example.stateMap
          (List.replicate 8 0)).map (fun w => w.exprs.map Option.isSome)
          = .ok [true, true] := by decide
      rw [h] at he
      simp only [Except.map, Except.ok.injEq] at he
      exact ⟨w, rfl, he, writeState_round_trip Example.tree (Example.word 1) Example.stew
        (Example.words.getD 1 (VirtualState.create 0)) Example.stateMap
        (List.replicate 8 0) w (Example.word_valid 1) Example.tree_wellFormed (by decide)
        (by decide) (by decide) h⟩

end Prism

namespace Prism

/-- Fewer elements pass a test that implies another and fails on an element
that passes the other. -/
theorem filter_length_lt (f f2 : Nat → Bool) : ∀ (l : List Nat),
    (∀ x ∈ l, f2 x = true → f x = true) →
    (l.filter f2).length ≤ (l.filter f).length ∧
    ((∃ c ∈ l, f c = true ∧ f2 c = false) → (l.filter f2).length < (l.filter f).length) := by
  intro l
  induction l with
  | nil => intro _; exact ⟨Nat.le_refl _, fun ⟨c, hc, _⟩ => absurd hc (List.not_mem_nil c)⟩
  | cons x l ih =>
    intro himp
    obtain ⟨h1, h2⟩ := ih (fun y hy => himp y (List.mem_cons_of_mem _ hy))
    have hx := himp x (List.mem_cons_self _ _)
    rw [List.filter_cons, List.filter_cons]
    cases hf2 : f2 x
    · cases hf : f x
      · simp only [Bool.false_eq_true, if_false]
        refine ⟨h1, fun ⟨c, hc, hc1, hc2⟩ => ?_⟩
        rcases List.mem_cons.1 hc with rfl | hc
        · rw [hf] at hc1; exact Bool.noConfusion hc1
        · exact h2 ⟨c, hc, hc1, hc2⟩
      · simp only [Bool.false_eq_true, if_false, if_true, List.length_cons]
        exact ⟨by omega, fun _ => by omega⟩
    · rw [hx hf2]
      simp only [if_true, List.length_cons]
      refine ⟨by omega, fun ⟨c, hc, hc1, hc2⟩ => ?_⟩
      rcases List.mem_cons.1 hc with rfl | hc
      · rw [hf2] at hc2; exact Bool.noConfusion hc2
      · have := h2 ⟨c, hc, hc1, hc2⟩
        omega

/-- The loop over the list `which` clears the pins of the list in the
request of the system input of the round. -/
theorem DecisionTree.allocateBits_clears (dt : DecisionTree) (hwf : dt.WellFormed)
    (compMapping : List Nat)
    (hcm : ∀ c, c < dt.nStaticComponents + dt.nConditionalComponents →
      ∀ p, (dt.comp c).hasPin p → compMapping.getD p 0 = c)
    (i : Nat) : ∀ (l : List Nat) (s : DecisionTree.Allocation), i < s.inputReq.length →
      s.used.Valid → (∀ k, (s.inputReq.getD k DynamicBitmask.empty).Valid) →
      (∀ v ∈ l, v < dt.nVirtualInputs) →
      ∀ v ∈ l, ((l.foldl (dt.allocateBit compMapping i) s).inputReq.getD i
        DynamicBitmask.empty).get v = false := by
  intro l
  induction l with
  | nil => intro s _ _ _ _ v hv; exact absurd hv (List.not_mem_nil v)
  | cons b l ih =>
    intro s hi hu hr hl v hv
    obtain ⟨_, f2, _, _, _, f6⟩ := dt.allocateBits_spec compMapping i [b] s hu hr
    simp only [List.foldl_cons, List.foldl_nil] at f2 f6
    rw [List.foldl_cons]
    by_cases hvl : v ∈ l
    · exact ih (dt.allocateBit compMapping i s b)
        (by simp only [DecisionTree.allocateBit, List.length_set]; exact hi) f2
        (fun k => (f6 k).1) (fun y hy => hl y (List.mem_cons_of_mem _ hy)) v hvl
    · have hvb : v = b := by
        rcases List.mem_cons.1 hv with h | h
        · exact h
        · exact absurd h hvl
      subst hvb
      obtain ⟨c, hcK, hcp⟩ := hwf.pins_cover v (hl v (List.mem_cons_self _ _))
      have hcm2 : dt.components.getD (compMapping.getD v 0) ⟨0, 0⟩ = dt.comp c := by
        rw [hcm c hcK v hcp]; rfl
      have h1 : ((dt.allocateBit compMapping i s v).inputReq.getD i
          DynamicBitmask.empty).get v = false := by
        simp only [DecisionTree.allocateBit]
        rw [hcm2, getD_set_self _ _ _ _ hi, ((dt.comp c).clearInputs_spec (hr i)).2 v]
        unfold LUT.hasPin at hcp
        rw [decide_eq_true hcp]
        simp
      obtain ⟨_, _, _, _, _, g6⟩ := dt.allocateBits_spec compMapping i l
        (dt.allocateBit compMapping i s v) f2 (fun k => (f6 k).1)
      cases hg : ((l.foldl (dt.allocateBit compMapping i)
          (dt.allocateBit compMapping i s v)).inputReq.getD i DynamicBitmask.empty).get v
      · rfl
      · have := (g6 i).2 v hg
        rw [h1] at this
        exact Bool.noConfusion this

/-- A round of the allocation that returns takes at least one from the
count of its system input. -/
theorem DecisionTree.allocateRound_decreases (dt : DecisionTree) (hwf : dt.WellFormed)
    (exprs : List (Option LogicExpression)) (compMapping : List Nat)
    (hcm : ∀ c, c < dt.nStaticComponents + dt.nConditionalComponents →
      ∀ p, (dt.comp c).hasPin p → compMapping.getD p 0 = c)
    (hpin : ∀ c, c < dt.nStaticComponents + dt.nConditionalComponents →
      ∀ i, DecisionTree.compReads exprs c i = true → 0 < (dt.comp c).inputSize)
    (i : Nat) (hi : i < dt.nInputs) (s t : DecisionTree.Allocation) (muxes : List Nat)
    (hs : dt.AllocInv s muxes) (hc : dt.CoverInv exprs s)
    (h : dt.allocateRound compMapping i s = .ok t) :
    t.inputReqCount.getD i 0 < s.inputReqCount.getD i 0 := by
  obtain ⟨_, hct, _⟩ := dt.allocateRound_cover hwf exprs compMapping hcm hpin i hi s t muxes
    hs hc h
  obtain ⟨a1, a2, _, _, _, _, _, _, _, _⟩ := hs
  obtain ⟨m1, m2⟩ := DecisionTree.demandMask_spec (a2 i).1 a1
  unfold DecisionTree.allocateRound at h
  simp only at h
  rcases dt.wires.bestFit_cases
      (DecisionTree.demandMask (s.inputReq.getD i DynamicBitmask.empty) s.used).toAbstractBufferBitmask
      m1.1 (s.inputReqCount.getD i 0) [] with ⟨_, hf⟩ | ⟨sel, _, hdem, hok, _⟩
  · rw [hf] at h; exact Except.noConfusion h
  · rw [hok] at h
    simp only [List.nil_append, Except.ok.injEq] at h
    have hwhich : (List.range dt.wires.nVirtualOutput).filter
        (fun i => decide (dt.wires.fullMap.getD i 0 = sel)) = dt.wires.outputsOf sel := rfl
    rw [hwhich] at h
    obtain ⟨r, _, hr2, hr3⟩ := (dt.wires.demand_pos_iff _ sel).1 hdem
    have hr4 := m2 r
    rw [show (DecisionTree.demandMask (s.inputReq.getD i DynamicBitmask.empty) s.used).get r
      = true from hr2] at hr4
    have hreq : (s.inputReq.getD i DynamicBitmask.empty).get r = true := by
      cases hg : (s.inputReq.getD i DynamicBitmask.empty).get r
      · rw [hg] at hr4; simp at hr4
      · rfl
    have hrlt : r < dt.wires.nVirtualOutput := (a2 i).2 r hreq
    have hrmem : r ∈ dt.wires.outputsOf sel := (dt.wires.mem_outputsOf sel r).2 ⟨hrlt, hr3⟩
    obtain ⟨l1, _, hall⟩ := hc
    obtain ⟨b1, b2, b3, _⟩ := hall i hi
    obtain ⟨_, _, hall2⟩ := hct
    obtain ⟨c1, _, c3, _⟩ := hall2 i hi
    obtain ⟨c, hcK, hcp, hcr⟩ := b2 r hreq
    -- the pins of `r` are cleared
    have hclr := dt.allocateBits_clears hwf compMapping hcm i (dt.wires.outputsOf sel) s
      (by rw [l1]; exact hi) a1 (fun k => (a2 k).1)
      (fun v hv => by
        rw [← hwf.wires_eq]; exact ((dt.wires.mem_outputsOf sel v).1 hv).1) r hrmem
    obtain ⟨_, _, _, _, _, f6⟩ := dt.allocateBits_spec compMapping i (dt.wires.outputsOf sel) s
      a1 (fun k => (a2 k).1)
    have ht1 : t.inputReq = ((dt.wires.outputsOf sel).foldl (dt.allocateBit compMapping i)
        s).inputReq := by rw [← h]
    rw [c3, b3]
    apply (filter_length_lt _ _ _ ?_).2
    · refine ⟨c, List.mem_range.2 hcK, ?_, ?_⟩
      · rw [hcr, ← b1 c hcK r hcp, hreq]; rfl
      · rw [hcr, ← c1 c hcK r hcp, ht1, hclr]; rfl
    · intro x _ hx
      simp only [Bool.and_eq_true] at hx ⊢
      refine ⟨hx.1, ?_⟩
      rw [ht1] at hx
      exact (f6 i).2 _ hx.2

/-- A round of the allocation does not fail for want of fuel: its one
assertion is that of `bestFit`. -/
theorem DecisionTree.allocateRound_error (dt : DecisionTree) (compMapping : List Nat)
    (i : Nat) (s : DecisionTree.Allocation)
    (h : dt.allocateRound compMapping i s = .error .outOfFuel) : False := by
  unfold DecisionTree.allocateRound at h
  simp only at h
  unfold WireMap.bestFit at h
  simp only at h
  by_cases hz : (dt.wires.bestFitScan
      (dt.wires.bestFitTable
        (DecisionTree.demandMask (s.inputReq.getD i DynamicBitmask.empty) s.used).toAbstractBufferBitmask)
      (s.inputReqCount.getD i 0) dt.wires.nInput 0 (0, UINT_MAX)).1 = 0
  · rw [if_pos hz] at h
    simp only [Except.error.injEq] at h
    exact AssertFailure.noConfusion h
  · rw [if_neg hz] at h
    exact Except.noConfusion h

/-- The fuel of the loop `while (count > 0)` is enough: with the value of
`count` as fuel, or more, the rounds for a system input end without the
model running out of fuel. -/
theorem DecisionTree.allocateInput_fuel (dt : DecisionTree) (hwf : dt.WellFormed)
    (exprs : List (Option LogicExpression)) (compMapping : List Nat)
    (hcm : ∀ c, c < dt.nStaticComponents + dt.nConditionalComponents →
      ∀ p, (dt.comp c).hasPin p → compMapping.getD p 0 = c)
    (hpin : ∀ c, c < dt.nStaticComponents + dt.nConditionalComponents →
      ∀ i, DecisionTree.compReads exprs c i = true → 0 < (dt.comp c).inputSize)
    (i : Nat) (hi : i < dt.nInputs) :
    ∀ (fuel : Nat) (s : DecisionTree.Allocation),
      (∃ muxes, dt.AllocInv s muxes) → dt.CoverInv exprs s →
      s.inputReqCount.getD i 0 ≤ fuel →
      dt.allocateInput compMapping i fuel s ≠ .error .outOfFuel := by
  intro fuel
  induction fuel with
  | zero =>
    intro s _ _ hle
    unfold DecisionTree.allocateInput
    rw [if_neg (by omega)]
    exact fun hcon => Except.noConfusion hcon
  | succ fuel ih =>
    intro s hs hc hle
    unfold DecisionTree.allocateInput
    by_cases hcnt : s.inputReqCount.getD i 0 > 0
    · rw [if_pos hcnt]
      cases hrd : dt.allocateRound compMapping i s with
      | error e =>
        simp only
        intro hcon
        simp only [Except.error.injEq] at hcon
        subst hcon
        exact dt.allocateRound_error compMapping i s hrd
      | ok u =>
        simp only
        obtain ⟨muxes, hm⟩ := hs
        obtain ⟨r1, r2, _⟩ := dt.allocateRound_cover hwf exprs compMapping hcm hpin i hi s u
          muxes hm hc hrd
        have := dt.allocateRound_decreases hwf exprs compMapping hcm hpin i hi s u muxes hm hc hrd
        exact ih u r1 r2 (by omega)
    · rw [if_neg hcnt]
      exact fun hcon => Except.noConfusion hcon

/-- A counting loop does not fail with the failure `e0` when its body does
not, on the states that an invariant of the loop allows. -/
theorem forLoopE_range_ne {σ : Type} (P : σ → Nat → Prop) (N : Nat)
    (cond : σ → Nat → Bool) (body : σ → Nat → Except AssertFailure σ) (e0 : AssertFailure)
    (hcond : ∀ s b, P s b → cond s b = decide (b < N))
    (hstep : ∀ s b t, b < N → P s b → body s b = .ok t → P t (b + 1))
    (hne : ∀ s b, b < N → P s b → body s b ≠ .error e0) :
    ∀ (fuel : Nat) (s : σ) (lo : Nat), P s lo →
      forLoopE cond (fun _ b => b + 1) body fuel s lo ≠ .error e0 := by
  intro fuel
  induction fuel with
  | zero => intro s lo _ hcon; exact Except.noConfusion hcon
  | succ fuel ih =>
    intro s lo hp
    unfold forLoopE
    rw [hcond s lo hp]
    by_cases hlo : lo < N
    · simp only [hlo, decide_True, if_true]
      cases hb : body s lo with
      | error e =>
        simp only
        intro hcon
        simp only [Except.error.injEq] at hcon
        subst hcon
        exact hne s lo hlo hp hb
      | ok t =>
        simp only
        exact ih t (lo + 1) (hstep s lo t hlo hp hb)
    · simp only [hlo, decide_False, Bool.false_eq_true, if_false]
      exact fun hcon => Except.noConfusion hcon

/-- The allocation of `writeState` does not run out of fuel in the model:
the loops `while (count > 0)` end, on a well-formed decision tree and
expressions that read system inputs below `nInputs`. -/
theorem DecisionTree.allocate_fuel (dt : DecisionTree) (hwf : dt.WellFormed)
    (exprs : List (Option LogicExpression))
    (hin : ∀ c, c < dt.nStaticComponents + dt.nConditionalComponents →
      ∀ i, DecisionTree.compReads exprs c i = true → i < dt.nInputs)
    (req : DecisionTree.Requirements) (hreq : dt.collectRequirements exprs = .ok req) :
    dt.allocate req ≠ .error .outOfFuel := by
  have hr := dt.collectRequirements_spec hwf exprs hin req hreq
  have hinit := dt.coverInv_init hwf exprs req hr
  obtain ⟨_, _, _, r4, _, r6, r7⟩ := hr
  have hbound : ∀ k, (req.inputReq.getD k DynamicBitmask.empty).Valid ∧
      ∀ p, (req.inputReq.getD k DynamicBitmask.empty).get p = true →
        p < dt.wires.nVirtualOutput := by
    intro k
    refine ⟨(r4 k).1, fun p hp => ?_⟩
    obtain ⟨c, hc, _, h2⟩ := ((r4 k).2 p).1 hp
    have := hwf.pins_le c hc
    rw [hwf.wires_eq]
    unfold LUT.hasPin at h2
    omega
  unfold DecisionTree.allocate
  refine forLoopE_range_ne
    (fun (s : DecisionTree.Allocation) (_ : Nat) =>
      (∃ muxes, dt.AllocInv s muxes) ∧ dt.CoverInv exprs s)
    dt.nInputs _ _ .outOfFuel (fun _ _ _ => rfl)
    (fun s b t hb hp ht => by
      obtain ⟨q1, q2, _, _⟩ := dt.allocateInput_cover hwf exprs req.compMapping r6 r7 b hb _
        s t hp.1 hp.2 ht
      exact ⟨q1, q2⟩)
    (fun s b hb hp =>
      dt.allocateInput_fuel hwf exprs req.compMapping r6 r7 b hb _ s hp.1 hp.2 (Nat.le_refl _))
    dt.nInputs _ 0 ?_
  exact ⟨⟨[], DynamicBitmask.valid_empty, hbound, List.length_replicate _ _, List.nodup_nil,
    fun m hm => absurd hm (List.not_mem_nil m), rfl,
    fun r hr => absurd hr (List.not_mem_nil r), fun v => by
      simp only [DynamicBitmask.get_empty, List.not_mem_nil, and_false]
      exact ⟨fun h => Bool.noConfusion h, fun h => h.elim⟩,
    fun r hr => absurd hr (List.not_mem_nil r), fun v _ => by
      simp only [List.getD_eq_getElem?_getD, List.getElem?_replicate]
      split <;> rfl⟩, hinit⟩

end Prism

namespace Prism

/-- The block `if (vs.partial)` of `writeState`, when it succeeds, leaves
the word as it was outside the OUT field of the position `comp` and the INC
bit. -/
theorem DecisionTree.writePartial_frame (stew : STEW) (vs : VirtualState)
    (out out1 : BitmaskRef) (comp : Nat) (hv : out.Valid)
    (h : DecisionTree.writePartial stew vs out comp = .ok out1) :
    ∀ p, ¬ (stew.slice .OUT comp).covers p → p ≠ (stew.slice .INC 0).offset →
      out1.get p = out.get p := by
  unfold DecisionTree.writePartial at h
  split at h
  · simp only at h
    split at h
    · exact Except.noConfusion h
    · rename_i sl hc
      obtain ⟨o1, o2, _, _⟩ := BitmaskSlice.on_create out out hv rfl
        (stew.slice .OUT comp).offset (stew.slice .OUT comp).size
      have hsl := BitmaskRef.copy_ok _ out _ _ o2 _ sl o1 hc
      obtain ⟨q1, _, q3⟩ := BitmaskSlice.source_of_create out out _ _ sl hsl
      intro p hp1 hp2
      rw [(BitmaskRef.set_ok sl.source _ out1 q1 h).2.2.2 p, decide_eq_false hp2,
        Bool.false_or]
      exact q3 p hp1
  · simp only [Except.ok.injEq] at h
    subst h
    exact fun _ _ _ => rfl

/-- The loop of `writeState` over the tables, when it succeeds, leaves a
valid word that is as it was outside the CFG fields of the components. -/
theorem DecisionTree.writeComponents_frame (dt : DecisionTree) (stew : STEW)
    (exprs : List (Option LogicExpression)) (wireMapping : List Nat) (out t : BitmaskRef)
    (hv : out.Valid) (h : dt.writeComponents stew exprs wireMapping out = .ok t) :
    t.Valid ∧ ∀ p, (∀ c, c < dt.nStaticComponents + dt.nConditionalComponents →
      ¬ (stew.slice .CFG c).covers p) → t.get p = out.get p := by
  unfold DecisionTree.writeComponents at h
  exact forLoopE_range_inv
    (fun (s : BitmaskRef) (_ : Nat) => s.Valid ∧
      ∀ p, (∀ c, c < dt.nStaticComponents + dt.nConditionalComponents →
        ¬ (stew.slice .CFG c).covers p) → s.get p = out.get p)
    (dt.nStaticComponents + dt.nConditionalComponents) _ _ (fun _ _ _ => rfl)
    (fun s b u hb hs hu => by
      obtain ⟨w1, w2, _, _⟩ := dt.writeComponent_ok stew exprs wireMapping s u b hs.1 hu
      exact ⟨w1, fun p hp => by rw [w2 p (hp b hb)]; exact hs.2 p hp⟩)
    (dt.nStaticComponents + dt.nConditionalComponents) out 0 t (by omega) (Nat.zero_le _)
    ⟨hv, fun _ _ => rfl⟩ h

/-- After its first loop, `writeState` writes to the OUT field after the
last transition and to the INC bit (for a partial state), to the CFG fields
and to the field of the muxes only: the word on return is as the first loop
left it everywhere else. -/
theorem DecisionTree.writeStateFull_frame (dt : DecisionTree) (out : BitmaskRef) (stew : STEW)
    (vs : VirtualState) (stateMap : StateMap) (uninit : List Nat) (w : DecisionTree.Written)
    (s : DecisionTree.Breakdown) (hv : out.Valid)
    (h : dt.writeStateFull out stew vs stateMap uninit = .ok w)
    (hs : dt.writeTransitions out stew vs stateMap = .ok s) :
    w.stateMap = s.stateMap ∧
    ∀ p, ¬ (stew.slice .OUT vs.transitions.length).covers p →
      p ≠ (stew.slice .INC 0).offset →
      (∀ c, c < dt.nStaticComponents + dt.nConditionalComponents →
        ¬ (stew.slice .CFG c).covers p) →
      ¬ (dt.muxField stew).covers p → w.out.get p = s.out.get p := by
  obtain ⟨s2, out1, req, alloc, out2, h1, h2, _, _, h5, h6, h7, _, _, _⟩ :=
    dt.writeStateFull_ok out stew vs stateMap uninit w h
  rw [hs] at h1
  simp only [Except.ok.injEq] at h1
  subst h1
  obtain ⟨t1, _, _⟩ := dt.writeTransitions_weak out stew vs stateMap s hv hs
  have hv1 := DecisionTree.writePartial_weak stew vs s.out out1 s.comp t1 h2
  have hcomp := dt.writeTransitions_comp out stew vs stateMap s hv hs
  refine ⟨h7, fun p hp1 hp2 hp3 hp4 => ?_⟩
  have f1 := DecisionTree.writePartial_frame stew vs s.out out1 s.comp t1 h2 p
    (by rw [hcomp]; exact hp1) hp2
  obtain ⟨hv2, f2⟩ := dt.writeComponents_frame stew _ alloc.wireMapping out1 out2 hv1 h5
  unfold WireMap.write at h6
  simp only at h6
  obtain ⟨_, f3⟩ := InputMux.write_frame _ out2 w.out stew _ hv2 h6
  rw [f3 p (by
    unfold STEW.Item.covers DecisionTree.muxField at hp4
    simp only at hp4
    exact hp4), f2 p hp3, f1]

end Prism

namespace Prism

/-- C28: on a `MappedBitmask` over a source of one bit, which is set, and the
group `[1, 0]`, `size()` is 1, yet `get(1)` returns true, the bit 0 of the
source, and `get(2)` fails with the assertion of the group: an index at or
above `size()` neither reads false nor is safe to read. -/
theorem mappedBitmask_get_beyond_size :
    MappedBitmask.size (.mapped [1, 0]) (.dynamic (DynamicBitmask.empty.set 0)) = 1 ∧
    MappedBitmask.get (.mapped [1, 0]) (.dynamic (DynamicBitmask.empty.set 0)) 1 = .ok true ∧
    MappedBitmask.get (.mapped [1, 0]) (.dynamic (DynamicBitmask.empty.set 0)) 2
      = .error .outOfRange := by
  decide

/-- The assertion of `resize` fails in `set` and `clear` of an
`IntegerBitmask` exactly on the indices at or above its size. -/
theorem IntegerBitmask.integer_set_clear_none (v : IntegerBitmask) (b : Nat) (h : v.size ≤ b) :
    v.set b = none ∧ v.clear b = none := by
  have hs : ¬ b + 1 ≤ v.nbits := by
    have : v.size = v.nbits := rfl
    omega
  constructor
  · unfold IntegerBitmask.set IntegerBitmask.resize
    rw [if_neg hs]; rfl
  · unfold IntegerBitmask.clear IntegerBitmask.resize
    rw [if_neg hs]; rfl

/-- The assertion of `resize` fails in `set` and `clear` of a `BufferBitmask`
on the indices at or above its size. -/
theorem BufferBitmask.buffer_set_clear_none (v : BufferBitmask) (b : Nat) (h : v.size ≤ b) :
    v.set b = none ∧ v.clear b = none := by
  have hs : ¬ b + 1 ≤ v.nbits := by
    have : v.size = v.nbits := rfl
    omega
  constructor
  · unfold BufferBitmask.set BufferBitmask.resize
    rw [if_neg hs]; rfl
  · unfold BufferBitmask.clear BufferBitmask.resize
    rw [if_neg hs]; rfl

/-- C29: for an index `b` at or above `size()` (and below `UINT_MAX`, so that
`b + 1` is an `unsigned int`), `set(b)` and `clear(b)` fail on a
`BufferBitmask` and on an `IntegerBitmask` with the assertion of `resize`,
which is thrown before the word is written, and on a `BitmaskSlice` with its
own assertion, thrown before the source is reached; on a `DynamicBitmask`
they return, the size is then `b + 1`, the bit `b` is set by `set` and clear
after `clear`, and every other bit reads as before. -/
theorem set_clear_beyond_size (b : Nat) (_hb : b < UINT_MAX) :
    (∀ v : BufferBitmask, v.size ≤ b → v.set b = none ∧ v.clear b = none) ∧
    (∀ v : IntegerBitmask, v.size ≤ b → v.set b = none ∧ v.clear b = none) ∧
    (∀ (source : BitmaskRef) (offset nbits : Nat), nbits ≤ b →
      (BitmaskRef.slice source offset nbits).set b = .error .outOfRange ∧
      (BitmaskRef.slice source offset nbits).clear b = .error .outOfRange) ∧
    ∀ d : DynamicBitmask, d.Valid → d.size ≤ b →
      (d.set b).size = b + 1 ∧ (d.set b).get b = true ∧
      (∀ i, i ≠ b → (d.set b).get i = d.get i) ∧
      (d.clear b).size = b + 1 ∧ (d.clear b).get b = false ∧
      (∀ i, i ≠ b → (d.clear b).get i = d.get i) := by
  refine ⟨fun v h => BufferBitmask.buffer_set_clear_none v b h,
    fun v h => IntegerBitmask.integer_set_clear_none v b h, ?_, ?_⟩
  · intro source offset nbits h
    have hn : ¬ b < nbits := by omega
    constructor
    · simp only [BitmaskRef.set, if_neg hn]
    · simp only [BitmaskRef.clear, if_neg hn]
  · intro d hd h
    refine ⟨?_, ?_, ?_, ?_, ?_, ?_⟩
    · rw [DynamicBitmask.size_set]; omega
    · rw [DynamicBitmask.get_set hd]; simp
    · intro i hi
      rw [DynamicBitmask.get_set hd]
      simp [hi]
    · rw [DynamicBitmask.size_clear]; omega
    · rw [DynamicBitmask.get_clear hd]; simp
    · intro i hi
      rw [DynamicBitmask.get_clear hd]
      simp [hi]

/-- C29 at the index 9: on buffers of 8 bits, on a slice of 4 bits and on a
`DynamicBitmask` that holds the bit 2. -/
theorem set_clear_beyond_size_witness :
    (9 < UINT_MAX) ∧
    ((BufferBitmask.ofSize 8).set 9 = none ∧ (BufferBitmask.ofSize 8).clear 9 = none) ∧
    ((IntegerBitmask.create 5 8).set 9 = none ∧ (IntegerBitmask.create 5 8).clear 9 = none) ∧
    ((BitmaskRef.slice (.buffer (BufferBitmask.ofSize 16)) 4 4).set 9 = .error .outOfRange ∧
      (BitmaskRef.slice (.buffer (BufferBitmask.ofSize 16)) 4 4).clear 9
        = .error .outOfRange) ∧
    (((Example.output [2]).set 9).size = 9 + 1 ∧ ((Example.output [2]).set 9).get 9 = true ∧
      (∀ i, i ≠ 9 → ((Example.output [2]).set 9).get i = (Example.output [2]).get i) ∧
      ((Example.output [2]).clear 9).size = 9 + 1 ∧
      ((Example.output [2]).clear 9).get 9 = false ∧
      (∀ i, i ≠ 9 → ((Example.output [2]).clear 9).get i = (Example.output [2]).get i)) :=
  ⟨by decide,
    (set_clear_beyond_size 9 (by decide)).1 (BufferBitmask.ofSize 8) (by decide),
    (set_clear_beyond_size 9 (by decide)).2.1 (IntegerBitmask.create 5 8) (by decide),
    (set_clear_beyond_size 9 (by decide)).2.2.1 (.buffer (BufferBitmask.ofSize 16)) 4 4
      (by decide),
    (set_clear_beyond_size 9 (by decide)).2.2.2 (Example.output [2])
      (DynamicBitmask.valid_set DynamicBitmask.valid_empty 2) (by decide)⟩

/-- C30: the slice of the first 4 bits of a buffer of 8 bits, all clear, has
the size 4 and no bit set, and its `ffs()` returns 8, the size of the source:
at the offset 0 `BitmaskSlice::ffs` returns `source.ffs()` as it is, without
the bound `nbits` that its other branch and `fns` apply. With the bit 6 of
the source set, outside the slice, it returns 6. -/
theorem slice_ffs_offset_zero_not_clamped :
    ((BitmaskSlice.create (.buffer (BufferBitmask.ofSize 8)) 0 4).on
      (.buffer (BufferBitmask.ofSize 8))).size = 4 ∧
    (∀ i, i < 4 → ((BitmaskSlice.create (.buffer (BufferBitmask.ofSize 8)) 0 4).on
      (.buffer (BufferBitmask.ofSize 8))).get i = false) ∧
    ((BitmaskSlice.create (.buffer (BufferBitmask.ofSize 8)) 0 4).on
      (.buffer (BufferBitmask.ofSize 8))).ffs = 8 ∧
    (∀ i, i < 4 → (BitmaskRef.slice (.dynamic (Example.output [6])) 0 4).get i = false) ∧
    (BitmaskRef.slice (.dynamic (Example.output [6])) 0 4).ffs = 6 := by
  decide

end Prism

namespace Prism

/-! ## Which assertion a part of `writeState` can fail with -/

/-- The one assertion of `set` behind a reference is the range assertion. -/
theorem BitmaskRef.set_error : ∀ (m : BitmaskRef) (bit : Nat) (e : AssertFailure),
    m.set bit = .error e → e = .outOfRange := by
  intro m
  induction m with
  | dynamic d => intro bit e h; simp only [BitmaskRef.set] at h; exact Except.noConfusion h
  | buffer b =>
    intro bit e h
    simp only [BitmaskRef.set] at h
    cases hb : b.set bit with
    | none => rw [hb] at h; simp only [Except.error.injEq] at h; exact h.symm
    | some w => rw [hb] at h; exact Except.noConfusion h
  | slice source offset nbits ih =>
    intro bit e h
    simp only [BitmaskRef.set] at h
    by_cases hb : bit < nbits
    · rw [if_pos hb] at h
      cases hs : source.set (bit + offset) with
      | error e2 =>
        rw [hs] at h
        simp only [Except.error.injEq] at h
        subst h
        exact ih _ _ hs
      | ok s => rw [hs] at h; exact Except.noConfusion h
    · rw [if_neg hb] at h
      simp only [Except.error.injEq] at h
      exact h.symm

/-- The one assertion of `clear` behind a reference is the range
assertion. -/
theorem BitmaskRef.clear_error : ∀ (m : BitmaskRef) (bit : Nat) (e : AssertFailure),
    m.clear bit = .error e → e = .outOfRange := by
  intro m
  induction m with
  | dynamic d => intro bit e h; simp only [BitmaskRef.clear] at h; exact Except.noConfusion h
  | buffer b =>
    intro bit e h
    simp only [BitmaskRef.clear] at h
    cases hb : b.clear bit with
    | none => rw [hb] at h; simp only [Except.error.injEq] at h; exact h.symm
    | some w => rw [hb] at h; exact Except.noConfusion h
  | slice source offset nbits ih =>
    intro bit e h
    simp only [BitmaskRef.clear] at h
    by_cases hb : bit < nbits
    · rw [if_pos hb] at h
      cases hs : source.clear (bit + offset) with
      | error e2 =>
        rw [hs] at h
        simp only [Except.error.injEq] at h
        subst h
        exact ih _ _ hs
      | ok s => rw [hs] at h; exact Except.noConfusion h
    · rw [if_neg hb] at h
      simp only [Except.error.injEq] at h
      exact h.symm

/-- The one assertion of `write` behind a reference is the range
assertion. -/
theorem BitmaskRef.write_error (m : BitmaskRef) (bit : Nat) (value : Bool) (e : AssertFailure)
    (h : m.write bit value = .error e) : e = .outOfRange := by
  unfold BitmaskRef.write at h
  cases value with
  | true => exact BitmaskRef.set_error m bit e (by simpa using h)
  | false => exact BitmaskRef.clear_error m bit e (by simpa using h)

/-- A loop fails with the failure of a run of its body, made while the
condition of the loop holds. -/
theorem forLoopE_error {σ : Type} (cond : σ → Nat → Bool) (next : σ → Nat → Nat)
    (body : σ → Nat → Except AssertFailure σ) (e : AssertFailure) :
    ∀ (fuel : Nat) (s : σ) (bit : Nat), forLoopE cond next body fuel s bit = .error e →
      ∃ t b, cond t b = true ∧ body t b = .error e := by
  intro fuel
  induction fuel with
  | zero => intro s bit h; exact Except.noConfusion h
  | succ n ih =>
    intro s bit h
    unfold forLoopE at h
    by_cases hc : cond s bit = true
    · rw [if_pos hc] at h
      cases hb : body s bit with
      | error e2 =>
        rw [hb] at h
        simp only [Except.error.injEq] at h
        subst h
        exact ⟨s, bit, hc, hb⟩
      | ok t =>
        rw [hb] at h
        exact ih _ _ h
    · rw [if_neg hc] at h
      exact Except.noConfusion h

/-- A loop over a list fails with the failure of a run of its body on an
element of the list. -/
theorem forEachE_error {σ α : Type} (body : σ → α → Except AssertFailure σ)
    (e : AssertFailure) :
    ∀ (l : List α) (s : σ), forEachE body l s = .error e →
      ∃ t x, x ∈ l ∧ body t x = .error e := by
  intro l
  induction l with
  | nil => intro s h; exact Except.noConfusion h
  | cons x xs ih =>
    intro s h
    unfold forEachE at h
    cases hb : body s x with
    | error e2 =>
      rw [hb] at h
      simp only [Except.error.injEq] at h
      subst h
      exact ⟨s, x, List.mem_cons_self _ _, hb⟩
    | ok t =>
      rw [hb] at h
      obtain ⟨t2, y, hy, hy2⟩ := ih _ h
      exact ⟨t2, y, List.mem_cons_of_mem _ hy, hy2⟩

/-- The loop of `writeInteger` fails with the failure of one of its
writes. -/
theorem writeIntegerLoop_error {σ : Type} (write : σ → Nat → Bool → Except AssertFailure σ)
    (e : AssertFailure) :
    ∀ (fuel : Nat) (m : σ) (bit value : Nat),
      Bitmask.writeIntegerLoop write fuel m bit value = .error e →
      ∃ t b v, write t b v = .error e := by
  intro fuel
  induction fuel with
  | zero => intro m bit value h; exact Except.noConfusion h
  | succ n ih =>
    intro m bit value h
    unfold Bitmask.writeIntegerLoop at h
    by_cases hv : value ≠ 0
    · rw [if_pos hv] at h
      cases hb : write m bit (value &&& 1 != 0) with
      | error e2 =>
        rw [hb] at h
        simp only [Except.error.injEq] at h
        subst h
        exact ⟨m, bit, _, hb⟩
      | ok t =>
        rw [hb] at h
        exact ih _ _ _ h
    · rw [if_neg hv] at h
      exact Except.noConfusion h

/-- The one assertion of `writeInteger` behind a reference is the range
assertion. -/
theorem writeInteger_error (m : BitmaskRef) (value : Nat) (e : AssertFailure)
    (h : Bitmask.writeInteger BitmaskRef.write m value = .error e) : e = .outOfRange := by
  obtain ⟨t, b, v, hw⟩ := writeIntegerLoop_error _ e _ _ _ _ h
  exact BitmaskRef.write_error t b v e hw

/-- The one assertion of `copy` behind a reference is the range assertion. -/
theorem BitmaskRef.copy_error (m : BitmaskRef) (frm : AbstractBufferBitmask) (e : AssertFailure)
    (h : m.copy frm = .error e) : e = .outOfRange := by
  obtain ⟨t, b, _, hw⟩ := forLoopE_error _ _ _ e _ _ _ h
  exact BitmaskRef.write_error t b _ e hw

/-- The block `if (vs.partial)` of `writeState` fails with the range
assertion only. -/
theorem DecisionTree.writePartial_error (stew : STEW) (vs : VirtualState) (out : BitmaskRef)
    (comp : Nat) (e : AssertFailure)
    (h : DecisionTree.writePartial stew vs out comp = .error e) : e = .outOfRange := by
  unfold DecisionTree.writePartial at h
  by_cases hp : vs.isPartial = true
  · rw [if_pos hp] at h
    simp only at h
    cases hc : ((BitmaskSlice.create out (stew.slice .OUT comp).offset
        (stew.slice .OUT comp).size).on out).copy vs.partialOutput.toAbstractBufferBitmask with
    | error e2 =>
      rw [hc] at h
      simp only [Except.error.injEq] at h
      subst h
      exact BitmaskRef.copy_error _ _ _ hc
    | ok sl =>
      rw [hc] at h
      exact BitmaskRef.set_error _ _ e h
  · rw [if_neg hp] at h
    exact Except.noConfusion h

/-- The one assertion of a map through a group is the range assertion. -/
theorem BitGroup.map_error : ∀ (g : BitGroup) (idx : Nat) (e : AssertFailure),
    g.map idx = .error e → e = .outOfRange := by
  intro g
  induction g with
  | offset off nbit =>
    intro idx e h
    simp only [BitGroup.map] at h
    by_cases hi : idx < nbit
    · rw [if_pos hi] at h; exact Except.noConfusion h
    · rw [if_neg hi] at h; simp only [Except.error.injEq] at h; exact h.symm
  | slice parent off nbit ih =>
    intro idx e h
    simp only [BitGroup.map] at h
    by_cases hi : idx < nbit
    · rw [if_pos hi] at h; exact ih _ _ h
    · rw [if_neg hi] at h; simp only [Except.error.injEq] at h; exact h.symm
  | concat hi lo ih1 ih2 =>
    intro idx e h
    simp only [BitGroup.map] at h
    by_cases hx : idx < hi.size + lo.size
    · rw [if_pos hx] at h
      by_cases hl : idx < lo.size
      · rw [if_pos hl] at h; exact ih2 _ _ h
      · rw [if_neg hl] at h; exact ih1 _ _ h
    · rw [if_neg hx] at h; simp only [Except.error.injEq] at h; exact h.symm
  | mapped bits =>
    intro idx e h
    simp only [BitGroup.map] at h
    by_cases hi : idx < MappedBitGroup.size bits
    · rw [if_pos hi] at h; exact Except.noConfusion h
    · rw [if_neg hi] at h; simp only [Except.error.injEq] at h; exact h.symm

/-- The one assertion of `LUT::write` is the range assertion, of the group
or of the field. -/
theorem LUT.table_write_error (c : LUT) (out : BitmaskRef) (grp : BitGroup) (expr : LogicExpression)
    (e : AssertFailure) (h : c.write out grp expr = .error e) : e = .outOfRange := by
  obtain ⟨t, b, _, hw⟩ := forLoopE_error _ _ _ e _ _ _ h
  cases hm : LUT.inputMask grp b with
  | error e2 =>
    rw [hm] at hw
    simp only [Except.error.injEq] at hw
    subst hw
    obtain ⟨t2, b2, v2, hw2⟩ := writeIntegerLoop_error _ e2 _ _ _ _ hm
    unfold MappedBitmask.write at hw2
    cases hg : grp.map b2 with
    | error e3 =>
      rw [hg] at hw2
      simp only [Except.error.injEq] at hw2
      subst hw2
      exact BitGroup.map_error _ _ _ hg
    | ok idx => rw [hg] at hw2; exact Except.noConfusion hw2
  | ok mask =>
    rw [hm] at hw
    exact BitmaskRef.write_error _ _ _ e hw

/-- The loop of `writeState` over the components that writes the tables fails
with the range assertion only. -/
theorem DecisionTree.writeComponents_error (dt : DecisionTree) (stew : STEW)
    (exprs : List (Option LogicExpression)) (wireMapping : List Nat) (out : BitmaskRef)
    (e : AssertFailure) (h : dt.writeComponents stew exprs wireMapping out = .error e) :
    e = .outOfRange := by
  obtain ⟨t, b, _, hw⟩ := forLoopE_error _ _ _ e _ _ _ h
  unfold DecisionTree.writeComponent at hw
  simp only at hw
  cases hl : (dt.components.getD b ⟨0, 0⟩).write
      ((BitmaskSlice.create t (stew.slice .CFG b).offset (stew.slice .CFG b).size).on t)
      (BitGroup.slice (.mapped wireMapping) (dt.components.getD b ⟨0, 0⟩).inputOffset
        (dt.components.getD b ⟨0, 0⟩).inputSize) (dt.componentExpr exprs b) with
  | error e2 =>
    rw [hl] at hw
    simp only [Except.error.injEq] at hw
    subst hw
    exact LUT.table_write_error _ _ _ _ _ hl
  | ok sl => rw [hl] at hw; exact Except.noConfusion hw

/-- `WireMap::write` fails with the range assertion only. -/
theorem WireMap.mux_write_error (wm : WireMap) (mask : BitmaskRef) (stew : STEW)
    (outputMapping uninit : List Nat) (e : AssertFailure)
    (h : wm.write mask stew outputMapping uninit = .error e) : e = .outOfRange := by
  unfold WireMap.write InputMux.write at h
  obtain ⟨t, b, _, hw⟩ := forLoopE_error _ _ _ e _ _ _ h
  simp only at hw
  generalize hx : Bitmask.writeInteger BitmaskRef.write _ _ = r at hw
  cases r with
  | error e2 =>
    simp only [Except.error.injEq] at hw
    subst hw
    exact writeInteger_error _ _ _ hx
  | ok sl => exact Except.noConfusion hw

/-- The loop of `writeState` that collects the requests fails with the
assertion on the number of inputs only. -/
theorem DecisionTree.collectRequirements_error (dt : DecisionTree)
    (exprs : List (Option LogicExpression)) (e : AssertFailure)
    (h : dt.collectRequirements exprs = .error e) : e = .tooManyInputs := by
  obtain ⟨t, b, _, hw⟩ := forLoopE_error _ _ _ e _ _ _ h
  unfold DecisionTree.collectRequirement at hw
  simp only at hw
  split at hw
  · exact Except.noConfusion hw
  · simp only [Except.error.injEq] at hw
    exact hw.symm

/-- The rounds of the allocation for a system input fail with the assertion
of `bestFit`, or for want of fuel. -/
theorem DecisionTree.allocateInput_error (dt : DecisionTree) (compMapping : List Nat) (i : Nat)
    (e : AssertFailure) :
    ∀ (fuel : Nat) (s : DecisionTree.Allocation),
      dt.allocateInput compMapping i fuel s = .error e →
      e = .noSuitableWire ∨ e = .outOfFuel := by
  intro fuel
  induction fuel with
  | zero =>
    intro s h
    unfold DecisionTree.allocateInput at h
    split at h
    · simp only [Except.error.injEq] at h; exact Or.inr h.symm
    · exact Except.noConfusion h
  | succ n ih =>
    intro s h
    unfold DecisionTree.allocateInput at h
    split at h
    · cases hr : dt.allocateRound compMapping i s with
      | error e2 =>
        rw [hr] at h
        simp only [Except.error.injEq] at h
        subst h
        unfold DecisionTree.allocateRound at hr
        simp only at hr
        cases hb : dt.wires.bestFit
            (DecisionTree.demandMask (s.inputReq.getD i DynamicBitmask.empty)
              s.used).toAbstractBufferBitmask (s.inputReqCount.getD i 0) [] with
        | error e3 =>
          rw [hb] at hr
          simp only [Except.error.injEq] at hr
          subst hr
          unfold WireMap.bestFit at hb
          simp only at hb
          split at hb
          · simp only [Except.error.injEq] at hb; exact Or.inl hb.symm
          · exact Except.noConfusion hb
        | ok which => rw [hb] at hr; exact Except.noConfusion hr
      | ok t =>
        rw [hr] at h
        exact ih _ h
    · exact Except.noConfusion h

/-- The allocation fails with the assertion of `bestFit`, or for want of
fuel. -/
theorem DecisionTree.allocate_error (dt : DecisionTree) (req : DecisionTree.Requirements)
    (e : AssertFailure) (h : dt.allocate req = .error e) :
    e = .noSuitableWire ∨ e = .outOfFuel := by
  obtain ⟨t, b, _, hw⟩ := forLoopE_error _ _ _ e _ _ _ h
  exact DecisionTree.allocateInput_error dt _ _ e _ _ hw

/-- What `writeState` fails with once its first loop and the block
`if (vs.partial)` have run: the assertion on the number of inputs, thrown by
the loop that collects the requests, or an assertion of the later parts,
which is another one. -/
theorem DecisionTree.writeStateFull_error (dt : DecisionTree) (out : BitmaskRef) (stew : STEW)
    (vs : VirtualState) (stateMap : StateMap) (uninit : List Nat)
    (s : DecisionTree.Breakdown) (out1 : BitmaskRef) (e : AssertFailure)
    (hs : dt.writeTransitions out stew vs stateMap = .ok s)
    (hp : DecisionTree.writePartial stew vs s.out s.comp = .ok out1)
    (h : dt.writeStateFull out stew vs stateMap uninit = .error e) :
    dt.collectRequirements (dt.assignConditional vs s.exprs) = .error e ∨
    ((∃ req, dt.collectRequirements (dt.assignConditional vs s.exprs) = .ok req) ∧
      (e = .noSuitableWire ∨ e = .outOfFuel ∨ e = .outOfRange)) := by
  unfold DecisionTree.writeStateFull at h
  rw [hs] at h
  simp only at h
  rw [hp] at h
  simp only at h
  cases h3 : dt.collectRequirements (dt.assignConditional vs s.exprs) with
  | error e2 =>
    rw [h3] at h
    simp only [Except.error.injEq] at h
    subst h
    exact Or.inl rfl
  | ok req =>
    rw [h3] at h
    simp only at h
    refine Or.inr ⟨⟨req, rfl⟩, ?_⟩
    cases h4 : dt.allocate req with
    | error e2 =>
      rw [h4] at h
      simp only [Except.error.injEq] at h
      subst h
      rcases DecisionTree.allocate_error dt req _ h4 with h5 | h5
      · exact Or.inl h5
      · exact Or.inr (Or.inl h5)
    | ok alloc =>
      rw [h4] at h
      simp only at h
      cases h5 : dt.writeComponents stew (dt.assignConditional vs s.exprs)
          alloc.wireMapping out1 with
      | error e2 =>
        rw [h5] at h
        simp only [Except.error.injEq] at h
        subst h
        exact Or.inr (Or.inr (DecisionTree.writeComponents_error dt _ _ _ _ _ h5))
      | ok out2 =>
        rw [h5] at h
        simp only at h
        cases h6 : dt.wires.write out2 stew alloc.wireMapping uninit with
        | error e2 =>
          rw [h6] at h
          simp only [Except.error.injEq] at h
          subst h
          exact Or.inr (Or.inr (WireMap.mux_write_error _ _ _ _ _ _ h6))
        | ok out3 => rw [h6] at h; exact Except.noConfusion h

end Prism

namespace Prism

/-- A loop over a range fails with the assertion `e0` when its body can fail
with no other one and fails at an index of the range whatever the state. -/
theorem forLoopE_range_fails {σ : Type} (N : Nat) (cond : σ → Nat → Bool)
    (body : σ → Nat → Except AssertFailure σ) (e0 : AssertFailure)
    (hcond : ∀ s b, cond s b = decide (b < N))
    (hone : ∀ s b e, body s b = .error e → e = e0)
    (b0 : Nat) (hb0 : b0 < N) (hfail : ∀ s, body s b0 = .error e0) :
    ∀ (fuel : Nat) (s : σ) (lo : Nat), N - lo ≤ fuel → lo ≤ b0 →
      forLoopE cond (fun _ b => b + 1) body fuel s lo = .error e0 := by
  intro fuel
  induction fuel with
  | zero => intro s lo h1 h2; omega
  | succ n ih =>
    intro s lo h1 h2
    unfold forLoopE
    have hc : cond s lo = true := by
      rw [hcond]; exact decide_eq_true (by omega)
    rw [if_pos hc]
    by_cases hlo : lo = b0
    · subst hlo
      rw [hfail s]
    · cases hb : body s lo with
      | error e =>
        rw [hone s lo e hb]
      | ok t =>
        simp only
        exact ih t (lo + 1) (by omega) (by omega)

/-- C23: once the first loop of `writeState` and the block `if (vs.partial)`
have run without a failed assertion, `writeState` fails with the assertion
"State condition requires too many inputs" if and only if some component has
an expression in the array `exprs` (the guard of the transition of its
position, or a conditional-output expression) for which `collectInputs`
reports more distinct input bits than the component has pins; a component
without an expression, or with one within the limit, does not raise it, and
no later part of `writeState` fails with this assertion. -/
theorem writeState_input_overflow (dt : DecisionTree) (out : BitmaskRef) (stew : STEW)
    (vs : VirtualState) (stateMap : StateMap) (uninit : List Nat)
    (s : DecisionTree.Breakdown) (out1 : BitmaskRef)
    (hs : dt.writeTransitions out stew vs stateMap = .ok s)
    (hp : DecisionTree.writePartial stew vs s.out s.comp = .ok out1) :
    dt.writeState out stew vs stateMap uninit = .error .tooManyInputs ↔
      ∃ comp e, comp < dt.nStaticComponents + dt.nConditionalComponents ∧
        (dt.assignConditional vs s.exprs).getD comp none = some e ∧
        (dt.comp comp).inputSize < (e.collectInputs DynamicBitmask.empty).count := by
  have hbody : ∀ (t : DecisionTree.Requirements) (b : Nat) (e : AssertFailure),
      dt.collectRequirement (dt.assignConditional vs s.exprs) t b = .error e →
      e = .tooManyInputs ∧ ∃ x, (dt.assignConditional vs s.exprs).getD b none = some x ∧
        (dt.comp b).inputSize < (x.collectInputs DynamicBitmask.empty).count := by
    intro t b e hw
    unfold DecisionTree.collectRequirement at hw
    simp only at hw
    split at hw
    · exact Except.noConfusion hw
    · rename_i hcount
      simp only [Except.error.injEq] at hw
      refine ⟨hw.symm, ?_⟩
      cases hx : (dt.assignConditional vs s.exprs).getD b none with
      | none =>
        rw [hx] at hcount
        exact absurd (Nat.zero_le _) hcount
      | some x =>
        rw [hx] at hcount
        exact ⟨x, rfl, Nat.lt_of_not_le hcount⟩
  constructor
  · intro h
    have hfull : dt.writeStateFull out stew vs stateMap uninit = .error .tooManyInputs := by
      unfold DecisionTree.writeState at h
      cases hf : dt.writeStateFull out stew vs stateMap uninit with
      | ok w => rw [hf] at h; exact Except.noConfusion h
      | error e =>
        rw [hf] at h
        simp only [Except.error.injEq] at h
        rw [h]
    rcases dt.writeStateFull_error out stew vs stateMap uninit s out1 _ hs hp hfull with h1 | h1
    · obtain ⟨t, b, hc, hw⟩ := forLoopE_error _ _ _ _ _ _ _ h1
      obtain ⟨_, x, hx, hlt⟩ := hbody t b _ hw
      exact ⟨b, x, of_decide_eq_true hc, hx, hlt⟩
    · rcases h1.2 with h2 | h2 | h2 <;> exact AssertFailure.noConfusion h2
  · rintro ⟨comp, e, hcomp, he, hlt⟩
    have hfail : ∀ t, dt.collectRequirement (dt.assignConditional vs s.exprs) t comp
        = .error .tooManyInputs := by
      intro t
      unfold DecisionTree.collectRequirement
      simp only
      rw [he]
      have hn : ¬ (e.collectInputs DynamicBitmask.empty).count ≤
          (dt.components.getD comp ⟨0, 0⟩).inputSize := Nat.not_le_of_lt hlt
      simp only
      rw [if_neg hn]
    have h3 : dt.collectRequirements (dt.assignConditional vs s.exprs)
        = .error .tooManyInputs :=
      forLoopE_range_fails (dt.nStaticComponents + dt.nConditionalComponents) _
        (dt.collectRequirement (dt.assignConditional vs s.exprs)) .tooManyInputs
        (fun _ _ => rfl) (fun t b e hw => (hbody t b e hw).1) comp hcomp hfail _ _ 0
        (by omega) (Nat.zero_le _)
    unfold DecisionTree.writeState DecisionTree.writeStateFull
    rw [hs]
    simp only
    rw [hp]
    simp only
    rw [h3]

/-- C23 on the example: the first guard of the state reads the inputs 0 to
4, and the tables have four pins. The first loop runs, the state is not
split, and `writeState` fails with the assertion on the number of inputs, for
the component 0. -/
theorem writeState_input_overflow_witness :
    ∃ s out1,
      Example.tree.writeTransitions (Example.word 0) Example.stew Example.wideState
        Example.stateMap = .ok s ∧
      DecisionTree.writePartial Example.stew Example.wideState s.out s.comp = .ok out1 ∧
      (Example.tree.writeState (Example.word 0) Example.stew Example.wideState
          Example.stateMap (List.replicate 8 0) = .error .tooManyInputs ↔
        ∃ comp e, comp < Example.tree.nStaticComponents + Example.tree.nConditionalComponents ∧
          (Example.tree.assignConditional Example.wideState s.exprs).getD comp none = some e ∧
          (Example.tree.comp comp).inputSize
            < (e.collectInputs DynamicBitmask.empty).count) := by
  cases hs : Example.tree.writeTransitions (Example.word 0) Example.stew Example.wideState
      Example.stateMap with
  | error e =>
    have ht : (Example.tree.writeTransitions (Example.word 0) Example.stew Example.wideState
        Example.stateMap).toBool = true := by decide
    rw [hs] at ht
    exact Bool.noConfusion ht
  | ok s =>
    have hp : DecisionTree.writePartial Example.stew Example.wideState s.out s.comp
        = .ok s.out := by
      unfold DecisionTree.writePartial
      rw [if_neg (by decide)]
    exact ⟨s, s.out, rfl, hp,
      writeState_input_overflow Example.tree (Example.word 0) Example.stew Example.wideState
        Example.stateMap (List.replicate 8 0) s s.out hs hp⟩

/-- C24: on the layout of the example without its INC field, `writeState`
returns on the first word of the split state, which is partial, and has set
the bit 0 of the word, the offset of the item that `STEW::slice` returns for
a field that is missing; the bit 0 belongs to no field of the layout. On the
layout without its MUX field `writeState` returns too, and has written the
selections of the muxes from the bit 0 on, over the INC bit. -/
theorem writeState_missing_field_not_detected :
    (Example.stewNoInc.slice .INC 0).type = .NIL ∧
    (Example.words.getD 0 (VirtualState.create 0)).isPartial = true ∧
    (Example.word 0).get 0 = false ∧
    (∀ item ∈ Example.stewNoInc.items, ¬ item.covers 0) ∧
    (Example.tree.writeStateFull (Example.word 0) Example.stewNoInc
      (Example.words.getD 0 (VirtualState.create 0)) Example.stateMap
      (List.replicate 8 0)).map (fun w => w.out.get 0) = .ok true ∧
    (Example.stewNoMux.slice .MUX 0).type = .NIL ∧
    (Example.tree.writeStateFull (Example.word 0) Example.stewNoMux
      (Example.words.getD 0 (VirtualState.create 0)) Example.stateMap
      (List.replicate 8 0)).map
        (fun w => (w.wireMapping, (List.range 6).map w.out.get))
      = .ok ([0, 5, 0, 0, 1, 2, 6, 7], [true, false, false, true, false, true]) := by
  refine ⟨by decide, by decide, by decide, by decide, by decide, by decide, by decide⟩

end Prism

namespace Prism

/-! ## The first loop of `writeState` on a layout that serves the state -/

/-- The loop of `writeInteger` through a slice inside its source succeeds
when the set bits of the value have their place in the slice. -/
theorem writeIntegerLoop_total (src : BitmaskRef) (off n : Nat) (hle : off + n ≤ src.size) :
    ∀ (fuel : Nat) (m : BitmaskRef) (bit value : Nat), m.IsSliceOf src off n →
      (∀ k, value >>> k ≠ 0 → bit + k < n) →
      ∃ r, Bitmask.writeIntegerLoop BitmaskRef.write fuel m bit value = .ok r := by
  intro fuel
  induction fuel with
  | zero => intro m bit value _ _; exact ⟨m, rfl⟩
  | succ f ih =>
    intro m bit value hm hbits
    unfold Bitmask.writeIntegerLoop
    by_cases hv : value ≠ 0
    · rw [if_pos hv]
      have hb : bit < n := by
        have := hbits 0 (by simpa using hv)
        omega
      obtain ⟨t, ht⟩ := hm.through_write_total hle (value &&& 1 != 0) hb
      rw [ht]
      simp only
      have hm2 := (hm.through_write_ok hle ht).2.1
      refine ih t (bit + 1) (value >>> 1) hm2 ?_
      intro k hk
      have := hbits (1 + k) (by rw [Nat.shiftRight_add]; exact hk)
      omega
    · rw [if_neg hv]
      exact ⟨m, rfl⟩

/-- `writeInteger` through the slice for a field inside a valid `src`
succeeds on a value that the field is wide enough for. -/
theorem writeInteger_field_total (src : BitmaskRef) (j : STEW.Item) (hv : src.Valid)
    (hfit : j.offset + j.size ≤ src.size) (value : Nat) (hval : value < 2 ^ j.size) :
    ∃ sl, Bitmask.writeInteger BitmaskRef.write
      ((BitmaskSlice.create src j.offset j.size).on src) value = .ok sl := by
  rw [(BitmaskSlice.create_le src j.offset j.size).2.2 hfit]
  have hm : (BitmaskSlice.on ⟨j.offset, j.size⟩ src).IsSliceOf src j.offset j.size :=
    BitmaskRef.isSliceOf_on src hv ⟨j.offset, j.size⟩
  unfold Bitmask.writeInteger
  refine writeIntegerLoop_total src j.offset j.size hfit 64 _ 0 _ hm ?_
  intro k hk
  by_contra hcon
  apply hk
  rw [Nat.shiftRight_eq_div_pow]
  apply Nat.div_eq_of_lt
  calc value % 2 ^ 64 ≤ value := Nat.mod_le _ _
    _ < 2 ^ j.size := hval
    _ ≤ 2 ^ k := Nat.pow_le_pow_right (by decide) (by omega)

/-- A key that `stateMap.find` gives a value for is an entry of the map. -/
theorem StateMap.mem_of_find : ∀ (m : StateMap) (k v : Nat), m.find k = some v → (k, v) ∈ m := by
  intro m
  induction m with
  | nil => intro k v h; exact Option.noConfusion h
  | cons a rest ih =>
    intro k v h
    unfold StateMap.find at h
    rw [List.lookup_cons] at h
    by_cases hk : k = a.1
    · have hb : (k == a.1) = true := by simpa using hk
      rw [hb] at h
      simp only [Option.some.injEq] at h
      have : a = (k, v) := by
        cases a with
        | mk a1 a2 => simp only at hk h; rw [hk, h]
      rw [this]
      exact List.mem_cons_self _ _
    · have hb : (k == a.1) = false := by simpa using hk
      rw [hb] at h
      exact List.mem_cons_of_mem _ (ih k v h)

/-- The block of the jump in the first loop of `writeState`, on a JMP field
that is there, inside the word and wide enough: it fails, with the assertion
"Invalid jump to undefined state", exactly when the map does not hold the
target and the target is not the state itself; otherwise it returns, and the
map has gained at most the entry of the state itself. -/
theorem DecisionTree.writeJump_total (stew : STEW) (vs : VirtualState)
    (s : DecisionTree.Breakdown) (x : StateTransition) (hv : s.out.Valid)
    (hnil : (stew.slice .JMP s.comp).type ≠ .NIL)
    (hfit : (stew.slice .JMP s.comp).offset + (stew.slice .JMP s.comp).size ≤ s.out.size)
    (hidx : vs.index < 2 ^ (stew.slice .JMP s.comp).size)
    (hval : ∀ v, s.stateMap.find x.state = some v → v < 2 ^ (stew.slice .JMP s.comp).size) :
    (s.stateMap.find x.state = none ∧ x.state ≠ vs.index →
      DecisionTree.writeJump stew vs s x = .error .undefinedJump) ∧
    (¬ (s.stateMap.find x.state = none ∧ x.state ≠ vs.index) →
      ∃ t, DecisionTree.writeJump stew vs s x = .ok t ∧
        t.stateMap = (if s.stateMap.find x.state = none
          then s.stateMap.assign vs.index x.state else s.stateMap)) := by
  constructor
  · rintro ⟨h1, h2⟩
    unfold DecisionTree.writeJump
    simp only
    rw [if_neg hnil, if_pos h1, if_neg h2]
  · intro hnot
    unfold DecisionTree.writeJump
    simp only
    rw [if_neg hnil]
    by_cases h1 : s.stateMap.find x.state = none
    · have h2 : x.state = vs.index := by
        by_contra hc
        exact hnot ⟨h1, hc⟩
      rw [if_pos h1, if_pos h2, if_pos h1]
      simp only
      have hf : (s.stateMap.assign vs.index x.state).find x.state = some x.state := by
        rw [StateMap.find_assign, if_pos h2]
      unfold StateTransition.writeState
      rw [StateMap.index_of_find hf]
      simp only
      obtain ⟨sl, hsl⟩ := writeInteger_field_total s.out (stew.slice .JMP s.comp) hv hfit
        x.state (by rw [h2]; exact hidx)
      rw [hsl]
      exact ⟨_, rfl, rfl⟩
    · rw [if_neg h1, if_neg h1]
      simp only
      obtain ⟨v, hvf⟩ := Option.ne_none_iff_exists'.mp h1
      unfold StateTransition.writeState
      rw [StateMap.index_of_find hvf]
      simp only
      obtain ⟨sl, hsl⟩ := writeInteger_field_total s.out (stew.slice .JMP s.comp) hv hfit
        v (hval v hvf)
      rw [hsl]
      exact ⟨_, rfl, rfl⟩

/-- The body of the first loop of `writeState` at the position `n`, on a
layout that serves the state: it fails, with the assertion "Invalid jump to
undefined state", exactly when the transition carries a jump to a state that
the map given to `writeState` does not hold and that is not the state itself;
otherwise it returns. -/
theorem DecisionTree.writeTransition_total (dt : DecisionTree) (out : BitmaskRef) (stew : STEW)
    (vs : VirtualState) (stateMap : StateMap)
    (hfit : dt.JumpsFit stew out.size vs stateMap)
    (s : DecisionTree.Breakdown) (n : Nat) (x : StateTransition)
    (hn : n < vs.transitions.length) (hinv : DecisionTree.JumpInv out vs stateMap s n) :
    ((n ≠ dt.nStaticComponents ∧ stateMap.find x.state = none ∧ x.state ≠ vs.index) →
      dt.writeTransition stew vs s x = .error .undefinedJump) ∧
    (¬ (n ≠ dt.nStaticComponents ∧ stateMap.find x.state = none ∧ x.state ≠ vs.index) →
      ∃ t, dt.writeTransition stew vs s x = .ok t ∧
        DecisionTree.JumpInv out vs stateMap t (n + 1)) := by
  obtain ⟨i1, i2, i3, i4, i5⟩ := hinv
  subst i1
  obtain ⟨f1, f2, f3⟩ := hfit s.comp hn
  -- the map of the loop and the map at first agree on the targets that are missing
  have hnone : x.state ≠ vs.index →
      (s.stateMap.find x.state = none ↔ stateMap.find x.state = none) := by
    intro hx
    constructor
    · intro h
      cases hf : stateMap.find x.state with
      | none => rfl
      | some v => rw [i5 _ _ hf] at h; exact Option.noConfusion h
    · intro h
      cases hf : s.stateMap.find x.state with
      | none => rfl
      | some v =>
        rcases i4 _ _ hf with h2 | h2
        · rw [h] at h2; exact Option.noConfusion h2
        · exact absurd h2.1 hx
  by_cases hS : s.comp = dt.nStaticComponents
  · -- no jump at this position
    refine ⟨fun h => absurd hS h.1, fun _ => ?_⟩
    unfold DecisionTree.writeTransition
    simp only
    rw [if_neg f1, if_neg (by simpa using hS)]
    simp only
    obtain ⟨sl, hsl⟩ := x.writeOutput_field_total s.out s.out (stew.slice .OUT s.comp) i2 rfl
      (by rw [i3]; exact f2)
    rw [hsl]
    simp only
    obtain ⟨g1, g2, _⟩ := x.writeOutput_field s.out s.out (stew.slice .OUT s.comp) i2 rfl
      (by rw [i3]; exact f2) sl hsl
    exact ⟨_, rfl, rfl, g1, by rw [g2, i3], i4, i5⟩
  · obtain ⟨j1, j2, j3, j4⟩ := f3 hS
    have hval : ∀ v, s.stateMap.find x.state = some v →
        v < 2 ^ (stew.slice .JMP s.comp).size := by
      intro v hf
      rcases i4 _ _ hf with h2 | h2
      · exact j4 (x.state, v) (StateMap.mem_of_find _ _ _ h2)
      · rw [h2.2]; exact j3
    obtain ⟨k1, k2⟩ := DecisionTree.writeJump_total stew vs s x i2 j1 (by rw [i3]; exact j2)
      j3 hval
    constructor
    · rintro ⟨_, h2, h3⟩
      unfold DecisionTree.writeTransition
      simp only
      rw [if_neg f1, if_pos hS, k1 ⟨(hnone h3).mpr h2, h3⟩]
    · intro hnot
      have hnot2 : ¬ (s.stateMap.find x.state = none ∧ x.state ≠ vs.index) := by
        rintro ⟨h2, h3⟩
        exact hnot ⟨hS, (hnone h3).mp h2, h3⟩
      obtain ⟨t, ht, htm⟩ := k2 hnot2
      obtain ⟨w1, w2, _, w4⟩ := DecisionTree.writeJump_weak stew vs s t x i2 ht
      unfold DecisionTree.writeTransition
      simp only
      rw [if_neg f1, if_pos hS, ht]
      simp only
      obtain ⟨sl, hsl⟩ := x.writeOutput_field_total s.out t.out (stew.slice .OUT s.comp) w1
        w2.symm (by rw [w2, i3]; exact f2)
      rw [hsl]
      simp only
      obtain ⟨g1, g2, _⟩ := x.writeOutput_field s.out t.out (stew.slice .OUT s.comp) w1
        w2.symm (by rw [w2, i3]; exact f2) sl hsl
      refine ⟨_, rfl, by simp only [w4], g1, by rw [g2, w2, i3], ?_, ?_⟩
      · intro key v hkv
        simp only at hkv
        rw [htm] at hkv
        by_cases h1 : s.stateMap.find x.state = none
        · rw [if_pos h1, StateMap.find_assign] at hkv
          have hx : x.state = vs.index := by
            by_contra hc
            exact hnot2 ⟨h1, hc⟩
          by_cases hk : key = vs.index
          · rw [if_pos hk] at hkv
            simp only [Option.some.injEq] at hkv
            exact Or.inr ⟨hk, by rw [← hkv, hx]⟩
          · rw [if_neg hk] at hkv
            exact i4 _ _ hkv
        · rw [if_neg h1] at hkv
          exact i4 _ _ hkv
      · intro key v hkv
        simp only
        rw [htm]
        by_cases h1 : s.stateMap.find x.state = none
        · rw [if_pos h1, StateMap.find_assign]
          have hx : x.state = vs.index := by
            by_contra hc
            exact hnot2 ⟨h1, hc⟩
          by_cases hk : key = vs.index
          · exfalso
            have := i5 _ _ hkv
            rw [hk, ← hx, h1] at this
            exact Option.noConfusion this
          · rw [if_neg hk]
            exact i5 _ _ hkv
        · rw [if_neg h1]
          exact i5 _ _ hkv

/-- The first loop of `writeState` from the position of the transitions
`suf`, on a layout that serves the state: it fails, with the assertion
"Invalid jump to undefined state", when one of the transitions left carries a
jump to a state that is neither in the map nor the state itself, and returns
otherwise. -/
theorem DecisionTree.writeTransitions_loop (dt : DecisionTree) (out : BitmaskRef) (stew : STEW)
    (vs : VirtualState) (stateMap : StateMap)
    (hfit : dt.JumpsFit stew out.size vs stateMap) :
    ∀ (suf pre : List StateTransition) (s : DecisionTree.Breakdown),
      vs.transitions = pre ++ suf → DecisionTree.JumpInv out vs stateMap s pre.length →
      ((∃ k, pre.length ≤ k ∧ dt.undefinedJumpAt vs stateMap k) →
        forEachE (dt.writeTransition stew vs) suf s = .error .undefinedJump) ∧
      ((¬ ∃ k, pre.length ≤ k ∧ dt.undefinedJumpAt vs stateMap k) →
        ∃ r, forEachE (dt.writeTransition stew vs) suf s = .ok r ∧
          DecisionTree.JumpInv out vs stateMap r vs.transitions.length) := by
  intro suf
  induction suf with
  | nil =>
    intro pre s hsplit hinv
    have hlen : vs.transitions.length = pre.length := by rw [hsplit]; simp
    constructor
    · rintro ⟨k, hk, x, hx, _⟩
      exfalso
      rw [List.getElem?_eq_none (by omega)] at hx
      exact Option.noConfusion hx
    · intro _
      exact ⟨s, rfl, by rw [hlen]; exact hinv⟩
  | cons x xs ih =>
    intro pre s hsplit hinv
    have hx : vs.transitions[pre.length]? = some x := by
      rw [hsplit, List.getElem?_append_right (Nat.le_refl _), Nat.sub_self]
      exact List.getElem?_cons_zero
    have hn : pre.length < vs.transitions.length := by
      rw [hsplit]; simp
    obtain ⟨t1, t2⟩ := dt.writeTransition_total out stew vs stateMap hfit s pre.length x hn hinv
    have hsplit2 : vs.transitions = (pre ++ [x]) ++ xs := by
      rw [hsplit]; simp
    have hlen2 : (pre ++ [x]).length = pre.length + 1 := by simp
    by_cases hbad : pre.length ≠ dt.nStaticComponents ∧ stateMap.find x.state = none ∧
        x.state ≠ vs.index
    · have herr : forEachE (dt.writeTransition stew vs) (x :: xs) s
          = .error .undefinedJump := by
        unfold forEachE
        rw [t1 hbad]
      refine ⟨fun _ => herr, fun hnone => ?_⟩
      exact absurd ⟨pre.length, Nat.le_refl _, x, hx, hbad⟩ hnone
    · obtain ⟨t, ht, hinv2⟩ := t2 hbad
      have hstep : forEachE (dt.writeTransition stew vs) (x :: xs) s
          = forEachE (dt.writeTransition stew vs) xs t := by
        conv => lhs; unfold forEachE
        rw [ht]
      rw [hstep]
      obtain ⟨r1, r2⟩ := ih (pre ++ [x]) t hsplit2 (by rw [hlen2]; exact hinv2)
      rw [hlen2] at r1 r2
      constructor
      · rintro ⟨k, hk, hu⟩
        apply r1
        refine ⟨k, ?_, hu⟩
        by_contra hc
        have hkeq : k = pre.length := by omega
        subst hkeq
        obtain ⟨y, hy, hy2⟩ := hu
        rw [hx] at hy
        simp only [Option.some.injEq] at hy
        subst hy
        exact hbad hy2
      · intro hnone
        apply r2
        rintro ⟨k, hk, hu⟩
        exact hnone ⟨k, by omega, hu⟩

/-- The first loop of `writeState` on a valid word and a layout that serves
the state: it fails, with the assertion "Invalid jump to undefined state",
exactly when a transition carries a jump to a state that is neither in the
map nor the state itself, and returns otherwise, with a map that holds what
it held and for the index of the state at most the index itself. -/
theorem DecisionTree.writeTransitions_total (dt : DecisionTree) (out : BitmaskRef) (stew : STEW)
    (vs : VirtualState) (stateMap : StateMap) (hv : out.Valid)
    (hfit : dt.JumpsFit stew out.size vs stateMap) :
    ((∃ k, dt.undefinedJumpAt vs stateMap k) →
      dt.writeTransitions out stew vs stateMap = .error .undefinedJump) ∧
    ((¬ ∃ k, dt.undefinedJumpAt vs stateMap k) →
      ∃ r, dt.writeTransitions out stew vs stateMap = .ok r ∧
        DecisionTree.JumpInv out vs stateMap r vs.transitions.length) := by
  obtain ⟨r1, r2⟩ := dt.writeTransitions_loop out stew vs stateMap hfit vs.transitions []
    { out := out, stateMap := stateMap,
      exprs := List.replicate (dt.nStaticComponents + dt.nConditionalComponents) none,
      comp := 0 } rfl
    ⟨rfl, hv, rfl, fun _ _ h => Or.inl h, fun _ _ h => h⟩
  constructor
  · rintro ⟨k, hk⟩
    exact r1 ⟨k, Nat.zero_le _, hk⟩
  · intro hnone
    exact r2 (fun ⟨k, _, hk⟩ => hnone ⟨k, hk⟩)

/-- C22: on a valid word and a layout that has, for every transition of the
state, the OUT and JMP fields it needs, wide enough for the targets,
`writeState` fails with the assertion "Invalid jump to undefined state" if
and only if some transition that carries a jump (one at a position other
than `nStaticComponents`) has a target that the state map does not hold and
that differs from the index of the state. When no transition is such, the
first loop returns; a jump to the index of the state itself, which the map
lacks, then leaves the map with the index mapped to itself and, on fields
that do not overlap, the JMP field of the position with the bits of the
index. -/
theorem writeState_undefined_jump (dt : DecisionTree) (out : BitmaskRef) (stew : STEW)
    (vs : VirtualState) (stateMap : StateMap) (uninit : List Nat) (hv : out.Valid)
    (hfit : dt.JumpsFit stew out.size vs stateMap) :
    (dt.writeState out stew vs stateMap uninit = .error .undefinedJump ↔
      ∃ k, dt.undefinedJumpAt vs stateMap k) ∧
    ((¬ ∃ k, dt.undefinedJumpAt vs stateMap k) →
      ∃ s, dt.writeTransitions out stew vs stateMap = .ok s ∧
        ∀ k x, vs.transitions[k]? = some x → k ≠ dt.nStaticComponents →
          x.state = vs.index → stateMap.find vs.index = none →
          dt.FieldsApart stew vs.transitions.length out.size →
          s.stateMap.find vs.index = some vs.index ∧
          ∀ i, (vs.index % 2 ^ 64) >>> i ≠ 0 →
            s.out.get ((stew.slice .JMP k).offset + i) = (vs.index % 2 ^ 64).testBit i) := by
  obtain ⟨t1, t2⟩ := dt.writeTransitions_total out stew vs stateMap hv hfit
  refine ⟨⟨fun h => ?_, fun h => ?_⟩, fun hnone => ?_⟩
  · -- a failure with this assertion comes from the first loop
    by_contra hnone
    obtain ⟨s, hs, _⟩ := t2 hnone
    unfold DecisionTree.writeState at h
    cases hf : dt.writeStateFull out stew vs stateMap uninit with
    | ok w => rw [hf] at h; exact Except.noConfusion h
    | error e =>
      rw [hf] at h
      simp only [Except.error.injEq] at h
      subst h
      cases hp : DecisionTree.writePartial stew vs s.out s.comp with
      | error e2 =>
        have hf2 := hf
        unfold DecisionTree.writeStateFull at hf2
        rw [hs] at hf2
        simp only at hf2
        rw [hp] at hf2
        simp only [Except.error.injEq] at hf2
        have := DecisionTree.writePartial_error stew vs s.out s.comp e2 hp
        rw [hf2] at this
        exact AssertFailure.noConfusion this
      | ok out1 =>
        rcases dt.writeStateFull_error out stew vs stateMap uninit s out1 _ hs hp hf with h1 | h1
        · exact AssertFailure.noConfusion (dt.collectRequirements_error _ _ h1)
        · rcases h1.2 with h2 | h2 | h2 <;> exact AssertFailure.noConfusion h2
  · unfold DecisionTree.writeState DecisionTree.writeStateFull
    rw [t1 h]
  · obtain ⟨s, hs, hinv⟩ := t2 hnone
    refine ⟨s, hs, ?_⟩
    intro k x hx hk hxs hmiss hapart
    obtain ⟨_, _, _, _, _, _, hw, _⟩ := dt.writeTransitions_spec out stew vs stateMap s hv hapart hs
    obtain ⟨_, _, hj⟩ := hw k x hx
    obtain ⟨_, ⟨target, ht1, ht2, _⟩, _⟩ := hj hk
    have htarget : target = vs.index := by
      rw [hxs] at ht1
      rcases hinv.2.2.2.1 _ _ ht1 with h2 | h2
      · rw [hmiss] at h2; exact Option.noConfusion h2
      · exact h2.2
    subst htarget
    rw [hxs] at ht1
    exact ⟨ht1, fun i hi => (ht2 i hi).2⟩

/-- C22 on the example: the state with two guarded transitions, to the states
1 and 2, and a map that holds the state 0 alone. The layout serves the
state, and `writeState` fails with the assertion on the jump as the
transition at the position 0 goes to the state 1. -/
theorem writeState_undefined_jump_witness :
    (Example.word 0).Valid ∧
    Example.tree.JumpsFit Example.stew (Example.word 0).size Example.shortState [(0, 0)] ∧
    (Example.tree.writeState (Example.word 0) Example.stew Example.shortState [(0, 0)]
        (List.replicate 8 0) = .error .undefinedJump ↔
      ∃ k, Example.tree.undefinedJumpAt Example.shortState [(0, 0)] k) ∧
    Example.tree.undefinedJumpAt Example.shortState [(0, 0)] 0 :=
  ⟨Example.word_valid 0, by decide,
    (writeState_undefined_jump Example.tree (Example.word 0) Example.stew Example.shortState
      [(0, 0)] (List.replicate 8 0) (Example.word_valid 0) (by decide)).1,
    ⟨_, rfl, by decide, by decide, by decide⟩⟩

end Prism

namespace Prism

/-! ## The builder: declared states -/

/-- `split` pushes the new branch on the chain of the open branches, with the
visible node at its true edge and a clone of it at the other. -/
theorem ParseContextTree.split_eq (ctx : ParseContextTree) (expr : LogicExpression) :
    ctx.split expr
      = { ctx with
          parent := { expr := expr, onTrue := true, other := ctx.current.clone } :: ctx.parent } :=
  rfl

/-- `mergeConditionalOutput` keeps the id of the state. -/
theorem ParseContextTree.State.mergeConditionalOutput_state (st : ParseContextTree.State)
    (bit : Nat) (expr : LogicExpression) (value : Bool) :
    (st.mergeConditionalOutput bit expr value).state = st.state := by
  unfold ParseContextTree.State.mergeConditionalOutput
  cases st.condOut.find bit with
  | none => rfl
  | some cs =>
    simp only
    split <;> rfl

/-- The ids of a list of states after one of them went through a function
that keeps the id. -/
theorem map_state_modify (f : ParseContextTree.State → ParseContextTree.State)
    (hf : ∀ st, (f st).state = st.state) :
    ∀ (l : List ParseContextTree.State) (n : Nat),
      (l.modify f n).map (fun st => st.state) = l.map (fun st => st.state) := by
  intro l
  induction l with
  | nil => intro n; cases n <;> rfl
  | cons a rest ih =>
    intro n
    cases n with
    | zero => simp [List.modify, hf]
    | succ m =>
      simp only [List.modify_succ_cons, List.map_cons, ih m]

/-- `assign` keeps the ids of the declared states. -/
theorem ParseContextTree.assign_states (ctx : ParseContextTree) (bit : Nat) (value : Bool) :
    (ctx.assign bit value).states.map (fun st => st.state)
      = ctx.states.map (fun st => st.state) := by
  unfold ParseContextTree.assign
  split
  · simp only
    cases ctx.activeState with
    | null =>
      simp only [List.map_map]
      apply List.map_congr_left
      intro st _
      exact ParseContextTree.State.mergeConditionalOutput_state st _ _ _
    | declared index =>
      simp only
      exact map_state_modify _
        (fun st => ParseContextTree.State.mergeConditionalOutput_state st _ _ _) _ _
    | dflt => rfl
  · split <;> rfl

/-- The ids of the declared states after one call of the builder that
returns: those before it, and the id that the call declares, if it is a call
of `splitStateCase`. -/
theorem ParseContextTree.call_states (ctx : ParseContextTree) (c : BuilderCall)
    (h : (ctx.call c).thrown = none) :
    (ctx.call c).ctx.states.map (fun st => st.state)
      = ctx.states.map (fun st => st.state) ++ BuilderCall.declared [c] := by
  cases c with
  | split expr => simp [ParseContextTree.call, ParseContextTree.split_eq, BuilderCall.declared]
  | switchSplit istrue =>
    simp only [ParseContextTree.call, BuilderCall.declared, List.append_nil]
    unfold ParseContextTree.switchSplit
    cases ctx.parent <;> rfl
  | join =>
    simp only [ParseContextTree.call, BuilderCall.declared, List.append_nil]
    unfold ParseContextTree.join
    cases ctx.parent with
    | nil => rfl
    | cons p rest =>
      simp only
      split <;> rfl
  | assign bit value =>
    simp only [ParseContextTree.call, BuilderCall.declared, List.append_nil]
    exact ctx.assign_states bit value
  | setTargetState state =>
    simp [ParseContextTree.call, ParseContextTree.setTargetState, BuilderCall.declared]
  | splitStateCase state pos =>
    simp only [ParseContextTree.call, BuilderCall.declared] at h ⊢
    unfold ParseContextTree.splitStateCase at h ⊢
    split
    · rename_i hany
      rw [if_pos hany] at h
      exact Option.noConfusion h
    · simp [ParseContextTree.split_eq, ParseContextTree.State.create]
  | defaultStateCase pos =>
    simp [ParseContextTree.call, ParseContextTree.defaultStateCase, BuilderCall.declared]
  | enterStateSwitch => simp [ParseContextTree.call, BuilderCall.declared]
  | exitStateSwitch =>
    simp [ParseContextTree.call, ParseContextTree.exitStateSwitch, BuilderCall.declared]

/-- The ids declared by a history of calls, call by call. -/
theorem BuilderCall.declared_cons (c : BuilderCall) (rest : List BuilderCall) :
    BuilderCall.declared (c :: rest) = BuilderCall.declared [c] ++ BuilderCall.declared rest := by
  cases c <;> rfl

/-- The list `states` after a history of calls that all return holds, in the
order of the calls, the states that were there and the states that the calls
of `splitStateCase` have declared: no other call adds a state or removes
one. -/
theorem ParseContextTree.run_states : ∀ (h : List BuilderCall) (ctx : ParseContextTree),
    (ctx.run h).thrown = none →
    (ctx.run h).ctx.states.map (fun st => st.state)
      = ctx.states.map (fun st => st.state) ++ BuilderCall.declared h := by
  intro h
  induction h with
  | nil => intro ctx _; simp [ParseContextTree.run, BuilderCall.declared]
  | cons c rest ih =>
    intro ctx hrun
    unfold ParseContextTree.run at hrun ⊢
    cases hc : (ctx.call c).thrown with
    | some a =>
      rw [hc] at hrun
      exact Option.noConfusion hrun
    | none =>
      rw [hc] at hrun
      simp only at hrun ⊢
      rw [ih _ hrun, ctx.call_states c hc, List.append_assoc,
        ← BuilderCall.declared_cons c rest]

/-- C25: after any history of builder calls that all returned,
`splitStateCase(s, pos)` throws the assertion "Duplicate case for state s"
with the position `pos` if and only if an earlier call of `splitStateCase`
has declared `s`. When it throws, the builder is as it was before the call:
the list of the declared states, the active state and the diagram. When it
returns, the list of the declared states is the list before the call with
the new state for `s` at its end, so that the ids of the list are the ids
declared by the history, in the order of the calls, and then `s`. -/
theorem splitStateCase_duplicate (h : List BuilderCall) (s : Nat) (pos : FilePos)
    (hrun : (ParseContextTree.create.run h).thrown = none) :
    (((ParseContextTree.create.run h).ctx.splitStateCase s pos).thrown
        = some (.duplicateState s pos) ↔ s ∈ BuilderCall.declared h) ∧
    (s ∈ BuilderCall.declared h →
      ((ParseContextTree.create.run h).ctx.splitStateCase s pos).ctx
        = (ParseContextTree.create.run h).ctx) ∧
    (s ∉ BuilderCall.declared h →
      ((ParseContextTree.create.run h).ctx.splitStateCase s pos).thrown = none ∧
      ((ParseContextTree.create.run h).ctx.splitStateCase s pos).ctx.states
        = (ParseContextTree.create.run h).ctx.states ++
          [ParseContextTree.State.create s
            (ParseContextTree.create.run h).ctx.globalState.condOut pos] ∧
      ((ParseContextTree.create.run h).ctx.splitStateCase s pos).ctx.states.map
          (fun st => st.state) = BuilderCall.declared h ++ [s]) := by
  have hst := ParseContextTree.run_states h ParseContextTree.create hrun
  have hst2 : (ParseContextTree.create.run h).ctx.states.map (fun st => st.state)
      = BuilderCall.declared h := by
    rw [hst]; rfl
  have hany : (ParseContextTree.create.run h).ctx.states.any
      (fun existingState => existingState.state == s) = true ↔ s ∈ BuilderCall.declared h := by
    rw [← hst2, List.any_eq_true]
    constructor
    · rintro ⟨st, hm, heq⟩
      exact List.mem_map.mpr ⟨st, hm, by simpa using heq⟩
    · intro hm
      obtain ⟨st, hm2, heq⟩ := List.mem_map.mp hm
      exact ⟨st, hm2, by simpa using heq⟩
  refine ⟨?_, ?_, ?_⟩
  · unfold ParseContextTree.splitStateCase
    constructor
    · intro ht
      by_contra hc
      rw [if_neg (fun h2 => hc (hany.mp h2))] at ht
      exact Option.noConfusion ht
    · intro hm
      rw [if_pos (hany.mpr hm)]
  · intro hm
    unfold ParseContextTree.splitStateCase
    rw [if_pos (hany.mpr hm)]
  · intro hm
    unfold ParseContextTree.splitStateCase
    rw [if_neg (fun h2 => hm (hany.mp h2))]
    refine ⟨rfl, rfl, ?_⟩
    simp only [ParseContextTree.split_eq, List.map_append, List.map_cons, List.map_nil, hst2]
    rfl

/-- C25 on the example: after the state switch with the arms of the states 1
and 0, a further `splitStateCase(1, pos)` throws, and `splitStateCase(2, pos)`
returns with the states 1, 0 and 2. -/
theorem splitStateCase_duplicate_witness :
    (ParseContextTree.create.run Example.twoStates).thrown = none ∧
    BuilderCall.declared Example.twoStates = [1, 0] ∧
    ((ParseContextTree.create.run Example.twoStates).ctx.splitStateCase 1 ⟨"fsm.v", 30⟩).thrown
        = some (.duplicateState 1 ⟨"fsm.v", 30⟩) ∧
    ((ParseContextTree.create.run Example.twoStates).ctx.splitStateCase 1 ⟨"fsm.v", 30⟩).ctx
        = (ParseContextTree.create.run Example.twoStates).ctx ∧
    ((ParseContextTree.create.run Example.twoStates).ctx.splitStateCase 2 ⟨"fsm.v", 30⟩).thrown
        = none ∧
    ((ParseContextTree.create.run Example.twoStates).ctx.splitStateCase 2
        ⟨"fsm.v", 30⟩).ctx.states.map (fun st => st.state) = [1, 0] ++ [2] :=
  ⟨by decide, by decide,
    (splitStateCase_duplicate Example.twoStates 1 ⟨"fsm.v", 30⟩ (by decide)).1.mpr (by decide),
    (splitStateCase_duplicate Example.twoStates 1 ⟨"fsm.v", 30⟩ (by decide)).2.1 (by decide),
    ((splitStateCase_duplicate Example.twoStates 2 ⟨"fsm.v", 30⟩ (by decide)).2.2
      (by decide)).1,
    ((splitStateCase_duplicate Example.twoStates 2 ⟨"fsm.v", 30⟩ (by decide)).2.2
      (by decide)).2.2⟩

/-- The expression that the loop "collapse conditional" of `assign` builds is,
on any input, the conjunction of what it started from and of the conditions
of the open branches that are not state tests, each as it stands: the loop
does not look at the edge that the visible node lies under. -/
theorem ParseContextTree.collapse_value (inp : AbstractBufferBitmask) :
    ∀ (parents : List ParseContextTree.Scope) (expr : Option LogicExpression),
      ((ParseContextTree.collapse parents expr).getD .logicTrue).resolveLogic inp
        = ((expr.getD .logicTrue).resolveLogic inp &&
          parents.all fun p => p.expr.asState.isSome || p.expr.resolveLogic inp) := by
  intro parents
  induction parents with
  | nil => intro expr; simp [ParseContextTree.collapse]
  | cons p rest ih =>
    intro expr
    have hc : p.expr.cloneLogic.resolveLogic inp = p.expr.resolveLogic inp :=
      (cloneFuel_resolve _).2.1 p.expr _ (p.expr.cloneLogicFuel_enough 0) inp
    unfold ParseContextTree.collapse
    rw [List.all_cons]
    cases hs : p.expr.asState with
    | some st =>
      simp only [Option.isSome_some, Bool.true_or, Bool.true_and]
      exact ih expr
    | none =>
      simp only [Option.isSome_none, Bool.false_or]
      cases expr with
      | none =>
        simp only
        rw [ih]
        simp only [Option.getD_some, Option.getD_none, LogicExpression.resolveLogic, hc,
          Bool.true_and]
      | some e =>
        simp only
        rw [ih]
        simp only [Option.getD_some, LogicExpression.resolveLogic, hc, Bool.and_assoc]

/-- The guard that `assign` hands to `mergeConditionalOutput` is, on any
input, the conjunction of the conditions of the open branches that are not
state tests. -/
theorem ParseContextTree.guard_value (ctx : ParseContextTree) (inp : AbstractBufferBitmask) :
    ctx.guard.resolveLogic inp
      = ctx.parent.all fun p => p.expr.asState.isSome || p.expr.resolveLogic inp := by
  have h := ParseContextTree.collapse_value inp ctx.parent none
  simp only [Option.getD_none, LogicExpression.resolveLogic, Bool.true_and] at h
  rw [← h]
  unfold ParseContextTree.guard
  cases ParseContextTree.collapse ctx.parent none <;> rfl

/-- Where the visible node lies under the true edge of every open branch
that is not a state test, the guard that `assign` hands over has the value of
the path condition. -/
theorem ParseContextTree.guard_on_true_edges (ctx : ParseContextTree)
    (inp : AbstractBufferBitmask)
    (h : ∀ p ∈ ctx.parent, p.expr.asState = none → p.onTrue = true) :
    ctx.guard.resolveLogic inp = ctx.pathCondition inp := by
  rw [ctx.guard_value inp]
  unfold ParseContextTree.pathCondition
  have key : ∀ (l : List ParseContextTree.Scope),
      (∀ p ∈ l, p.expr.asState = none → p.onTrue = true) →
      (l.all fun p => p.expr.asState.isSome || p.expr.resolveLogic inp)
        = l.all fun p => p.expr.asState.isSome || (p.expr.resolveLogic inp == p.onTrue) := by
    intro l
    induction l with
    | nil => intro _; rfl
    | cons p rest ih =>
      intro hl
      rw [List.all_cons, List.all_cons, ih (fun q hq => hl q (List.mem_cons_of_mem _ hq))]
      congr 1
      cases hs : p.expr.asState with
      | some st => simp
      | none =>
        rw [hl p (List.mem_cons_self _ _) hs]
        simp
  exact key ctx.parent h

/-- C27: inside the else branch of `if (I0)` (after `split(I0)` and
`switchSplit(false)`) the visible node lies under the false edge of the one
open branch, and the guard that `assign` hands to `mergeConditionalOutput`
for a conditional output is the condition `I0` itself, not its negation: on
an input with `I0` set the guard is true and the path condition of the
visible node is false. So `if (I0) cout = 1; else cout = 0;` leaves for
`cout` the polarity 1 with an expression that is false where `I0` holds. -/
theorem assign_guard_ignores_false_edge :
    Example.elseBranch.parent.map (fun p => p.onTrue) = [false] ∧
    Example.elseBranch.guard = Example.cond ∧
    Example.elseBranch.guard.resolveLogic (Example.output [0]).toAbstractBufferBitmask = true ∧
    Example.elseBranch.pathCondition (Example.output [0]).toAbstractBufferBitmask = false ∧
    (Example.elseBranch.assign 0x10000 true).globalState.condOut.map
        (fun it => (it.1, it.2.first,
          it.2.second.expr.resolveLogic (Example.output [0]).toAbstractBufferBitmask))
      = [(0, true, true)] ∧
    (ParseContextTree.create.run
        [.split Example.cond, .assign 0x10000 true, .switchSplit false,
          .assign 0x10000 false, .join]).ctx.globalState.condOut.map
        (fun it => (it.1, it.2.first,
          it.2.second.expr.resolveLogic (Example.output [0]).toAbstractBufferBitmask))
      = [(0, true, false)] := by
  refine ⟨by decide, rfl, by decide, by decide, by decide, by decide⟩

end Prism

namespace Prism

/-! ## What every write keeps, `writeState` keeps -/

namespace BitmaskRef

/-- A property that every write keeps is kept by `set`. -/
theorem WriteClosed.of_set {P : BitmaskRef → Prop} (hP : WriteClosed P) {m m2 : BitmaskRef}
    {bit : Nat} (hm : P m) (h : m.set bit = .ok m2) : P m2 :=
  hP m bit true m2 hm (by unfold BitmaskRef.write; simpa using h)

/-- A property that every write keeps on the source is kept by every write
through a slice. -/
theorem WriteClosed.through {P : BitmaskRef → Prop} (hP : WriteClosed P) :
    WriteClosed (Through P) := by
  rintro sl bit value m2 ⟨m, offset, nbits, rfl, hm⟩ h
  obtain ⟨_, s2, hs2, hw⟩ := slice_write_ok m offset nbits bit value m2 h
  exact ⟨s2, offset, nbits, hs2, hP m _ value s2 hm hw⟩

/-- The source of a slice of a source with the property has it. -/
theorem Through.source_has {P : BitmaskRef → Prop} {sl : BitmaskRef} (h : Through P sl) :
    P sl.source := by
  obtain ⟨m, offset, nbits, rfl, hm⟩ := h
  exact hm

/-- A slice made on an object with the property is a slice of such a
source. -/
theorem through_on {P : BitmaskRef → Prop} {m : BitmaskRef} (hm : P m) (v : BitmaskSlice) :
    Through P (v.on m) :=
  ⟨m, v.offset, v.nbits, rfl, hm⟩

/-- `copy` keeps what every write keeps. -/
theorem WriteClosed.of_copy {P : BitmaskRef → Prop} (hP : WriteClosed P) {m r : BitmaskRef}
    (frm : AbstractBufferBitmask) (hm : P m) (h : m.copy frm = .ok r) : P r :=
  forLoopE_inv P _ _ _ (fun s bit t hs _ hb => hP s bit _ t hs hb) _ m 0 r hm h

/-- `writeInteger` keeps what every write keeps. -/
theorem WriteClosed.of_writeInteger {P : BitmaskRef → Prop} (hP : WriteClosed P)
    {m r : BitmaskRef} (value : Nat) (hm : P m)
    (h : Bitmask.writeInteger BitmaskRef.write m value = .ok r) : P r :=
  writeIntegerLoop_inv P BitmaskRef.write (fun s bit v t hs hb => hP s bit v t hs hb)
    _ m 0 _ r hm h

end BitmaskRef

/-- `writeOutput` keeps what every write keeps. -/
theorem StateTransition.writeOutput_closed {P : BitmaskRef → Prop}
    (hP : BitmaskRef.WriteClosed P) (x : StateTransition) {m r : BitmaskRef} (hm : P m)
    (h : x.writeOutput m = .ok r) : P r :=
  forLoopE_inv P _ _ _ (fun s bit t hs _ hb => hP s bit _ t hs hb) _ m 0 r hm h

/-- `LUT::write` keeps what every write keeps. -/
theorem LUT.table_write_closed {P : BitmaskRef → Prop} (hP : BitmaskRef.WriteClosed P) (c : LUT)
    (grp : BitGroup) (expr : LogicExpression) {m r : BitmaskRef} (hm : P m)
    (h : c.write m grp expr = .ok r) : P r := by
  refine forLoopE_inv P _ _ _ (fun s bit t hs _ hb => ?_) _ m 0 r hm h
  simp only at hb
  split at hb
  · exact hP s bit _ t hs hb
  · exact Except.noConfusion hb

/-- The block of the jump in the first loop of `writeState` keeps, on the
word, what every write keeps. -/
theorem DecisionTree.writeJump_closed {P : BitmaskRef → Prop} (hP : BitmaskRef.WriteClosed P)
    (stew : STEW) (vs : VirtualState) (s t : DecisionTree.Breakdown) (x : StateTransition)
    (hm : P s.out) (h : DecisionTree.writeJump stew vs s x = .ok t) : P t.out := by
  unfold DecisionTree.writeJump at h
  simp only at h
  split at h
  · exact Except.noConfusion h
  · split at h
    · exact Except.noConfusion h
    · rename_i sm _
      simp only [StateTransition.writeState] at h
      split at h
      · exact Except.noConfusion h
      · rename_i r hr
        simp only [Except.ok.injEq] at h
        subst h
        split at hr
        · rename_i sl hw
          simp only [Except.ok.injEq] at hr
          subst hr
          exact (hP.through.of_writeInteger _ (BitmaskRef.through_on hm _) hw).source_has
        · exact Except.noConfusion hr

/-- The body of the first loop of `writeState` keeps, on the word, what every
write keeps. -/
theorem DecisionTree.writeTransition_closed {P : BitmaskRef → Prop}
    (hP : BitmaskRef.WriteClosed P) (dt : DecisionTree) (stew : STEW) (vs : VirtualState)
    (s t : DecisionTree.Breakdown) (x : StateTransition) (hm : P s.out)
    (h : dt.writeTransition stew vs s x = .ok t) : P t.out := by
  unfold DecisionTree.writeTransition at h
  simp only at h
  split at h
  · exact Except.noConfusion h
  · split at h
    · exact Except.noConfusion h
    · rename_i u hu
      split at h
      · exact Except.noConfusion h
      · rename_i sl hw
        simp only [Except.ok.injEq] at h
        subst h
        have hu2 : P u.out := by
          split at hu
          · exact DecisionTree.writeJump_closed hP stew vs s u x hm hu
          · simp only [Except.ok.injEq] at hu
            subst hu
            exact hm
        exact (x.writeOutput_closed hP.through (BitmaskRef.through_on hu2 _) hw).source_has

/-- The first loop of `writeState` keeps, on the word, what every write
keeps. -/
theorem DecisionTree.writeTransitions_closed {P : BitmaskRef → Prop}
    (hP : BitmaskRef.WriteClosed P) (dt : DecisionTree) (out : BitmaskRef) (stew : STEW)
    (vs : VirtualState) (stateMap : StateMap) (r : DecisionTree.Breakdown) (hm : P out)
    (h : dt.writeTransitions out stew vs stateMap = .ok r) : P r.out := by
  unfold DecisionTree.writeTransitions at h
  exact forEachE_inv (fun (s : DecisionTree.Breakdown) => P s.out)
    (dt.writeTransition stew vs) vs.transitions
    (fun s x t _ hs ht => dt.writeTransition_closed hP stew vs s t x hs ht) _ r hm h

/-- The block `if (vs.partial)` of `writeState` keeps, on the word, what
every write keeps. -/
theorem DecisionTree.writePartial_closed {P : BitmaskRef → Prop} (hP : BitmaskRef.WriteClosed P)
    (stew : STEW) (vs : VirtualState) (out out1 : BitmaskRef) (comp : Nat) (hm : P out)
    (h : DecisionTree.writePartial stew vs out comp = .ok out1) : P out1 := by
  unfold DecisionTree.writePartial at h
  split at h
  · simp only at h
    split at h
    · exact Except.noConfusion h
    · rename_i sl hc
      exact hP.of_set (hP.through.of_copy _ (BitmaskRef.through_on hm _) hc).source_has h
  · simp only [Except.ok.injEq] at h
    subst h
    exact hm

/-- The loop of `writeState` that writes the tables keeps, on the word, what
every write keeps. -/
theorem DecisionTree.writeComponents_closed {P : BitmaskRef → Prop}
    (hP : BitmaskRef.WriteClosed P) (dt : DecisionTree) (stew : STEW)
    (exprs : List (Option LogicExpression)) (wireMapping : List Nat) (out t : BitmaskRef)
    (hm : P out) (h : dt.writeComponents stew exprs wireMapping out = .ok t) : P t := by
  refine forLoopE_inv P _ _ _ (fun s comp u hs _ hb => ?_) _ out 0 t hm h
  unfold DecisionTree.writeComponent at hb
  simp only at hb
  split at hb
  · rename_i sl hw
    simp only [Except.ok.injEq] at hb
    subst hb
    exact (LUT.table_write_closed hP.through _ _ _ (BitmaskRef.through_on hs _) hw).source_has
  · exact Except.noConfusion hb

/-- `WireMap::write` keeps, on the word, what every write keeps. -/
theorem WireMap.mux_write_closed {P : BitmaskRef → Prop} (hP : BitmaskRef.WriteClosed P)
    (wm : WireMap) (mask t : BitmaskRef) (stew : STEW) (outputMapping uninit : List Nat)
    (hm : P mask) (h : wm.write mask stew outputMapping uninit = .ok t) : P t := by
  unfold WireMap.write InputMux.write at h
  refine forLoopE_inv P _ _ _ (fun s mux u hs _ hb => ?_) _ mask 0 t hm h
  simp only at hb
  split at hb
  · rename_i sl hw
    simp only [Except.ok.injEq] at hb
    subst hb
    exact (hP.through.of_writeInteger _ (BitmaskRef.through_on hs _) hw).source_has
  · exact Except.noConfusion hb

/-- `writeState`, when it returns, has kept on the word what every write
through a reference keeps. -/
theorem DecisionTree.writeStateFull_closed {P : BitmaskRef → Prop}
    (hP : BitmaskRef.WriteClosed P) (dt : DecisionTree) (out : BitmaskRef) (stew : STEW)
    (vs : VirtualState) (stateMap : StateMap) (uninit : List Nat) (w : DecisionTree.Written)
    (hm : P out) (h : dt.writeStateFull out stew vs stateMap uninit = .ok w) : P w.out := by
  obtain ⟨s, out1, req, alloc, out2, h1, h2, _, _, h5, h6, _⟩ :=
    dt.writeStateFull_ok out stew vs stateMap uninit w h
  have p1 := dt.writeTransitions_closed hP out stew vs stateMap s hm h1
  have p2 := DecisionTree.writePartial_closed hP stew vs s.out out1 s.comp p1 h2
  have p3 := dt.writeComponents_closed hP stew _ _ out1 out2 p2 h5
  exact WireMap.mux_write_closed hP dt.wires out2 w.out stew _ _ p3 h6

/-- To be the slice of a place of an image, as the image is apart from
writes inside the slice, is kept by every write. -/
theorem BitmaskRef.isSliceOf_closed (src : BitmaskRef) (off n : Nat)
    (hle : off + n ≤ src.size) :
    BitmaskRef.WriteClosed (fun m => m.IsSliceOf src off n) :=
  fun _ _ _ _ hm hw => (hm.through_write_ok hle hw).2.1

end Prism

namespace Prism

/-! ## `writeStates` -/

/-- With a static component `splitState` returns. -/
theorem DecisionTree.splitState_total (dt : DecisionTree) (hS : 1 ≤ dt.nStaticComponents)
    (out : List VirtualState) (vs : VirtualState) (stateMap : StateMap) :
    ∃ r, dt.splitState out vs stateMap = some r := by
  obtain ⟨added, h, _⟩ := splitStateLoop_count dt hS (vs.transitions.length + 1) out vs
    (Nat.lt_succ_self _)
  unfold DecisionTree.splitState
  simp only
  rw [h]
  exact ⟨_, rfl⟩

/-- With a static component the loop of `writeStates` that splits the
declared states returns. -/
theorem ParseContextTree.collectStatesLoop_total (ctx : ParseContextTree) (tree : DecisionTree)
    (hS : 1 ≤ tree.nStaticComponents) :
    ∀ (states : List ParseContextTree.State) (acc : List VirtualState × StateMap),
      ∃ r, ctx.collectStatesLoop tree states acc = some r := by
  intro states
  induction states with
  | nil => intro acc; exact ⟨acc, rfl⟩
  | cons st rest ih =>
    intro acc
    obtain ⟨r, hr⟩ := tree.splitState_total hS acc.1 (ctx.declaredState st) acc.2
    unfold ParseContextTree.collectStatesLoop
    rw [hr]
    exact ih r

/-- What the writing of a word throws is an assertion of `writeState`. -/
theorem ParseContextTree.writeWord_error (stew : STEW) (tree : DecisionTree)
    (uninit : Nat → List Nat) (s : ParseContextTree.Writing) (vstate : VirtualState)
    (t : ParseContextTree.Thrown)
    (h : ParseContextTree.writeWord stew tree uninit s vstate = .error t) :
    ∃ e, t.assertion = .inWriteState e := by
  unfold ParseContextTree.writeWord at h
  split at h
  · exact Except.noConfusion h
  · rename_i e _
    simp only [Except.error.injEq] at h
    subst h
    exact ⟨e, rfl⟩

/-- What the loop of `writeStates` over the split states throws is an
assertion of `writeState`. -/
theorem ParseContextTree.writeDeclared_error (stew : STEW) (tree : DecisionTree)
    (uninit : Nat → List Nat) (t : ParseContextTree.Thrown) :
    ∀ (l : List VirtualState) (s : ParseContextTree.Writing),
      ParseContextTree.writeDeclared stew tree uninit l s = .error t →
      ∃ e, t.assertion = .inWriteState e := by
  intro l
  induction l with
  | nil => intro s h; exact Except.noConfusion h
  | cons v rest ih =>
    intro s h
    unfold ParseContextTree.writeDeclared at h
    cases hw : ParseContextTree.writeWord stew tree uninit s v with
    | error e =>
      rw [hw] at h
      simp only [Except.error.injEq] at h
      subst h
      exact ParseContextTree.writeWord_error stew tree uninit s v _ hw
    | ok u =>
      rw [hw] at h
      exact ih u h

/-- What the last loop of `writeStates` throws is an assertion of
`writeState`, unless it goes through the null `defaultState`. -/
theorem ParseContextTree.writeOthers_error (ctx : ParseContextTree) (stew : STEW)
    (tree : DecisionTree) (uninit : Nat → List Nat) (t : ParseContextTree.Thrown) :
    ∀ (fuel : Nat) (s : ParseContextTree.Writing),
      ctx.writeOthers stew tree uninit fuel s = .error t →
      t.assertion = .nullPointer ∨ ∃ e, t.assertion = .inWriteState e := by
  intro fuel
  induction fuel with
  | zero => intro s h; exact Except.noConfusion h
  | succ n ih =>
    intro s h
    unfold ParseContextTree.writeOthers at h
    split at h
    · cases hd : ctx.defaultState with
      | none =>
        rw [hd] at h
        simp only [Except.error.injEq] at h
        subst h
        exact Or.inl rfl
      | some d =>
        rw [hd] at h
        simp only at h
        cases hw : ParseContextTree.writeWord stew tree uninit s (ctx.defaultWord d s.index) with
        | error e =>
          rw [hw] at h
          simp only [Except.error.injEq] at h
          subst h
          exact Or.inr (ParseContextTree.writeWord_error stew tree uninit s _ _ hw)
        | ok u =>
          rw [hw] at h
          exact ih u h
    · exact Except.noConfusion h

/-- C21: with at least one static component the splitting of the declared
states returns, and `writeStates` throws the assertion "Too many states for
STEW configuration" if and only if the number of the words that the
splitting has produced for all declared states exceeds `stew.count`; when it
throws this assertion, the image is the one that was passed in: the assertion
comes before the first write. -/
theorem writeStates_capacity (ctx : ParseContextTree) (out : BitmaskRef) (stew : STEW)
    (tree : DecisionTree) (uninit : Nat → List Nat) (hS : 1 ≤ tree.nStaticComponents) :
    ∃ words stateMap, ctx.collectStates tree = some (words, stateMap) ∧
      (ParseContextTree.thrownBy (ctx.writeStates out stew tree uninit) = some .tooManyStates ↔
        stew.count < words.length) ∧
      ∀ t, ctx.writeStates out stew tree uninit = .error t → t.assertion = .tooManyStates →
        t.image = some out := by
  obtain ⟨⟨words, stateMap⟩, hc⟩ := ctx.collectStatesLoop_total tree hS ctx.states ([], [])
  refine ⟨words, stateMap, hc, ?_, ?_⟩
  · unfold ParseContextTree.writeStates
    rw [show ctx.collectStates tree = some (words, stateMap) from hc]
    simp only
    by_cases hle : words.length ≤ stew.count
    · rw [if_pos hle]
      constructor
      · intro h
        exfalso
        cases hd : ParseContextTree.writeDeclared stew tree uninit words
            { out := out, stateMap := stateMap, index := 0 } with
        | error t =>
          rw [hd] at h
          simp only [ParseContextTree.thrownBy, Option.some.injEq] at h
          obtain ⟨e, he⟩ := ParseContextTree.writeDeclared_error stew tree uninit t _ _ hd
          rw [he] at h
          exact Assertion.noConfusion h
        | ok s =>
          rw [hd] at h
          simp only at h
          cases ho : ctx.writeOthers stew tree uninit (stew.count - s.index) s with
          | error t =>
            rw [ho] at h
            simp only [ParseContextTree.thrownBy, Option.some.injEq] at h
            rcases ParseContextTree.writeOthers_error ctx stew tree uninit t _ _ ho with he | ⟨e, he⟩
            · rw [he] at h; exact Assertion.noConfusion h
            · rw [he] at h; exact Assertion.noConfusion h
          | ok s2 =>
            rw [ho] at h
            exact Option.noConfusion h
      · intro h
        omega
    · rw [if_neg hle]
      exact ⟨fun _ => by omega, fun _ => rfl⟩
  · intro t ht hta
    unfold ParseContextTree.writeStates at ht
    rw [show ctx.collectStates tree = some (words, stateMap) from hc] at ht
    simp only at ht
    by_cases hle : words.length ≤ stew.count
    · rw [if_pos hle] at ht
      exfalso
      cases hd : ParseContextTree.writeDeclared stew tree uninit words
          { out := out, stateMap := stateMap, index := 0 } with
      | error t2 =>
        rw [hd] at ht
        simp only [Except.error.injEq] at ht
        subst ht
        obtain ⟨e, he⟩ := ParseContextTree.writeDeclared_error stew tree uninit _ _ _ hd
        rw [he] at hta
        exact Assertion.noConfusion hta
      | ok s =>
        rw [hd] at ht
        simp only at ht
        cases ho : ctx.writeOthers stew tree uninit (stew.count - s.index) s with
        | error t2 =>
          rw [ho] at ht
          simp only [Except.error.injEq] at ht
          subst ht
          rcases ParseContextTree.writeOthers_error ctx stew tree uninit _ _ _ ho with he | ⟨e, he⟩
          · rw [he] at hta; exact Assertion.noConfusion hta
          · rw [he] at hta; exact Assertion.noConfusion hta
        | ok s2 =>
          rw [ho] at ht
          exact Except.noConfusion ht
    · rw [if_neg hle] at ht
      simp only [Except.error.injEq] at ht
      subst ht
      rfl

/-- C21 on the example: two declared states, which the splitting makes into
two words, and a layout with one word: `writeStates` throws the assertion on
the number of states, and the image is untouched. -/
theorem writeStates_capacity_witness :
    1 ≤ Example.tree.nStaticComponents ∧
    ParseContextTree.thrownBy
      ((ParseContextTree.create.run Example.twoStates).ctx.writeStates Example.image
        Example.smallStew Example.tree (fun _ => List.replicate 8 0)) = some .tooManyStates ∧
    ∃ words stateMap,
      (ParseContextTree.create.run Example.twoStates).ctx.collectStates Example.tree
        = some (words, stateMap) ∧
      (ParseContextTree.thrownBy
          ((ParseContextTree.create.run Example.twoStates).ctx.writeStates Example.image
            Example.smallStew Example.tree (fun _ => List.replicate 8 0))
          = some .tooManyStates ↔ Example.smallStew.count < words.length) ∧
      ∀ t, (ParseContextTree.create.run Example.twoStates).ctx.writeStates Example.image
          Example.smallStew Example.tree (fun _ => List.replicate 8 0) = .error t →
        t.assertion = .tooManyStates → t.image = some Example.image :=
  ⟨by decide, by decide,
    writeStates_capacity (ParseContextTree.create.run Example.twoStates).ctx Example.image
      Example.smallStew Example.tree (fun _ => List.replicate 8 0) (by decide)⟩

end Prism

namespace Prism

/-! ## `writeStates` without a declared state -/

/-- The words of the image lie one after the other, the word 0 last: the
word `k` ends inside an image of `count` words, where the words below `k`
begin. -/
theorem word_offsets (count size k : Nat) (hk : k < count) :
    (count - k - 1) * size + size ≤ count * size ∧
    ∀ index, index < k → (count - k - 1) * size + size ≤ (count - index - 1) * size := by
  have key : (count - k - 1) * size + size = (count - k - 1 + 1) * size :=
    (Nat.add_one_mul _ _).symm
  rw [key]
  exact ⟨Nat.mul_le_mul_right _ (by omega), fun index hi => Nat.mul_le_mul_right _ (by omega)⟩

/-- The writing of the word `k` by the loops of `writeStates`, when it
returns: the word `k` of the image holds what `writeState` has written, and
the words below `k` are as they were. -/
theorem ParseContextTree.writeWord_words (stew : STEW) (tree : DecisionTree)
    (uninit : Nat → List Nat) (out : BitmaskRef) (vstate : Nat → VirtualState)
    (hsize : stew.count * stew.size ≤ out.size) (s t : ParseContextTree.Writing) (k : Nat)
    (hk : k < stew.count)
    (hinv : ParseContextTree.WordsWritten stew tree uninit out vstate s k)
    (h : ParseContextTree.writeWord stew tree uninit s (vstate k) = .ok t) :
    ParseContextTree.WordsWritten stew tree uninit out vstate t (k + 1) := by
  obtain ⟨i1, i2, i3, i4⟩ := hinv
  obtain ⟨o1, o2⟩ := word_offsets stew.count stew.size k hk
  have hfit : (stew.count - k - 1) * stew.size + stew.size ≤ s.out.size := by
    rw [i3]; exact Nat.le_trans o1 hsize
  unfold ParseContextTree.writeWord at h
  split at h
  · rename_i r hr
    simp only [Except.ok.injEq] at h
    subst h
    unfold DecisionTree.writeState at hr
    split at hr
    · rename_i w hw
      simp only [Except.ok.injEq] at hr
      subst hr
      rw [i1] at hw
      have hword : ParseContextTree.word s.out stew k
          = BitmaskSlice.on ⟨(stew.count - k - 1) * stew.size, stew.size⟩ s.out := by
        unfold ParseContextTree.word
        rw [(BitmaskSlice.create_le s.out _ _).2.2 hfit]
      have hP := BitmaskRef.isSliceOf_closed s.out ((stew.count - k - 1) * stew.size) stew.size
        hfit
      have hw2 := hw
      rw [hword] at hw2
      have hsl := tree.writeStateFull_closed hP _ stew (vstate k) s.stateMap (uninit k) w
        (BitmaskRef.isSliceOf_on s.out i2 ⟨(stew.count - k - 1) * stew.size, stew.size⟩) hw2
      obtain ⟨q1, q2, _, q4, q5⟩ := hsl.source_spec
      refine ⟨by simp only [i1], q1, by rw [q2, i3], ?_⟩
      intro index hindex
      by_cases hik : index = k
      · subst hik
        refine ⟨s.out, s.stateMap, w, hw, fun j hj => ?_⟩
        have hq := q5 j hj
        rw [Nat.add_comm] at hq
        exact hq
      · have hlt : index < k := by omega
        obtain ⟨before, sm, w0, hw0, hget⟩ := i4 index hlt
        refine ⟨before, sm, w0, hw0, fun j hj => ?_⟩
        rw [← hget j hj]
        exact q4 _ (Or.inr (by have := o2 index hlt; omega))
    · exact Except.noConfusion hr
  · exact Except.noConfusion h

/-- The last loop of `writeStates`, when it returns: every word of the image
holds what `writeState` has written for it. -/
theorem ParseContextTree.writeOthers_words (ctx : ParseContextTree) (stew : STEW)
    (tree : DecisionTree) (uninit : Nat → List Nat) (out : BitmaskRef)
    (d : ParseContextTree.State) (hd : ctx.defaultState = some d)
    (hsize : stew.count * stew.size ≤ out.size) :
    ∀ (fuel : Nat) (s r : ParseContextTree.Writing), stew.count - s.index ≤ fuel →
      s.index ≤ stew.count →
      ParseContextTree.WordsWritten stew tree uninit out (ctx.defaultWord d) s s.index →
      ctx.writeOthers stew tree uninit fuel s = .ok r →
      ParseContextTree.WordsWritten stew tree uninit out (ctx.defaultWord d) r stew.count := by
  intro fuel
  induction fuel with
  | zero =>
    intro s r hf hle hinv h
    simp only [ParseContextTree.writeOthers, Except.ok.injEq] at h
    subst h
    have : s.index = stew.count := by omega
    rw [this] at hinv
    exact hinv
  | succ n ih =>
    intro s r hf hle hinv h
    unfold ParseContextTree.writeOthers at h
    by_cases hlt : s.index < stew.count
    · rw [if_pos hlt, hd] at h
      simp only at h
      cases hw : ParseContextTree.writeWord stew tree uninit s (ctx.defaultWord d s.index) with
      | error e => rw [hw] at h; exact Except.noConfusion h
      | ok t =>
        rw [hw] at h
        have hinv2 := ParseContextTree.writeWord_words stew tree uninit out (ctx.defaultWord d)
          hsize s t s.index hlt hinv hw
        have hti : t.index = s.index + 1 := hinv2.1
        refine ih t r (by omega) (by omega) ?_ h
        rw [hti]
        exact hinv2
    · rw [if_neg hlt] at h
      simp only [Except.ok.injEq] at h
      subst h
      have : s.index = stew.count := by omega
      rw [this] at hinv
      exact hinv

/-- C26, as the code has it: after any history of builder calls that all
returned and in which no state was declared with `splitStateCase`, when
`writeStates` returns, on a valid image of `stew.count` words, the builder
has a default state, and every one of the `stew.count` words of the image
holds what `writeState` has written for the state made for its index from
the transitions collected from the root of the diagram and the conditional
outputs of the default state. -/
theorem writeStates_default_words (h : List BuilderCall) (out : BitmaskRef) (stew : STEW)
    (tree : DecisionTree) (uninit : Nat → List Nat) (img : BitmaskRef) (ctrl : Nat)
    (hrun : (ParseContextTree.create.run h).thrown = none)
    (hno : BuilderCall.declared h = []) (hv : out.Valid)
    (hsize : stew.count * stew.size ≤ out.size)
    (hw : (ParseContextTree.create.run h).ctx.writeStates out stew tree uninit
      = .ok (img, ctrl)) :
    ∀ index, index < stew.count → ∃ d before stateMap w,
      (ParseContextTree.create.run h).ctx.defaultState = some d ∧
      tree.writeStateFull (ParseContextTree.word before stew index) stew
        ((ParseContextTree.create.run h).ctx.defaultWord d index) stateMap (uninit index)
        = .ok w ∧
      ∀ j, j < stew.size →
        img.get ((stew.count - index - 1) * stew.size + j) = w.out.get j := by
  have hst := ParseContextTree.run_states h ParseContextTree.create hrun
  rw [hno] at hst
  have hstates : (ParseContextTree.create.run h).ctx.states = [] := by
    have : (ParseContextTree.create.run h).ctx.states.map (fun st => st.state) = [] := by
      rw [hst]; rfl
    exact List.map_eq_nil_iff.mp this
  unfold ParseContextTree.writeStates ParseContextTree.collectStates at hw
  rw [hstates] at hw
  simp only [ParseContextTree.collectStatesLoop, List.length_nil, Nat.zero_le, if_true,
    ParseContextTree.writeDeclared, Nat.sub_zero] at hw
  intro index hindex
  cases ho : (ParseContextTree.create.run h).ctx.writeOthers stew tree uninit stew.count
      { out := out, stateMap := [], index := 0 } with
  | error e => rw [ho] at hw; exact Except.noConfusion hw
  | ok s =>
    rw [ho] at hw
    simp only [Except.ok.injEq, Prod.mk.injEq] at hw
    cases hd : (ParseContextTree.create.run h).ctx.defaultState with
    | none =>
      exfalso
      obtain ⟨n, hn⟩ : ∃ n, stew.count = n + 1 := ⟨stew.count - 1, by omega⟩
      rw [hn] at ho
      unfold ParseContextTree.writeOthers at ho
      rw [if_pos (by simp only; omega), hd] at ho
      exact Except.noConfusion ho
    | some d =>
      have hfin := ParseContextTree.writeOthers_words (ParseContextTree.create.run h).ctx stew
        tree uninit out d hd hsize stew.count { out := out, stateMap := [], index := 0 } s
        (by simp) (Nat.zero_le _)
        ⟨rfl, hv, rfl, fun i hi => absurd hi (Nat.not_lt_zero i)⟩ ho
      obtain ⟨before, sm, w, hw1, hw2⟩ := hfin.2.2.2 index hindex
      refine ⟨d, before, sm, w, rfl, hw1, fun j hj => ?_⟩
      rw [← hw.1]
      exact hw2 j hj

/-- C26 on the example: a state switch with the default arm alone, which
jumps to state 5, declares no state, and `writeStates` throws the assertion
"Invalid jump to undefined state" in the word 0: the state map is empty, and
5 is not the index of the word. -/
theorem writeStates_default_arm_counterexample :
    (ParseContextTree.create.run Example.defaultCalls).thrown = none ∧
    BuilderCall.declared Example.defaultCalls = [] ∧
    ParseContextTree.thrownBy
      ((ParseContextTree.create.run Example.defaultCalls).ctx.writeStates Example.image
        Example.stew Example.tree (fun _ => List.replicate 8 0))
      = some (.inWriteState .undefinedJump) := by
  refine ⟨by decide, by decide, by decide⟩

/-- C26 on the example: a state switch with the default arm alone, which
jumps to state 0. `writeStates` returns, and each of the four words holds
what `writeState` has written for the default arm. -/
theorem writeStates_default_words_witness :
    (ParseContextTree.create.run Example.restartCalls).thrown = none ∧
    BuilderCall.declared Example.restartCalls = [] ∧
    Example.image.Valid ∧ Example.stew.count * Example.stew.size ≤ Example.image.size ∧
    ∃ img ctrl,
      (ParseContextTree.create.run Example.restartCalls).ctx.writeStates Example.image
        Example.stew Example.tree (fun _ => List.replicate 8 0) = .ok (img, ctrl) ∧
      ∀ index, index < Example.stew.count → ∃ d before stateMap w,
        (ParseContextTree.create.run Example.restartCalls).ctx.defaultState = some d ∧
        Example.tree.writeStateFull (ParseContextTree.word before Example.stew index)
          Example.stew
          ((ParseContextTree.create.run Example.restartCalls).ctx.defaultWord d index) stateMap
          (List.replicate 8 0) = .ok w ∧
        ∀ j, j < Example.stew.size →
          img.get ((Example.stew.count - index - 1) * Example.stew.size + j) = w.out.get j := by
  refine ⟨by decide, by decide, BufferBitmask.buffer_valid_ofSize _, by decide, ?_⟩
  cases hw : (ParseContextTree.create.run Example.restartCalls).ctx.writeStates Example.image
      Example.stew Example.tree (fun _ => List.replicate 8 0) with
  | error e =>
    have ht : ParseContextTree.thrownBy
        ((ParseContextTree.create.run Example.restartCalls).ctx.writeStates Example.image
          Example.stew Example.tree (fun _ => List.replicate 8 0)) = none := by decide
    rw [hw] at ht
    exact Option.noConfusion ht
  | ok r =>
    exact ⟨r.1, r.2, rfl,
      writeStates_default_words Example.restartCalls Example.image Example.stew Example.tree
        (fun _ => List.replicate 8 0) r.1 r.2 (by decide) (by decide)
        (BufferBitmask.buffer_valid_ofSize _) (by decide) hw⟩

end Prism

namespace Prism

/-! ## `constantSolve` as a claim about every input -/

/-- C34: `constantSolve` is sound. For every boolean expression `e` and
every value `res` of the reference argument on entry, if
`e.constantSolve(res)` returns true and leaves `res = b`, then
`e.resolveLogic(inp) = b` for every input vector `inp`. -/
theorem constantSolve_is_sound (e : LogicExpression) (res b : Bool)
    (h : e.constantSolve res = (true, b)) (inp : AbstractBufferBitmask) :
    e.resolveLogic inp = b := by
  have h1 : (e.constantSolve res).1 = true := by rw [h]
  have h2 := LogicExpression.constantSolve_sound e res inp h1
  rw [h] at h2
  exact h2

/-- C34 on the example: `|I0 && !true` folds to false, whatever `I0` is. -/
theorem constantSolve_is_sound_witness :
    (LogicExpression.logicAnd (.reduceOr (.identifier [0]))
        (.logicNot .logicTrue)).constantSolve true = (true, false) ∧
    (LogicExpression.logicAnd (.reduceOr (.identifier [0]))
        (.logicNot .logicTrue)).resolveLogic (Example.output [0]).toAbstractBufferBitmask
      = false :=
  ⟨by decide, constantSolve_is_sound _ true false (by decide) _⟩

/-! ## The built-in configuration -/

/-- C35: in the built-in parameter set of `PrismConfig::fallback` the fields
of the word do not overlap pairwise and lie inside the 168 bits of the word,
the MUX field has `nMux * nBits = 28` bits, the `k`-th CFG field has
`2 ^ inputSize` bits for the `k`-th component (the static components first,
then the conditional ones), and every virtual input below
`nVirtualOutput = 14` is a pin of exactly one component, whose pins all lie
below 14: the range of the first component starts at 0 and the range of
every other one where the range before it ends. -/
theorem fallback_layout :
    List.Pairwise STEW.Item.disjoint STEW.fallback.items ∧
    STEW.fallback.size = 168 ∧
    (∀ it ∈ STEW.fallback.items, it.offset + it.size ≤ STEW.fallback.size) ∧
    (STEW.fallback.slice .MUX 0).size
      = DecisionTree.Config.fallback.wires.muxes.nMux
        * DecisionTree.Config.fallback.wires.muxes.nBits ∧
    (STEW.fallback.slice .MUX 0).size = 28 ∧
    DecisionTree.fallback.components
      = DecisionTree.Config.fallback.staticComponents
        ++ DecisionTree.Config.fallback.condComponents ∧
    (∀ k, k < DecisionTree.fallback.components.length →
      (STEW.fallback.slice .CFG k).type = .CFG ∧
      (STEW.fallback.slice .CFG k).size = 2 ^ (DecisionTree.fallback.comp k).inputSize) ∧
    DecisionTree.Config.fallback.wires.nVirtualOutput = 14 ∧
    (∀ p, p < DecisionTree.Config.fallback.wires.nVirtualOutput →
      (DecisionTree.fallback.components.filter
        (fun c => decide (c.inputOffset ≤ p ∧ p < c.inputOffset + c.inputSize))).length = 1) ∧
    (∀ c ∈ DecisionTree.fallback.components,
      c.inputOffset + c.inputSize ≤ DecisionTree.Config.fallback.wires.nVirtualOutput) ∧
    (DecisionTree.fallback.comp 0).inputOffset = 0 ∧
    (∀ k, k < DecisionTree.fallback.components.length - 1 →
      (DecisionTree.fallback.comp (k + 1)).inputOffset
        = (DecisionTree.fallback.comp k).inputOffset
          + (DecisionTree.fallback.comp k).inputSize) := by
  refine ⟨by decide, rfl, by decide, by decide, by decide, rfl, by decide, rfl, by decide,
    by decide, rfl, by decide⟩

/-! ## The width of a constant -/

/-- C40, on the code: the constant `4'b0011`, built as
`ConstantExpression(IntegerBitmask(3, 4))` from a mask of width 4, resolves
on every input to a vector of width 2, the position of its top set bit plus
one: the constructor copies the mask with `copyOnes` into an empty
`DynamicBitmask`. The reduce-and of it is true, its bitwise not is the vector
`2'b00` with no bit set, and its xnor with itself has 2 bits set, where the
4 bits `0011` give false, `1100` and 4 set bits. -/
theorem constant_drops_leading_zeros (inp : AbstractBufferBitmask) :
    (IntegerBitmask.create 3 4).toAbstractBufferBitmask.size = 4 ∧
    (Example.constant.resolve inp DynamicBitmask.empty).size = 2 ∧
    (LogicExpression.reduceAnd Example.constant).resolveLogic inp = true ∧
    ((Expression.bitwiseNot Example.constant).resolve inp DynamicBitmask.empty).size = 2 ∧
    ((Expression.bitwiseNot Example.constant).resolve inp DynamicBitmask.empty).count = 0 ∧
    ((Expression.bitwiseXnor Example.constant Example.constant).resolve inp
      DynamicBitmask.empty).count = 2 := by
  refine ⟨by decide, ?_, ?_, ?_, ?_, ?_⟩ <;>
    simp only [Example.constant, Expression.resolve, LogicExpression.resolveLogic] <;> decide

end Prism

namespace Prism

/-! ## The inputs of a clone -/

/-- A completed clone reads no input that the original does not read. -/
theorem cloneFuel_readsInput : ∀ n : Nat,
    (∀ (e : Expression) c, e.cloneFuel n = some c →
      ∀ p, c.readsInput p = true → e.readsInput p = true) ∧
    (∀ (e : LogicExpression) c, e.cloneLogicFuel n = some c →
      ∀ p, c.readsInput p = true → e.readsInput p = true) ∧
    (∀ (e : LogicExpression) (b : Bool) c, e.cloneNotFuel n b = some c →
      ∀ p, c.readsInput p = true → e.readsInput p = true) := by
  intro n
  induction n with
  | zero =>
    refine ⟨?_, ?_, ?_⟩
    · intro e c h; simp [Expression.cloneFuel] at h
    · intro e c h; simp [LogicExpression.cloneLogicFuel] at h
    · intro e b c h; simp [LogicExpression.cloneNotFuel] at h
  | succ n ih =>
    obtain ⟨ih1, ih2, ih3⟩ := ih
    have hfold : ∀ (res : Bool) (a : LogicExpression) c,
        ((a.cloneLogicFuel n).bind fun out =>
          if (!res) = true then (LogicExpression.logicNot out).cloneLogicFuel n
          else some out) = some c →
        ∀ p, c.readsInput p = true → a.readsInput p = true := by
      intro res a c h p hp
      simp only [Option.bind_eq_some] at h
      obtain ⟨out, ho, hc⟩ := h
      cases res with
      | true =>
        simp only [Bool.not_true, Bool.false_eq_true, if_false, Option.some.injEq] at hc
        subst hc
        exact ih2 a _ ho p hp
      | false =>
        simp only [Bool.not_false, if_true] at hc
        have h1 := ih2 _ c hc p hp
        rw [LogicExpression.readsInput] at h1
        exact ih2 a out ho p h1
    have hpair : ∀ (l r x y : Expression), l.cloneFuel n = some x → r.cloneFuel n = some y →
        ∀ p, (x.readsInput p || y.readsInput p) = true →
          (l.readsInput p || r.readsInput p) = true := by
      intro l r x y hx hy p hp
      rw [Bool.or_eq_true] at hp ⊢
      cases hp with
      | inl h => exact Or.inl (ih1 l x hx p h)
      | inr h => exact Or.inr (ih1 r y hy p h)
    have hpairL : ∀ (l r x y : LogicExpression), l.cloneLogicFuel n = some x →
        r.cloneLogicFuel n = some y →
        ∀ p, (x.readsInput p || y.readsInput p) = true →
          (l.readsInput p || r.readsInput p) = true := by
      intro l r x y hx hy p hp
      rw [Bool.or_eq_true] at hp ⊢
      cases hp with
      | inl h => exact Or.inl (ih2 l x hx p h)
      | inr h => exact Or.inr (ih2 r y hy p h)
    refine ⟨?_, ?_, ?_⟩
    · intro e c h p hp
      cases e with
      | identifier g =>
        simp only [Expression.cloneFuel, Option.some.injEq] at h
        subst h; exact hp
      | logic l =>
        simp only [Expression.cloneFuel, Option.map_eq_some'] at h
        obtain ⟨x, hx, rfl⟩ := h
        rw [Expression.readsInput] at hp ⊢
        exact ih2 l x hx p hp
      | bitwiseNot ch =>
        simp only [Expression.cloneFuel, Option.map_eq_some'] at h
        obtain ⟨x, hx, rfl⟩ := h
        rw [Expression.readsInput] at hp ⊢
        exact ih1 ch x hx p hp
      | bitwiseAnd l r =>
        simp only [Expression.cloneFuel, Option.bind_eq_some, Option.map_eq_some'] at h
        obtain ⟨x, hx, y, hy, rfl⟩ := h
        rw [Expression.readsInput] at hp ⊢
        exact hpair l r x y hx hy p hp
      | bitwiseOr l r =>
        simp only [Expression.cloneFuel, Option.bind_eq_some, Option.map_eq_some'] at h
        obtain ⟨x, hx, y, hy, rfl⟩ := h
        rw [Expression.readsInput] at hp ⊢
        exact hpair l r x y hx hy p hp
      | bitwiseXor l r =>
        simp only [Expression.cloneFuel, Option.bind_eq_some, Option.map_eq_some'] at h
        obtain ⟨x, hx, y, hy, rfl⟩ := h
        rw [Expression.readsInput] at hp ⊢
        exact hpair l r x y hx hy p hp
      | bitwiseXnor l r =>
        simp only [Expression.cloneFuel, Option.bind_eq_some, Option.map_eq_some'] at h
        obtain ⟨x, hx, y, hy, rfl⟩ := h
        rw [Expression.readsInput] at hp ⊢
        exact hpair l r x y hx hy p hp
      | constant frm =>
        simp only [Expression.cloneFuel, Option.some.injEq] at h
        subst h
        simp [Expression.readsInput] at hp
    · intro e c h p hp
      cases e with
      | logicTrue =>
        simp only [LogicExpression.cloneLogicFuel, Option.some.injEq] at h
        subst h; exact hp
      | logicFalse =>
        simp only [LogicExpression.cloneLogicFuel, Option.some.injEq] at h
        subst h; exact hp
      | reduceOr ch =>
        rw [LogicExpression.cloneLogicFuel] at h
        cases ha : ch.asLogic with
        | none =>
          simp only [ha, Option.map_eq_some'] at h
          obtain ⟨x, hx, rfl⟩ := h
          rw [LogicExpression.readsInput] at hp ⊢
          exact ih1 ch x hx p hp
        | some l =>
          simp only [ha] at h
          have := Expression.asLogic_eq_some ha
          subst this
          rw [LogicExpression.readsInput, Expression.readsInput]
          exact ih2 l c h p hp
      | reduceAnd ch =>
        simp only [LogicExpression.cloneLogicFuel, Option.map_eq_some'] at h
        obtain ⟨x, hx, rfl⟩ := h
        rw [LogicExpression.readsInput] at hp ⊢
        exact ih1 ch x hx p hp
      | reduceXor ch =>
        simp only [LogicExpression.cloneLogicFuel, Option.map_eq_some'] at h
        obtain ⟨x, hx, rfl⟩ := h
        rw [LogicExpression.readsInput] at hp ⊢
        exact ih1 ch x hx p hp
      | logicNot ch =>
        rw [LogicExpression.cloneLogicFuel] at h
        rw [LogicExpression.readsInput]
        exact ih3 ch true c h p hp
      | equality l r =>
        rw [LogicExpression.cloneLogicFuel] at h
        have hfall : ∀ c, ((l.cloneFuel n).bind fun x => (r.cloneFuel n).map
            fun y => LogicExpression.equality x y) = some c →
            c.readsInput p = true → (LogicExpression.equality l r).readsInput p = true := by
          intro c h hp
          simp only [Option.bind_eq_some, Option.map_eq_some'] at h
          obtain ⟨x, hx, y, hy, rfl⟩ := h
          rw [LogicExpression.readsInput] at hp ⊢
          exact hpair l r x y hx hy p hp
        cases ha : l.asLogic with
        | none => simp only [ha] at h; exact hfall c h hp
        | some ll =>
          cases hb : r.asLogic with
          | none => simp only [ha, hb] at h; exact hfall c h hp
          | some lr =>
            simp only [ha, hb] at h
            have e1 := Expression.asLogic_eq_some ha
            have e2 := Expression.asLogic_eq_some hb
            subst e1 e2
            rw [LogicExpression.readsInput, Expression.readsInput, Expression.readsInput,
              Bool.or_eq_true]
            by_cases h1 : (ll.constantSolve false).1 = true
            · rw [if_pos h1] at h
              exact Or.inr (hfold _ lr c h p hp)
            · rw [if_neg h1] at h
              by_cases h2 : (lr.constantSolve (ll.constantSolve false).2).1 = true
              · rw [if_pos h2] at h
                exact Or.inl (hfold _ ll c h p hp)
              · rw [if_neg h2] at h
                have h3 := hfall c h hp
                rw [LogicExpression.readsInput, Expression.readsInput, Expression.readsInput,
                  Bool.or_eq_true] at h3
                exact h3
      | logicOr l r =>
        rw [LogicExpression.cloneLogicFuel] at h
        simp only at h
        rw [LogicExpression.readsInput, Bool.or_eq_true]
        by_cases h1 : ((l.constantSolve false).1 && !(l.constantSolve false).2) = true
        · rw [if_pos h1] at h
          exact Or.inr (ih2 r c h p hp)
        · rw [if_neg h1] at h
          by_cases h2 : ((r.constantSolve (l.constantSolve false).2).1
              && !(r.constantSolve (l.constantSolve false).2).2) = true
          · rw [if_pos h2] at h
            exact Or.inl (ih2 l c h p hp)
          · rw [if_neg h2] at h
            simp only [Option.bind_eq_some, Option.map_eq_some'] at h
            obtain ⟨x, hx, y, hy, rfl⟩ := h
            rw [LogicExpression.readsInput] at hp
            have := hpairL l r x y hx hy p hp
            rw [Bool.or_eq_true] at this
            exact this
      | logicAnd l r =>
        rw [LogicExpression.cloneLogicFuel] at h
        simp only at h
        rw [LogicExpression.readsInput, Bool.or_eq_true]
        by_cases h1 : ((l.constantSolve false).1 && (l.constantSolve false).2) = true
        · rw [if_pos h1] at h
          exact Or.inr (ih2 r c h p hp)
        · rw [if_neg h1] at h
          by_cases h2 : ((r.constantSolve (l.constantSolve false).2).1
              && (r.constantSolve (l.constantSolve false).2).2) = true
          · rw [if_pos h2] at h
            exact Or.inl (ih2 l c h p hp)
          · rw [if_neg h2] at h
            simp only [Option.bind_eq_some, Option.map_eq_some'] at h
            obtain ⟨x, hx, y, hy, rfl⟩ := h
            rw [LogicExpression.readsInput] at hp
            have := hpairL l r x y hx hy p hp
            rw [Bool.or_eq_true] at this
            exact this
      | state s =>
        simp only [LogicExpression.cloneLogicFuel, Option.some.injEq] at h
        subst h; exact hp
    · intro e b c h p hp
      rw [LogicExpression.cloneNotFuel] at h
      cases ha : e.notChild with
      | some nx =>
        simp only [ha] at h
        have := LogicExpression.notChild_eq_some ha
        subst this
        rw [LogicExpression.readsInput]
        exact ih3 nx (!b) c h p hp
      | none =>
        simp only [ha] at h
        cases b with
        | true =>
          simp only [if_true, Option.map_eq_some'] at h
          obtain ⟨x, hx, rfl⟩ := h
          rw [LogicExpression.readsInput] at hp
          exact ih2 e x hx p hp
        | false =>
          simp only [Bool.false_eq_true, if_false] at h
          exact ih2 e c h p hp

/-- The inputs that `collectInputs` reports into an empty mask are the
inputs that the expression reads. -/
theorem Expression.collectInputs_empty (e : Expression) (p : Nat) :
    (e.collectInputs DynamicBitmask.empty).get p = e.readsInput p := by
  rw [(Expression.collectInputs_spec e DynamicBitmask.valid_empty).2 p,
    DynamicBitmask.get_empty, Bool.false_or]

/-- The inputs that `collectInputs` reports into an empty mask are the
inputs that the boolean expression reads. -/
theorem LogicExpression.collectInputsLogic_empty (e : LogicExpression) (p : Nat) :
    (e.collectInputs DynamicBitmask.empty).get p = e.readsInput p := by
  rw [(LogicExpression.collectInputsLogic_spec e DynamicBitmask.valid_empty).2 p,
    DynamicBitmask.get_empty, Bool.false_or]

/-- C39: `collectInputs` is a sound dependency set. For every expression `e`
and boolean expression `l`, and every two input vectors `x` and `y` that
agree at all positions that `collectInputs` reports (into an empty mask),
`e` resolves on `x` and on `y` to the same vector and `l` evaluates to the
same value; and every input reported for `e.clone()` or `l.cloneLogic()` is
reported for `e` or `l`. -/
theorem collectInputs_sound_dependency (e : Expression) (l : LogicExpression)
    (x y : AbstractBufferBitmask) (out : DynamicBitmask)
    (he : ∀ p, (e.collectInputs DynamicBitmask.empty).get p = true → x.get p = y.get p)
    (hl : ∀ p, (l.collectInputs DynamicBitmask.empty).get p = true → x.get p = y.get p) :
    e.resolve x out = e.resolve y out ∧
    l.resolveLogic x = l.resolveLogic y ∧
    (∀ p, (e.clone.collectInputs DynamicBitmask.empty).get p = true →
      (e.collectInputs DynamicBitmask.empty).get p = true) ∧
    (∀ p, (l.cloneLogic.collectInputs DynamicBitmask.empty).get p = true →
      (l.collectInputs DynamicBitmask.empty).get p = true) := by
  refine ⟨?_, ?_, ?_, ?_⟩
  · exact Expression.resolve_congr e x y out
      (fun p hp => he p (by rw [Expression.collectInputs_empty]; exact hp))
  · exact LogicExpression.resolveLogic_congr l x y
      (fun p hp => hl p (by rw [LogicExpression.collectInputsLogic_empty]; exact hp))
  · intro p hp
    rw [Expression.collectInputs_empty] at hp ⊢
    exact (cloneFuel_readsInput _).1 e _ (e.cloneFuel_enough 0) p hp
  · intro p hp
    rw [LogicExpression.collectInputsLogic_empty] at hp ⊢
    exact (cloneFuel_readsInput _).2.1 l _ (l.cloneLogicFuel_enough 0) p hp

/-- C39 on the example: the inputs with the bits 0, 1, 2 and with the bits
0, 1, 2, 5 differ at the position 5 only, which neither `{I0, I2}` nor `|I1`
reports. -/
theorem collectInputs_sound_dependency_witness :
    (Example.output [0, 1, 2]).get 5 ≠ (Example.output [0, 1, 2, 5]).get 5 ∧
    (Expression.identifier [0, 2]).resolve (Example.output [0, 1, 2]).toAbstractBufferBitmask
        DynamicBitmask.empty
      = (Expression.identifier [0, 2]).resolve
        (Example.output [0, 1, 2, 5]).toAbstractBufferBitmask DynamicBitmask.empty ∧
    (LogicExpression.reduceOr (.identifier [1])).resolveLogic
        (Example.output [0, 1, 2]).toAbstractBufferBitmask
      = (LogicExpression.reduceOr (.identifier [1])).resolveLogic
        (Example.output [0, 1, 2, 5]).toAbstractBufferBitmask :=
  have key : ∀ (m : DynamicBitmask), m.nbits ≤ 3 → ∀ p, m.get p = true →
      (Example.output [0, 1, 2]).get p = (Example.output [0, 1, 2, 5]).get p := by
    intro m hm p hp
    by_cases hlt : p < 3
    · interval_cases p <;> rfl
    · rw [AbstractBufferBitmask.get_false_of_le _ (by omega)] at hp
      exact absurd hp (by decide)
  have h := collectInputs_sound_dependency (.identifier [0, 2]) (.reduceOr (.identifier [1]))
    (Example.output [0, 1, 2]).toAbstractBufferBitmask
    (Example.output [0, 1, 2, 5]).toAbstractBufferBitmask DynamicBitmask.empty
    (key _ (by decide)) (key _ (by decide))
  ⟨by decide, h.1, h.2.1⟩

end Prism

namespace Prism

/-! ## The words of a split state -/

/-- The words that the loop of `splitState` appends, with at least one
static component: they carry the index of the state, their transitions are
the transitions of the state in order, every word but the last has `S`
transitions and is partial, and the last has at most `S`, or `S + 1` that end
with the fallthrough. -/
theorem splitStateLoop_words (dt : DecisionTree) (hS : 1 ≤ dt.nStaticComponents) :
    ∀ (fuel : Nat) (out : List VirtualState) (vs : VirtualState),
      vs.transitions.length < fuel →
      ∃ added, dt.splitStateLoop fuel out vs = some (out ++ added) ∧
        added ≠ [] ∧
        (∀ w ∈ added, w.index = vs.index) ∧
        (added.map fun w => w.transitions).flatten = vs.transitions ∧
        (∀ w ∈ added.dropLast,
          w.transitions.length = dt.nStaticComponents ∧ w.isPartial = true) ∧
        (∀ w, added.getLast? = some w →
          w.transitions.length ≤ dt.nStaticComponents ∨
          (w.transitions.length = dt.nStaticComponents + 1 ∧
            (w.transitions.getLast?.map fun x => x.isFallthrough vs.index) = some true)) := by
  intro fuel
  induction fuel with
  | zero => intro out vs h; omega
  | succ f ih =>
    intro out vs hf
    rw [DecisionTree.splitStateLoop]
    generalize hS' : dt.nStaticComponents = S at hS ih ⊢
    generalize hn : vs.transitions.length = n at hf ⊢
    by_cases hle : n ≤ S
    · rw [if_neg (by omega)]
      refine ⟨[vs], rfl, by simp, ?_, by simp, by simp, ?_⟩
      · intro w hw
        rw [List.mem_singleton] at hw
        rw [hw]
      · intro w hw
        simp only [List.getLast?_singleton, Option.some.injEq] at hw
        subst hw
        exact Or.inl (by omega)
    · rw [if_pos (by omega)]
      simp only
      by_cases hbr : n = S + 1 ∧
          (vs.transitions.getLast?.map fun x => x.isFallthrough vs.index) = some true
      · rw [if_pos hbr]
        refine ⟨_, rfl, by simp, ?_, ?_, by simp, ?_⟩
        · intro w hw
          rw [List.mem_singleton] at hw
          rw [hw]
          split <;> rfl
        · simp only [List.map_cons, List.map_nil, List.flatten_cons, List.flatten_nil,
            List.append_nil]
          split <;> rfl
        · intro w hw
          simp only [List.getLast?_singleton, Option.some.injEq] at hw
          subst hw
          refine Or.inr ⟨?_, ?_⟩
          · rw [← hbr.1]
            split
            · exact hn
            · exact hn
          · split
            · exact hbr.2
            · exact hbr.2
      · rw [if_neg hbr]
        have hlen : (vs.transitions.drop S).length = n - S := by
          rw [List.length_drop, hn]
        obtain ⟨added, h1, h2, h3, h4, h5, h6⟩ := ih
          (out ++ [{ vs with transitions := vs.transitions.take S,
                             partialOutput := VirtualState.collectSteadyState
                               (vs.transitions.drop S) vs.partialOutput,
                             isPartial := true }])
          { VirtualState.create vs.index with
            transitions := vs.transitions.drop S
            conditionalOutputs := vs.conditionalOutputs }
          (by simp only [hlen]; omega)
        refine ⟨{ vs with transitions := vs.transitions.take S,
                          partialOutput := VirtualState.collectSteadyState
                            (vs.transitions.drop S) vs.partialOutput,
                          isPartial := true } :: added, ?_, by simp, ?_, ?_, ?_, ?_⟩
        · rw [h1, List.append_assoc]; rfl
        · intro w hw
          rw [List.mem_cons] at hw
          cases hw with
          | inl h => rw [h]
          | inr h => exact h3 w h
        · rw [List.map_cons, List.flatten_cons, h4]
          exact List.take_append_drop S vs.transitions
        · intro w hw
          obtain ⟨a, rest, hadd⟩ := List.exists_cons_of_ne_nil h2
          rw [hadd, List.dropLast_cons₂, List.mem_cons] at hw
          cases hw with
          | inl h =>
            rw [h]
            refine ⟨?_, rfl⟩
            simp only [List.length_take, hn]
            omega
          | inr h =>
            rw [hadd] at h5
            exact h5 w h
        · intro w hw
          obtain ⟨a, rest, hadd⟩ := List.exists_cons_of_ne_nil h2
          rw [hadd, List.getLast?_cons_cons] at hw
          rw [hadd] at h6
          exact h6 w hw

/-- C31: for every `S >= 1` and every virtual state, `splitState` returns,
and the words it appends to `out` all carry the index of the state; their
lists of transitions, one after the other, are the list of transitions of
the state; every word but the last holds exactly `S` transitions and is
marked partial; the last word holds at most `S` transitions, or `S + 1`
whose final one is a fallthrough to the same state; and the state map sends
the index of the state to the position of its first word, the length of
`out` on entry. -/
theorem splitState_words (dt : DecisionTree) (hS : 1 ≤ dt.nStaticComponents)
    (out : List VirtualState) (vs : VirtualState) (stateMap : StateMap) :
    ∃ added map, dt.splitState out vs stateMap = some (out ++ added, map) ∧
      added ≠ [] ∧
      (∀ w ∈ added, w.index = vs.index) ∧
      (added.map fun w => w.transitions).flatten = vs.transitions ∧
      (∀ w ∈ added.dropLast,
        w.transitions.length = dt.nStaticComponents ∧ w.isPartial = true) ∧
      (∀ w, added.getLast? = some w →
        w.transitions.length ≤ dt.nStaticComponents ∨
        (w.transitions.length = dt.nStaticComponents + 1 ∧
          (w.transitions.getLast?.map fun x => x.isFallthrough vs.index) = some true)) ∧
      map.find vs.index = some out.length ∧
      (out ++ added)[out.length]? = added.head? := by
  obtain ⟨added, h1, h2, h3, h4, h5, h6⟩ :=
    splitStateLoop_words dt hS (vs.transitions.length + 1) out vs (Nat.lt_succ_self _)
  refine ⟨added, stateMap.assign vs.index out.length, ?_, h2, h3, h4, h5, h6, ?_, ?_⟩
  · unfold DecisionTree.splitState
    simp only
    rw [h1]
    rfl
  · simp [StateMap.find, StateMap.assign]
  · obtain ⟨a, rest, hadd⟩ := List.exists_cons_of_ne_nil h2
    rw [hadd, List.getElem?_append_right (Nat.le_refl _), Nat.sub_self]
    simp

/-- C31 on the state of the example, whose four transitions go to two
words of the tree with two static components. -/
theorem splitState_words_witness :
    ∃ added map, Example.tree.splitState [] Example.state [] = some ([] ++ added, map) ∧
      added ≠ [] ∧
      (∀ w ∈ added, w.index = Example.state.index) ∧
      (added.map fun w => w.transitions).flatten = Example.state.transitions ∧
      (∀ w ∈ added.dropLast,
        w.transitions.length = Example.tree.nStaticComponents ∧ w.isPartial = true) ∧
      (∀ w, added.getLast? = some w →
        w.transitions.length ≤ Example.tree.nStaticComponents ∨
        (w.transitions.length = Example.tree.nStaticComponents + 1 ∧
          (w.transitions.getLast?.map fun x => x.isFallthrough Example.state.index)
            = some true)) ∧
      map.find Example.state.index = some ([] : List VirtualState).length ∧
      ([] ++ added)[([] : List VirtualState).length]? = added.head? :=
  splitState_words Example.tree (by decide) [] Example.state []

end Prism

namespace Prism

/-! ## Conditional outputs: the last assignment wins -/

/-- The value of `lastAssigned` by positions: that of the last assignment
whose guard holds, and the start value when no guard holds. -/
theorem lastAssigned_spec (inp : AbstractBufferBitmask) :
    ∀ (l : List (LogicExpression × Bool)) (dflt : Bool),
      (∀ (k : Nat) (g : LogicExpression) (v : Bool), l[k]? = some (g, v) → g.resolveLogic inp = true →
        (∀ (j : Nat) (g2 : LogicExpression) (v2 : Bool), k < j → l[j]? = some (g2, v2) → g2.resolveLogic inp = false) →
        lastAssigned inp l dflt = v) ∧
      ((∀ (k : Nat) (g : LogicExpression) (v : Bool), l[k]? = some (g, v) → g.resolveLogic inp = false) →
        lastAssigned inp l dflt = dflt) := by
  intro l
  induction l with
  | nil =>
    intro dflt
    refine ⟨?_, fun _ => rfl⟩
    intro k g v hk
    simp at hk
  | cons a rest ih =>
    intro dflt
    refine ⟨?_, ?_⟩
    · intro k g v hk hg hlater
      rw [lastAssigned]
      cases k with
      | zero =>
        simp only [List.getElem?_cons_zero, Option.some.injEq] at hk
        subst hk
        simp only [hg, if_true]
        exact (ih _).2 (fun j g2 v2 hj => hlater (j + 1) g2 v2 (Nat.succ_pos j)
          (by rw [List.getElem?_cons_succ]; exact hj))
      | succ k =>
        rw [List.getElem?_cons_succ] at hk
        exact (ih _).1 k g v hk hg (fun j g2 v2 hkj hj => hlater (j + 1) g2 v2
          (Nat.succ_lt_succ hkj) (by rw [List.getElem?_cons_succ]; exact hj))
    · intro hnone
      rw [lastAssigned]
      have h0 : a.1.resolveLogic inp = false := hnone 0 a.1 a.2 (by simp)
      rw [h0]
      simp only [Bool.false_eq_true, if_false]
      exact (ih _).2 (fun j g2 v2 hj => hnone (j + 1) g2 v2
        (by rw [List.getElem?_cons_succ]; exact hj))

namespace ParseContextTree

/-- The entry of the map for a key that follows smaller keys only. -/
theorem CondMap.find_at (pre post : CondMap) (bit : Nat) (cs : CState)
    (hpre : ∀ it ∈ pre, it.1 < bit) : CondMap.find (pre ++ (bit, cs) :: post) bit = some cs := by
  induction pre with
  | nil => simp [CondMap.find, List.lookup]
  | cons a pre ih =>
    have ha : a.1 < bit := hpre a (List.mem_cons_self _ _)
    have hne : (bit == a.1) = false := by
      rw [beq_eq_false_iff_ne]; omega
    obtain ⟨k, v⟩ := a
    simp only [CondMap.find, List.cons_append, List.lookup, hne] at ih ⊢
    exact ih (fun it hit => hpre it (List.mem_cons_of_mem _ hit))

/-- An assignment to a key that follows smaller keys only replaces its
entry in place. -/
theorem CondMap.assign_at (pre post : CondMap) (bit : Nat) (cs cs2 : CState)
    (hpre : ∀ it ∈ pre, it.1 < bit) :
    CondMap.assign (pre ++ (bit, cs) :: post) bit cs2 = pre ++ (bit, cs2) :: post := by
  induction pre with
  | nil => simp [CondMap.assign]
  | cons a pre ih =>
    have ha : a.1 < bit := hpre a (List.mem_cons_self _ _)
    obtain ⟨k, v⟩ := a
    simp only at ha
    rw [List.cons_append, CondMap.assign, if_neg (by omega), if_neg (by omega),
      ih (fun it hit => hpre it (List.mem_cons_of_mem _ hit))]
    rfl

/-- An assignment to a key without an entry adds the entry after the
smaller keys that precede it. -/
theorem CondMap.assign_new (m : CondMap) (bit : Nat) (cs : CState)
    (h : m.find bit = none) :
    ∃ pre post, m.assign bit cs = pre ++ (bit, cs) :: post ∧ m = pre ++ post ∧
      ∀ it ∈ pre, it.1 < bit := by
  induction m with
  | nil => exact ⟨[], [], rfl, rfl, by simp⟩
  | cons a m ih =>
    obtain ⟨k, v⟩ := a
    rw [CondMap.assign]
    by_cases h1 : bit < k
    · rw [if_pos h1]
      exact ⟨[], (k, v) :: m, rfl, rfl, by simp⟩
    · rw [if_neg h1]
      have hne : bit ≠ k := by
        intro heq
        subst heq
        simp [CondMap.find, List.lookup] at h
      rw [if_neg hne]
      have hfind : CondMap.find m bit = none := by
        have hb : (bit == k) = false := by rw [beq_eq_false_iff_ne]; exact hne
        simp only [CondMap.find, List.lookup, hb] at h ⊢
        exact h
      obtain ⟨pre, post, e1, e2, e3⟩ := ih hfind
      refine ⟨(k, v) :: pre, post, ?_, ?_, ?_⟩
      · rw [e1]; rfl
      · rw [e2]; rfl
      · intro it hit
        rw [List.mem_cons] at hit
        cases hit with
        | inl h => rw [h]; simp only; omega
        | inr h => exact e3 it h

/-- The list that `collectConditionalOutputs` returns: one output for each
entry of the map, in its order. -/
theorem State.collectConditionalOutputs_eq (st : State) (out : List ConditionalOutput) :
    st.collectConditionalOutputs out
      = out ++ st.condOut.map (fun it =>
          { output := it.2.second.output
            expr := if !it.2.first then LogicExpression.logicNot it.2.second.expr.cloneLogic
              else it.2.second.expr.cloneLogic }) := by
  unfold State.collectConditionalOutputs
  generalize st.condOut = m
  induction m generalizing out with
  | nil => simp
  | cons a m ih =>
    rw [List.foldl_cons, ih, List.map_cons, List.append_assoc]
    rfl

/-- What the calls of `mergeConditionalOutput` for one output keep: the
entry of the output sits after smaller keys only, carries the number of the
output, and its polarity and expression give the value `cur`. -/
theorem State.mergeConditionalOutput_step (st : State) (bit : Nat) (g : LogicExpression)
    (v : Bool) (pre post : CondMap) (cs : CState) (cur : AbstractBufferBitmask → Bool)
    (hm : st.condOut = pre ++ (bit, cs) :: post) (hpre : ∀ it ∈ pre, it.1 < bit)
    (hout : cs.second.output = bit)
    (hval : ∀ inp, (if cs.first then cs.second.expr.resolveLogic inp
      else !cs.second.expr.resolveLogic inp) = cur inp) :
    ∃ cs2, (st.mergeConditionalOutput bit g v).condOut = pre ++ (bit, cs2) :: post ∧
      cs2.second.output = bit ∧ cs2.first = cs.first ∧
      ∀ inp, (if cs2.first then cs2.second.expr.resolveLogic inp
        else !cs2.second.expr.resolveLogic inp)
          = (if g.resolveLogic inp then v else cur inp) := by
  have hfind : st.condOut.find bit = some cs := by
    rw [hm]; exact CondMap.find_at pre post bit cs hpre
  unfold State.mergeConditionalOutput
  rw [hfind]
  simp only
  by_cases hv : v = cs.first
  · rw [if_pos hv]
    simp only
    rw [hm, CondMap.assign_at pre post bit cs _ hpre]
    refine ⟨_, rfl, hout, rfl, ?_⟩
    intro inp
    have h := hval inp
    simp only [LogicExpression.resolveLogic]
    rw [← h, hv]
    cases cs.first <;> cases cs.second.expr.resolveLogic inp <;>
      cases g.resolveLogic inp <;> rfl
  · rw [if_neg hv]
    simp only
    rw [hm, CondMap.assign_at pre post bit cs _ hpre]
    refine ⟨_, rfl, hout, rfl, ?_⟩
    intro inp
    have h := hval inp
    simp only [LogicExpression.resolveLogic]
    rw [← h]
    cases hf : cs.first <;> cases cs.second.expr.resolveLogic inp <;>
      cases hg : g.resolveLogic inp <;> cases v <;> simp_all

/-- The calls of `mergeConditionalOutput` for one output, after the first:
the entry gives the value of `lastAssigned`. -/
theorem State.mergeAll_step (bit : Nat) (pre post : CondMap) :
    ∀ (rest : List (LogicExpression × Bool)) (st : State) (cs : CState)
      (cur : AbstractBufferBitmask → Bool),
      st.condOut = pre ++ (bit, cs) :: post → (∀ it ∈ pre, it.1 < bit) →
      cs.second.output = bit →
      (∀ inp, (if cs.first then cs.second.expr.resolveLogic inp
        else !cs.second.expr.resolveLogic inp) = cur inp) →
      ∃ cs2, (st.mergeAll bit rest).condOut = pre ++ (bit, cs2) :: post ∧
        cs2.second.output = bit ∧
        ∀ inp, (if cs2.first then cs2.second.expr.resolveLogic inp
          else !cs2.second.expr.resolveLogic inp) = lastAssigned inp rest (cur inp) := by
  intro rest
  induction rest with
  | nil =>
    intro st cs cur hm _ hout hval
    exact ⟨cs, hm, hout, hval⟩
  | cons a rest ih =>
    intro st cs cur hm hpre hout hval
    obtain ⟨cs1, e1, e2, _, e4⟩ :=
      State.mergeConditionalOutput_step st bit a.1 a.2 pre post cs cur hm hpre hout hval
    obtain ⟨cs2, f1, f2, f3⟩ := ih (st.mergeConditionalOutput bit a.1 a.2) cs1
      (fun inp => if a.1.resolveLogic inp then a.2 else cur inp) e1 hpre e2 e4
    refine ⟨cs2, ?_, f2, ?_⟩
    · rw [State.mergeAll, List.foldl_cons]
      exact f1
    · intro inp
      rw [f3 inp, lastAssigned]

end ParseContextTree

/-- C36: conditional-output merging implements last-assignment-wins. When
`mergeConditionalOutput` is applied for the output `bit`, on a state without
an entry for it, to the guards and values `(g1, v1), ..., (gn, vn)`,
`collectConditionalOutputs` then returns the outputs it returned before and
one more, for `bit`, whose expression evaluates on every input `x` to `vk`
for the largest `k` with `gk(x)` true, and to the negation of `v1` when no
`gk(x)` is true. -/
theorem mergeConditionalOutput_last_wins (st : ParseContextTree.State) (bit : Nat)
    (first : LogicExpression × Bool) (rest : List (LogicExpression × Bool))
    (h : st.condOut.find bit = none) :
    ∃ before after o,
      st.collectConditionalOutputs [] = before ++ after ∧
      (st.mergeAll bit (first :: rest)).collectConditionalOutputs [] = before ++ o :: after ∧
      o.output = bit ∧
      ∀ x,
        (∀ (k : Nat) (g : LogicExpression) (v : Bool), (first :: rest)[k]? = some (g, v) → g.resolveLogic x = true →
          (∀ (j : Nat) (g2 : LogicExpression) (v2 : Bool), k < j →
            (first :: rest)[j]? = some (g2, v2) →
            g2.resolveLogic x = false) →
          o.expr.resolveLogic x = v) ∧
        ((∀ (k : Nat) (g : LogicExpression) (v : Bool), (first :: rest)[k]? = some (g, v) → g.resolveLogic x = false) →
          o.expr.resolveLogic x = !first.2) := by
  obtain ⟨pre, post, e1, e2, e3⟩ := ParseContextTree.CondMap.assign_new st.condOut bit
    { first := first.2, second := { output := bit, expr := first.1 } } h
  have hfirst : (st.mergeConditionalOutput bit first.1 first.2).condOut
      = pre ++ (bit, { first := first.2, second := { output := bit, expr := first.1 } })
        :: post := by
    unfold ParseContextTree.State.mergeConditionalOutput
    rw [h]
    exact e1
  obtain ⟨cs2, f1, f2, f3⟩ := ParseContextTree.State.mergeAll_step bit pre post rest
    (st.mergeConditionalOutput bit first.1 first.2) _
    (fun inp => if first.1.resolveLogic inp then first.2 else !first.2) hfirst e3 rfl
    (by
      intro inp
      simp only
      cases first.2 <;> cases first.1.resolveLogic inp <;> rfl)
  have hclone : ∀ (e : LogicExpression) inp, e.cloneLogic.resolveLogic inp = e.resolveLogic inp :=
    fun e inp => (cloneFuel_resolve _).2.1 e _ (e.cloneLogicFuel_enough 0) inp
  have hvalue : ∀ x, (if (!cs2.first) = true then LogicExpression.logicNot cs2.second.expr.cloneLogic
      else cs2.second.expr.cloneLogic).resolveLogic x
        = lastAssigned x (first :: rest) (!first.2) := by
    intro x
    rw [lastAssigned, ← f3 x]
    cases cs2.first
    · simp only [Bool.not_false, if_true, Bool.false_eq_true, if_false,
        LogicExpression.resolveLogic, hclone]
    · simp only [Bool.not_true, Bool.false_eq_true, if_false, if_true, hclone]
  refine ⟨pre.map (fun it =>
      { output := it.2.second.output
        expr := if !it.2.first then LogicExpression.logicNot it.2.second.expr.cloneLogic
          else it.2.second.expr.cloneLogic }),
    post.map (fun it =>
      { output := it.2.second.output
        expr := if !it.2.first then LogicExpression.logicNot it.2.second.expr.cloneLogic
          else it.2.second.expr.cloneLogic }),
    { output := cs2.second.output
      expr := if !cs2.first then LogicExpression.logicNot cs2.second.expr.cloneLogic
        else cs2.second.expr.cloneLogic }, ?_, ?_, f2, ?_⟩
  · rw [ParseContextTree.State.collectConditionalOutputs_eq, e2, List.nil_append,
      List.map_append]
  · have hm : (st.mergeAll bit (first :: rest)).condOut = pre ++ (bit, cs2) :: post := by
      rw [ParseContextTree.State.mergeAll, List.foldl_cons]
      exact f1
    rw [ParseContextTree.State.collectConditionalOutputs_eq, hm, List.nil_append,
      List.map_append, List.map_cons]
  · intro x
    simp only
    rw [hvalue x]
    exact lastAssigned_spec x (first :: rest) (!first.2)

/-- C36 on the example: the output 3 is set under `I0` and then cleared
under `I1 == 1`, in the global state of a new builder. -/
theorem mergeConditionalOutput_last_wins_witness :
    ParseContextTree.create.globalState.condOut.find 3 = none ∧
    ∃ before after o,
      ParseContextTree.create.globalState.collectConditionalOutputs [] = before ++ after ∧
      (ParseContextTree.create.globalState.mergeAll 3
        [(Example.cond, true), (Example.test 1, false)]).collectConditionalOutputs []
          = before ++ o :: after ∧
      o.output = 3 ∧
      ∀ x,
        (∀ (k : Nat) (g : LogicExpression) (v : Bool),
          [(Example.cond, true), (Example.test 1, false)][k]? = some (g, v) →
          g.resolveLogic x = true →
          (∀ (j : Nat) (g2 : LogicExpression) (v2 : Bool), k < j →
            [(Example.cond, true), (Example.test 1, false)][j]? = some (g2, v2) →
            g2.resolveLogic x = false) →
          o.expr.resolveLogic x = v) ∧
        ((∀ (k : Nat) (g : LogicExpression) (v : Bool),
          [(Example.cond, true), (Example.test 1, false)][k]? = some (g, v) →
          g.resolveLogic x = false) →
          o.expr.resolveLogic x = !(Example.cond, true).2) :=
  ⟨rfl, mergeConditionalOutput_last_wins ParseContextTree.create.globalState 3
    (Example.cond, true) [(Example.test 1, false)] rfl⟩

end Prism

namespace Prism

/-! ## `equals` on masks and nodes -/

namespace AbstractBufferBitmask

/-- A valid mask has the words of its bits: two valid masks with the same
bits have the same words. -/
theorem Valid.word_eq_of_get {v w : AbstractBufferBitmask} (hv : v.Valid) (hw : w.Valid)
    (h : ∀ i, v.get i = w.get i) (k : Nat) : v.word k = w.word k := by
  apply Nat.eq_of_testBit_eq
  intro j
  by_cases hj : j < 64
  · have e := h (64 * k + j)
    rw [hv.get_eq_bitAt, hw.get_eq_bitAt] at e
    unfold bitAt at e
    simp only [BITS_PER_LONG] at e
    have e1 : (64 * k + j) / 64 = k := by omega
    have e2 : (64 * k + j) % 64 = j := by omega
    rw [e1, e2] at e
    exact e
  · have hpow : 2 ^ 64 ≤ 2 ^ j := Nat.pow_le_pow_right (by decide) (by omega)
    rw [Nat.testBit_eq_false_of_lt (Nat.lt_of_lt_of_le (hv.word_lt k) hpow),
      Nat.testBit_eq_false_of_lt (Nat.lt_of_lt_of_le (hw.word_lt k) hpow)]

/-- A valid mask has no set word at or above the words of its bits. -/
theorem Valid.word_eq_zero {v : AbstractBufferBitmask} (hv : v.Valid) {k : Nat}
    (hk : BITMASK_NLONGS v.nbits ≤ k) : v.word k = 0 := by
  apply Nat.eq_of_testBit_eq
  intro j
  rw [Nat.zero_testBit]
  by_cases hj : j < 64
  · have hle : v.nbits ≤ 64 * k + j := by
      have := (NLONGS_le_iff v.nbits k).1 hk
      omega
    have e := hv.high (64 * k + j) hle
    unfold bitAt at e
    simp only [BITS_PER_LONG] at e
    have e1 : (64 * k + j) / 64 = k := by omega
    have e2 : (64 * k + j) % 64 = j := by omega
    rw [e1, e2] at e
    exact e
  · have hpow : 2 ^ 64 ≤ 2 ^ j := Nat.pow_le_pow_right (by decide) (by omega)
    exact Nat.testBit_eq_false_of_lt (Nat.lt_of_lt_of_le (hv.word_lt k) hpow)

/-- Two valid masks with the same bits are equal for `equals`, whatever
their sizes. -/
theorem Valid.equals_of_get {v w : AbstractBufferBitmask} (hv : v.Valid) (hw : w.Valid)
    (h : ∀ i, v.get i = w.get i) : v.equals w = true := by
  have hword := Valid.word_eq_of_get hv hw h
  unfold equals
  simp only [Bool.and_eq_true, List.all_eq_true, List.mem_range, List.mem_range'_1,
    beq_iff_eq]
  by_cases hs : BITMASK_NLONGS w.nbits < BITMASK_NLONGS v.nbits
  · simp only [hs, decide_True, if_true]
    refine ⟨fun i _ => (hword i).symm, fun i hi => ?_⟩
    rw [hword i]
    exact hw.word_eq_zero hi.1
  · simp only [hs, decide_False, Bool.false_eq_true, if_false]
    refine ⟨fun i _ => hword i, fun i hi => ?_⟩
    rw [← hword i]
    exact hv.word_eq_zero hi.1

/-- Every mask is equal to itself for `equals`. -/
theorem mask_equals_self (v : AbstractBufferBitmask) : v.equals v = true := by
  unfold equals
  simp

end AbstractBufferBitmask

namespace Node

/-- Every node is equal to itself for `equals`. -/
theorem equals_self : ∀ n : Node, n.equals n = true
  | .branch _ t f => by
    rw [Node.equals, equals_self t, equals_self f]
    rfl
  | .leaf output targetState => by
    rw [Node.equals, if_neg (by simp)]
    exact AbstractBufferBitmask.mask_equals_self _

/-- The leaves of a clone hold valid masks. -/
theorem outputsValid_clone : ∀ n : Node, n.clone.OutputsValid
  | .branch _ t f => by
    intro l hl
    rw [Node.clone, Node.leaves, List.mem_append] at hl
    cases hl with
    | inl h => exact outputsValid_clone t l h
    | inr h => exact outputsValid_clone f l h
  | .leaf output targetState => by
    intro l hl
    rw [Node.clone, Node.leaves, List.mem_singleton] at hl
    rw [hl]
    exact DynamicBitmask.valid_ofBitmask _

/-- The leaves under a branch hold valid masks when those under both links
do. -/
theorem outputsValid_branch (bexpr : LogicExpression) (t f : Node) :
    (Node.branch bexpr t f).OutputsValid ↔ t.OutputsValid ∧ f.OutputsValid := by
  unfold Node.OutputsValid
  rw [Node.leaves]
  simp only [List.mem_append]
  constructor
  · intro h
    exact ⟨fun l hl => h l (Or.inl hl), fun l hl => h l (Or.inr hl)⟩
  · rintro ⟨h1, h2⟩ l (hl | hl)
    · exact h1 l hl
    · exact h2 l hl

/-- The leaves under a leaf: its own output. -/
theorem outputsValid_leaf (output : DynamicBitmask) (targetState : Nat) :
    (Node.leaf output targetState).OutputsValid ↔ output.Valid := by
  unfold Node.OutputsValid
  rw [Node.leaves]
  simp

/-- A node with valid leaves and its clone are equal for `equals`, in both
directions. -/
theorem equals_clone : ∀ n : Node, n.OutputsValid →
    n.equals n.clone = true ∧ n.clone.equals n = true
  | .branch bexpr t f => by
    intro h
    rw [outputsValid_branch] at h
    have ht := equals_clone t h.1
    have hf := equals_clone f h.2
    rw [Node.clone, Node.equals, Node.equals, ht.1, ht.2, hf.1, hf.2]
    exact ⟨rfl, rfl⟩
  | .leaf output targetState => by
    intro h
    rw [outputsValid_leaf] at h
    rw [Node.clone, Node.equals, Node.equals, if_neg (by simp), if_neg (by simp)]
    have hc := DynamicBitmask.valid_ofBitmask output.toAbstractBufferBitmask
    exact ⟨AbstractBufferBitmask.Valid.equals_of_get h.1 hc.1
        (fun i => (DynamicBitmask.get_ofBitmask h.1 i).symm),
      AbstractBufferBitmask.Valid.equals_of_get hc.1 h.1
        (fun i => DynamicBitmask.get_ofBitmask h.1 i)⟩

/-- The tree and the leaves of a node after `assign`: the branches are
kept, and every leaf has the bit written to its output. -/
theorem assign_leaves (bit : Nat) (value : Bool) : ∀ n : Node,
    (n.assign bit value).skeleton = n.skeleton ∧
    (n.assign bit value).leaves = n.leaves.map (fun l => (l.1.write bit value, l.2))
  | .branch bexpr t f => by
    have ht := assign_leaves bit value t
    have hf := assign_leaves bit value f
    rw [Node.assign, Node.skeleton, Node.skeleton, Node.leaves, Node.leaves, ht.1, ht.2,
      hf.1, hf.2, List.map_append]
    exact ⟨rfl, rfl⟩
  | .leaf output targetState => by
    rw [Node.assign, Node.skeleton, Node.skeleton, Node.leaves, Node.leaves]
    exact ⟨rfl, rfl⟩

/-- The leaves of a node after `assign` hold valid masks. -/
theorem outputsValid_assign (bit : Nat) (value : Bool) (n : Node) (h : n.OutputsValid) :
    (n.assign bit value).OutputsValid := by
  intro l hl
  rw [(assign_leaves bit value n).2, List.mem_map] at hl
  obtain ⟨l0, hl0, rfl⟩ := hl
  exact DynamicBitmask.valid_write (h l0 hl0) bit value

/-- The leaves of a node after `setTargetState` hold valid masks. -/
theorem outputsValid_setTargetState (state : Nat) : ∀ n : Node, n.OutputsValid →
    (n.setTargetState state).OutputsValid
  | .branch bexpr t f => by
    intro h
    rw [outputsValid_branch] at h
    rw [Node.setTargetState, outputsValid_branch]
    exact ⟨outputsValid_setTargetState state t h.1, outputsValid_setTargetState state f h.2⟩
  | .leaf output targetState => by
    intro h
    rw [outputsValid_leaf] at h
    rw [Node.setTargetState, outputsValid_leaf]
    exact h

end Node

end Prism

namespace Prism

namespace ParseContextTree

/-! ## The leaves of the builder hold valid masks -/

/-- The builder starts with a valid, empty output in its only leaf. -/
theorem create_outputsValid : ParseContextTree.create.OutputsValid := by
  refine ⟨?_, ?_⟩
  · rw [ParseContextTree.create, Node.outputsValid_leaf]
    exact DynamicBitmask.valid_empty
  · intro p hp
    simp [ParseContextTree.create] at hp

/-- The leaves stay valid under `switchSplit`. -/
theorem switchSplit_outputsValid (ctx : ParseContextTree) (istrue : Bool)
    (h : ctx.OutputsValid) : (ctx.switchSplit istrue).ctx.OutputsValid := by
  unfold switchSplit
  cases hp : ctx.parent with
  | nil => exact h
  | cons p rest =>
    have hother : p.other.OutputsValid := h.2 p (by rw [hp]; exact List.mem_cons_self _ _)
    have hrest : ∀ q ∈ rest, q.other.OutputsValid :=
      fun q hq => h.2 q (by rw [hp]; exact List.mem_cons_of_mem _ hq)
    simp only [Scope.links]
    refine ⟨?_, ?_⟩
    · simp only
      cases istrue <;> cases p.onTrue <;> simp <;> first | exact h.1 | exact hother
    · intro q hq
      simp only [List.mem_cons] at hq
      cases hq with
      | inl hq =>
        rw [hq]
        simp only
        cases istrue <;> cases p.onTrue <;> simp <;> first | exact h.1 | exact hother
      | inr hq => exact hrest q hq

/-- The leaves stay valid under `split`. -/
theorem split_outputsValid (ctx : ParseContextTree) (c : LogicExpression)
    (h : ctx.OutputsValid) : (ctx.split c).OutputsValid := by
  rw [split_eq]
  refine ⟨h.1, ?_⟩
  intro q hq
  simp only [List.mem_cons] at hq
  cases hq with
  | inl hq => rw [hq]; exact Node.outputsValid_clone _
  | inr hq => exact h.2 q hq

/-- The leaves stay valid under `join`. -/
theorem join_outputsValid (ctx : ParseContextTree) (h : ctx.OutputsValid) :
    ctx.join.ctx.OutputsValid := by
  unfold join
  cases hp : ctx.parent with
  | nil => exact h
  | cons p rest =>
    have hother : p.other.OutputsValid := h.2 p (by rw [hp]; exact List.mem_cons_self _ _)
    have hrest : ∀ q ∈ rest, q.other.OutputsValid :=
      fun q hq => h.2 q (by rw [hp]; exact List.mem_cons_of_mem _ hq)
    simp only
    split
    · exact ⟨h.1, hrest⟩
    · refine ⟨?_, hrest⟩
      simp only [Scope.links]
      rw [Node.outputsValid_branch]
      cases p.onTrue <;> simp <;> first | exact ⟨h.1, hother⟩ | exact ⟨hother, h.1⟩

/-- The leaves stay valid under `assign`. -/
theorem assign_outputsValid (ctx : ParseContextTree) (bit : Nat) (value : Bool)
    (h : ctx.OutputsValid) : (ctx.assign bit value).OutputsValid := by
  unfold assign
  split
  · split <;> exact h
  · split
    · exact h
    · exact ⟨Node.outputsValid_assign bit value _ h.1, h.2⟩

/-- The leaves stay valid under every call of the builder. -/
theorem call_outputsValid (ctx : ParseContextTree) (c : BuilderCall) (h : ctx.OutputsValid) :
    (ctx.call c).ctx.OutputsValid := by
  cases c with
  | split bexpr => exact split_outputsValid ctx bexpr h
  | switchSplit istrue => exact switchSplit_outputsValid ctx istrue h
  | join => exact join_outputsValid ctx h
  | assign bit value => exact assign_outputsValid ctx bit value h
  | setTargetState state =>
    exact ⟨Node.outputsValid_setTargetState state _ h.1, h.2⟩
  | splitStateCase state pos =>
    simp only [call, splitStateCase]
    split
    · exact h
    · exact split_outputsValid _ _ h
  | defaultStateCase pos => exact h
  | enterStateSwitch => exact h
  | exitStateSwitch => exact h

/-- The leaves of the builder hold valid masks after every history of
calls. -/
theorem run_outputsValid : ∀ (calls : List BuilderCall) (ctx : ParseContextTree),
    ctx.OutputsValid → (ctx.run calls).ctx.OutputsValid
  | [], ctx, h => h
  | c :: rest, ctx, h => by
    rw [run]
    split
    · exact call_outputsValid ctx c h
    · exact run_outputsValid rest _ (call_outputsValid ctx c h)

/-- The diagrams over two equal visible nodes, under the same open branches,
are equal for `equals`. -/
theorem root_equals : ∀ (parent : List Scope) (a b : Node), a.equals b = true →
    (parent.foldl (fun node p => Node.branch p.expr (p.links node).1 (p.links node).2) a).equals
      (parent.foldl (fun node p => Node.branch p.expr (p.links node).1 (p.links node).2) b)
        = true
  | [], a, b, h => h
  | p :: rest, a, b, h => by
    rw [List.foldl_cons, List.foldl_cons]
    apply root_equals rest
    unfold Scope.links
    cases p.onTrue
    · simp only [Bool.false_eq_true, if_false]
      rw [Node.equals, Node.equals_self, h]
      rfl
    · simp only [if_true]
      rw [Node.equals, Node.equals_self, h]
      rfl

end ParseContextTree

/-! ## `assign` on an output bit -/

/-- C33: `assign(bit, value)` with `bit < 0x10000` keeps the branches under
the visible node and writes `value` to the output bit `bit` of every leaf
under it: after the write the bit reads `value` and every other bit reads as
before, and the target state of every leaf is kept. The open branches with
the nodes at their other links (the leaves outside the visible scope), the
conditional outputs of the declared states, of the default state and of the
global state, the active state and the control register are unchanged. With
`bit >= 0x10000` the visible node and the open branches, so every leaf, are
unchanged. -/
theorem assign_writes_visible_leaves (ctx : ParseContextTree) (bit : Nat) (value : Bool)
    (hv : ctx.current.OutputsValid) :
    (bit < 0x10000 →
      (ctx.assign bit value).current.skeleton = ctx.current.skeleton ∧
      (ctx.assign bit value).current.leaves
        = ctx.current.leaves.map (fun l => (l.1.write bit value, l.2)) ∧
      (∀ l ∈ ctx.current.leaves, (l.1.write bit value).get bit = value ∧
        ∀ i, i ≠ bit → (l.1.write bit value).get i = l.1.get i) ∧
      (ctx.assign bit value).parent = ctx.parent ∧
      (ctx.assign bit value).states = ctx.states ∧
      (ctx.assign bit value).defaultState = ctx.defaultState ∧
      (ctx.assign bit value).globalState = ctx.globalState ∧
      (ctx.assign bit value).activeState = ctx.activeState ∧
      (ctx.assign bit value).m_ctrlReg = ctx.m_ctrlReg) ∧
    (0x10000 ≤ bit →
      (ctx.assign bit value).current = ctx.current ∧
      (ctx.assign bit value).parent = ctx.parent) := by
  refine ⟨?_, ?_⟩
  · intro hb
    have h1 : ¬ (bit ≥ 0x10000 ∧ bit < 0x20000) := by omega
    have h2 : ¬ bit ≥ 0x20000 := by omega
    have hassign : ctx.assign bit value = { ctx with current := ctx.current.assign bit value } := by
      unfold ParseContextTree.assign
      rw [if_neg h1, if_neg h2]
    rw [hassign]
    refine ⟨(Node.assign_leaves bit value ctx.current).1,
      (Node.assign_leaves bit value ctx.current).2, ?_, rfl, rfl, rfl, rfl, rfl, rfl⟩
    intro l hl
    refine ⟨?_, ?_⟩
    · rw [DynamicBitmask.get_write (hv l hl), if_pos rfl]
    · intro i hi
      rw [DynamicBitmask.get_write (hv l hl), if_neg hi]
  · intro hb
    unfold ParseContextTree.assign
    by_cases h1 : bit ≥ 0x10000 ∧ bit < 0x20000
    · rw [if_pos h1]
      split <;> exact ⟨rfl, rfl⟩
    · rw [if_neg h1, if_pos (by omega)]
      exact ⟨rfl, rfl⟩

/-- C33 on the example: `assign(1, true)` inside the else branch of
`if (I0)`. -/
theorem assign_writes_visible_leaves_witness :
    ((1 : Nat) < 0x10000 →
      (Example.elseBranch.assign 1 true).current.skeleton = Example.elseBranch.current.skeleton ∧
      (Example.elseBranch.assign 1 true).current.leaves
        = Example.elseBranch.current.leaves.map (fun l => (l.1.write 1 true, l.2)) ∧
      (∀ l ∈ Example.elseBranch.current.leaves, (l.1.write 1 true).get 1 = true ∧
        ∀ i, i ≠ 1 → (l.1.write 1 true).get i = l.1.get i) ∧
      (Example.elseBranch.assign 1 true).parent = Example.elseBranch.parent ∧
      (Example.elseBranch.assign 1 true).states = Example.elseBranch.states ∧
      (Example.elseBranch.assign 1 true).defaultState = Example.elseBranch.defaultState ∧
      (Example.elseBranch.assign 1 true).globalState = Example.elseBranch.globalState ∧
      (Example.elseBranch.assign 1 true).activeState = Example.elseBranch.activeState ∧
      (Example.elseBranch.assign 1 true).m_ctrlReg = Example.elseBranch.m_ctrlReg) ∧
    (0x10000 ≤ (1 : Nat) →
      (Example.elseBranch.assign 1 true).current = Example.elseBranch.current ∧
      (Example.elseBranch.assign 1 true).parent = Example.elseBranch.parent) :=
  assign_writes_visible_leaves Example.elseBranch 1 true
    (ParseContextTree.run_outputsValid _ _ ParseContextTree.create_outputsValid).1

/-! ## `split` followed by `join` -/

/-- C32: for every diagram whose leaves hold valid masks and every
condition `c`, `split(c)` opens a branch on `c` over the open branches of
before, keeps the visible node as the true child, and has two children that
are structurally equal (`equals`) to the node visible before; `split(c)`
followed by `join()` gives back the builder of before the split; and with a
`switchSplit(false)` in between, `join()` leaves the clone as the visible
node, structurally equal to the node visible before, under the open branches
of before, with a diagram structurally equal to the one before, and nothing
else changed. -/
theorem split_join_round_trip (ctx : ParseContextTree) (c : LogicExpression)
    (hv : ctx.current.OutputsValid) :
    (∃ p, (ctx.split c).parent = p :: ctx.parent ∧ p.expr = c ∧
      (p.links (ctx.split c).current).1 = (ctx.split c).current ∧
      (ctx.split c).current = ctx.current ∧
      ctx.current.equals (p.links (ctx.split c).current).1 = true ∧
      ctx.current.equals (p.links (ctx.split c).current).2 = true ∧
      (p.links (ctx.split c).current).1.equals ctx.current = true ∧
      (p.links (ctx.split c).current).2.equals ctx.current = true) ∧
    (ctx.split c).join = { thrown := none, ctx := ctx } ∧
    ((ctx.split c).switchSplit false).thrown = none ∧
    ((ctx.split c).switchSplit false).ctx.join.thrown = none ∧
    ((ctx.split c).switchSplit false).ctx.join.ctx = { ctx with current := ctx.current.clone } ∧
    ((ctx.split c).switchSplit false).ctx.join.ctx.parent = ctx.parent ∧
    ((ctx.split c).switchSplit false).ctx.join.ctx.current.equals ctx.current = true ∧
    ctx.current.equals ((ctx.split c).switchSplit false).ctx.join.ctx.current = true ∧
    ((ctx.split c).switchSplit false).ctx.join.ctx.root.equals ctx.root = true ∧
    ctx.root.equals ((ctx.split c).switchSplit false).ctx.join.ctx.root = true := by
  have hc := Node.equals_clone ctx.current hv
  have hjoin2 : ((ctx.split c).switchSplit false).ctx.join
      = { thrown := none, ctx := { ctx with current := ctx.current.clone } } := by
    rw [ParseContextTree.split_eq]
    simp only [ParseContextTree.switchSplit, ParseContextTree.join,
      ParseContextTree.Scope.links, if_true, Bool.not_false, Bool.false_eq_true, if_false,
      hc.1]
  refine ⟨⟨{ expr := c, onTrue := true, other := ctx.current.clone }, ?_, rfl, ?_, ?_, ?_, ?_,
    ?_, ?_⟩, ?_, ?_, ?_, ?_, ?_, ?_, ?_, ?_, ?_⟩
  · rw [ParseContextTree.split_eq]
  · rw [ParseContextTree.split_eq]; rfl
  · rw [ParseContextTree.split_eq]
  · rw [ParseContextTree.split_eq]; exact Node.equals_self _
  · rw [ParseContextTree.split_eq]; exact hc.1
  · rw [ParseContextTree.split_eq]; exact Node.equals_self _
  · rw [ParseContextTree.split_eq]; exact hc.2
  · rw [ParseContextTree.split_eq]
    simp only [ParseContextTree.join, ParseContextTree.Scope.links, if_true, hc.1]
  · rw [ParseContextTree.split_eq]
    rfl
  · rw [hjoin2]
  · rw [hjoin2]
  · rw [hjoin2]
  · rw [hjoin2]; exact hc.2
  · rw [hjoin2]; exact hc.1
  · rw [hjoin2]
    exact ParseContextTree.root_equals ctx.parent _ _ hc.2
  · rw [hjoin2]
    exact ParseContextTree.root_equals ctx.parent _ _ hc.1

end Prism

namespace Prism

/-- C32 on the example: `split(I1 == 1)` inside the else branch of
`if (I0)`. -/
theorem split_join_round_trip_witness :
    (∃ p, (Example.elseBranch.split (Example.test 1)).parent = p :: Example.elseBranch.parent ∧
      p.expr = Example.test 1 ∧
      (p.links (Example.elseBranch.split (Example.test 1)).current).1
        = (Example.elseBranch.split (Example.test 1)).current ∧
      (Example.elseBranch.split (Example.test 1)).current = Example.elseBranch.current ∧
      Example.elseBranch.current.equals
        (p.links (Example.elseBranch.split (Example.test 1)).current).1 = true ∧
      Example.elseBranch.current.equals
        (p.links (Example.elseBranch.split (Example.test 1)).current).2 = true ∧
      (p.links (Example.elseBranch.split (Example.test 1)).current).1.equals
        Example.elseBranch.current = true ∧
      (p.links (Example.elseBranch.split (Example.test 1)).current).2.equals
        Example.elseBranch.current = true) ∧
    (Example.elseBranch.split (Example.test 1)).join
      = { thrown := none, ctx := Example.elseBranch } ∧
    ((Example.elseBranch.split (Example.test 1)).switchSplit false).thrown = none ∧
    ((Example.elseBranch.split (Example.test 1)).switchSplit false).ctx.join.thrown = none ∧
    ((Example.elseBranch.split (Example.test 1)).switchSplit false).ctx.join.ctx
      = { Example.elseBranch with current := Example.elseBranch.current.clone } ∧
    ((Example.elseBranch.split (Example.test 1)).switchSplit false).ctx.join.ctx.parent
      = Example.elseBranch.parent ∧
    ((Example.elseBranch.split (Example.test 1)).switchSplit false).ctx.join.ctx.current.equals
      Example.elseBranch.current = true ∧
    Example.elseBranch.current.equals
      ((Example.elseBranch.split (Example.test 1)).switchSplit false).ctx.join.ctx.current
        = true ∧
    ((Example.elseBranch.split (Example.test 1)).switchSplit false).ctx.join.ctx.root.equals
      Example.elseBranch.root = true ∧
    Example.elseBranch.root.equals
      ((Example.elseBranch.split (Example.test 1)).switchSplit false).ctx.join.ctx.root
        = true :=
  split_join_round_trip Example.elseBranch (Example.test 1)
    (ParseContextTree.run_outputsValid _ _ ParseContextTree.create_outputsValid).1

/-! ## `join` on branches with different conditions -/

/-- C37, on the code: `join()` can change the function of the diagram. After
the calls for `if (I0) begin if (I1) out[0] = 1; end else begin if (I2)
out[0] = 1; end` the diagram is a branch on `I0` over a branch on `I1` and a
branch on `I2`, each with the leaves `out[0] = 1` and `out[0] = 0`. The two
children have the same leaves, `Branch::equals` does not compare the
conditions, and the last `join()` replaces the branch on `I0` by the visible
child, the branch on `I2`. On the input with `I0 = I1 = 1` and `I2 = 0` the
diagram reaches a leaf with `out[0] = 1` before the `join()` and a leaf with
`out[0] = 0` after it. -/
theorem join_collapses_distinct_conditions :
    (ParseContextTree.create.run Example.nestedCalls).thrown = none ∧
    Example.nested.root.skeleton
      = .branch (Example.test 0)
          (.branch (Example.test 1) (.leaf DynamicBitmask.empty 0) (.leaf DynamicBitmask.empty 0))
          (.branch (Example.test 2) (.leaf DynamicBitmask.empty 0)
            (.leaf DynamicBitmask.empty 0)) ∧
    Example.nested.root.leaves.map (fun l => (l.1.get 0, l.2))
      = [(true, UINT_MAX), (false, UINT_MAX), (true, UINT_MAX), (false, UINT_MAX)] ∧
    Example.nested.join.thrown = none ∧
    Example.nested.join.ctx.root.skeleton
      = .branch (Example.test 2) (.leaf DynamicBitmask.empty 0) (.leaf DynamicBitmask.empty 0) ∧
    (Example.test 0).resolveLogic (Example.output [0, 1]).toAbstractBufferBitmask = true ∧
    (Example.test 1).resolveLogic (Example.output [0, 1]).toAbstractBufferBitmask = true ∧
    (Example.test 2).resolveLogic (Example.output [0, 1]).toAbstractBufferBitmask = false ∧
    (Example.nested.root.reach 0 (Example.output [0, 1]).toAbstractBufferBitmask).1.get 0
      = true ∧
    (Example.nested.join.ctx.root.reach 0
      (Example.output [0, 1]).toAbstractBufferBitmask).1.get 0 = false := by
  refine ⟨by decide, rfl, by decide, by decide, rfl, by decide, by decide, by decide, by decide,
    by decide⟩

/-! ## The transitions as a priority encoding of the diagram -/

/-- The diagram of the builder has valid leaves when the visible node and
the other links of the open branches have. -/
theorem ParseContextTree.root_outputsValid (ctx : ParseContextTree) (h : ctx.OutputsValid) :
    ctx.root.OutputsValid := by
  unfold ParseContextTree.root
  obtain ⟨h1, h2⟩ := h
  generalize ctx.current = cur at h1
  generalize ctx.parent = parent at h2
  induction parent generalizing cur with
  | nil => exact h1
  | cons p rest ih =>
    rw [List.foldl_cons]
    apply ih
    · rw [Node.outputsValid_branch]
      have hp := h2 p (List.mem_cons_self _ _)
      unfold ParseContextTree.Scope.links
      cases p.onTrue
      · exact ⟨hp, h1⟩
      · exact ⟨h1, hp⟩
    · exact fun q hq => h2 q (List.mem_cons_of_mem _ hq)

/-- The transitions collected under a guard: when the guard fails on the
input every transition fails, and when it holds the first transition that
holds carries the output and the target of the leaf that the evaluation
reaches. -/
theorem collectStateRecurse_priority (s : Nat) (x : AbstractBufferBitmask) :
    ∀ (n : Node), n.OutputsValid → ∀ (p : Option LogicExpression),
      ((p.getD .logicTrue).resolveLogic x = false →
        ∀ t ∈ collectStateRecurse [] n p s, t.expr.resolveLogic x = false) ∧
      ((p.getD .logicTrue).resolveLogic x = true →
        ∃ (i : Nat) (t : StateTransition), (collectStateRecurse [] n p s)[i]? = some t ∧
          t.expr.resolveLogic x = true ∧
          (∀ (j : Nat) (t2 : StateTransition), j < i → (collectStateRecurse [] n p s)[j]? = some t2 →
            t2.expr.resolveLogic x = false) ∧
          t.state = Node.target (n.reach s x).2 s ∧
          ∀ b, t.output.get b = (n.reach s x).1.get b) := by
  intro n
  induction n with
  | leaf output targetState =>
    intro hv p
    rw [Node.outputsValid_leaf] at hv
    simp only [collectStateRecurse, List.nil_append]
    refine ⟨?_, ?_⟩
    · intro hp t ht
      rw [List.mem_singleton] at ht
      rw [ht]
      exact hp
    · intro hp
      refine ⟨0, _, rfl, hp, ?_, rfl, ?_⟩
      · intro j t2 hj
        omega
      · intro b
        exact DynamicBitmask.get_ofBitmask hv.1 b
  | branch c t f iht ihf =>
    intro hv p
    rw [Node.outputsValid_branch] at hv
    rw [collectStateRecurse, Node.reach]
    cases hs : c.asState with
    | some k =>
      simp only
      by_cases hk : k ≠ s
      · rw [if_pos hk, if_pos hk]
        exact ihf hv.2 p
      · rw [if_neg hk, if_neg hk]
        exact iht hv.1 p
    | none =>
      simp only
      rw [collectStateRecurse_append f]
      have hg : (branchGuard p c).resolveLogic x
          = ((p.getD .logicTrue).resolveLogic x && c.resolveLogic x) :=
        branchGuard_resolveLogic p c x
      have iht2 := iht hv.1 (some (branchGuard p c))
      have ihf2 := ihf hv.2 p
      simp only [Option.getD_some] at iht2
      refine ⟨?_, ?_⟩
      · intro hp t0 ht0
        rw [List.mem_append] at ht0
        cases ht0 with
        | inl h => exact iht2.1 (by rw [hg, hp]; rfl) t0 h
        | inr h => exact ihf2.1 hp t0 h
      · intro hp
        by_cases hc : c.resolveLogic x = true
        · rw [if_pos hc]
          obtain ⟨i, t0, h1, h2, h3, h4, h5⟩ := iht2.2 (by rw [hg, hp, hc]; rfl)
          have hi : i < (collectStateRecurse [] t (some (branchGuard p c)) s).length := by
            by_contra hcon
            rw [List.getElem?_eq_none (Nat.le_of_not_lt hcon)] at h1
            exact Option.noConfusion h1
          refine ⟨i, t0, ?_, h2, ?_, h4, h5⟩
          · rw [List.getElem?_append_left hi]
            exact h1
          · intro j t2 hj hj2
            rw [List.getElem?_append_left (Nat.lt_trans hj hi)] at hj2
            exact h3 j t2 hj hj2
        · rw [if_neg hc]
          have hcf : c.resolveLogic x = false := by
            cases h : c.resolveLogic x
            · rfl
            · exact absurd h hc
          obtain ⟨i, t0, h1, h2, h3, h4, h5⟩ := ihf2.2 hp
          have hall := iht2.1 (by rw [hg, hp, hcf]; rfl)
          refine ⟨(collectStateRecurse [] t (some (branchGuard p c)) s).length + i, t0, ?_, h2, ?_,
            h4, h5⟩
          · rw [List.getElem?_append_right (Nat.le_add_right _ _), Nat.add_sub_cancel_left]
            exact h1
          · intro j t2 hj hj2
            by_cases hjl : j < (collectStateRecurse [] t (some (branchGuard p c)) s).length
            · rw [List.getElem?_append_left hjl] at hj2
              exact hall t2 (List.getElem?_mem hj2)
            · rw [List.getElem?_append_right (Nat.le_of_not_lt hjl)] at hj2
              exact h3 _ t2 (by omega) hj2

/-- C38: the transition list is a faithful priority encoding of the diagram.
For every diagram whose leaves hold valid masks, every target state `s` and
every input vector `x`, the list collected for `s` from the root (with the
null guard) has a first transition whose guard evaluates to true on `x`, and
this transition has the bits of the output vector of the leaf reached by
evaluating the diagram on `x` with each state-equality test resolved against
`s`, and its target state: the override of the leaf, and `s` itself for a
leaf without one. -/
theorem transitions_priority_encoding (n : Node) (hv : n.OutputsValid) (s : Nat)
    (x : AbstractBufferBitmask) :
    ∃ (i : Nat) (t : StateTransition), (collectStateRecurse [] n none s)[i]? = some t ∧
      t.expr.resolveLogic x = true ∧
      (∀ (j : Nat) (t2 : StateTransition), j < i → (collectStateRecurse [] n none s)[j]? = some t2 →
        t2.expr.resolveLogic x = false) ∧
      t.state = Node.target (n.reach s x).2 s ∧
      ∀ b, t.output.get b = (n.reach s x).1.get b :=
  (collectStateRecurse_priority s x n hv none).2 rfl

/-- C38 on the example: the diagram of the nested conditions, for the state
0 and the input with `I0 = I1 = 1`. -/
theorem transitions_priority_encoding_witness :
    ∃ (i : Nat) (t : StateTransition), (collectStateRecurse [] Example.nested.root none 0)[i]? = some t ∧
      t.expr.resolveLogic (Example.output [0, 1]).toAbstractBufferBitmask = true ∧
      (∀ (j : Nat) (t2 : StateTransition), j < i → (collectStateRecurse [] Example.nested.root none 0)[j]? = some t2 →
        t2.expr.resolveLogic (Example.output [0, 1]).toAbstractBufferBitmask = false) ∧
      t.state = Node.target
        (Example.nested.root.reach 0 (Example.output [0, 1]).toAbstractBufferBitmask).2 0 ∧
      ∀ b, t.output.get b
        = (Example.nested.root.reach 0 (Example.output [0, 1]).toAbstractBufferBitmask).1.get b :=
  transitions_priority_encoding Example.nested.root
    (ParseContextTree.root_outputsValid _
      (ParseContextTree.run_outputsValid _ _ ParseContextTree.create_outputsValid)) 0
    (Example.output [0, 1]).toAbstractBufferBitmask

end Prism
